import Mathlib

/-!
# Distributed file system: name server and storage server

A shallow embedding of the storage server's sentence engine, write session
and undo (`src/storage_server.c`) and of the name server's metadata store,
access lists and locator (`src/name_server.c`), with the properties of the
specification proved or refuted against it.

Conventions of the embedding.

* A NUL-terminated `char` string is a `CStr`, the list of its characters
  before the terminator.
* `int` values are `Int`; array positions and counts that the code keeps
  non-negative are `Nat`.
* The explicit guards of the code (`*count < 1000`,
  `sentence_len < MAX_SENTENCE_LENGTH`, `word_count < 1000`, ...) are part of
  the definitions, and so are the 65535 bytes `read_file_content` reads and
  the rows of `MAX_WORD_LENGTH` bytes that hold the words of the edit loop
  (`row_strings`).  The capacity of the other destinations of a `strcpy` or
  `strcat` (a row of `sentences`, the 1000 rows of `sentences`, the 100 rows
  of `temp_sentences`) is not: an execution that overruns them has no
  meaning in C.  `update_in_bounds` says that an iteration of the edit loop
  stays inside them, and the statements about the text an iteration leaves
  are made under it.
* Socket and file-system calls succeed unless the code inspects the result
  and the model says otherwise (`fopen` for reading fails on a file that does
  not exist).
-/

namespace DFS

/-- A C string: the characters before the terminating NUL. -/
abbrev CStr := List Char

/-! ## Constants of `common.h` -/

def MAX_BUFFER_SIZE : Nat := 65536
def MAX_STORAGE_SERVERS : Nat := 50
def MAX_FILES : Nat := 10000
def MAX_SENTENCE_LENGTH : Nat := 4096
def MAX_WORD_LENGTH : Nat := 256
def LRU_CACHE_SIZE : Nat := 100

def ERR_SUCCESS : Nat := 0
def ERR_FILE_NOT_FOUND : Nat := 1
def ERR_UNAUTHORIZED : Nat := 2
def ERR_FILE_EXISTS : Nat := 3
def ERR_INVALID_INDEX : Nat := 4
def ERR_SENTENCE_LOCKED : Nat := 5
def ERR_NO_STORAGE_SERVER : Nat := 6
def ERR_CONNECTION_FAILED : Nat := 7
def ERR_INVALID_COMMAND : Nat := 8
def ERR_SERVER_ERROR : Nat := 9
def ERR_NO_UNDO_AVAILABLE : Nat := 10

def MSG_READ_FILE : Nat := 103
def MSG_WRITE_FILE : Nat := 105
def MSG_DELETE_FILE : Nat := 106
def MSG_STREAM_FILE : Nat := 108
def MSG_ADD_ACCESS : Nat := 110
def MSG_REM_ACCESS : Nat := 111
def MSG_UNDO_FILE : Nat := 113
def MSG_RESPONSE : Nat := 200
def MSG_ACK : Nat := 250
def MSG_ERROR : Nat := 255

def ACCESS_NONE : Nat := 0
def ACCESS_READ : Nat := 1
def ACCESS_WRITE : Nat := 2

/-! ## Sentence engine (`storage_server.c`, lines 65-116) -/

/-- The test `content[i] == '.' || content[i] == '!' || content[i] == '?'`
of line 72. -/
def is_delimiter (c : Char) : Bool :=
  c == '.' || c == '!' || c == '?'

/-- Lines 82-84, `while (start < len && content[start] == ' ') start++;`.
The first argument is the text from position `start` to the end of the
content, so it is empty exactly when `start = len`. -/
def skip_spaces : CStr → Nat → Nat
  | [], start => start
  | c :: rest, start => if c = ' ' then skip_spaces rest (start + 1) else start

/-- Lines 74-78 and 91-95: the guarded `strncpy` of `sentence_len` characters
from `content + start` into the next free row, followed by `(*count)++`. -/
def store_sentence (content : CStr) (start : Nat) (sentence_len : Int)
    (sentences : List CStr) : List CStr :=
  if 0 < sentence_len ∧ sentence_len < (MAX_SENTENCE_LENGTH : Int) then
    sentences ++ [(content.drop start).take sentence_len.toNat]
  else sentences

/-- The `for` loop of lines 71-86.  The second argument is the content from
position `i` on (its head is `content[i]`); `*count` is the length of
`sentences`.  The loop ends at the end of the content or when `*count`
reaches 1000, and hands back `start` and the rows filled so far. -/
def parse_loop (content : CStr) : CStr → Nat → Nat → List CStr → Nat × List CStr
  | [], _, start, sentences => (start, sentences)
  | c :: rest, i, start, sentences =>
    if sentences.length < 1000 then
      if is_delimiter c then
        parse_loop content rest (i + 1) (skip_spaces rest (i + 1))
          (store_sentence content start ((i : Int) - (start : Int) + 1) sentences)
      else parse_loop content rest (i + 1) start sentences
    else (start, sentences)

/-- The function `parse_sentences` (lines 66-99): the loop, then the trailing
fragment of lines 89-96. -/
def parse_sentences (content : CStr) : List CStr :=
  let len := content.length
  let r := parse_loop content content 0 0 []
  if r.1 < len then store_sentence content r.1 ((len : Int) - (r.1 : Int)) r.2 else r.2

/-- The loop of `reconstruct_file` (lines 104-113).  `output` is the text
written so far, so `offset` is its length; the first argument holds the rows
`i, i+1, ...` still to be copied, and `i < count - 1` says that more than one
row is left. -/
def reconstruct_loop : List CStr → CStr → CStr
  | [], output => output
  | s :: rest, output =>
    let output1 := output ++ s
    if !rest.isEmpty && decide (0 < output1.length) && (output1.getLast? != some ' ') then
      reconstruct_loop rest (output1 ++ [' '])
    else reconstruct_loop rest output1

/-- The function `reconstruct_file` (lines 102-116). -/
def reconstruct_file (sentences : List CStr) : CStr :=
  reconstruct_loop sentences []

/-- The sentence `emit` adds: a piece is kept when it is shorter than
`MAX_SENTENCE_LENGTH`. -/
def emit (sentences : List CStr) (s : CStr) : List CStr :=
  if s.length < MAX_SENTENCE_LENGTH then sentences ++ [s] else sentences

/-- The text left of a run of spaces. -/
def drop_spaces (s : CStr) : CStr := s.dropWhile (fun c => c == ' ')

/-- A one-pass reading of `parse_sentences`. -/
def scan : List CStr → CStr → Bool → CStr → List CStr
  | sentences, cur, _, [] => if cur = [] then sentences else emit sentences cur
  | sentences, cur, skip, c :: rest =>
    if sentences.length < 1000 then
      if skip && c == ' ' then scan sentences cur true rest
      else if is_delimiter c then scan (emit sentences (cur ++ [c])) [] true rest
      else scan sentences (cur ++ [c]) false rest
    else
      let frag := cur ++ (if skip then drop_spaces (c :: rest) else c :: rest)
      if frag = [] then sentences else emit sentences frag

/-- Lines 88-96 of `parse_sentences`, applied to the pair the loop hands back. -/
def parse_finish (content : CStr) (r : Nat × List CStr) : List CStr :=
  if r.1 < content.length then
    store_sentence content r.1 ((content.length : Int) - (r.1 : Int)) r.2
  else r.2

/-- A text without any of the delimiters `.`, `!`, `?`. -/
def NoDelim (s : CStr) : Prop := ∀ c ∈ s, is_delimiter c = false

/-- A text that does not begin with a space. -/
def NoLeadSp (s : CStr) : Prop := s.head? ≠ some ' '

/-- A delimiter-terminated sentence as `parse_sentences` stores it: a
delimiter-free body, one delimiter, fewer than `MAX_SENTENCE_LENGTH`
characters. -/
def IsSent (s : CStr) : Prop :=
  ∃ body d, s = body ++ [d] ∧ is_delimiter d = true ∧ NoDelim body ∧
    s.length < MAX_SENTENCE_LENGTH

/-- The shape of the rows `parse_sentences` adds when `n` rows are filled
already: delimiter-terminated sentences while fewer than 1000 rows are
filled, then at most one trailing fragment.  `lead` tells whether the first
row may begin with a space. -/
inductive Canon : Nat → Bool → List CStr → Prop
  | nil (n : Nat) (lead : Bool) : Canon n lead []
  | frag (n : Nat) (lead : Bool) (f : CStr) :
      f ≠ [] → f.length < MAX_SENTENCE_LENGTH → (lead = false → NoLeadSp f) →
      (n < 1000 → NoDelim f) → Canon n lead [f]
  | cons (n : Nat) (lead : Bool) (s : CStr) (l : List CStr) :
      IsSent s → n < 1000 → (lead = false → NoLeadSp s) →
      Canon (n + 1) false l → Canon n lead (s :: l)

/-- Whether the piece in progress may begin with a space: it does when the
pending text `cur` begins with one, and it may when nothing is pending and
the loop is not inside the run of spaces after a delimiter. -/
def may_lead (cur : CStr) (skip : Bool) : Bool :=
  (cur.head? == some ' ') || (cur.isEmpty && !skip)

/-- The loop state of `parse_sentences` seen by `scan`. -/
def ParseInv (content rest : CStr) (i start : Nat) (cur : CStr) (skip : Bool) : Prop :=
  content.drop i = rest ∧
  content.drop start = cur ++ (if skip then drop_spaces rest else rest) ∧
  (if skip then cur = [] ∧ start = i + (rest.takeWhile (fun c => c == ' ')).length
   else start + cur.length = i)

/-! ## Sentence engine: the sentences of a text without the ceilings -/

/-- The sentences of a text as section 4.4 of the specification words them,
with no ceiling on their number or length: each delimiter ends the sentence
in progress, delimiter included; the run of spaces right after a delimiter is
passed over; what is left at the end of the text is the last sentence.  `cur`
is the sentence in progress and `skip` tells that the text at hand follows a
delimiter and the spaces after it. -/
def pieces : CStr → Bool → CStr → List CStr
  | cur, _, [] => if cur = [] then [] else [cur]
  | cur, skip, c :: rest =>
    if skip && c == ' ' then pieces cur true rest
    else if is_delimiter c then (cur ++ [c]) :: pieces [] true rest
    else pieces (cur ++ [c]) false rest

/-- The sentences of a content, without the ceilings. -/
def sentences_of (content : CStr) : List CStr := pieces [] false content

/-- A content within the ceilings of `parse_sentences`: at most 1000
sentences, each shorter than `MAX_SENTENCE_LENGTH`. -/
def WithinCeilings (content : CStr) : Prop :=
  (sentences_of content).length ≤ 1000 ∧
  ∀ s ∈ sentences_of content, s.length < MAX_SENTENCE_LENGTH

/-- A text with every space deleted. -/
def no_spaces (s : CStr) : CStr := s.filter (fun c => c != ' ')

/-- The sentences written one after the other, with one space after each
sentence that is not the last, is not empty and does not end in a space. -/
def join_sentences : List CStr → CStr
  | [] => []
  | [s] => s
  | s :: t :: l =>
    s ++ (if s ≠ [] ∧ s.getLast? ≠ some ' ' then [' '] else []) ++ join_sentences (t :: l)

/-- The characters the specification calls whitespace: space, tab, newline. -/
def is_whitespace (c : Char) : Bool := c == ' ' || c == '\t' || c == '\n'

/-- The sentences written one after the other, with one space between two
adjacent sentences when the left one does not end in a whitespace
character. -/
def join_sentences_ws : List CStr → CStr
  | [] => []
  | [s] => s
  | s :: t :: l =>
    s ++ (if (s.getLast?.map is_whitespace) = some true then [] else [' '])
      ++ join_sentences_ws (t :: l)

/-- The sentences `parse_sentences` keeps: those shorter than
`MAX_SENTENCE_LENGTH` (the guard of lines 74 and 91). -/
def kept_sentences (content : CStr) : List CStr :=
  (sentences_of content).filter (fun s => decide (s.length < MAX_SENTENCE_LENGTH))

/-- A sentence of 4095 letters and a full stop, 4096 characters in all, and
after it the sentence `Hi.`. -/
def long_then_hi : CStr := List.replicate 4095 'a' ++ ".Hi.".toList

/-- The text `s` written `n` times. -/
def repeat_text (s : CStr) : Nat → CStr
  | 0 => []
  | n + 1 => s ++ repeat_text s n

/-- The sentence `a.` a thousand times, then `b.` and two spaces. -/
def full_then_spaces : CStr := repeat_text "a.".toList 1000 ++ "b.  ".toList

/-- The sentence `a.` and a space a thousand times, then a sentence of 4096
characters, then the sentence `Hi.`. -/
def full_then_long : CStr := repeat_text "a. ".toList 1000 ++ long_then_hi

/-! ## Records of `common.h` -/

/-- The record `Message`.  A record built after
`memset(&m, 0, sizeof(m))` holds the default in every field the code does not
set. -/
structure Message where
  type : Nat := 0
  error_code : Nat := 0
  username : CStr := []
  filename : CStr := []
  data : CStr := []
  data_len : Int := 0
  flags : Int := 0
  word_index : Int := 0
  target_user : CStr := []
  ss_ip : CStr := []
  ss_port : Int := 0
  deriving DecidableEq

/-! ## Storage server: files, undo shadow, sentence locks -/

/-- An entry of `sentence_locks`; `lock` is the state of the mutex (`true`
when it is held). -/
structure SentenceLock where
  filename : CStr
  sentence_index : Int
  lock : Bool
  locked_by : CStr
  deriving DecidableEq

/-- The state of the storage server: the regular files under `./storage`
and under `./undo`, each a map from the file name to its bytes, and the lock
table (`num_locks` is the length of `sentence_locks`). -/
structure SSState where
  storage : CStr → Option CStr
  undo : CStr → Option CStr
  sentence_locks : List SentenceLock

/-- The effect of `fopen(path, "w")`, writing `bytes` and `fclose`. -/
def fs_write (fs : CStr → Option CStr) (name bytes : CStr) : CStr → Option CStr :=
  fun g => if g = name then some bytes else fs g

/-- The function `read_file_content` (lines 128-142): `none` when the file
cannot be opened, else at most `buffer_size - 1` bytes of it. -/
def read_file_content (st : SSState) (filename : CStr) : Option CStr :=
  (st.storage filename).map (fun bytes => bytes.take (MAX_BUFFER_SIZE - 1))

/-- The function `write_file_content` (lines 162-175). -/
def write_file_content (st : SSState) (filename content : CStr) : SSState :=
  { st with storage := fs_write st.storage filename content }

/-- The function `save_for_undo` (lines 262-307): nothing happens when the
live file cannot be opened, else all its bytes are copied to the shadow. -/
def save_for_undo (st : SSState) (filename : CStr) : SSState :=
  match st.storage filename with
  | none => st
  | some bytes => { st with undo := fs_write st.undo filename bytes }

/-- The function `get_sentence_lock` (lines 310-335): the position of the
entry for `(filename, sentence_index)`, created at the end of the table when
there is none and the table is not full; `none` is the `NULL` result. -/
def get_sentence_lock (st : SSState) (filename : CStr) (sentence_index : Int) :
    SSState × Option Nat :=
  match st.sentence_locks.findIdx?
      (fun l => l.filename == filename && l.sentence_index == sentence_index) with
  | some i => (st, some i)
  | none =>
    if st.sentence_locks.length < MAX_FILES then
      ({ st with sentence_locks := st.sentence_locks ++
          [{ filename := filename, sentence_index := sentence_index, lock := false,
             locked_by := [] }] },
        some st.sentence_locks.length)
    else (st, none)

/-- The statements `pthread_mutex_unlock(&lock->lock); lock->locked_by[0] = '\0';`
on the entry at position `i`. -/
def release_lock (st : SSState) (i : Nat) : SSState :=
  { st with sentence_locks :=
      match st.sentence_locks.get? i with
      | none => st.sentence_locks
      | some l => st.sentence_locks.set i { l with lock := false, locked_by := [] } }

/-- The statements after a successful `pthread_mutex_trylock`: the mutex is
held and `strcpy(lock->locked_by, msg->username)`. -/
def acquire_lock (st : SSState) (i : Nat) (username : CStr) : SSState :=
  { st with sentence_locks :=
      match st.sentence_locks.get? i with
      | none => st.sentence_locks
      | some l => st.sentence_locks.set i { l with lock := true, locked_by := username } }

/-! ## Storage server: tokens (`strtok_r`) -/

/-- One call of the C library's `strtok_r`: the leading delimiters are
passed over; `none` when nothing is left, else the token (the run up to the
next delimiter) and the text after that delimiter, which the call has
overwritten with NUL. -/
def strtok_r (is_delim : Char → Bool) (s : CStr) : Option (CStr × CStr) :=
  let s1 := s.dropWhile is_delim
  if s1.isEmpty then none
  else some (s1.takeWhile (fun c => !is_delim c), (s1.dropWhile (fun c => !is_delim c)).drop 1)

/-- The buffer handed to the first call of `strtok_r`, read as a C string
after the call: the call writes NUL over the delimiter that ends the first
token, so the string now stops there. -/
def strtok_clobbered (is_delim : Char → Bool) (s : CStr) : CStr :=
  s.takeWhile is_delim ++ (s.dropWhile is_delim).takeWhile (fun c => !is_delim c)

/-- The loops of lines 452-456 and 478-482,
`while (token && count < 1000) { store token; token = strtok_r(NULL, ...); }`.
The second argument bounds the number of calls (each call consumes at least
one character), the third is the text `saveptr` points at. -/
def strtok_loop (is_delim : Char → Bool) : Nat → CStr → List CStr → List CStr
  | 0, _, words => words
  | fuel + 1, s, words =>
    match strtok_r is_delim s with
    | none => words
    | some (token, rest) =>
      if words.length < 1000 then strtok_loop is_delim fuel rest (words ++ [token])
      else words

/-- The loop of `handle_stream` (lines 591-605),
`while (token) { send token; token = strtok_r(NULL, ...); }`: every token of
the text, without a ceiling. -/
def strtok_all (is_delim : Char → Bool) : Nat → CStr → List CStr → List CStr
  | 0, _, words => words
  | fuel + 1, s, words =>
    match strtok_r is_delim s with
    | none => words
    | some (token, rest) => strtok_all is_delim fuel rest (words ++ [token])

/-- The delimiter set `" "` of the two tokenisations in `handle_write`. -/
def is_space (c : Char) : Bool := c == ' '

/-- The space-separated words of a text, all of them. -/
def words_of (s : CStr) : List CStr := strtok_all is_space (s.length + 1) s []

/-- The tokens `handle_write` takes from a string: at most 1000. -/
def tokens_of (s : CStr) : List CStr := strtok_loop is_space (s.length + 1) s []

/-! ## Storage server: the write session (`handle_write`, lines 361-558) -/

/-- The array `sentences[1000][MAX_SENTENCE_LENGTH]`: the text of each row. -/
abbrev Rows := Nat → CStr

/-- A `strcpy` into row `i`. -/
def set_row (rows : Rows) (i : Nat) (s : CStr) : Rows :=
  fun j => if j = i then s else rows j

/-- The array after `parse_sentences` has filled its first rows. -/
def rows_of (l : List CStr) : Rows := fun j => l.getD j []

/-- The sentence list of a session: rows `0 .. count - 1`. -/
def row_list (rows : Rows) (count : Nat) : List CStr := (List.range count).map rows

/-- The variables of `handle_write` that live across the iterations of the
edit loop. -/
structure Session where
  sentences : Rows
  sentence_count : Nat

/-- A `for (i = lo; cond(i); i++) body(i)` loop: the first argument bounds
the number of iterations. -/
def for_loop {σ : Type} (cond : Nat → Bool) (body : Nat → σ → σ) : Nat → Nat → σ → σ
  | 0, _, s => s
  | fuel + 1, i, s => if cond i then for_loop cond body fuel (i + 1) (body i s) else s

/-- Lines 485-499: the three loops that fill `new_words`. -/
def build_new_words (words content_tokens : List CStr) (word_index : Int) : List CStr :=
  let word_count := words.length
  let content_count := content_tokens.length
  let new_words : List CStr := []
  -- for (int i = 0; i < word_index && i < word_count; i++)
  let new_words := for_loop (fun i => decide ((i : Int) < word_index) && decide (i < word_count))
    (fun i nw => nw ++ [words.getD i []]) word_count 0 new_words
  -- for (int i = 0; i < content_count; i++)
  let new_words := for_loop (fun i => decide (i < content_count))
    (fun i nw => nw ++ [content_tokens.getD i []]) content_count 0 new_words
  -- for (int i = word_index; i < word_count; i++)
  for_loop (fun i => decide (i < word_count))
    (fun i nw => nw ++ [words.getD i []]) word_count word_index.toNat new_words

/-- Lines 502-508: `target_sentence[0] = '\0'`, then each word is appended
with `strcat`, followed by `" "` when it is not the last one. -/
def join_words (new_words : List CStr) : CStr :=
  let new_word_count := new_words.length
  for_loop (fun i => decide (i < new_word_count))
    (fun i target =>
      let target := target ++ new_words.getD i []
      if i + 1 < new_word_count then target ++ [' '] else target)
    new_word_count 0 []

/-- Lines 520-522, `for (int i = sentence_count - 1; i > sentence_index; i--)
strcpy(sentences[i + temp_count - 1], sentences[i]);`.  The last argument is
`i + 1`. -/
def shift_rows (sentence_index temp_count : Nat) : Rows → Nat → Rows
  | rows, 0 => rows
  | rows, i + 1 =>
    if i > sentence_index then
      shift_rows sentence_index temp_count (set_row rows (i + temp_count - 1) (rows i)) i
    else rows

/-- The strings read back from the rows of `words[1000][MAX_WORD_LENGTH]` or
`new_words[2000][MAX_WORD_LENGTH]` after `strcpy` has put the given strings
into the rows 0, 1, ... in this order (lines 454 and 489-498).  A string
shorter than `MAX_WORD_LENGTH` lies in its row with its NUL.  A longer string
runs on over the rows behind its own, the `strcpy` into the next row then
writes over that part, and the row is read back as its first
`MAX_WORD_LENGTH` characters followed by what the next row is read back as.
The string put last is read back whole.  This is what the copies leave as
long as they end inside the array; strings that all fit their rows
(`words_fit`) are read back as they were put. -/
def row_strings : List CStr → List CStr
  | [] => []
  | [w] => [w]
  | w :: v :: rest =>
    (if w.length < MAX_WORD_LENGTH then w
     else w.take MAX_WORD_LENGTH ++ (row_strings (v :: rest)).headD []) ::
      row_strings (v :: rest)

/-- Lines 447-508 of the edit loop: the words of the target sentence are
taken with `strtok_r` and copied to the rows of `words`, the word index is
checked, and the sentence is reassembled from the rows of `new_words`, which
hold the words and the tokens of the content.  `none` is the rejection of
lines 459-467. -/
def reassemble_sentence (target_sentence : CStr) (word_index : Int) (data : CStr) :
    Option CStr :=
  -- lines 447-456
  let words := row_strings (tokens_of target_sentence)
  let word_count := words.length
  -- lines 458-467
  if word_index < 0 ∨ word_index > (word_count : Int) + 1 then none
  else
    -- lines 469-482: the tokens of the content, each a `strdup`
    let content_tokens := tokens_of data
    -- lines 484-508
    some (join_words (row_strings (build_new_words words content_tokens word_index)))

/-- One iteration of the edit loop for an update that is not the sentinel
(lines 433-531): `false` when the update is rejected with
`ERR_INVALID_INDEX`, `true` when it is applied, and the session variables
after the iteration.  The rows of `sentences` and of `temp_sentences` are
taken to hold what is copied to them: the definition follows the code on the
updates that `update_in_bounds`, below, admits. -/
def edit_step (sentence_index : Nat) (update : Message) (s : Session) : Bool × Session :=
  -- lines 436-445: get or create the sentence; `target` is the row
  -- `target_sentence` points at
  let append := decide (sentence_index ≥ s.sentence_count)
  let target := if append then s.sentence_count else sentence_index
  let sentences := if append then set_row s.sentences s.sentence_count [] else s.sentences
  let sentence_count := if append then s.sentence_count + 1 else s.sentence_count
  let target_sentence := sentences target
  match reassemble_sentence target_sentence update.word_index update.data with
  | none =>
    -- line 466, `continue`: `strtok_r` has cut the row at the end of its
    -- first word
    (false, { sentences := set_row sentences target (strtok_clobbered is_space target_sentence),
              sentence_count := sentence_count })
  | some target_sentence =>
    let sentences := set_row sentences target target_sentence
    -- lines 510-531
    let temp_sentences := parse_sentences target_sentence
    let temp_count := temp_sentences.length
    if temp_count > 1 then
      let sentences := set_row sentences sentence_index (temp_sentences.getD 0 [])
      let sentences := shift_rows sentence_index temp_count sentences sentence_count
      let sentences := for_loop (fun i => decide (i < temp_count))
        (fun i rows => set_row rows (sentence_index + i) (temp_sentences.getD i []))
        temp_count 1 sentences
      (true, { sentences := sentences, sentence_count := sentence_count + temp_count - 1 })
    else
      (true, { sentences := set_row sentences sentence_index (sentences target),
               sentence_count := sentence_count })

/-- The record sent for a rejected update (lines 460-465). -/
def word_index_error : Message :=
  { type := MSG_ERROR, error_code := ERR_INVALID_INDEX,
    data := "ERROR: Word index out of range".toList }

/-- The record sent for an applied update (lines 534-538). -/
def update_ack : Message := { type := MSG_ACK, error_code := ERR_SUCCESS }

/-- The sentinel that ends the edit loop. -/
def ETIRW : CStr := "ETIRW".toList

/-- The edit loop (lines 420-539).  The first list holds the records the
client sends after the lock acknowledgement; `receive_message` fails when it
is exhausted.  The result is the session at the sentinel (`none` after a
receive failure) and the records sent. -/
def edit_loop (sentence_index : Nat) : List Message → Session → List Message →
    Option Session × List Message
  | [], _, sent => (none, sent)
  | update_msg :: rest, s, sent =>
    if update_msg.data = ETIRW then (some s, sent)
    else
      let r := edit_step sentence_index update_msg s
      edit_loop sentence_index rest r.2 (sent ++ [if r.1 then update_ack else word_index_error])

/-- What `handle_write` leaves: the state of the server, the records sent to
the client and whether the session reached the commit of lines 541-544. -/
structure WriteResult where
  state : SSState
  sent : List Message
  committed : Bool

/-- The function `handle_write` (lines 361-558); `updates` are the records
the client sends after the lock acknowledgement. -/
def handle_write (st : SSState) (msg : Message) (updates : List Message) : WriteResult :=
  -- line 367
  let st := save_for_undo st msg.filename
  -- lines 369-378
  match read_file_content st msg.filename with
  | none =>
    { state := st, committed := false,
      sent := [{ type := MSG_RESPONSE, error_code := ERR_FILE_NOT_FOUND,
                 data := "ERROR: Cannot read file".toList }] }
  | some buffer =>
    -- lines 380-393
    let parsed := parse_sentences buffer
    let sentence_count := parsed.length
    let sentence_index := msg.flags
    if sentence_index < 0 ∨ sentence_index > (sentence_count : Int) then
      { state := st, committed := false,
        sent := [{ type := MSG_RESPONSE, error_code := ERR_INVALID_INDEX,
                   data := "ERROR: Sentence index out of range".toList }] }
    else
      -- lines 395-402
      match get_sentence_lock st msg.filename sentence_index with
      | (st, none) =>
        { state := st, committed := false,
          sent := [{ type := MSG_RESPONSE, error_code := ERR_SERVER_ERROR,
                     data := "ERROR: Cannot acquire lock".toList }] }
      | (st, some lock) =>
        -- lines 404-410
        let entry := st.sentence_locks.get? lock
        if (entry.map (fun l => l.lock)) = some true then
          { state := st, committed := false,
            sent := [{ type := MSG_RESPONSE, error_code := ERR_SENTENCE_LOCKED,
                       data := "ERROR: Sentence locked by ".toList ++
                         (entry.map (fun l => l.locked_by)).getD [] }] }
        else
          -- lines 412-417
          let st := acquire_lock st lock msg.username
          let lock_ack : Message :=
            { type := MSG_RESPONSE, error_code := ERR_SUCCESS,
              data := "Lock acquired. Send word updates.".toList }
          -- lines 419-539
          match edit_loop sentence_index.toNat updates
              { sentences := rows_of parsed, sentence_count := sentence_count } [] with
          | (none, sent) =>
            { state := release_lock st lock, committed := false, sent := lock_ack :: sent }
          | (some s, sent) =>
            -- lines 541-555
            let final_content := reconstruct_file (row_list s.sentences s.sentence_count)
            let st := write_file_content st msg.filename final_content
            let st := release_lock st lock
            { state := st, committed := true,
              sent := lock_ack :: sent ++
                [{ type := MSG_RESPONSE, error_code := ERR_SUCCESS,
                   data := "Write Successful!".toList }] }

/-- The function `handle_read` (lines 338-358). -/
def handle_read (st : SSState) (msg : Message) : Message :=
  match read_file_content st msg.filename with
  | none =>
    { type := MSG_RESPONSE, error_code := ERR_FILE_NOT_FOUND,
      data := "ERROR: Cannot read file".toList }
  | some buffer =>
    { type := MSG_RESPONSE, error_code := ERR_SUCCESS, data := buffer,
      data_len := buffer.length }

/-- The function `handle_undo` (lines 619-660): the shadow is copied over
the live file; without a shadow nothing changes. -/
def handle_undo (st : SSState) (msg : Message) : SSState × Message :=
  match st.undo msg.filename with
  | none =>
    (st, { type := MSG_RESPONSE, error_code := ERR_NO_UNDO_AVAILABLE,
           data := "ERROR: No undo available".toList })
  | some bytes =>
    ({ st with storage := fs_write st.storage msg.filename bytes },
     { type := MSG_RESPONSE, error_code := ERR_SUCCESS, data := "Undo Successful!".toList })

/-- A word: not empty and free of the delimiter. -/
def IsWord (is_delim : Char → Bool) (w : CStr) : Prop :=
  w ≠ [] ∧ ∀ c ∈ w, is_delim c = false

/-- The text of the sentence an update works on (lines 436-445): row
`sentence_index`, or the empty sentence the code appends when
`sentence_index` is not below `sentence_count`. -/
def target_text (s : Session) (sentence_index : Nat) : CStr :=
  if sentence_index ≥ s.sentence_count then [] else s.sentences sentence_index

/-- Whether each of the strings fits a row of `MAX_WORD_LENGTH` bytes with
its NUL. -/
def words_fit (words : List CStr) : Bool :=
  words.all (fun w => decide (w.length < MAX_WORD_LENGTH))

/-- Whether one iteration of the edit loop keeps every copy inside the array
row it is made to: the rows of `sentences[1000][MAX_SENTENCE_LENGTH]` in use
(line 440 takes one more in the append case) and their texts; the rows of
`words` (line 454); and for an update that is applied the rows of
`new_words` (lines 489-498), the row the sentence is reassembled in (lines
502-508), the rows of `temp_sentences[100]` (line 513) and the rows of
`sentences` after the split (lines 515-528). -/
def update_in_bounds (sentence_index : Nat) (update : Message) (s : Session) : Bool :=
  let sentence_count := max s.sentence_count (sentence_index + 1)
  decide (sentence_count ≤ 1000) &&
  (List.range s.sentence_count).all
    (fun i => decide ((s.sentences i).length < MAX_SENTENCE_LENGTH)) &&
  words_fit (tokens_of (target_text s sentence_index)) &&
  match reassemble_sentence (target_text s sentence_index) update.word_index update.data with
  | none => true
  | some target_sentence =>
    words_fit (tokens_of update.data) &&
    decide (target_sentence.length < MAX_SENTENCE_LENGTH) &&
    decide ((parse_sentences target_sentence).length ≤ 100) &&
    decide (sentence_count + (parse_sentences target_sentence).length - 1 ≤ 1000)

/-- A session on the one-sentence file `Hello world`. -/
def hello_session : Session :=
  { sentences := rows_of ["Hello world".toList], sentence_count := 1 }

/-- A sentence of 1001 words: `a a ... a`. -/
def long_sentence : CStr := List.intercalate [' '] (List.replicate 1001 ['a'])

/-- A session on an empty file: no sentence yet. -/
def empty_session : Session := { sentences := rows_of [], sentence_count := 0 }

/-- A content of 17 words of 240 letters each, 4096 characters in all. -/
def long_content : CStr := List.intercalate [' '] (List.replicate 17 (List.replicate 240 'a'))

/-- A word of 300 letters, and a content of two tokens: that word and `b`. -/
def long_word : CStr := List.replicate 300 'a'
def long_word_content : CStr := List.intercalate [' '] [long_word, ['b']]

/-- The update of scenario 3 of the specification. -/
def split_update : Message := { word_index := 2, data := "there. How are you".toList }

/-- A storage server that holds the file `a.txt` with the text `Hello world`. -/
def hello_server : SSState :=
  { storage := fun f => if f = "a.txt".toList then some "Hello world".toList else none,
    undo := fun _ => none,
    sentence_locks := [] }

/-- A write request of `alice` for sentence 0 of `a.txt`. -/
def hello_write : Message :=
  { type := MSG_WRITE_FILE, filename := "a.txt".toList, username := "alice".toList, flags := 0 }

/-! ## Storage server: streaming and the dispatch of client requests -/

/-- The delimiter set `" \n\t"` of `handle_stream`. -/
def is_stream_delim (c : Char) : Bool := c == ' ' || c == '\n' || c == '\t'

/-- The function `handle_stream` (lines 561-616): the records sent. -/
def handle_stream (st : SSState) (msg : Message) : List Message :=
  match read_file_content st msg.filename with
  | none =>
    [{ type := MSG_RESPONSE, error_code := ERR_FILE_NOT_FOUND,
       data := "ERROR: Cannot read file".toList }]
  | some buffer =>
    (strtok_all is_stream_delim (buffer.length + 1) buffer []).map
        (fun token => { type := MSG_RESPONSE, error_code := ERR_SUCCESS,
                        data := token.take (MAX_BUFFER_SIZE - 1) })
      ++ [{ type := MSG_RESPONSE, error_code := ERR_SUCCESS, data := "STOP".toList }]

/-- The function `handle_client_request` (lines 663-695) on one connection:
`msg` is the first record received, `updates` the records received after it
(only a write session reads them).  The result is the state of the server and
the records sent. -/
def handle_client_request (st : SSState) (msg : Message) (updates : List Message) :
    SSState × List Message :=
  if msg.type = MSG_READ_FILE then (st, [handle_read st msg])
  else if msg.type = MSG_WRITE_FILE then
    ((handle_write st msg updates).state, (handle_write st msg updates).sent)
  else if msg.type = MSG_STREAM_FILE then (st, handle_stream st msg)
  else if msg.type = MSG_UNDO_FILE then ((handle_undo st msg).1, [(handle_undo st msg).2])
  else (st, [])

/-- The state of the server after a series of client connections, each
served to its end before the next. -/
def run_clients (st : SSState) (connections : List (Message × List Message)) : SSState :=
  connections.foldl (fun st c => (handle_client_request st c.1 c.2).1) st

/-- The state of the server after a series of write requests. -/
def run_writes (st : SSState) (requests : List (Message × List Message)) : SSState :=
  requests.foldl (fun st r => (handle_write st r.1 r.2).state) st

/-- A storage server that holds the file `c.txt` with the text `X.`
(scenario 5 of the specification). -/
def x_server : SSState :=
  { storage := fun f => if f = "c.txt".toList then some "X.".toList else none,
    undo := fun _ => none,
    sentence_locks := [] }

/-- The write request of `alice` for sentence 0 of `c.txt`. -/
def x_write : Message :=
  { type := MSG_WRITE_FILE, filename := "c.txt".toList, username := "alice".toList, flags := 0 }

/-- The records of the session: insert `Y` at word 0, then the sentinel. -/
def x_updates : List Message := [{ word_index := 0, data := "Y".toList }, { data := ETIRW }]

/-- A read request and an undo request for `c.txt`. -/
def x_read : Message := { type := MSG_READ_FILE, filename := "c.txt".toList }
def x_undo : Message := { type := MSG_UNDO_FILE, filename := "c.txt".toList }

/-- A write request for sentence 7 of `c.txt`, a sentence index out of range. -/
def x_bad_write : Message :=
  { type := MSG_WRITE_FILE, filename := "c.txt".toList, username := "bob".toList, flags := 7 }

/-! ## Storage server: example states for the sentence locks -/

/-- The state of the server at line 421, while the session of the write
request `msg` waits for an update: `save_for_undo` (line 367) and
`get_sentence_lock` (line 396) have run and the lock, the entry at position
`lock`, was taken for `msg.username` (lines 405-412). -/
def write_session_open (st : SSState) (msg : Message) (lock : Nat) : SSState :=
  acquire_lock (get_sentence_lock (save_for_undo st msg.filename) msg.filename msg.flags).1
    lock msg.username

/-- The server `x_server` while the write session of `alice` on sentence 0 of
`c.txt` waits for its first update. -/
def x_locked : SSState := write_session_open x_server x_write 0

/-- A write request of `bob` for sentence 0 of `c.txt`. -/
def x_bob_write : Message :=
  { type := MSG_WRITE_FILE, filename := "c.txt".toList, username := "bob".toList, flags := 0 }

/-- A write request of `bob` for sentence 1 of `c.txt`, the append position. -/
def x_bob_append : Message :=
  { type := MSG_WRITE_FILE, filename := "c.txt".toList, username := "bob".toList, flags := 1 }

/-- A storage server that holds the file `c.txt` with the text `A b. C.`, two
sentences. -/
def ab_server : SSState :=
  { storage := fun f => if f = "c.txt".toList then some "A b. C.".toList else none,
    undo := fun _ => none,
    sentence_locks := [] }

/-- The write request of `alice` for sentence 2 of `c.txt`, the append
position of the two-sentence text. -/
def ab_alice_write : Message :=
  { type := MSG_WRITE_FILE, filename := "c.txt".toList, username := "alice".toList, flags := 2 }

/-- The server `ab_server` while the write session of `alice` on sentence 2
of `c.txt` waits for its first update. -/
def ab_locked : SSState := write_session_open ab_server ab_alice_write 0

/-- The write request of `bob` for sentence 0 of `c.txt` and the records of
his session: an update with a word index out of range, then the sentinel. -/
def ab_bob_write : Message :=
  { type := MSG_WRITE_FILE, filename := "c.txt".toList, username := "bob".toList, flags := 0 }
def ab_bob_updates : List Message := [{ word_index := 99, data := ['x'] }, { data := ETIRW }]

/-- The server after the session of `bob`, the session of `alice` still
waiting. -/
def ab_cut : SSState := (handle_write ab_locked ab_bob_write ab_bob_updates).state

/-- The write request of `carol` for sentence 2 of `c.txt`. -/
def ab_carol_write : Message :=
  { type := MSG_WRITE_FILE, filename := "c.txt".toList, username := "carol".toList, flags := 2 }

/-! ## Streaming: the tokens of the specification and the loop of the client -/

/-- The tokens of a text as section 4.6 of the specification words them: the
maximal runs of characters that are not whitespace. -/
def whitespace_tokens (s : CStr) : List CStr :=
  (s.splitOnP is_whitespace).filter (fun t => !t.isEmpty)

/-- The record `handle_stream` sends for a token. -/
def token_record (token : CStr) : Message :=
  { type := MSG_RESPONSE, error_code := ERR_SUCCESS, data := token }

/-- The receive loop of `cmd_stream` (`client.c`, lines 323-337) on the
records the storage server sends: the texts printed, and whether the loop
ended at a record with the data `STOP` (it ends with the message
`Storage server disconnected` when the records run out). -/
def stream_loop : List Message → List CStr → List CStr × Bool
  | [], printed => (printed, false)
  | response :: rest, printed =>
    if response.data = "STOP".toList then (printed, true)
    else stream_loop rest (printed ++ [response.data])

/-- A storage server that holds `stream.txt` with the text `one two three`
(scenario 6 of the specification), `stop.txt` with the text `a STOP b`, and
`blank.txt` with spaces, a tab and a newline. -/
def stream_server : SSState :=
  { storage := fun f =>
      if f = "stream.txt".toList then some "one two three".toList
      else if f = "stop.txt".toList then some "a STOP b".toList
      else if f = "blank.txt".toList then some [' ', '\t', '\n', ' ']
      else none,
    undo := fun f => if f = "stream.txt".toList then some "one".toList else none,
    sentence_locks := [] }

/-- Stream requests of `alice` and of `bob`. -/
def alice_stream : Message :=
  { type := MSG_STREAM_FILE, filename := "stream.txt".toList, username := "alice".toList }
def bob_stream : Message :=
  { type := MSG_STREAM_FILE, filename := "stream.txt".toList, username := "bob".toList }
def stop_stream : Message :=
  { type := MSG_STREAM_FILE, filename := "stop.txt".toList, username := "alice".toList }
def blank_stream : Message :=
  { type := MSG_STREAM_FILE, filename := "blank.txt".toList, username := "alice".toList }

/-- A storage server that holds `l.txt` with the text `long_then_hi`. -/
def long_server : SSState :=
  { storage := fun f => if f = "l.txt".toList then some long_then_hi else none,
    undo := fun _ => none,
    sentence_locks := [] }

/-- The write request of `alice` for sentence 0 of `l.txt`. -/
def long_write : Message :=
  { type := MSG_WRITE_FILE, filename := "l.txt".toList, username := "alice".toList, flags := 0 }

/-- A text of 65539 bytes: 65530 letters `a`, then ` STOPX yz`. -/
def big_file : CStr := List.replicate 65530 'a' ++ " STOPX yz".toList

/-- A storage server that holds `big.txt` with the text `big_file`. -/
def big_server : SSState :=
  { storage := fun f => if f = "big.txt".toList then some big_file else none,
    undo := fun _ => none,
    sentence_locks := [] }

/-- The stream request of `alice` for `big.txt`. -/
def big_stream : Message :=
  { type := MSG_STREAM_FILE, filename := "big.txt".toList, username := "alice".toList }

/-! ## Name server: records (`common.h`, `name_server.c` lines 8-52) -/

/-- The record `FileMetadata`. -/
structure FileMetadata where
  filename : CStr
  owner : CStr
  created : Int
  last_modified : Int
  last_accessed : Int
  word_count : Int
  char_count : Int
  ss_index : Int
  deriving DecidableEq

/-- The record `UserAccess`; `access_rights` is a set of the bits
`ACCESS_READ` and `ACCESS_WRITE`. -/
structure UserAccess where
  username : CStr
  access_rights : Nat
  deriving DecidableEq

/-- The address of a `FileNode` on the heap. -/
abbrev Ptr := Nat

/-- The record `FileNode`; `access_count` is the length of `access_list`,
and `next = none` is the `NULL` pointer. -/
structure FileNode where
  metadata : FileMetadata
  access_list : List UserAccess
  next : Option Ptr
  deriving DecidableEq

/-- The record `HashEntry`. -/
structure HashEntry where
  key : CStr
  file : Ptr
  deriving DecidableEq

/-- The record `StorageServerInfo`. -/
structure StorageServerInfo where
  ip : CStr := []
  nm_port : Int := 0
  client_port : Int := 0
  is_active : Int := 0
  last_heartbeat : Int := 0
  deriving DecidableEq

/-- The global variables of the name server.  `heap` holds the `FileNode`
objects that were allocated and not freed, `next_ptr` is the address the next
`malloc` of a `FileNode` hands out, and `storage_servers` holds the first
`num_storage_servers` entries of the array of that name (the other entries
are zero). -/
structure NMState where
  heap : Ptr → Option FileNode
  next_ptr : Ptr
  file_list : Option Ptr
  file_hash : Nat → Option HashEntry
  cache_map : Nat → Option HashEntry
  storage_servers : List StorageServerInfo

/-- The state `main` sets up before `load_metadata` (lines 1036-1039). -/
def nm_init : NMState :=
  { heap := fun _ => none, next_ptr := 1, file_list := none, file_hash := fun _ => none,
    cache_map := fun _ => none, storage_servers := [] }

/-- What the name server gets from the storage server it forwards a request
to: `connect_to_server` fails, `receive_message` fails, or a record arrives. -/
inductive SSReply where
  | no_connection
  | no_reply
  | reply (m : Message)

/-! ## Name server: lookup (`name_server.c` lines 76-171) -/

/-- The value of `c = *str++` with `str` a `const char*` and `c` an `int`
(line 80): plain `char` is signed, so the bytes 128..255 are read as
-128..-1. -/
def char_value (c : Char) : Int :=
  if c.toNat < 128 then (c.toNat : Int) else (c.toNat : Int) - 256

/-- The loop of `hash_function` on `unsigned int`, which wraps at `2^32`:
`hash = ((hash << 5) + hash) + c`, the `int` being converted to
`unsigned int`. -/
def hash_loop : CStr → Nat → Nat
  | [], hash => hash
  | c :: rest, hash =>
    hash_loop rest ((((hash * 32 + hash : Nat) : Int) + char_value c) % 4294967296).toNat

/-- The function `hash_function` (lines 77-84). -/
def hash_function (str : CStr) : Nat := hash_loop str 5381 % MAX_FILES

/-- The function `cache_get` (lines 110-118). -/
def cache_get (st : NMState) (filename : CStr) : Option Ptr :=
  match st.cache_map (hash_function filename % LRU_CACHE_SIZE) with
  | some entry => if entry.key = filename then some entry.file else none
  | none => none

/-- The function `cache_put` (lines 120-127). -/
def cache_put (st : NMState) (filename : CStr) (file : Ptr) : NMState :=
  { st with cache_map := fun i =>
      if i = hash_function filename % LRU_CACHE_SIZE then some { key := filename, file := file }
      else st.cache_map i }

/-- The function `find_file` (lines 87-107).  The inner `Option` is the
pointer returned (`none` for `NULL`).  The outer `none` stands for an
execution without meaning: line 103 reads a `FileNode` through a pointer to
`HashEntry`, which the embedding does not follow. -/
def find_file (st : NMState) (filename : CStr) : Option (NMState × Option Ptr) :=
  match cache_get st filename with
  | some cached => some (st, some cached)
  | none =>
    match st.file_hash (hash_function filename) with
    | none => some (st, none)
    | some entry =>
      if entry.key = filename then some (cache_put st filename entry.file, some entry.file)
      else
        match st.heap entry.file with
        | none => none
        | some node =>
          match node.next with
          | none => some (st, none)
          | some _ => none

/-- The statement `p->next = next`. -/
def set_next (st : NMState) (p : Ptr) (next : Option Ptr) : NMState :=
  { st with heap := fun q =>
      if q = p then (st.heap p).map (fun node => { node with next := next }) else st.heap q }

/-- Lines 151-154 of `add_file`, `while (current->next) current = current->next;`:
the node the walk ends at, `none` when it does not end within `fuel` nodes. -/
def last_node (st : NMState) : Nat → Ptr → Option Ptr
  | 0, _ => none
  | fuel + 1, current =>
    match st.heap current with
    | none => none
    | some node =>
      match node.next with
      | none => some current
      | some next => last_node st fuel next

/-- The function `add_file` (lines 130-161).  `none` when the walk of lines
152-154 does not end: `fuel` is the number of nodes ever allocated, and a
walk longer than that is on a cycle. -/
def add_file (st : NMState) (metadata : FileMetadata) : Option NMState :=
  let index := hash_function metadata.filename
  -- lines 133-143
  let node := st.next_ptr
  let st : NMState :=
    { st with
      heap := fun q =>
        if q = node then
          some { metadata := metadata,
                 access_list := [{ username := metadata.owner,
                                   access_rights := ACCESS_READ ||| ACCESS_WRITE }],
                 next := none }
        else st.heap q,
      next_ptr := node + 1 }
  -- lines 145-156
  let linked : Option NMState :=
    match st.file_hash index with
    | none =>
      some { st with file_hash := fun i =>
               if i = index then some { key := metadata.filename, file := node }
               else st.file_hash i }
    | some entry =>
      match last_node st st.next_ptr entry.file with
      | none => none
      | some current => some (set_next st current (some node))
  -- lines 158-160
  linked.map (fun st => { set_next st node st.file_list with file_list := some node })

/-- The function `get_user_access` (lines 164-171). -/
def get_user_access (file : FileNode) (username : CStr) : Nat :=
  match file.access_list.find? (fun e => e.username == username) with
  | some e => e.access_rights
  | none => ACCESS_NONE

/-! ## Name server: request handlers -/

/-- A response record with an error code and a text. -/
def response (error_code : Nat) (data : String) : Message :=
  { type := MSG_RESPONSE, error_code := error_code, data := data.toList }

/-- The assignment `access_list[i].access_rights = rights`. -/
def set_rights (l : List UserAccess) (i rights : Nat) : List UserAccess :=
  match l.get? i with
  | none => l
  | some e => l.set i { e with access_rights := rights }

/-- The statement `file->access_list = ...` on the node at `p`. -/
def set_access_list (st : NMState) (p : Ptr) (l : List UserAccess) : NMState :=
  { st with heap := fun q =>
      if q = p then (st.heap p).map (fun node => { node with access_list := l }) else st.heap q }

/-- The function `handle_access_control` (lines 419-488): the state
afterwards and the record sent.  `none` when `find_file` has no meaning or
hands back a pointer to a freed node, which the handler then reads.
`save_metadata` changes nothing in the state. -/
def handle_access_control (st : NMState) (msg : Message) : Option (NMState × Message) :=
  match find_file st msg.filename with
  | none => none
  | some (st, none) => some (st, response ERR_FILE_NOT_FOUND "ERROR: File not found")
  | some (st, some file) =>
    match st.heap file with
    | none => none
    | some node =>
      if node.metadata.owner ≠ msg.username then
        some (st, response ERR_UNAUTHORIZED "ERROR: Only owner can modify access")
      else if msg.type = MSG_ADD_ACCESS then
        -- lines 438-458
        let found := node.access_list.findIdx? (fun e => e.username == msg.target_user)
        let new_rights := if msg.flags = 1 then ACCESS_READ else ACCESS_READ ||| ACCESS_WRITE
        let access_list :=
          match found with
          | some i => set_rights node.access_list i new_rights
          | none =>
            node.access_list ++ [{ username := msg.target_user, access_rights := new_rights }]
        some (set_access_list st file access_list,
              response ERR_SUCCESS "Access granted successfully!")
      else if msg.type = MSG_REM_ACCESS then
        -- lines 460-477
        match node.access_list.findIdx? (fun e => e.username == msg.target_user) with
        | some i =>
          if msg.target_user ≠ node.metadata.owner then
            some (set_access_list st file (node.access_list.eraseIdx i),
                  response ERR_SUCCESS "Access removed successfully!")
          else
            some (st, response ERR_INVALID_COMMAND
              "ERROR: Cannot remove owner access or user not found")
        | none =>
          some (st, response ERR_INVALID_COMMAND
            "ERROR: Cannot remove owner access or user not found")
      else some (st, { type := MSG_RESPONSE, error_code := ERR_SUCCESS })

/-- Lines 635-650 of `handle_delete`: the walk over the file list that
unlinks and frees the first node with the file name.  `none` when the walk
does not end within `fuel` nodes or reads a freed node. -/
def unlink_file (filename : CStr) : Nat → NMState → Option Ptr → Option Ptr → Option NMState
  | 0, _, _, _ => none
  | _ + 1, st, _, none => some st
  | fuel + 1, st, prev, some current =>
    match st.heap current with
    | none => none
    | some node =>
      if node.metadata.filename = filename then
        let st :=
          match prev with
          | some p => set_next st p node.next
          | none => { st with file_list := node.next }
        -- free(current)
        some { st with heap := fun q => if q = current then none else st.heap q }
      else unlink_file filename fuel st (some current) node.next

/-- The function `handle_delete` (lines 582-673); `ss` is what the storage
server answers to the forwarded `MSG_SS_DELETE`. -/
def handle_delete (st : NMState) (msg : Message) (ss : SSReply) : Option (NMState × Message) :=
  match find_file st msg.filename with
  | none => none
  | some (st, none) => some (st, response ERR_FILE_NOT_FOUND "ERROR: File not found")
  | some (st, some file) =>
    match st.heap file with
    | none => none
    | some node =>
      if node.metadata.owner ≠ msg.username then
        some (st, response ERR_UNAUTHORIZED "ERROR: Only owner can delete file")
      else
        match ss with
        | SSReply.no_connection =>
          some (st, response ERR_CONNECTION_FAILED "ERROR: Cannot connect to storage server")
        | SSReply.no_reply =>
          some (st, response ERR_SERVER_ERROR "ERROR: Storage server communication failed")
        | SSReply.reply ss_response =>
          if ss_response.error_code = ERR_SUCCESS then
            -- lines 634-654
            match unlink_file msg.filename (st.next_ptr + 1) st none st.file_list with
            | none => none
            | some st =>
              some ({ st with file_hash := fun i =>
                        if i = hash_function msg.filename then none else st.file_hash i },
                    { type := MSG_RESPONSE, error_code := ERR_SUCCESS,
                      data := "File '".toList ++ msg.filename ++ "' deleted successfully!".toList })
          else
            some (st, { type := MSG_RESPONSE, error_code := ss_response.error_code,
                        data := ss_response.data })

/-- The entry `storage_servers[i]` of the array of `MAX_STORAGE_SERVERS`
entries; `none` outside the array. -/
def registry_entry (st : NMState) (i : Int) : Option StorageServerInfo :=
  if 0 ≤ i ∧ i < (MAX_STORAGE_SERVERS : Int) then some (st.storage_servers.getD i.toNat {})
  else none

/-- The function `handle_direct_ss_operation` (lines 676-708), which serves
the read, write, stream and undo requests of a client. -/
def handle_direct_ss_operation (st : NMState) (msg : Message) : Option (NMState × Message) :=
  match find_file st msg.filename with
  | none => none
  | some (st, none) => some (st, response ERR_FILE_NOT_FOUND "ERROR: File not found")
  | some (st, some file) =>
    match st.heap file with
    | none => none
    | some node =>
      let access := get_user_access node msg.username
      let required_access := if msg.type = MSG_WRITE_FILE then ACCESS_WRITE else ACCESS_READ
      if access &&& required_access = 0 then
        some (st, response ERR_UNAUTHORIZED "ERROR: Unauthorized access")
      else
        match registry_entry st node.metadata.ss_index with
        | none => none
        | some ss =>
          some (st, { type := MSG_RESPONSE, error_code := ERR_SUCCESS,
                      ss_ip := ss.ip, ss_port := ss.client_port,
                      data := "Connect to SS at ".toList ++ ss.ip ++ [':']
                        ++ (toString ss.client_port).toList })

/-! ### The checkpoint written by `save_metadata` -/

/-- The contents of the metadata file: for each record the `FileMetadata`
and the access list (`access_count` is its length). -/
abbrev Checkpoint := List (FileMetadata × List UserAccess)

/-- The loop of `save_metadata` (lines 977-983),
`while (current) { write the record; current = current->next; }`: the records
written, `none` when the walk does not end within `fuel` nodes or reads a
freed node. -/
def save_loop (st : NMState) : Nat → Option Ptr → Option Checkpoint
  | _, none => some []
  | 0, some _ => none
  | fuel + 1, some current =>
    match st.heap current with
    | none => none
    | some node =>
      (save_loop st fuel node.next).map (fun l => (node.metadata, node.access_list) :: l)

/-- The function `save_metadata` (lines 970-987): the file it writes, `none`
when the walk over the file list does not end.  The bound is the number of
nodes ever allocated: a walk longer than that is on a cycle. -/
def save_metadata (st : NMState) : Option Checkpoint :=
  save_loop st st.next_ptr st.file_list

/-- The function `handle_create` (lines 491-579); `ss` is what the storage
server answers to the forwarded `MSG_SS_CREATE` and `now` the value of
`time`.  `none` when `find_file` has no meaning, or when a walk does not end:
that of `add_file`, or that of `save_metadata` (line 562), which runs before
the answer is sent (line 577), so that no answer is sent then. -/
def handle_create (st : NMState) (msg : Message) (ss : SSReply) (now : Int) :
    Option (NMState × Message) :=
  match find_file st msg.filename with
  | none => none
  | some (st, some _) => some (st, response ERR_FILE_EXISTS "ERROR: File already exists")
  | some (st, none) =>
    -- lines 508-523
    match st.storage_servers.findIdx? (fun s => s.is_active != 0) with
    | none => some (st, response ERR_NO_STORAGE_SERVER "ERROR: No storage server available")
    | some ss_index =>
      match ss with
      | SSReply.no_connection =>
        some (st, response ERR_CONNECTION_FAILED "ERROR: Cannot connect to storage server")
      | SSReply.no_reply =>
        some (st, response ERR_SERVER_ERROR "ERROR: Storage server communication failed")
      | SSReply.reply ss_response =>
        if ss_response.error_code = ERR_SUCCESS then
          -- lines 549-562: `add_file(&metadata); save_metadata();`
          match add_file st
            { filename := msg.filename, owner := msg.username, created := now,
              last_modified := now, last_accessed := now, word_count := 0, char_count := 0,
              ss_index := ss_index } with
          | none => none
          | some st =>
            match save_metadata st with
            | none => none
            | some _ => some (st, response ERR_SUCCESS "File Created Successfully!")
        else
          some (st, { type := MSG_RESPONSE, error_code := ss_response.error_code,
                      data := ss_response.data })

/-- The rights the name server finds for a user on a file: `none` when
`find_file` hands back no live record. -/
def access_of (st : NMState) (filename username : CStr) : Option Nat :=
  match find_file st filename with
  | some (st, some file) => (st.heap file).map (fun node => get_user_access node username)
  | _ => none

/-- A name server with one registered storage server and no file. -/
def nm_one_server : NMState :=
  { nm_init with
    storage_servers := [{ ip := "127.0.0.1".toList, nm_port := 9001, client_port := 9000,
                          is_active := 1, last_heartbeat := 0 }] }

/-- The acknowledgement of a storage server. -/
def ss_ok : SSReply := SSReply.reply { type := MSG_ACK, error_code := ERR_SUCCESS }

/-- The state a handler leaves (the state `nm_init` when the run has no
meaning). -/
def state_of (r : Option (NMState × Message)) : NMState := (r.map (fun x => x.1)).getD nm_init

/-- The error code of the record a handler sends. -/
def error_of (r : Option (NMState × Message)) : Option Nat := r.map (fun x => x.2.error_code)

/-- The requests of `alice` and `bob` on `b.txt` (scenario 2 of the
specification). -/
def alice_create : Message := { filename := "b.txt".toList, username := "alice".toList }
def bob_read : Message :=
  { type := MSG_READ_FILE, filename := "b.txt".toList, username := "bob".toList }
def bob_write : Message :=
  { type := MSG_WRITE_FILE, filename := "b.txt".toList, username := "bob".toList }
def alice_write : Message :=
  { type := MSG_WRITE_FILE, filename := "b.txt".toList, username := "alice".toList }
def alice_grants_bob_read : Message :=
  { type := MSG_ADD_ACCESS, filename := "b.txt".toList, username := "alice".toList,
    target_user := "bob".toList, flags := 1 }
def alice_grants_bob_write : Message :=
  { type := MSG_ADD_ACCESS, filename := "b.txt".toList, username := "alice".toList,
    target_user := "bob".toList, flags := 2 }
def alice_grants_alice_read : Message :=
  { type := MSG_ADD_ACCESS, filename := "b.txt".toList, username := "alice".toList,
    target_user := "alice".toList, flags := 1 }
def alice_delete : Message :=
  { type := MSG_DELETE_FILE, filename := "b.txt".toList, username := "alice".toList }
def bob_delete : Message :=
  { type := MSG_DELETE_FILE, filename := "b.txt".toList, username := "bob".toList }
def bob_grants_bob : Message :=
  { type := MSG_ADD_ACCESS, filename := "b.txt".toList, username := "bob".toList,
    target_user := "bob".toList, flags := 2 }
def bob_revokes_alice : Message :=
  { type := MSG_REM_ACCESS, filename := "b.txt".toList, username := "bob".toList,
    target_user := "alice".toList }

/-- The name server after `alice` has created `b.txt`. -/
def nm_created : NMState := state_of (handle_create nm_one_server alice_create ss_ok 100)

/-- The access list of a file, as the name server finds it. -/
def access_list_of (st : NMState) (filename : CStr) : Option (List UserAccess) :=
  match find_file st filename with
  | some (st, some file) => (st.heap file).map (fun node => node.access_list)
  | _ => none

/-- The record of `b.txt` right after `alice` has created it. -/
def alice_node : FileNode :=
  { metadata := { filename := "b.txt".toList, owner := "alice".toList, created := 100,
                  last_modified := 100, last_accessed := 100, word_count := 0,
                  char_count := 0, ss_index := 0 },
    access_list := [{ username := "alice".toList, access_rights := 3 }],
    next := none }

/-- The name server after `alice` has granted `bob` read and write access to
`b.txt` and the file has been looked up. -/
def nm_shared : NMState :=
  state_of (handle_direct_ss_operation
    (state_of (handle_access_control nm_created alice_grants_bob_write)) bob_read)

/-- The record of `b.txt` in `nm_shared`. -/
def shared_node : FileNode :=
  { alice_node with
    access_list := [{ username := "alice".toList, access_rights := 3 },
                    { username := "bob".toList, access_rights := 3 }] }

/-! ## Name server: checkpoint, restart and registration -/

/-- One turn of the loop of `load_metadata` (lines 997-1026): the record is
put in a new node at the head of the file list, and gets a hash entry when
its bucket is empty. -/
def load_record (st : NMState) (record : FileMetadata × List UserAccess) : NMState :=
  let node := st.next_ptr
  let index := hash_function record.1.filename
  { st with
    heap := fun q =>
      if q = node then
        some { metadata := record.1, access_list := record.2, next := st.file_list }
      else st.heap q,
    next_ptr := node + 1,
    file_list := some node,
    file_hash :=
      match st.file_hash index with
      | none => fun i =>
          if i = index then some { key := record.1.filename, file := node }
          else st.file_hash i
      | some _ => st.file_hash }

/-- The function `load_metadata` (lines 990-1030) on the state `main` has
set up; `none` is a metadata file that cannot be opened. -/
def load_metadata (st : NMState) (file : Option Checkpoint) : NMState :=
  match file with
  | none => st
  | some records => records.foldl load_record st

/-- The loop of lines 827-843 over the names of the registration record:
a name that `find_file` does not find gets a record owned by `system` on the
storage server that registers; `now` is the value of `time`. -/
def register_files (now : Int) (ss_index : Int) : List CStr → NMState → Option NMState
  | [], st => some st
  | token :: rest, st =>
    match find_file st token with
    | none => none
    | some (st, some _) => register_files now ss_index rest st
    | some (st, none) =>
      match add_file st
          { filename := token, owner := "system".toList, created := now,
            last_modified := now, last_accessed := now, word_count := 0, char_count := 0,
            ss_index := ss_index } with
      | none => none
      | some st => register_files now ss_index rest st

/-- The delimiter set of `strtok(data_copy, "\n")`. -/
def is_newline (c : Char) : Bool := c == '\n'

/-- The case `MSG_REGISTER_SS` of `handle_client` (lines 814-861): the state
afterwards and the record sent (none when the registry is full). -/
def register_ss (st : NMState) (msg : Message) (now : Int) :
    Option (NMState × Option Message) :=
  let num_storage_servers := st.storage_servers.length
  if num_storage_servers < MAX_STORAGE_SERVERS then
    -- lines 817-821
    let entry : StorageServerInfo :=
      { ip := msg.ss_ip, nm_port := msg.ss_port, client_port := msg.flags, is_active := 1,
        last_heartbeat := now }
    -- lines 824-843
    let tokens := strtok_all is_newline (msg.data.length + 1) msg.data []
    match register_files now (num_storage_servers : Int) tokens st with
    | none => none
    | some st =>
      -- lines 845-858
      some ({ st with storage_servers := st.storage_servers ++ [entry] },
            some { type := MSG_ACK, error_code := ERR_SUCCESS,
                   data := "Storage Server registered successfully (index: ".toList
                     ++ (toString num_storage_servers).toList ++ [')'] })
  else some (st, none)

/-- The states of the name server that a run reaches: from the state `main`
sets up with no metadata file, through registrations of storage servers and
the requests of clients; and, when `restarts` is set, through a new start of
the program that loads the file the last `save_metadata` wrote. -/
inductive Reachable (restarts : Bool) : NMState → Prop
  | init : Reachable restarts nm_init
  | register (st st1 : NMState) (msg : Message) (now : Int) (r : Option Message) :
      Reachable restarts st → register_ss st msg now = some (st1, r) → Reachable restarts st1
  | create (st st1 : NMState) (msg r : Message) (ss : SSReply) (now : Int) :
      Reachable restarts st → handle_create st msg ss now = some (st1, r) →
      Reachable restarts st1
  | delete (st st1 : NMState) (msg r : Message) (ss : SSReply) :
      Reachable restarts st → handle_delete st msg ss = some (st1, r) → Reachable restarts st1
  | access (st st1 : NMState) (msg r : Message) :
      Reachable restarts st → handle_access_control st msg = some (st1, r) →
      Reachable restarts st1
  | locate (st st1 : NMState) (msg r : Message) :
      Reachable restarts st → handle_direct_ss_operation st msg = some (st1, r) →
      Reachable restarts st1
  | restart (st : NMState) (file : Checkpoint) :
      restarts = true → Reachable restarts st → save_metadata st = some file →
      Reachable restarts (load_metadata nm_init (some file))

/-- Every record of the state points into the registry. -/
def ValidIndexes (st : NMState) : Prop :=
  ∀ p node, st.heap p = some node →
    0 ≤ node.metadata.ss_index ∧ node.metadata.ss_index < (st.storage_servers.length : Int)

/-- The create requests of `alice` for the files `h` and `bua`, two names
with the same value of `hash_function`. -/
def create_h : Message := { filename := "h".toList, username := "alice".toList }
def create_bua : Message := { filename := "bua".toList, username := "alice".toList }

/-- The name server after `alice` has created `h`. -/
def nm_h : NMState := state_of (handle_create nm_one_server create_h ss_ok 100)

/-- The record `handle_create` builds for `bua` at the time 101 (lines
550-559). -/
def bua_metadata : FileMetadata :=
  { filename := "bua".toList, owner := "alice".toList, created := 101, last_modified := 101,
    last_accessed := 101, word_count := 0, char_count := 0, ss_index := 0 }

/-- The create of `bua` after that of `h`, up to the return of `add_file`
(line 561): `find_file` (line 494), then `add_file` on the state it leaves. -/
def add_bua : Option NMState :=
  (find_file nm_h create_bua.filename).bind (fun x => add_file x.1 bua_metadata)

/-- The name server when `add_file` has returned in the create of `bua` and
`save_metadata` (line 562) is about to run. -/
def nm_collision : NMState := add_bua.getD nm_init

/-- The name server after a new start that loads the metadata file written
after `alice` has created `b.txt`. -/
def nm_restarted : NMState := load_metadata nm_init (save_metadata nm_created)

/-- The registration record of a storage server with no file. -/
def register_first : Message :=
  { ss_ip := "127.0.0.1".toList, ss_port := 9001, flags := 9000 }

/-- Every record of `b` is the record `a` has at the same address, up to its
`next` pointer, or is one whose metadata and access list satisfy `fresh`. -/
def RecordsFrom (fresh : FileMetadata → List UserAccess → Prop) (a b : NMState) : Prop :=
  ∀ q x, b.heap q = some x →
    fresh x.metadata x.access_list ∨
    ∃ y, a.heap q = some y ∧ x.metadata = y.metadata ∧ x.access_list = y.access_list

/-- No two entries of the access list of a record have the same user name. -/
def DistinctUsers (st : NMState) : Prop :=
  ∀ p node, st.heap p = some node → (node.access_list.map (fun e => e.username)).Nodup

/-- The access list that lines 438-457 of `handle_access_control` leave: the
rights of the first entry of `target_user` are overwritten, or a new entry is
put at the end. -/
def add_access_list (l : List UserAccess) (target_user : CStr) (new_rights : Nat) :
    List UserAccess :=
  match l.findIdx? (fun e => e.username == target_user) with
  | some i => set_rights l i new_rights
  | none => l ++ [{ username := target_user, access_rights := new_rights }]

/-- The add-access requests of `alice` for `bob` on `b.txt`, as the client
sends them for `-W` and for `-R`. -/
def grant_rw : Message := alice_grants_bob_write
def grant_r : Message := alice_grants_bob_read

/-! ## Name server: removal of access, the client's add-access record, the session loop -/

def MSG_REGISTER_SS : Nat := 100
def MSG_REGISTER_CLIENT : Nat := 101
def MSG_VIEW_FILES : Nat := 102
def MSG_CREATE_FILE : Nat := 104
def MSG_INFO_FILE : Nat := 107
def MSG_LIST_USERS : Nat := 109
def MSG_EXEC_FILE : Nat := 112
def MAX_CLIENTS : Nat := 100

/-- The access list that lines 461-477 of `handle_access_control` leave when
the removal is accepted: the first entry of `target_user` is taken out and
the entries after it move up. -/
def rem_access_list (l : List UserAccess) (target_user : CStr) : List UserAccess :=
  match l.findIdx? (fun e => e.username == target_user) with
  | some i => l.eraseIdx i
  | none => l

/-- The metadata and the access list of a record. -/
def record_of (node : FileNode) : FileMetadata × List UserAccess :=
  (node.metadata, node.access_list)

/-- The metadata of a record and the entries its owner has in the access
list. -/
def owner_entry (node : FileNode) : FileMetadata × List UserAccess :=
  (node.metadata, node.access_list.filter (fun e => e.username == node.metadata.owner))

/-- A series of access-control requests, each served to its end before the
next; `none` when one of them has no meaning. -/
def run_access_control : NMState → List Message → Option NMState
  | st, [] => some st
  | st, msg :: rest =>
    match handle_access_control st msg with
    | none => none
    | some (st, _) => run_access_control st rest

/-- The record `cmd_add_access` sends (`client.c`, lines 360-369);
`username` is the name the client runs under. -/
def cmd_add_access (username flag filename target_user : CStr) : Message :=
  { type := MSG_ADD_ACCESS, username := username, filename := filename,
    target_user := target_user, flags := if flag = "-R".toList then 1 else 2 }

/-- The file list from `p` on holds the records `l`, in this order, at
addresses below `bound`. -/
def IsList (st : NMState) (bound : Nat) : Option Ptr → Checkpoint → Prop
  | none, [] => True
  | some p, r :: l =>
    p < bound ∧ ∃ node, st.heap p = some node ∧ record_of node = r ∧ IsList st bound node.next l
  | none, _ :: _ => False
  | some _, [] => False

/-- No record lives at an address that `malloc` has not handed out yet. -/
def HeapBelow (st : NMState) : Prop := ∀ p, st.next_ptr ≤ p → st.heap p = none

/-- The state `b` comes from `a` by allocating records and by changing or
freeing records of `a`. -/
def Grows (a b : NMState) : Prop :=
  a.next_ptr ≤ b.next_ptr ∧
  ∀ q x, b.heap q = some x → (∃ y, a.heap q = some y) ∨ (a.next_ptr ≤ q ∧ q < b.next_ptr)

/-- One turn of the loop of `handle_client` (lines 789-906) on the record
`msg`: the state afterwards, the number of registered clients and the records
sent on the connection.  `others` stands for `handle_view`, `handle_info`,
`handle_list_users` and `handle_exec`, which the embedding does not follow;
`ss` is what the storage server answers to a forwarded request and `now` the
value of `time`. -/
def handle_client (others : NMState → Message → Option (NMState × List Message))
    (st : NMState) (num_clients : Nat) (msg : Message) (ss : SSReply) (now : Int) :
    Option (NMState × Nat × List Message) :=
  if msg.type = MSG_REGISTER_CLIENT then
    -- lines 794-812
    if num_clients < MAX_CLIENTS then
      some (st, num_clients + 1,
            [{ type := MSG_ACK, error_code := ERR_SUCCESS,
               data := "Client registered successfully".toList }])
    else some (st, num_clients, [])
  else if msg.type = MSG_REGISTER_SS then
    -- lines 814-861
    (register_ss st msg now).map (fun x => (x.1, num_clients, x.2.toList))
  else if msg.type = MSG_VIEW_FILES ∨ msg.type = MSG_INFO_FILE ∨ msg.type = MSG_LIST_USERS
      ∨ msg.type = MSG_EXEC_FILE then
    (others st msg).map (fun x => (x.1, num_clients, x.2))
  else if msg.type = MSG_CREATE_FILE then
    (handle_create st msg ss now).map (fun x => (x.1, num_clients, [x.2]))
  else if msg.type = MSG_DELETE_FILE then
    (handle_delete st msg ss).map (fun x => (x.1, num_clients, [x.2]))
  else if msg.type = MSG_READ_FILE ∨ msg.type = MSG_WRITE_FILE ∨ msg.type = MSG_STREAM_FILE
      ∨ msg.type = MSG_UNDO_FILE then
    (handle_direct_ss_operation st msg).map (fun x => (x.1, num_clients, [x.2]))
  else if msg.type = MSG_ADD_ACCESS ∨ msg.type = MSG_REM_ACCESS then
    (handle_access_control st msg).map (fun x => (x.1, num_clients, [x.2]))
  else
    -- line 902: `default`, a line in the log
    some (st, num_clients, [])

/-- A name server whose registry holds `MAX_STORAGE_SERVERS` entries. -/
def nm_full : NMState :=
  { nm_init with
    storage_servers := List.replicate 50
      { ip := "127.0.0.1".toList, nm_port := 9001, client_port := 9000, is_active := 1 } }

/-- The registration record of a client, and a record of a kind the session
loop does not know. -/
def register_carol : Message := { type := MSG_REGISTER_CLIENT, username := "carol".toList }
def unknown_kind : Message := { type := 999, username := "carol".toList }

/-- The rem-access requests of `alice` on `b.txt`, for `bob` and for herself. -/
def alice_revokes_bob : Message :=
  { type := MSG_REM_ACCESS, filename := "b.txt".toList, username := "alice".toList,
    target_user := "bob".toList }
def alice_revokes_alice : Message :=
  { type := MSG_REM_ACCESS, filename := "b.txt".toList, username := "alice".toList,
    target_user := "alice".toList }

/-- The name server after `alice` has created `b.txt` and deleted it. -/
def nm_deleted : NMState := state_of (handle_delete nm_created alice_delete ss_ok)

/-! ## The sentence engine: `parse_sentences` and `reconstruct_file` -/

theorem skip_spaces_eq (rest : CStr) (k : Nat) :
    skip_spaces rest k = k + (rest.takeWhile (fun c => c == ' ')).length := by
  induction rest generalizing k with
  | nil => simp [skip_spaces]
  | cons c rest ih =>
    by_cases h : c = ' '
    · simp [skip_spaces, h, ih]; omega
    · simp [skip_spaces, h]

theorem drop_takeWhile_length (s : CStr) :
    s.drop (s.takeWhile (fun c => c == ' ')).length = drop_spaces s := by
  induction s with
  | nil => simp [drop_spaces]
  | cons c rest ih =>
    by_cases h : c = ' '
    · simpa [drop_spaces, h] using ih
    · simp [drop_spaces, h]

theorem store_sentence_eq (content : CStr) (start : Nat) (s : CStr) (sentences : List CStr)
    (hs : s ≠ []) (h : (content.drop start).take s.length = s) :
    store_sentence content start (s.length : Int) sentences = emit sentences s := by
  have hpos : 0 < s.length := List.length_pos.mpr hs
  unfold store_sentence emit
  by_cases hl : s.length < MAX_SENTENCE_LENGTH
  · have : (0 : Int) < (s.length : Int) ∧ (s.length : Int) < (MAX_SENTENCE_LENGTH : Int) := by
      constructor <;> omega
    simp [this, hl, h]
  · have : ¬ ((0 : Int) < (s.length : Int) ∧ (s.length : Int) < (MAX_SENTENCE_LENGTH : Int)) := by
      intro hh; omega
    simp [this, hl]

theorem parse_finish_eq (content : CStr) (start : Nat) (sentences : List CStr) (frag : CStr)
    (h : content.drop start = frag) :
    parse_finish content (start, sentences)
      = if frag = [] then sentences else emit sentences frag := by
  unfold parse_finish
  by_cases hf : frag = []
  · subst hf
    have : content.length ≤ start := List.drop_eq_nil_iff.mp h
    have h2 : ¬ start < content.length := by omega
    simp [h2]
  · have hlt : start < content.length := by
      by_contra hc
      exact hf (h ▸ List.drop_eq_nil_iff.mpr (by omega))
    have hlen : frag.length = content.length - start := by rw [← h]; simp
    have hcast : ((content.length : Int) - (start : Int)) = (frag.length : Int) := by omega
    simp only [hlt, if_true, hf, if_false, hcast]
    apply store_sentence_eq _ _ _ _ hf
    rw [h]; simp

theorem drop_succ_of_drop {content rest : CStr} {i : Nat} {c : Char}
    (h : content.drop i = c :: rest) : content.drop (i + 1) = rest := by
  have : content.drop (i + 1) = (content.drop i).drop 1 := by
    rw [List.drop_drop, Nat.add_comm]
  rw [this, h]; rfl

theorem parse_loop_scan (content : CStr) :
    ∀ (rest : CStr) (i start : Nat) (sentences : List CStr) (cur : CStr) (skip : Bool),
      ParseInv content rest i start cur skip →
      parse_finish content (parse_loop content rest i start sentences)
        = scan sentences cur skip rest := by
  intro rest
  induction rest with
  | nil =>
    intro i start sentences cur skip ⟨_, h2, _⟩
    have h2' : content.drop start = cur := by
      cases skip <;> simpa [drop_spaces] using h2
    rw [parse_loop, parse_finish_eq content start sentences cur h2', scan]
  | cons c rest ih =>
    intro i start sentences cur skip ⟨h1, h2, h3⟩
    have hd := drop_succ_of_drop h1
    rw [parse_loop, scan]
    by_cases hc : sentences.length < 1000
    · simp only [hc, if_true]
      by_cases hsp : (skip && c == ' ') = true
      · -- inside the run of spaces after a delimiter
        simp only [Bool.and_eq_true, beq_iff_eq] at hsp
        obtain ⟨hs, hcs⟩ := hsp
        subst hs; subst hcs
        have hnd : is_delimiter ' ' = false := by decide
        simp only [hnd, Bool.false_eq_true, if_false, Bool.and_self, beq_self_eq_true, if_true]
        simp only [if_true] at h2 h3
        apply ih
        refine ⟨hd, ?_, ?_⟩
        · simpa [drop_spaces] using h2
        · simp only [if_true]
          refine ⟨h3.1, ?_⟩
          rw [h3.2]; simp; omega
      · simp only [hsp, Bool.false_eq_true, if_false]
        -- the pending text is `cur ++ c :: rest`
        have hpend : content.drop start = cur ++ c :: rest ∧ start + cur.length = i := by
          cases skip with
          | false => exact ⟨by simpa using h2, by simpa using h3⟩
          | true =>
            have hne : ¬ c = ' ' := by simpa using hsp
            simp only [if_true] at h2 h3
            refine ⟨by simpa [drop_spaces, hne] using h2, ?_⟩
            rw [h3.1, h3.2]; simp [hne]
        obtain ⟨hp1, hp2⟩ := hpend
        by_cases hdl : is_delimiter c = true
        · simp only [hdl, if_true]
          have hst : store_sentence content start ((i : Int) - (start : Int) + 1) sentences
              = emit sentences (cur ++ [c]) := by
            have hcast : ((i : Int) - (start : Int) + 1) = ((cur ++ [c]).length : Int) := by
              simp; omega
            rw [hcast]
            apply store_sentence_eq _ _ _ _ (by simp)
            rw [hp1]
            have : (cur ++ [c]).length = cur.length + 1 := by simp
            rw [this, show cur ++ c :: rest = (cur ++ [c]) ++ rest by simp]
            exact List.take_left' (by simp)
          rw [hst]
          apply ih
          refine ⟨hd, ?_, ?_⟩
          · simp only [if_true, List.nil_append]
            rw [skip_spaces_eq]
            have : content.drop (i + 1 + (rest.takeWhile (fun c => c == ' ')).length)
                = (content.drop (i + 1)).drop (rest.takeWhile (fun c => c == ' ')).length := by
              rw [List.drop_drop, Nat.add_comm]
            rw [this, hd, drop_takeWhile_length]
          · simp only [if_true]
            exact ⟨trivial, skip_spaces_eq _ _⟩
        · simp only [hdl, Bool.false_eq_true, if_false]
          apply ih
          refine ⟨hd, ?_, ?_⟩
          · simpa using hp1
          · simp; omega
    · simp only [hc, if_false]
      have hfrag : content.drop start
          = cur ++ (if skip then drop_spaces (c :: rest) else c :: rest) := h2
      rw [parse_finish_eq content start sentences _ hfrag]

/-- The function `parse_sentences` computes `scan` from the empty state. -/
theorem parse_sentences_eq_scan (content : CStr) :
    parse_sentences content = scan [] [] false content := by
  have h := parse_loop_scan content content 0 0 [] [] false
    ⟨by simp, by simp, by simp⟩
  rw [← h]; rfl

theorem delim_ne_space {d : Char} (h : is_delimiter d = true) : d ≠ ' ' := by
  intro hd; subst hd; revert h; decide

theorem drop_spaces_of_noLeadSp {s : CStr} (h : NoLeadSp s) : drop_spaces s = s := by
  cases s with
  | nil => rfl
  | cons c t =>
    have : c ≠ ' ' := by
      intro hc; apply h; simp [hc]
    simp [drop_spaces, this]

theorem noLeadSp_drop_spaces (s : CStr) : NoLeadSp (drop_spaces s) := by
  induction s with
  | nil => simp [NoLeadSp, drop_spaces]
  | cons c t ih =>
    by_cases hc : c = ' '
    · simpa [drop_spaces, hc] using ih
    · simp [drop_spaces, hc, NoLeadSp]

theorem Canon.mono {n : Nat} {l : List CStr} (h : Canon n false l) (lead : Bool) :
    Canon n lead l := by
  cases h with
  | nil => exact Canon.nil _ _
  | frag _ _ f h1 h2 h3 h4 => exact Canon.frag _ _ f h1 h2 (fun _ => h3 rfl) h4
  | cons _ _ s l h1 h2 h3 h4 => exact Canon.cons _ _ s l h1 h2 (fun _ => h3 rfl) h4

theorem Canon.mono_true {n : Nat} {lead : Bool} {l : List CStr} (h : Canon n lead l) :
    Canon n true l := by
  cases h with
  | nil => exact Canon.nil _ _
  | frag _ _ f h1 h2 h3 h4 => exact Canon.frag _ _ f h1 h2 (fun h => by cases h) h4
  | cons _ _ s l h1 h2 h3 h4 => exact Canon.cons _ _ s l h1 h2 (fun h => by cases h) h4

theorem emit_cases (sentences : List CStr) (s : CStr) :
    (s.length < MAX_SENTENCE_LENGTH ∧ emit sentences s = sentences ++ [s]) ∨
    (¬ s.length < MAX_SENTENCE_LENGTH ∧ emit sentences s = sentences) := by
  unfold emit
  by_cases h : s.length < MAX_SENTENCE_LENGTH
  · left; simp [h]
  · right; simp [h]

theorem noLeadSp_of_may_lead {cur : CStr} {skip : Bool} (x : CStr)
    (h : may_lead cur skip = false) (hx : cur = [] → skip = true → NoLeadSp x) (hs : skip = true → cur = []):
    NoLeadSp (cur ++ x) := by
  unfold may_lead at h
  simp only [Bool.or_eq_false_iff, Bool.and_eq_false_iff] at h
  obtain ⟨h1, h2⟩ := h
  cases cur with
  | nil =>
    simp only [List.isEmpty_nil, Bool.true_eq_false, false_or, Bool.not_eq_false'] at h2
    simpa using hx rfl h2
  | cons a t =>
    have : a ≠ ' ' := by simpa using h1
    simp [NoLeadSp, this]

/-- Every list of rows `scan` adds has the shape `Canon`. -/
theorem scan_canon :
    ∀ (rest : CStr) (sentences : List CStr) (cur : CStr) (skip : Bool),
      NoDelim cur → (skip = true → cur = []) →
      ∃ l, scan sentences cur skip rest = sentences ++ l ∧
        Canon sentences.length (may_lead cur skip) l := by
  intro rest
  induction rest with
  | nil =>
    intro sentences cur skip hnd hs
    rw [scan]
    by_cases hc : cur = []
    · exact ⟨[], by simp [hc], Canon.nil _ _⟩
    · simp only [hc, if_false]
      rcases emit_cases sentences cur with ⟨hl, he⟩ | ⟨_, he⟩
      · refine ⟨[cur], he, Canon.frag _ _ cur hc hl ?_ (fun _ => hnd)⟩
        intro hm
        have := @noLeadSp_of_may_lead cur skip [] hm
          (fun h => absurd h hc) hs
        simpa using this
      · exact ⟨[], by simp [he], Canon.nil _ _⟩
  | cons c rest ih =>
    intro sentences cur skip hnd hs
    rw [scan]
    by_cases hn : sentences.length < 1000
    · simp only [hn, if_true]
      by_cases hsp : (skip && c == ' ') = true
      · simp only [hsp, if_true]
        simp only [Bool.and_eq_true, beq_iff_eq] at hsp
        obtain ⟨hsk, _⟩ := hsp
        subst hsk
        exact ih sentences cur true hnd hs
      · simp only [hsp, Bool.false_eq_true, if_false]
        by_cases hdl : is_delimiter c = true
        · simp only [hdl, if_true]
          rcases emit_cases sentences (cur ++ [c]) with ⟨hl, he⟩ | ⟨_, he⟩
          · obtain ⟨l, h1, h2⟩ := ih (sentences ++ [cur ++ [c]]) [] true
              (by intro x hx; cases hx) (fun _ => rfl)
            refine ⟨(cur ++ [c]) :: l, ?_, ?_⟩
            · rw [he, h1]; simp
            · refine Canon.cons _ _ _ _ ⟨cur, c, rfl, hdl, hnd, hl⟩ hn ?_ ?_
              · intro hm
                exact noLeadSp_of_may_lead [c] hm
                  (fun _ _ => by simp [NoLeadSp, delim_ne_space hdl]) hs
              · have hm : may_lead [] true = false := by decide
                rw [hm] at h2
                simpa using h2
          · obtain ⟨l, h1, h2⟩ := ih sentences [] true
              (by intro x hx; cases hx) (fun _ => rfl)
            refine ⟨l, by rw [he, h1], ?_⟩
            have hm : may_lead [] true = false := by decide
            rw [hm] at h2
            exact h2.mono _
        · simp only [hdl, Bool.false_eq_true, if_false]
          have hnd2 : NoDelim (cur ++ [c]) := by
            intro x hx
            rcases List.mem_append.mp hx with hx | hx
            · exact hnd x hx
            · have : x = c := by simpa using hx
              subst this; simpa using hdl
          obtain ⟨l, h1, h2⟩ := ih sentences (cur ++ [c]) false hnd2 (by intro h; cases h)
          refine ⟨l, h1, ?_⟩
          by_cases hm : may_lead cur skip = true
          · rw [hm]; exact h2.mono_true
          · have hm0 : may_lead cur skip = false := by simpa using hm
            have hnl : NoLeadSp (cur ++ [c]) := by
              apply noLeadSp_of_may_lead [c] hm0 _ hs
              intro hc0 hsk
              have : c ≠ ' ' := by
                intro hcs; apply hsp; simp [hsk, hcs]
              simp [NoLeadSp, this]
            have hm1 : may_lead (cur ++ [c]) false = false := by
              unfold may_lead
              have h0 : ((cur ++ [c]).head? == some ' ') = false := by
                have := hnl
                unfold NoLeadSp at this
                simpa using this
              have h1e : (cur ++ [c]).isEmpty = false := by cases cur <;> rfl
              rw [h0, h1e]; rfl
            rw [hm1] at h2; rw [hm0]; exact h2
    · simp only [hn, if_false]
      by_cases hf : cur ++ (if skip = true then drop_spaces (c :: rest) else c :: rest) = []
      · exact ⟨[], by simp [hf], Canon.nil _ _⟩
      · simp only [hf, if_false]
        rcases emit_cases sentences
          (cur ++ (if skip = true then drop_spaces (c :: rest) else c :: rest)) with
          ⟨hl, he⟩ | ⟨_, he⟩
        · refine ⟨[_], he, Canon.frag _ _ _ hf hl ?_ (fun h => absurd h hn)⟩
          intro hm
          apply noLeadSp_of_may_lead _ hm _ hs
          intro _ hsk
          simp only [hsk, if_true]
          exact noLeadSp_drop_spaces _
        · exact ⟨[], by simp [he], Canon.nil _ _⟩

theorem getLast?_append_ne (out a : CStr) (ha : a ≠ []) :
    (out ++ a).getLast? = a.getLast? := by
  rw [List.getLast?_append]
  cases h : a.getLast? with
  | none => exact absurd (List.getLast?_eq_none_iff.mp h) ha
  | some x => rfl

theorem reconstruct_loop_append :
    ∀ (l : List CStr) (out a : CStr), a ≠ [] →
      reconstruct_loop l (out ++ a) = out ++ reconstruct_loop l a := by
  intro l
  induction l with
  | nil => intro out a _; simp [reconstruct_loop]
  | cons s rest ih =>
    intro out a ha
    have hne : a ++ s ≠ [] := by simp [ha]
    have hlast : (out ++ a ++ s).getLast? = (a ++ s).getLast? := by
      rw [List.append_assoc]; exact getLast?_append_ne _ _ hne
    have hpos1 : 0 < (out ++ a ++ s).length := by
      have := List.length_pos.mpr ha; simp; omega
    have hpos2 : 0 < (a ++ s).length := List.length_pos.mpr hne
    simp only [reconstruct_loop, hlast, hpos1, hpos2, decide_True, Bool.and_true]
    split
    · rw [show out ++ a ++ s ++ [' '] = out ++ (a ++ s ++ [' ']) by simp]
      exact ih _ _ (by simp)
    · rw [show out ++ a ++ s = out ++ (a ++ s) by simp]
      exact ih _ _ hne

theorem reconstruct_loop_out (s : CStr) (l : List CStr) (out : CStr) (hs : s ≠ []) :
    reconstruct_loop (s :: l) out = out ++ reconstruct_loop (s :: l) [] := by
  have hlast : (out ++ s).getLast? = s.getLast? := getLast?_append_ne _ _ hs
  have hpos1 : 0 < (out ++ s).length := by
    have := List.length_pos.mpr hs; simp; omega
  have hpos2 : 0 < s.length := List.length_pos.mpr hs
  simp only [reconstruct_loop, hlast, hpos1, hpos2, decide_True, Bool.and_true, List.nil_append]
  split
  · rw [show out ++ s ++ [' '] = out ++ (s ++ [' ']) by simp]
    exact reconstruct_loop_append _ _ _ (by simp)
  · exact reconstruct_loop_append _ _ _ hs

/-- Between a row that ends in a character other than a space and a
following non-empty row, `reconstruct_file` writes a single space. -/
theorem reconstruct_file_cons (s t : CStr) (l : List CStr)
    (hs : s ≠ []) (hl : s.getLast? ≠ some ' ') (ht : t ≠ []) :
    reconstruct_file (s :: t :: l) = s ++ ' ' :: reconstruct_file (t :: l) := by
  have hpos : 0 < s.length := List.length_pos.mpr hs
  have hb : (s.getLast? != some ' ') = true := by simpa using hl
  unfold reconstruct_file
  rw [reconstruct_loop]
  simp only [List.nil_append, List.isEmpty_cons, Bool.not_false, hpos, decide_True, hb,
    Bool.and_self, if_true]
  rw [reconstruct_loop_out t l _ ht]
  simp

theorem reconstruct_file_single (s : CStr) : reconstruct_file [s] = s := by
  simp [reconstruct_file, reconstruct_loop]

theorem scan_sentence :
    ∀ (body : CStr) (sentences : List CStr) (cur : CStr) (skip : Bool) (d : Char) (rest : CStr),
      NoDelim body → is_delimiter d = true → sentences.length < 1000 →
      (skip = true → NoLeadSp (body ++ [d])) →
      scan sentences cur skip (body ++ d :: rest)
        = scan (emit sentences (cur ++ body ++ [d])) [] true rest := by
  intro body
  induction body with
  | nil =>
    intro sentences cur skip d rest _ hd hn _
    have hne : (d == ' ') = false := by simpa using delim_ne_space hd
    simp [scan, hn, hd, hne]
  | cons b body ih =>
    intro sentences cur skip d rest hnd hd hn hsk
    have hb : is_delimiter b = false := hnd b (by simp)
    have hsp : (skip && b == ' ') = false := by
      cases skip with
      | false => rfl
      | true =>
        have := hsk rfl
        simpa [NoLeadSp] using this
    have := ih sentences (cur ++ [b]) false d rest
      (fun x hx => hnd x (List.mem_cons_of_mem _ hx)) hd hn (by intro h; cases h)
    rw [List.cons_append, scan]
    simp only [hn, if_true, hsp, hb, Bool.false_eq_true, if_false]
    rw [this]; simp

theorem scan_fragment :
    ∀ (f : CStr) (sentences : List CStr) (cur : CStr) (skip : Bool),
      NoDelim f → sentences.length < 1000 → (skip = true → NoLeadSp f) →
      scan sentences cur skip f
        = if cur ++ f = [] then sentences else emit sentences (cur ++ f) := by
  intro f
  induction f with
  | nil => intro sentences cur skip _ _ _; simp [scan]
  | cons b f ih =>
    intro sentences cur skip hnd hn hsk
    have hb : is_delimiter b = false := hnd b (by simp)
    have hsp : (skip && b == ' ') = false := by
      cases skip with
      | false => rfl
      | true =>
        have := hsk rfl
        simpa [NoLeadSp] using this
    have := ih sentences (cur ++ [b]) false
      (fun x hx => hnd x (List.mem_cons_of_mem _ hx)) hn (by intro h; cases h)
    simp only [scan, hn, if_true, hsp, hb, Bool.false_eq_true, if_false]
    rw [this]; simp

theorem IsSent.ne_nil {s : CStr} (h : IsSent s) : s ≠ [] := by
  obtain ⟨body, d, rfl, _⟩ := h; simp

theorem IsSent.last {s : CStr} (h : IsSent s) : s.getLast? ≠ some ' ' := by
  obtain ⟨body, d, rfl, hd, _⟩ := h
  simpa using delim_ne_space hd

theorem Canon.head_ne_nil {n : Nat} {lead : Bool} {t : CStr} {l : List CStr}
    (h : Canon n lead (t :: l)) : t ≠ [] := by
  cases h with
  | frag _ _ f h1 _ _ _ => exact h1
  | cons _ _ s l h1 _ _ _ => exact h1.ne_nil

/-- Parsing the reconstruction of rows of the shape `Canon` gives the rows
back. -/
theorem scan_reconstruct :
    ∀ (l : List CStr) (n : Nat) (lead : Bool) (sentences : List CStr),
      Canon n lead l → sentences.length = n →
      scan sentences [] (!lead) (reconstruct_file l) = sentences ++ l := by
  intro l
  induction l with
  | nil =>
    intro n lead sentences _ _
    simp [reconstruct_file, reconstruct_loop, scan]
  | cons s l ih =>
    intro n lead sentences hc hlen
    cases hc with
    | frag _ _ f h1 h2 h3 h4 =>
      rw [reconstruct_file_single]
      have hlead : (!lead) = true → NoLeadSp s := by
        intro h; apply h3; simpa using h
      by_cases hn : n < 1000
      · rw [scan_fragment s sentences [] (!lead) (h4 hn) (hlen ▸ hn) hlead]
        simp [h1, emit, h2]
      · obtain ⟨c, t, rfl⟩ := List.exists_cons_of_ne_nil h1
        have hn2 : ¬ sentences.length < 1000 := hlen ▸ hn
        rw [scan]
        simp only [hn2, if_false, List.nil_append]
        have hfr : (if (!lead) = true then drop_spaces (c :: t) else c :: t) = c :: t := by
          by_cases hl : (!lead) = true
          · simp only [hl, if_true]; exact drop_spaces_of_noLeadSp (hlead hl)
          · simp [hl]
        rw [hfr, if_neg h1, emit, if_pos h2]
    | cons _ _ _ _ h1 h2 h3 h4 =>
      obtain ⟨body, d, hs, hd, hnd, hlt⟩ := h1
      have hsent : IsSent s := ⟨body, d, hs, hd, hnd, hlt⟩
      have hlead : (!lead) = true → NoLeadSp (body ++ [d]) := by
        intro h; rw [← hs]; apply h3; simpa using h
      have hn : sentences.length < 1000 := hlen ▸ h2
      have hemit : emit sentences ([] ++ body ++ [d]) = sentences ++ [s] := by
        simp only [List.nil_append, ← hs, emit, hlt, if_true]
      cases l with
      | nil =>
        rw [reconstruct_file_single, hs]
        have := scan_sentence body sentences [] (!lead) d [] hnd hd hn hlead
        simp only [List.nil_append] at this hemit
        rw [this, hemit, scan]; simp [hs]
      | cons t l =>
        have ht : t ≠ [] := h4.head_ne_nil
        rw [reconstruct_file_cons s t l hsent.ne_nil hsent.last ht, hs]
        rw [show body ++ [d] ++ ' ' :: reconstruct_file (t :: l)
          = body ++ d :: (' ' :: reconstruct_file (t :: l)) by simp]
        rw [scan_sentence body sentences [] (!lead) d _ hnd hd hn hlead, hemit]
        have hlen2 : (sentences ++ [s]).length = n + 1 := by simp [hlen]
        by_cases hn1 : n + 1 < 1000
        · have hstep : scan (sentences ++ [s]) [] true (' ' :: reconstruct_file (t :: l))
              = scan (sentences ++ [s]) [] true (reconstruct_file (t :: l)) := by
            rw [scan]
            simp [hlen2, hn1]
          rw [hstep]
          have := ih (n + 1) false (sentences ++ [s]) h4 hlen2
          simp only [Bool.not_false] at this
          rw [this]; simp [hs]
        · -- the ceiling of 1000 rows is reached: what follows is one fragment
          cases h4 with
          | cons _ _ _ _ _ h5 _ _ => exact absurd h5 hn1
          | frag _ _ _ g1 g2 g3 g4 =>
            rw [reconstruct_file_single, scan]
            have hn3 : ¬ (sentences ++ [s]).length < 1000 := by rw [hlen2]; exact hn1
            simp only [hn3, if_false, List.nil_append, if_true]
            have : drop_spaces (' ' :: t) = t := by
              have := drop_spaces_of_noLeadSp (g3 rfl)
              simpa [drop_spaces] using this
            rw [this]
            simp [ht, emit, g2, hs]

theorem scan_extends :
    ∀ (rest : CStr) (sentences : List CStr) (cur : CStr) (skip : Bool),
      ∃ l, scan sentences cur skip rest = sentences ++ l := by
  intro rest
  induction rest with
  | nil =>
    intro sentences cur skip
    rw [scan]
    by_cases hc : cur = []
    · exact ⟨[], by simp [hc]⟩
    · simp only [hc, if_false]
      rcases emit_cases sentences cur with ⟨_, he⟩ | ⟨_, he⟩
      · exact ⟨[cur], he⟩
      · exact ⟨[], by simp [he]⟩
  | cons c rest ih =>
    intro sentences cur skip
    rw [scan]
    by_cases hn : sentences.length < 1000
    · simp only [hn, if_true]
      split
      · exact ih sentences cur true
      · split
        · obtain ⟨l, hl⟩ := ih (emit sentences (cur ++ [c])) [] true
          rcases emit_cases sentences (cur ++ [c]) with ⟨_, he⟩ | ⟨_, he⟩
          · exact ⟨(cur ++ [c]) :: l, by rw [hl, he]; simp⟩
          · exact ⟨l, by rw [hl, he]⟩
        · exact ih sentences (cur ++ [c]) false
    · simp only [hn, if_false]
      by_cases hf : cur ++ (if skip = true then drop_spaces (c :: rest) else c :: rest) = []
      · exact ⟨[], by simp [hf]⟩
      · simp only [hf, if_false]
        rcases emit_cases sentences
          (cur ++ (if skip = true then drop_spaces (c :: rest) else c :: rest)) with
          ⟨_, he⟩ | ⟨_, he⟩
        · exact ⟨[_], he⟩
        · exact ⟨[], by simp [he]⟩

/-- When the loop adds no row to fewer than 1000 rows and the text at hand
is shorter than `MAX_SENTENCE_LENGTH`, nothing is pending and only spaces are
left. -/
theorem scan_adds_nothing :
    ∀ (rest : CStr) (sentences : List CStr) (cur : CStr) (skip : Bool),
      scan sentences cur skip rest = sentences → sentences.length < 1000 →
      (cur ++ rest).length < MAX_SENTENCE_LENGTH →
      cur = [] ∧ ∀ c ∈ rest, c = ' ' := by
  intro rest
  induction rest with
  | nil =>
    intro sentences cur skip h _ hlen
    rw [scan] at h
    by_cases hc : cur = []
    · exact ⟨hc, by simp⟩
    · simp only [hc, if_false, emit] at h
      rw [if_pos (by simpa using hlen)] at h
      have := congrArg List.length h
      simp at this
  | cons c rest ih =>
    intro sentences cur skip h hn hlen
    rw [scan] at h
    simp only [hn, if_true] at h
    by_cases hsp : (skip && c == ' ') = true
    · simp only [hsp, if_true] at h
      have hc : c = ' ' := by
        simp only [Bool.and_eq_true, beq_iff_eq] at hsp; exact hsp.2
      obtain ⟨h1, h2⟩ := ih sentences cur true h hn (by simp at hlen ⊢; omega)
      refine ⟨h1, ?_⟩
      intro x hx
      rcases List.mem_cons.mp hx with hx | hx
      · rw [hx, hc]
      · exact h2 x hx
    · simp only [hsp, Bool.false_eq_true, if_false] at h
      by_cases hdl : is_delimiter c = true
      · simp only [hdl, if_true, emit] at h
        rw [if_pos (by simp at hlen ⊢; omega)] at h
        obtain ⟨l, hl⟩ := scan_extends rest (sentences ++ [cur ++ [c]]) [] true
        rw [hl] at h
        have := congrArg List.length h
        simp at this
      · simp only [hdl, Bool.false_eq_true, if_false] at h
        obtain ⟨h1, _⟩ := ih sentences (cur ++ [c]) false h hn (by simpa using hlen)
        simp at h1

theorem first_delimiter (j : CStr) :
    NoDelim j ∨ ∃ body d rest, j = body ++ d :: rest ∧ NoDelim body ∧ is_delimiter d = true := by
  induction j with
  | nil => left; intro c hc; cases hc
  | cons a t ih =>
    by_cases ha : is_delimiter a = true
    · right; exact ⟨[], a, t, rfl, (by intro c hc; cases hc), ha⟩
    · have ha0 : is_delimiter a = false := by simpa using ha
      rcases ih with h | ⟨body, d, rest, h1, h2, h3⟩
      · left
        intro c hc
        rcases List.mem_cons.mp hc with hc | hc
        · rw [hc]; exact ha0
        · exact h c hc
      · right
        refine ⟨a :: body, d, rest, by rw [h1]; rfl, ?_, h3⟩
        intro c hc
        rcases List.mem_cons.mp hc with hc | hc
        · rw [hc]; exact ha0
        · exact h2 c hc

/-- A non-empty text shorter than `MAX_SENTENCE_LENGTH` that does not end in
a space and parses into at most one sentence is that sentence. -/
theorem parse_sentences_single (j : CStr) (hne : j ≠ [])
    (hlen : j.length < MAX_SENTENCE_LENGTH) (hlast : j.getLast? ≠ some ' ')
    (hone : (parse_sentences j).length ≤ 1) : parse_sentences j = [j] := by
  rw [parse_sentences_eq_scan] at hone ⊢
  rcases first_delimiter j with h | ⟨body, d, rest, h1, h2, h3⟩
  · rw [scan_fragment j [] [] false h (by simp) (by intro h; cases h)]
    simp [hne, emit, hlen]
  · have hstep := scan_sentence body [] [] false d rest h2 h3 (by simp) (by intro h; cases h)
    have hplen : (body ++ [d]).length < MAX_SENTENCE_LENGTH := by
      rw [h1] at hlen; simp at hlen ⊢; omega
    have hemit : emit [] ([] ++ body ++ [d]) = [body ++ [d]] := by
      simp only [List.nil_append, emit, hplen, if_true]
    rw [h1, hstep, hemit] at hone ⊢
    obtain ⟨l, hl⟩ := scan_extends rest [body ++ [d]] [] true
    have hl0 : l = [] := by
      rw [hl] at hone
      simp at hone
      exact hone
    rw [hl0, List.append_nil] at hl
    obtain ⟨_, hsp⟩ := scan_adds_nothing rest [body ++ [d]] [] true hl (by simp)
      (by rw [h1] at hlen; simp at hlen ⊢; omega)
    have hrest : rest = [] := by
      by_contra hr
      apply hlast
      rw [h1, show body ++ d :: rest = (body ++ [d]) ++ rest by simp,
        getLast?_append_ne _ _ hr]
      have hmem := List.getLast_mem hr
      rw [List.getLast?_eq_getLast _ hr, hsp _ hmem]
    rw [hl, hrest]

/-- C1: for every content, parsing it, reconstructing the text from the
sentences and parsing that text again gives the sentence list of the first
parse. -/
theorem parse_reconstruct_parse (c : CStr) :
    parse_sentences (reconstruct_file (parse_sentences c)) = parse_sentences c := by
  obtain ⟨l, h1, h2⟩ := scan_canon c [] [] false (by intro x hx; cases hx) (by intro h; cases h)
  have hm : may_lead [] false = true := by decide
  rw [hm] at h2
  simp only [List.nil_append, List.length_nil] at h1 h2
  rw [parse_sentences_eq_scan c, h1, parse_sentences_eq_scan]
  have := scan_reconstruct l 0 true [] h2 rfl
  simpa using this

/-! ## The sentence engine: shape of the sentences, spaces, reconstruction -/

theorem reconstruct_loop_space :
    ∀ (l : List CStr) (out : CStr), out.getLast? = some ' ' →
      reconstruct_loop l out = out ++ reconstruct_loop l [] := by
  intro l
  induction l with
  | nil => intro out _; simp [reconstruct_loop]
  | cons u r ih =>
    intro out hout
    by_cases hu : u = []
    · subst hu
      have h1 : reconstruct_loop ([] :: r) out = reconstruct_loop r out := by
        rw [reconstruct_loop]
        simp [hout]
      have h2 : reconstruct_loop ([] :: r) [] = reconstruct_loop r [] := by
        rw [reconstruct_loop]
        simp
      rw [h1, h2, ih out hout]
    · exact reconstruct_loop_out u r out hu

theorem reconstruct_file_nil_cons (l : List CStr) :
    reconstruct_file ([] :: l) = reconstruct_file l := by
  unfold reconstruct_file
  rw [reconstruct_loop]
  simp

theorem reconstruct_file_cons_cons (s t : CStr) (l : List CStr) (hs : s ≠ []) :
    reconstruct_file (s :: t :: l)
      = s ++ (if s.getLast? ≠ some ' ' then [' '] else []) ++ reconstruct_file (t :: l) := by
  have hpos : 0 < s.length := List.length_pos.mpr hs
  unfold reconstruct_file
  rw [reconstruct_loop]
  by_cases hl : s.getLast? = some ' '
  · simp only [List.nil_append, hl, bne_self_eq_false, Bool.and_false, Bool.false_eq_true,
      if_false, ne_eq, not_true_eq_false, List.append_nil]
    exact reconstruct_loop_space _ _ hl
  · have hb : (s.getLast? != some ' ') = true := by simpa using hl
    simp only [List.nil_append, List.isEmpty_cons, Bool.not_false, hpos, decide_True, hb,
      Bool.and_self, if_true, ne_eq, hl, not_false_eq_true]
    rw [reconstruct_loop_space _ _ (by simp)]

/-- The text `reconstruct_file` builds, sentence by sentence. -/
theorem reconstruct_file_join (l : List CStr) :
    reconstruct_file l = join_sentences l := by
  induction l with
  | nil => rfl
  | cons s r ih =>
    cases r with
    | nil => rw [reconstruct_file_single]; rfl
    | cons t l =>
      by_cases hs : s = []
      · subst hs
        rw [reconstruct_file_nil_cons, ih]
        simp [join_sentences]
      · rw [reconstruct_file_cons_cons s t l hs, ih]
        simp [join_sentences, hs]

/-- C18 (amended): for every list of sentences, `reconstruct_file` returns
the sentences written one after the other in their order, with exactly one
space after each sentence that is not the last, is not empty and does not end
in a space character, and with nothing inserted after a sentence that ends in
a space or is empty; nothing is added after the last sentence. -/
theorem reconstruct_file_eq_join (l : List CStr) :
    reconstruct_file l = join_sentences l ∧
    reconstruct_file [] = [] ∧
    (∀ s : CStr, reconstruct_file [s] = s) ∧
    (∀ (s t : CStr) (r : List CStr), reconstruct_file (s :: t :: r) =
      s ++ (if s ≠ [] ∧ s.getLast? ≠ some ' ' then [' '] else []) ++
        reconstruct_file (t :: r)) := by
  refine ⟨reconstruct_file_join l, rfl, reconstruct_file_single, ?_⟩
  intro s t r
  rw [reconstruct_file_join, reconstruct_file_join, join_sentences]

/-- C18 as stated fails.  After a sentence that ends in a tab the code
inserts a space, where the claim has nothing inserted; after an empty
sentence the code inserts nothing, where the claim has a space inserted. -/
theorem reconstruct_file_tab_and_empty :
    reconstruct_file [['a', '\t'], ['b']] = ['a', '\t', ' ', 'b'] ∧
    join_sentences_ws [['a', '\t'], ['b']] = ['a', '\t', 'b'] ∧
    reconstruct_file [['a', '\t'], ['b']] ≠ join_sentences_ws [['a', '\t'], ['b']] ∧
    reconstruct_file [[], ['b']] = ['b'] ∧
    join_sentences_ws [[], ['b']] = [' ', 'b'] ∧
    reconstruct_file [[], ['b']] ≠ join_sentences_ws [[], ['b']] := by
  decide

theorem drop_spaces_all_spaces (sp : CStr) (h : ∀ c ∈ sp, c = ' ') : drop_spaces sp = [] := by
  induction sp with
  | nil => rfl
  | cons c r ih =>
    have hc : c = ' ' := h c (by simp)
    have := ih (fun x hx => h x (List.mem_cons_of_mem _ hx))
    simpa [drop_spaces, hc] using this

theorem pieces_nil :
    ∀ (rest cur : CStr) (skip : Bool), pieces cur skip rest = [] →
      cur = [] ∧ (∀ c ∈ rest, c = ' ') ∧ (rest ≠ [] → skip = true) := by
  intro rest
  induction rest with
  | nil =>
    intro cur skip h
    rw [pieces] at h
    by_cases hc : cur = []
    · exact ⟨hc, by simp, fun h => absurd rfl h⟩
    · simp [hc] at h
  | cons c r ih =>
    intro cur skip h
    rw [pieces] at h
    by_cases hsp : (skip && c == ' ') = true
    · simp only [hsp, if_true] at h
      simp only [Bool.and_eq_true, beq_iff_eq] at hsp
      obtain ⟨h1, h2, _⟩ := ih cur true h
      refine ⟨h1, ?_, fun _ => hsp.1⟩
      intro x hx
      rcases List.mem_cons.mp hx with hx | hx
      · rw [hx, hsp.2]
      · exact h2 x hx
    · simp only [hsp, Bool.false_eq_true, if_false] at h
      by_cases hd : is_delimiter c = true
      · simp [hd] at h
      · simp only [hd, Bool.false_eq_true, if_false] at h
        obtain ⟨h1, _, _⟩ := ih (cur ++ [c]) false h
        simp at h1

/-- Under the ceilings the loop of `parse_sentences` adds the sentences of
the text. -/
theorem scan_eq_pieces :
    ∀ (rest : CStr) (sentences : List CStr) (cur : CStr) (skip : Bool),
      sentences.length + (pieces cur skip rest).length ≤ 1000 →
      (∀ s ∈ pieces cur skip rest, s.length < MAX_SENTENCE_LENGTH) →
      scan sentences cur skip rest = sentences ++ pieces cur skip rest := by
  intro rest
  induction rest with
  | nil =>
    intro sentences cur skip _ hlen
    rw [pieces] at hlen
    rw [scan, pieces]
    by_cases hc : cur = []
    · simp [hc]
    · simp only [hc, if_false] at hlen ⊢
      rw [emit, if_pos (hlen cur (List.mem_singleton.mpr rfl))]
  | cons c r ih =>
    intro sentences cur skip hcount hlen
    rw [scan]
    by_cases hn : sentences.length < 1000
    · rw [pieces] at hcount hlen ⊢
      simp only [hn, if_true]
      by_cases hsp : (skip && c == ' ') = true
      · simp only [hsp, if_true] at hcount hlen ⊢
        exact ih sentences cur true hcount hlen
      · simp only [hsp, Bool.false_eq_true, if_false] at hcount hlen ⊢
        by_cases hd : is_delimiter c = true
        · simp only [hd, if_true] at hcount hlen ⊢
          rw [emit, if_pos (hlen _ (by simp))]
          rw [ih (sentences ++ [cur ++ [c]]) [] true
            (by simp at hcount ⊢; omega)
            (fun s hs => hlen s (List.mem_cons_of_mem _ hs))]
          simp
        · simp only [hd, Bool.false_eq_true, if_false] at hcount hlen ⊢
          exact ih sentences (cur ++ [c]) false hcount hlen
    · have hnil : pieces cur skip (c :: r) = [] := by
        apply List.eq_nil_of_length_eq_zero; omega
      obtain ⟨h1, h2, h3⟩ := pieces_nil _ _ _ hnil
      have hskip : skip = true := h3 (by simp)
      rw [hnil, h1, hskip]
      simp [hn, drop_spaces_all_spaces _ h2]

/-- For a content within the ceilings `parse_sentences` returns the
sentences of the content. -/
theorem within_ceilings_parse (c : CStr) (h : WithinCeilings c) :
    parse_sentences c = sentences_of c := by
  rw [parse_sentences_eq_scan]
  have := scan_eq_pieces c [] [] false (by simpa using h.1) h.2
  simpa [sentences_of] using this

theorem no_spaces_append (a b : CStr) : no_spaces (a ++ b) = no_spaces a ++ no_spaces b := by
  simp [no_spaces]

theorem no_spaces_pieces :
    ∀ (rest cur : CStr) (skip : Bool),
      no_spaces (pieces cur skip rest).flatten = no_spaces (cur ++ rest) := by
  intro rest
  induction rest with
  | nil =>
    intro cur skip
    rw [pieces]
    by_cases hc : cur = [] <;> simp [hc]
  | cons c r ih =>
    intro cur skip
    rw [pieces]
    by_cases hsp : (skip && c == ' ') = true
    · simp only [hsp, if_true]
      simp only [Bool.and_eq_true, beq_iff_eq] at hsp
      rw [ih, no_spaces_append, no_spaces_append, hsp.2]
      congr 1
    · simp only [hsp, Bool.false_eq_true, if_false]
      by_cases hd : is_delimiter c = true
      · simp only [hd, if_true, List.flatten_cons]
        rw [no_spaces_append, ih, show cur ++ c :: r = (cur ++ [c]) ++ r by simp]
        simp only [no_spaces_append, List.nil_append]
      · simp only [hd, Bool.false_eq_true, if_false]
        rw [ih]
        simp

theorem no_spaces_join (l : List CStr) :
    no_spaces (join_sentences l) = no_spaces l.flatten := by
  induction l with
  | nil => rfl
  | cons s r ih =>
    cases r with
    | nil => simp [join_sentences]
    | cons t l =>
      rw [join_sentences, no_spaces_append, no_spaces_append, ih]
      have : no_spaces (if s ≠ [] ∧ s.getLast? ≠ some ' ' then [' '] else []) = [] := by
        split <;> rfl
      rw [this]
      simp [no_spaces]

/-- C15: for every content within the ceilings (at most 1000 sentences, each
shorter than `MAX_SENTENCE_LENGTH`), the reconstruction of the parsed
sentences and the content are the same text once every space is deleted. -/
theorem reconstruct_parse_no_spaces (c : CStr) (h : WithinCeilings c) :
    no_spaces (reconstruct_file (parse_sentences c)) = no_spaces c := by
  rw [within_ceilings_parse c h, reconstruct_file_join, no_spaces_join, sentences_of,
    no_spaces_pieces]
  rfl

/-- The statement `reconstruct_parse_no_spaces` on the content
`  a.b!  c?   d  `, which parses into `  a.`, `b!`, `c?`, `d  ` and is
reconstructed as `  a. b! c? d  `. -/
theorem reconstruct_parse_no_spaces_witness :
    WithinCeilings "  a.b!  c?   d  ".toList ∧
    reconstruct_file (parse_sentences "  a.b!  c?   d  ".toList) = "  a. b! c? d  ".toList ∧
    no_spaces (reconstruct_file (parse_sentences "  a.b!  c?   d  ".toList))
      = no_spaces "  a.b!  c?   d  ".toList :=
  ⟨⟨by decide, by decide⟩, by decide,
    reconstruct_parse_no_spaces "  a.b!  c?   d  ".toList ⟨by decide, by decide⟩⟩

theorem noDelim_dropLast {s : CStr} (h : NoDelim s) : NoDelim s.dropLast :=
  fun c hc => h c (List.dropLast_subset s hc)

theorem canon_shape {n : Nat} {lead : Bool} {l : List CStr} (h : Canon n lead l) :
    n + l.length ≤ 1000 →
    (∀ s ∈ l, s ≠ []) ∧
    (∀ s ∈ l.dropLast, ∃ body d, s = body ++ [d] ∧ is_delimiter d = true ∧ NoDelim body) ∧
    (∀ s, l.getLast? = some s → NoDelim s.dropLast) := by
  induction h with
  | nil n lead => intro _; simp
  | frag n lead f h1 h2 h3 h4 =>
    intro hn
    refine ⟨by simpa using h1, by simp, ?_⟩
    intro s hs
    have : f = s := by simpa using hs
    subst this
    exact noDelim_dropLast (h4 (by simp at hn; omega))
  | cons n lead s l h1 h2 h3 h4 ih =>
    intro hn
    obtain ⟨i1, i2, i3⟩ := ih (by simp at hn; omega)
    obtain ⟨body, d, hs, hd, hnd, _⟩ := h1
    refine ⟨?_, ?_, ?_⟩
    · intro x hx
      rcases List.mem_cons.mp hx with hx | hx
      · rw [hx, hs]; simp
      · exact i1 x hx
    · intro x hx
      cases l with
      | nil => simp at hx
      | cons t l =>
        rw [List.dropLast_cons₂] at hx
        rcases List.mem_cons.mp hx with hx | hx
        · exact ⟨body, d, hx ▸ hs, hd, hnd⟩
        · exact i2 x hx
    · intro x hx
      cases l with
      | nil =>
        have : s = x := by simpa using hx
        rw [← this, hs]
        simpa using hnd
      | cons t l =>
        rw [List.getLast?_cons_cons] at hx
        exact i3 x hx

/-- The rows `parse_sentences` adds have the shape `Canon`. -/
theorem parse_sentences_canon (c : CStr) : Canon 0 true (parse_sentences c) := by
  obtain ⟨l, h1, h2⟩ := scan_canon c [] [] false (by intro x hx; cases hx) (by intro h; cases h)
  have hm : may_lead [] false = true := by decide
  rw [hm] at h2
  simp only [List.nil_append, List.length_nil] at h1 h2
  rw [parse_sentences_eq_scan, h1]
  exact h2

/-- C16: when `parse_sentences` returns at most 1000 sentences, as it does
for a content within the ceilings, every sentence is non-empty, every
sentence except possibly the last ends with a delimiter and has no delimiter
before its last character, and the last sentence has no delimiter except
possibly as its last character; an empty content gives no sentence. -/
theorem parse_sentences_shape (c : CStr) (h : (parse_sentences c).length ≤ 1000) :
    (∀ s ∈ parse_sentences c, s ≠ []) ∧
    (∀ s ∈ (parse_sentences c).dropLast,
      ∃ body d, s = body ++ [d] ∧ is_delimiter d = true ∧ NoDelim body) ∧
    (∀ s, (parse_sentences c).getLast? = some s → NoDelim s.dropLast) ∧
    parse_sentences [] = [] := by
  obtain ⟨h1, h2, h3⟩ := canon_shape (parse_sentences_canon c) (by omega)
  exact ⟨h1, h2, h3, by decide⟩

/-- A content within the ceilings parses into at most 1000 sentences. -/
theorem within_ceilings_count (c : CStr) (h : WithinCeilings c) :
    (parse_sentences c).length ≤ 1000 := by
  rw [within_ceilings_parse c h]; exact h.1

/-- The statement `parse_sentences_shape` on the content `  a.b!  c?   d  `. -/
theorem parse_sentences_shape_witness :
    (parse_sentences "  a.b!  c?   d  ".toList).length ≤ 1000 ∧
    parse_sentences "  a.b!  c?   d  ".toList
      = ["  a.".toList, "b!".toList, "c?".toList, "d  ".toList] ∧
    ((∀ s ∈ parse_sentences "  a.b!  c?   d  ".toList, s ≠ []) ∧
     (∀ s ∈ (parse_sentences "  a.b!  c?   d  ".toList).dropLast,
       ∃ body d, s = body ++ [d] ∧ is_delimiter d = true ∧ NoDelim body) ∧
     (∀ s, (parse_sentences "  a.b!  c?   d  ".toList).getLast? = some s →
       NoDelim s.dropLast) ∧
     parse_sentences [] = []) :=
  ⟨by decide, by decide, parse_sentences_shape "  a.b!  c?   d  ".toList (by decide)⟩

theorem canon_no_lead {n : Nat} {lead : Bool} {l : List CStr} (h : Canon n lead l) :
    (∀ s ∈ l.tail, NoLeadSp s) ∧ (lead = false → ∀ s ∈ l, NoLeadSp s) := by
  induction h with
  | nil n lead => simp
  | frag n lead f h1 h2 h3 h4 =>
    refine ⟨by simp, ?_⟩
    intro hl s hs
    have : s = f := by simpa using hs
    rw [this]; exact h3 hl
  | cons n lead s l h1 h2 h3 h4 ih =>
    refine ⟨fun x hx => ih.2 rfl x hx, ?_⟩
    intro hl x hx
    rcases List.mem_cons.mp hx with hx | hx
    · rw [hx]; exact h3 hl
    · exact ih.2 rfl x hx

theorem drop_spaces_append_spaces (sp y : CStr) (h : ∀ c ∈ sp, c = ' ') :
    drop_spaces (sp ++ y) = drop_spaces y := by
  induction sp with
  | nil => rfl
  | cons a r ih =>
    have ha : a = ' ' := h a (List.mem_cons_self _ _)
    subst ha
    have := ih (fun c hc => h c (List.mem_cons_of_mem _ hc))
    simpa [drop_spaces, List.dropWhile] using this

theorem drop_spaces_delim (u w : CStr) (d : Char) (hd : d ≠ ' ') :
    drop_spaces (u ++ d :: w) = drop_spaces (u ++ [d]) ++ w := by
  have hb : (d == ' ') = false := by simpa using hd
  induction u with
  | nil => simp [drop_spaces, List.dropWhile, hb]
  | cons a r ih =>
    by_cases ha : a = ' '
    · subst ha
      simpa [drop_spaces, List.dropWhile] using ih
    · have hc : (a == ' ') = false := by simpa using ha
      simp [drop_spaces, List.dropWhile, hc]

theorem drop_spaces_delim_ne_nil (u : CStr) (d : Char) (hd : d ≠ ' ') :
    drop_spaces (u ++ [d]) ≠ [] := by
  have hb : (d == ' ') = false := by simpa using hd
  induction u with
  | nil => simp [drop_spaces, List.dropWhile, hb]
  | cons a r ih =>
    by_cases ha : a = ' '
    · subst ha
      simpa [drop_spaces, List.dropWhile] using ih
    · have hc : (a == ' ') = false := by simpa using ha
      simp [drop_spaces, List.dropWhile, hc]

/-- The ceiling branch of `scan`: with 1000 rows filled the rest of the
content is one piece. -/
theorem scan_ceiling (S : List CStr) (cur : CStr) (skip : Bool) (z : CStr)
    (hS : ¬ S.length < 1000) (hz : cur = [] ∨ z ≠ []) :
    scan S cur skip z =
      (if cur ++ (if skip then drop_spaces z else z) = [] then S
       else emit S (cur ++ (if skip then drop_spaces z else z))) := by
  cases z with
  | nil =>
    rcases hz with hz | hz
    · subst hz
      cases skip <;> simp [scan, drop_spaces]
    · exact absurd rfl hz
  | cons c rest =>
    rw [scan]
    simp only [hS, if_false]

/-- Spaces right after a delimiter are not seen by `scan`. -/
theorem scan_spaces (sp : CStr) (h : ∀ c ∈ sp, c = ' ') (y : CStr) (S : List CStr) :
    scan S [] true (sp ++ y) = scan S [] true y := by
  by_cases hS : S.length < 1000
  · induction sp with
    | nil => rfl
    | cons a r ih =>
      have ha : a = ' ' := h a (List.mem_cons_self _ _)
      subst ha
      rw [List.cons_append, scan]
      simp only [hS, if_true]
      simpa using ih (fun c hc => h c (List.mem_cons_of_mem _ hc))
  · rw [scan_ceiling S [] true _ hS (Or.inl rfl), scan_ceiling S [] true _ hS (Or.inl rfl)]
    simp only [if_true, List.nil_append, drop_spaces_append_spaces sp y h]

theorem emit_longer (S : List CStr) (a b : CStr) (hS : ¬ S.length < 1000)
    (hab : b.length ≤ a.length) :
    (emit S a).length ≤ (emit S b).length ∧
    ((emit S b).length ≤ 1000 → emit S a = emit S b) := by
  unfold emit
  by_cases ha : a.length < MAX_SENTENCE_LENGTH
  · have hb : b.length < MAX_SENTENCE_LENGTH := by omega
    simp only [ha, hb, if_true, List.length_append, List.length_singleton]
    exact ⟨le_refl _, fun h => by omega⟩
  · simp only [ha, if_false]
    by_cases hb : b.length < MAX_SENTENCE_LENGTH
    · simp only [hb, if_true, List.length_append, List.length_singleton]
      exact ⟨by omega, fun h => by omega⟩
    · simp [hb]

/-- Spaces put right after a delimiter never add a sentence, and change no
sentence while the count stays within 1000. -/
theorem scan_swallow (d : Char) (hd : is_delimiter d = true) (sp y : CStr)
    (hsp : ∀ c ∈ sp, c = ' ') :
    ∀ (rest : CStr) (S : List CStr) (cur : CStr) (skip : Bool),
      (scan S cur skip (rest ++ d :: (sp ++ y))).length
          ≤ (scan S cur skip (rest ++ d :: y)).length ∧
      ((scan S cur skip (rest ++ d :: y)).length ≤ 1000 →
        scan S cur skip (rest ++ d :: (sp ++ y)) = scan S cur skip (rest ++ d :: y)) := by
  have hds : d ≠ ' ' := delim_ne_space hd
  have ceiling : ∀ (rest : CStr) (S : List CStr) (cur : CStr) (skip : Bool),
      ¬ S.length < 1000 →
      (scan S cur skip (rest ++ d :: (sp ++ y))).length
          ≤ (scan S cur skip (rest ++ d :: y)).length ∧
      ((scan S cur skip (rest ++ d :: y)).length ≤ 1000 →
        scan S cur skip (rest ++ d :: (sp ++ y)) = scan S cur skip (rest ++ d :: y)) := by
    intro rest S cur skip hS
    rw [scan_ceiling S cur skip _ hS (Or.inr (by simp)),
      scan_ceiling S cur skip _ hS (Or.inr (by simp))]
    have hA : ∀ w : CStr, (if skip then drop_spaces (rest ++ d :: w) else rest ++ d :: w)
        = (if skip then drop_spaces (rest ++ [d]) else rest ++ [d]) ++ w := by
      intro w
      cases skip
      · simp
      · simp only [if_true]; exact drop_spaces_delim rest w d hds
    have hP : (if skip then drop_spaces (rest ++ [d]) else rest ++ [d]) ≠ [] := by
      cases skip
      · simp
      · simp only [if_true]; exact drop_spaces_delim_ne_nil rest d hds
    rw [hA (sp ++ y), hA y]
    generalize (if skip then drop_spaces (rest ++ [d]) else rest ++ [d]) = P at hP ⊢
    have h1 : cur ++ (P ++ (sp ++ y)) ≠ [] := by simp [hP]
    have h2 : cur ++ (P ++ y) ≠ [] := by simp [hP]
    simp only [h1, h2, if_false]
    exact emit_longer S _ _ hS (by simp)
  intro rest
  induction rest with
  | nil =>
    intro S cur skip
    by_cases hS : S.length < 1000
    · rw [List.nil_append, List.nil_append, scan, scan]
      have h1 : (skip && d == ' ') = false := by simp [hds]
      simp only [hS, if_true, h1, hd, Bool.false_eq_true, if_false]
      rw [scan_spaces sp hsp y]
      exact ⟨le_refl _, fun _ => rfl⟩
    · exact ceiling [] S cur skip hS
  | cons c r ih =>
    intro S cur skip
    by_cases hS : S.length < 1000
    · simp only [List.cons_append]
      rw [scan, scan]
      simp only [hS, if_true]
      by_cases h1 : (skip && c == ' ') = true
      · simp only [h1, if_true]; exact ih S cur true
      · simp only [h1, if_false]
        by_cases h2 : is_delimiter c = true
        · simp only [h2, if_true]; exact ih _ [] true
        · simp only [h2, if_false]; exact ih S _ false
    · exact ceiling (c :: r) S cur skip hS

/-- Spaces put right after a delimiter that the loop reaches with fewer than
1000 rows filled change no sentence, whatever follows them. -/
theorem scan_swallow_prefix (d : Char) (hd : is_delimiter d = true) (sp y : CStr)
    (hsp : ∀ c ∈ sp, c = ' ') :
    ∀ (rest : CStr) (S : List CStr) (cur : CStr) (skip : Bool),
      (scan S cur skip rest).length < 1000 →
      scan S cur skip (rest ++ d :: (sp ++ y)) = scan S cur skip (rest ++ d :: y) := by
  have hds : d ≠ ' ' := delim_ne_space hd
  have small : ∀ (rest : CStr) (S : List CStr) (cur : CStr) (skip : Bool),
      (scan S cur skip rest).length < 1000 → S.length < 1000 := by
    intro rest S cur skip h
    obtain ⟨l, hl⟩ := scan_extends rest S cur skip
    rw [hl, List.length_append] at h
    omega
  intro rest
  induction rest with
  | nil =>
    intro S cur skip h
    have hS := small [] S cur skip h
    rw [List.nil_append, List.nil_append, scan, scan]
    have h1 : (skip && d == ' ') = false := by simp [hds]
    simp only [hS, if_true, h1, hd, Bool.false_eq_true, if_false]
    exact scan_spaces sp hsp y _
  | cons c r ih =>
    intro S cur skip h
    have hS := small (c :: r) S cur skip h
    rw [scan] at h
    simp only [hS, if_true] at h
    simp only [List.cons_append]
    rw [scan, scan]
    simp only [hS, if_true]
    by_cases h1 : (skip && c == ' ') = true
    · simp only [h1, if_true] at h ⊢; exact ih S cur true h
    · simp only [h1, if_false] at h ⊢
      by_cases h2 : is_delimiter c = true
      · simp only [h2, if_true] at h ⊢; exact ih _ [] true h
      · simp only [h2, if_false] at h ⊢; exact ih S _ false h

/-- C17 (amended): for every content, no sentence returned by
`parse_sentences` other than the first begins with a space; and a run of
spaces placed right after a delimiter (whatever follows it, also the end of
the content) adds no sentence, and leaves the sentences what they are without
the run when the text before the delimiter has fewer than 1000 sentences or
the sentences are at most 1000. -/
theorem parse_sentences_swallows_spaces (c : CStr) :
    (∀ s ∈ (parse_sentences c).tail, s.head? ≠ some ' ') ∧
    (∀ (x sp y : CStr) (d : Char), c = x ++ d :: (sp ++ y) → is_delimiter d = true →
      (∀ a ∈ sp, a = ' ') →
      (parse_sentences c).length ≤ (parse_sentences (x ++ d :: y)).length ∧
      (((parse_sentences x).length < 1000 ∨ (parse_sentences (x ++ d :: y)).length ≤ 1000) →
        parse_sentences c = parse_sentences (x ++ d :: y))) := by
  refine ⟨(canon_no_lead (parse_sentences_canon c)).1, ?_⟩
  intro x sp y d hc hd hsp
  subst hc
  rw [parse_sentences_eq_scan, parse_sentences_eq_scan, parse_sentences_eq_scan]
  refine ⟨(scan_swallow d hd sp y hsp x [] [] false).1, ?_⟩
  intro h
  rcases h with h | h
  · exact scan_swallow_prefix d hd sp y hsp x [] [] false h
  · exact (scan_swallow d hd sp y hsp x [] [] false).2 h

/-- The statement `parse_sentences_swallows_spaces` on `a.   b?  `: the
sentences are `a.` and `b?`, as for `a.b?`. -/
theorem parse_sentences_swallows_spaces_witness :
    parse_sentences "a.   b?  ".toList = ["a.".toList, "b?".toList] ∧
    parse_sentences "a.b?  ".toList = ["a.".toList, "b?".toList] ∧
    parse_sentences "a.b?".toList = ["a.".toList, "b?".toList] ∧
    parse_sentences "a.   b?  ".toList = parse_sentences "a.b?  ".toList ∧
    parse_sentences "a.b?  ".toList = parse_sentences "a.b?".toList :=
  ⟨by decide, by decide, by decide,
   ((parse_sentences_swallows_spaces "a.   b?  ".toList).2 "a".toList "   ".toList
      "b?  ".toList '.' (by decide) (by decide) (by decide)).2 (Or.inl (by decide)),
   ((parse_sentences_swallows_spaces "a.b?  ".toList).2 "a.b".toList "  ".toList
      [] '?' (by decide) (by decide) (by decide)).2 (Or.inr (by decide))⟩

/-! ## Sentences of `MAX_SENTENCE_LENGTH` characters or more -/

theorem drop_spaces_cons_ne {c : Char} (r : CStr) (hc : c ≠ ' ') :
    drop_spaces (c :: r) = c :: r := by
  have : (c == ' ') = false := by simpa using hc
  simp [drop_spaces, List.dropWhile, this]

/-- The first sentence of a text is no longer than what `parse_sentences`
stores of the text when its 1000 rows are filled. -/
theorem pieces_head_le :
    ∀ (rest cur : CStr) (skip : Bool) (p : CStr) (ps : List CStr),
      pieces cur skip rest = p :: ps →
      p.length ≤ (cur ++ (if skip then drop_spaces rest else rest)).length := by
  intro rest
  induction rest with
  | nil =>
    intro cur skip p ps h
    rw [pieces] at h
    by_cases hc : cur = []
    · simp [hc] at h
    · simp only [hc, if_false, List.cons.injEq] at h
      rw [← h.1]
      cases skip <;> simp [drop_spaces]
  | cons c r ih =>
    intro cur skip p ps h
    rw [pieces] at h
    by_cases hsp : (skip && c == ' ') = true
    · simp only [hsp, if_true] at h
      simp only [Bool.and_eq_true, beq_iff_eq] at hsp
      have := ih cur true p ps h
      rw [hsp.1, hsp.2]
      simpa [drop_spaces, List.dropWhile] using this
    · have hfrag : (if skip then drop_spaces (c :: r) else c :: r) = c :: r := by
        cases skip with
        | false => rfl
        | true =>
          simp only [if_true]
          apply drop_spaces_cons_ne
          intro hc
          exact hsp (by simp [hc])
      rw [hfrag]
      simp only [hsp, Bool.false_eq_true, if_false] at h
      by_cases hd : is_delimiter c = true
      · simp only [hd, if_true, List.cons.injEq] at h
        rw [← h.1]
        simp
      · simp only [hd, Bool.false_eq_true, if_false] at h
        have := ih (cur ++ [c]) false p ps h
        simpa using this

/-- The loop of `parse_sentences` adds the sentences of the text that are
shorter than `MAX_SENTENCE_LENGTH`, as long as they fit in the 1000 rows. -/
theorem scan_filter_pieces :
    ∀ (rest : CStr) (sentences : List CStr) (cur : CStr) (skip : Bool),
      sentences.length +
        ((pieces cur skip rest).filter
          (fun s => decide (s.length < MAX_SENTENCE_LENGTH))).length ≤ 1000 →
      scan sentences cur skip rest = sentences ++
        (pieces cur skip rest).filter (fun s => decide (s.length < MAX_SENTENCE_LENGTH)) := by
  intro rest
  induction rest with
  | nil =>
    intro sentences cur skip _
    rw [scan, pieces]
    by_cases hc : cur = []
    · simp [hc]
    · simp only [hc, if_false, emit]
      by_cases hl : cur.length < MAX_SENTENCE_LENGTH
      · simp [hl]
      · simp [hl]
  | cons c r ih =>
    intro sentences cur skip hcount
    rw [scan]
    by_cases hn : sentences.length < 1000
    · rw [pieces] at hcount ⊢
      simp only [hn, if_true]
      by_cases hsp : (skip && c == ' ') = true
      · simp only [hsp, if_true] at hcount ⊢
        exact ih sentences cur true hcount
      · simp only [hsp, Bool.false_eq_true, if_false] at hcount ⊢
        by_cases hd : is_delimiter c = true
        · simp only [hd, if_true] at hcount ⊢
          by_cases hl : (cur ++ [c]).length < MAX_SENTENCE_LENGTH
          · rw [List.filter_cons_of_pos (by simpa using hl)] at hcount ⊢
            rw [emit, if_pos hl,
              ih (sentences ++ [cur ++ [c]]) [] true (by simp at hcount ⊢; omega)]
            simp
          · rw [List.filter_cons_of_neg (by simpa using hl)] at hcount ⊢
            rw [emit, if_neg hl]
            exact ih sentences [] true hcount
        · simp only [hd, Bool.false_eq_true, if_false] at hcount ⊢
          exact ih sentences (cur ++ [c]) false hcount
    · have hnil : (pieces cur skip (c :: r)).filter
          (fun s => decide (s.length < MAX_SENTENCE_LENGTH)) = [] := by
        apply List.eq_nil_of_length_eq_zero; omega
      rw [hnil, List.append_nil]
      simp only [hn, if_false]
      cases hp : pieces cur skip (c :: r) with
      | nil =>
        obtain ⟨h1, h2, h3⟩ := pieces_nil _ _ _ hp
        have hskip : skip = true := h3 (by simp)
        rw [h1, hskip]
        simp [drop_spaces_all_spaces _ h2]
      | cons p ps =>
        have hlong : ¬ p.length < MAX_SENTENCE_LENGTH := by
          rw [hp, List.filter_eq_nil_iff] at hnil
          simpa using hnil p (List.mem_cons_self _ _)
        have hle := pieces_head_le _ _ _ _ _ hp
        have hne : cur ++ (if skip then drop_spaces (c :: r) else c :: r) ≠ [] := by
          intro h0
          rw [h0] at hle
          simp only [List.length_nil, Nat.le_zero] at hle
          rw [hle] at hlong
          exact hlong (by decide)
        simp only [hne, if_false]
        rw [emit, if_neg (by omega)]

theorem pieces_sentence :
    ∀ (body cur : CStr) (skip : Bool) (d : Char) (rest : CStr),
      NoDelim body → is_delimiter d = true → (skip = true → NoLeadSp (body ++ [d])) →
      pieces cur skip (body ++ d :: rest) = (cur ++ body ++ [d]) :: pieces [] true rest := by
  intro body
  induction body with
  | nil =>
    intro cur skip d rest _ hd _
    have hne : (d == ' ') = false := by simpa using delim_ne_space hd
    simp [pieces, hd, hne]
  | cons b body ih =>
    intro cur skip d rest hnd hd hsk
    have hb : is_delimiter b = false := hnd b (by simp)
    have hsp : (skip && b == ' ') = false := by
      cases skip with
      | false => rfl
      | true =>
        have := hsk rfl
        simpa [NoLeadSp] using this
    have := ih (cur ++ [b]) false d rest
      (fun x hx => hnd x (List.mem_cons_of_mem _ hx)) hd (by intro h; cases h)
    rw [List.cons_append, pieces]
    simp only [hsp, hb, Bool.false_eq_true, if_false]
    rw [this]; simp

theorem sentences_of_long_then_hi :
    sentences_of long_then_hi = [List.replicate 4095 'a' ++ ['.'], "Hi.".toList] := by
  have hnd : NoDelim (List.replicate 4095 'a') := by
    intro c hc
    rw [List.eq_of_mem_replicate hc]; decide
  unfold sentences_of long_then_hi
  rw [show ".Hi.".toList = '.' :: "Hi.".toList from rfl,
    pieces_sentence _ [] false '.' _ hnd (by decide) (by intro h; cases h)]
  simp only [List.nil_append]
  congr 1

theorem kept_long_then_hi : kept_sentences long_then_hi = ["Hi.".toList] := by
  unfold kept_sentences
  rw [sentences_of_long_then_hi]
  have h1 : ¬ (List.replicate 4095 'a' ++ ['.']).length < MAX_SENTENCE_LENGTH := by
    rw [List.length_append, List.length_replicate]; decide
  rw [List.filter_cons_of_neg (by rw [decide_eq_true_eq]; exact h1)]
  decide

/-! ## Sentence engine: contents past the ceiling of 1000 rows -/

theorem emit_short (S : List CStr) (s : CStr) (h : s.length < MAX_SENTENCE_LENGTH) :
    emit S s = S ++ [s] := by
  unfold emit
  rw [if_pos h]

/-- The loop of `parse_sentences` over `n + 1` copies of the sentence `a.`,
each followed by the spaces `sp`, as long as the rows do not run out. -/
theorem scan_repeat (sp : CStr) (hsp : ∀ c ∈ sp, c = ' ') :
    ∀ (n : Nat) (S : List CStr) (skip : Bool) (z : CStr), S.length + (n + 1) ≤ 1000 →
      scan S [] skip (repeat_text ("a.".toList ++ sp) (n + 1) ++ z)
        = scan (S ++ List.replicate (n + 1) "a.".toList) [] true z := by
  have one : ∀ (S : List CStr) (skip : Bool) (y : CStr), S.length < 1000 →
      scan S [] skip (("a.".toList ++ sp) ++ y) = scan (S ++ ["a.".toList]) [] true y := by
    intro S skip y hS
    have h := scan_sentence ['a'] S [] skip '.' (sp ++ y)
      (by intro c hc; simp at hc; subst hc; decide) (by decide) hS (by intro _ h; cases h)
    have he : emit S ([] ++ ['a'] ++ ['.']) = S ++ ["a.".toList] := emit_short S _ (by decide)
    rw [he] at h
    rw [show ("a.".toList ++ sp) ++ y = ['a'] ++ '.' :: (sp ++ y) by simp, h, scan_spaces sp hsp]
  intro n
  induction n with
  | zero =>
    intro S skip z hS
    show scan S [] skip ((("a.".toList ++ sp) ++ []) ++ z) = _
    rw [List.append_nil]
    exact one S skip z (by omega)
  | succ n ih =>
    intro S skip z hS
    show scan S [] skip ((("a.".toList ++ sp) ++ repeat_text ("a.".toList ++ sp) (n + 1)) ++ z) = _
    rw [List.append_assoc, one S skip _ (by omega),
      ih (S ++ ["a.".toList]) true z (by rw [List.length_append]; simp; omega)]
    rw [List.append_assoc]
    rfl

theorem pieces_spaces (sp : CStr) (hsp : ∀ c ∈ sp, c = ' ') (y : CStr) :
    pieces [] true (sp ++ y) = pieces [] true y := by
  induction sp with
  | nil => rfl
  | cons a r ih =>
    have ha : a = ' ' := hsp a (List.mem_cons_self _ _)
    subst ha
    rw [List.cons_append, pieces]
    simpa using ih (fun c hc => hsp c (List.mem_cons_of_mem _ hc))

/-- The sentences of `n + 1` copies of the sentence `a.`, each followed by
the spaces `sp`. -/
theorem pieces_repeat (sp : CStr) (hsp : ∀ c ∈ sp, c = ' ') :
    ∀ (n : Nat) (skip : Bool) (z : CStr),
      pieces [] skip (repeat_text ("a.".toList ++ sp) (n + 1) ++ z)
        = List.replicate (n + 1) "a.".toList ++ pieces [] true z := by
  have one : ∀ (skip : Bool) (y : CStr),
      pieces [] skip (("a.".toList ++ sp) ++ y) = "a.".toList :: pieces [] true y := by
    intro skip y
    have h := pieces_sentence ['a'] [] skip '.' (sp ++ y)
      (by intro c hc; simp at hc; subst hc; decide) (by decide) (by intro _ h; cases h)
    rw [show ("a.".toList ++ sp) ++ y = ['a'] ++ '.' :: (sp ++ y) by simp, h,
      pieces_spaces sp hsp]
    rfl
  intro n
  induction n with
  | zero =>
    intro skip z
    show pieces [] skip ((("a.".toList ++ sp) ++ []) ++ z) = _
    rw [List.append_nil, one]
    rfl
  | succ n ih =>
    intro skip z
    show pieces [] skip ((("a.".toList ++ sp) ++ repeat_text ("a.".toList ++ sp) (n + 1)) ++ z) = _
    rw [List.append_assoc, one, ih true z]
    rfl

theorem parse_full_then_spaces :
    parse_sentences full_then_spaces = List.replicate 1000 "a.".toList ++ ["b.  ".toList] := by
  rw [parse_sentences_eq_scan]
  unfold full_then_spaces
  have h := scan_repeat [] (by intro c hc; cases hc) 999 [] false "b.  ".toList (by decide)
  rw [List.append_nil, List.nil_append] at h
  rw [h, scan_ceiling _ [] true _ (by rw [List.length_replicate]; decide) (Or.inl rfl)]
  have hd : drop_spaces "b.  ".toList = "b.  ".toList := by decide
  simp only [if_true, List.nil_append, hd]
  rw [if_neg (by decide), emit_short _ _ (by decide)]

theorem parse_full_then_sentence :
    parse_sentences (repeat_text "a.".toList 1000 ++ "b.".toList)
      = List.replicate 1000 "a.".toList ++ ["b.".toList] := by
  rw [parse_sentences_eq_scan]
  have h := scan_repeat [] (by intro c hc; cases hc) 999 [] false "b.".toList (by decide)
  rw [List.append_nil, List.nil_append] at h
  rw [h, scan_ceiling _ [] true _ (by rw [List.length_replicate]; decide) (Or.inl rfl)]
  have hd : drop_spaces "b.".toList = "b.".toList := by decide
  simp only [if_true, List.nil_append, hd]
  rw [if_neg (by decide), emit_short _ _ (by decide)]

/-- C17 as stated fails past the ceiling of 1000 rows.  The content is the
sentence `a.` a thousand times, then `b.` and two spaces.  The loop of
`parse_sentences` ends when the 1000 rows are filled, and lines 89-96 store
the rest of the content, `b.` with the two spaces, as one more row: the run
of spaces after the last delimiter belongs to a sentence, and the rows are
not those of the content without the run. -/
theorem spaces_kept_past_ceiling :
    full_then_spaces = (repeat_text "a.".toList 1000 ++ ['b']) ++ '.' :: ([' ', ' '] ++ []) ∧
    parse_sentences full_then_spaces = List.replicate 1000 "a.".toList ++ ["b.  ".toList] ∧
    (parse_sentences full_then_spaces).getLast? = some ['b', '.', ' ', ' '] ∧
    parse_sentences ((repeat_text "a.".toList 1000 ++ ['b']) ++ '.' :: [])
      = List.replicate 1000 "a.".toList ++ ["b.".toList] ∧
    parse_sentences full_then_spaces
      ≠ parse_sentences ((repeat_text "a.".toList 1000 ++ ['b']) ++ '.' :: []) := by
  have h2 : parse_sentences ((repeat_text "a.".toList 1000 ++ ['b']) ++ '.' :: [])
      = List.replicate 1000 "a.".toList ++ ["b.".toList] := by
    rw [List.append_assoc]
    exact parse_full_then_sentence
  refine ⟨?_, parse_full_then_spaces, ?_, h2, ?_⟩
  · unfold full_then_spaces
    rw [List.append_assoc]
    rfl
  · rw [parse_full_then_spaces, List.getLast?_append]
    rfl
  · rw [parse_full_then_spaces, h2]
    intro h
    have h3 := List.append_cancel_left h
    exact absurd h3 (by decide)

/-! ## The edit loop of `handle_write`: words, reassembly, splitting -/

theorem for_loop_push (l : List CStr) (m : Nat) (hm : m ≤ l.length) :
    ∀ (fuel lo : Nat) (acc : List CStr), m ≤ lo + fuel →
      for_loop (fun i => decide (i < m)) (fun i nw => nw ++ [l.getD i []]) fuel lo acc
        = acc ++ (l.take m).drop lo := by
  intro fuel
  induction fuel with
  | zero =>
    intro lo acc h
    have : (l.take m).drop lo = [] := List.drop_eq_nil_iff.mpr (by simp; omega)
    simp [for_loop, this]
  | succ f ih =>
    intro lo acc h
    by_cases hlo : lo < m
    · have hlt : lo < (l.take m).length := by simp; omega
      have hget : (l.take m)[lo] = l.getD lo [] := by
        rw [List.getElem_take]
        simp [List.getD, List.getElem?_eq_getElem (show lo < l.length by omega)]
      rw [for_loop]
      simp only [hlo, decide_True, if_true]
      rw [ih (lo + 1) _ (by omega), List.drop_eq_getElem_cons hlt, hget]
      simp
    · have : (l.take m).drop lo = [] := List.drop_eq_nil_iff.mpr (by simp; omega)
      simp [for_loop, hlo, this]

theorem intercalate_cons_cons (sep x y : CStr) (l : List CStr) :
    List.intercalate sep (x :: y :: l) = x ++ sep ++ List.intercalate sep (y :: l) := by
  simp [List.intercalate]

theorem intercalate_single (sep x : CStr) : List.intercalate sep [x] = x := by
  simp [List.intercalate]

theorem for_loop_join (nw : List CStr) :
    ∀ (fuel lo : Nat) (acc : CStr), lo ≤ nw.length → nw.length ≤ lo + fuel →
      for_loop (fun i => decide (i < nw.length))
        (fun i target =>
          let target := target ++ nw.getD i []
          if i + 1 < nw.length then target ++ [' '] else target) fuel lo acc
        = acc ++ List.intercalate [' '] (nw.drop lo) := by
  intro fuel
  induction fuel with
  | zero =>
    intro lo acc h1 h2
    have : nw.drop lo = [] := List.drop_eq_nil_iff.mpr (by omega)
    simp [for_loop, this, List.intercalate]
  | succ f ih =>
    intro lo acc h1 h2
    by_cases hlo : lo < nw.length
    · have hget : nw.getD lo [] = nw[lo] := by
        simp [List.getD, List.getElem?_eq_getElem hlo]
      rw [for_loop]
      simp only [hlo, decide_True, if_true]
      rw [ih (lo + 1) _ (by omega) (by omega), List.drop_eq_getElem_cons hlo, hget]
      by_cases hnext : lo + 1 < nw.length
      · rw [List.drop_eq_getElem_cons hnext, intercalate_cons_cons]
        simp [hnext]
      · have : nw.drop (lo + 1) = [] := List.drop_eq_nil_iff.mpr (by omega)
        rw [this, intercalate_single]
        simp [hnext, List.intercalate]
    · have : nw.drop lo = [] := List.drop_eq_nil_iff.mpr (by omega)
      simp [for_loop, hlo, this, List.intercalate]

/-- The loop of lines 502-508 writes the words with single spaces between
them. -/
theorem join_words_eq (nw : List CStr) : join_words nw = List.intercalate [' '] nw := by
  unfold join_words
  have := for_loop_join nw nw.length 0 [] (Nat.zero_le _) (by omega)
  simpa using this

/-- The three loops of lines 485-499 in closed form. -/
theorem build_new_words_eq (words content_tokens : List CStr) (word_index : Int)
    (h0 : 0 ≤ word_index) :
    build_new_words words content_tokens word_index
      = words.take (min word_index.toNat words.length) ++ content_tokens
          ++ words.drop word_index.toNat := by
  unfold build_new_words
  have hc : (fun i : Nat => decide ((i : Int) < word_index) && decide (i < words.length))
      = fun i => decide (i < min word_index.toNat words.length) := by
    funext i
    by_cases h1 : (i : Int) < word_index <;> by_cases h2 : i < words.length
    · have : i < min word_index.toNat words.length := by
        simp only [lt_min_iff]; exact ⟨by omega, h2⟩
      simp [h1, h2, this]
    · have : ¬ i < min word_index.toNat words.length := by
        simp only [lt_min_iff]; intro h; exact h2 h.2
      simp [h1, h2, this]
    · have : ¬ i < min word_index.toNat words.length := by
        simp only [lt_min_iff]; intro h; apply h1; omega
      simp [h1, h2, this]
    · have : ¬ i < min word_index.toNat words.length := by
        simp only [lt_min_iff]; intro h; exact h2 h.2
      simp [h1, h2, this]
  simp only [hc]
  rw [for_loop_push words (min word_index.toNat words.length) (Nat.min_le_right _ _)
    words.length 0 [] (by have := Nat.min_le_right word_index.toNat words.length; omega)]
  rw [for_loop_push content_tokens content_tokens.length (Nat.le_refl _)
    content_tokens.length 0 _ (by omega)]
  rw [for_loop_push words words.length (Nat.le_refl _) words.length word_index.toNat _ (by omega)]
  simp

theorem strtok_r_some {is_delim : Char → Bool} {s token rest : CStr}
    (h : strtok_r is_delim s = some (token, rest)) :
    IsWord is_delim token ∧ rest.length < s.length := by
  unfold strtok_r at h
  simp only at h
  split at h
  · cases h
  · rename_i hne
    simp only [Option.some.injEq, Prod.mk.injEq] at h
    obtain ⟨h1, h2⟩ := h
    have hne2 : s.dropWhile is_delim ≠ [] := by intro h0; apply hne; simp [h0]
    obtain ⟨c, t, hct⟩ := List.exists_cons_of_ne_nil hne2
    have hc : is_delim c = false := by
      have := List.head_dropWhile_not is_delim s (by rw [hct]; simp)
      simpa [hct] using this
    refine ⟨⟨?_, ?_⟩, ?_⟩
    · rw [← h1, hct]; simp [List.takeWhile, hc]
    · intro x hx
      rw [← h1] at hx
      have := List.mem_takeWhile_imp hx
      simpa using this
    · rw [← h2]
      have h3 : (s.dropWhile is_delim).length ≤ s.length :=
        (List.dropWhile_sublist is_delim).length_le
      have h4 : ((s.dropWhile is_delim).dropWhile (fun c => !is_delim c)).length
          ≤ (s.dropWhile is_delim).length :=
        (List.dropWhile_sublist _).length_le
      rw [hct] at h3
      simp only [List.length_drop, List.length_cons] at *
      have h5 : ((c :: t).dropWhile (fun c => !is_delim c)).length ≤ t.length := by
        simp only [List.dropWhile, hc, Bool.not_false]
        exact (List.dropWhile_sublist _).length_le
      rw [hct]
      omega

theorem strtok_all_acc (is_delim : Char → Bool) :
    ∀ (fuel : Nat) (s : CStr) (acc : List CStr),
      strtok_all is_delim fuel s acc = acc ++ strtok_all is_delim fuel s [] := by
  intro fuel
  induction fuel with
  | zero => intro s acc; simp [strtok_all]
  | succ f ih =>
    intro s acc
    rw [strtok_all, strtok_all]
    cases h : strtok_r is_delim s with
    | none => simp
    | some p =>
      obtain ⟨token, rest⟩ := p
      simp only
      rw [ih rest (acc ++ [token]), ih rest ([] ++ [token])]
      simp

theorem strtok_loop_eq_take (is_delim : Char → Bool) :
    ∀ (fuel : Nat) (s : CStr) (words : List CStr), words.length ≤ 1000 →
      strtok_loop is_delim fuel s words = (strtok_all is_delim fuel s words).take 1000 := by
  intro fuel
  induction fuel with
  | zero =>
    intro s words h
    simp [strtok_loop, strtok_all, List.take_of_length_le h]
  | succ f ih =>
    intro s words h
    rw [strtok_loop, strtok_all]
    cases hs : strtok_r is_delim s with
    | none => simp [List.take_of_length_le h]
    | some p =>
      obtain ⟨token, rest⟩ := p
      simp only
      by_cases hw : words.length < 1000
      · simp only [hw, if_true]
        exact ih rest _ (by simp; omega)
      · have hlen : words.length = 1000 := by omega
        simp only [hw, if_false]
        rw [strtok_all_acc, List.append_assoc, List.take_append_of_le_length (by omega)]
        exact (List.take_of_length_le (by omega)).symm

/-- The words `handle_write` takes from a text are its first 1000
space-separated words. -/
theorem tokens_of_eq (s : CStr) : tokens_of s = (words_of s).take 1000 :=
  strtok_loop_eq_take is_space _ s [] (by simp)

theorem strtok_all_words (is_delim : Char → Bool) :
    ∀ (fuel : Nat) (s : CStr), ∀ w ∈ strtok_all is_delim fuel s [], IsWord is_delim w := by
  intro fuel
  induction fuel with
  | zero => intro s w hw; simp [strtok_all] at hw
  | succ f ih =>
    intro s w hw
    rw [strtok_all] at hw
    cases hs : strtok_r is_delim s with
    | none => simp [hs] at hw
    | some p =>
      obtain ⟨token, rest⟩ := p
      simp only [hs] at hw
      rw [strtok_all_acc] at hw
      rcases List.mem_append.mp hw with h | h
      · have : w = token := by simpa using h
        subst this
        exact (strtok_r_some hs).1
      · exact ih rest w h

theorem tokens_of_words (s : CStr) : ∀ w ∈ tokens_of s, IsWord is_space w := by
  intro w hw
  rw [tokens_of_eq] at hw
  exact strtok_all_words is_space _ s w (List.mem_of_mem_take hw)

theorem strtok_all_nil (is_delim : Char → Bool) (fuel : Nat) (acc : List CStr) :
    strtok_all is_delim fuel [] acc = acc := by
  cases fuel <;> simp [strtok_all, strtok_r]

theorem dropWhile_word {is_delim : Char → Bool} {w : CStr} (hw : IsWord is_delim w)
    (rest : CStr) : (w ++ rest).dropWhile is_delim = w ++ rest := by
  obtain ⟨c, t, rfl⟩ := List.exists_cons_of_ne_nil hw.1
  have := hw.2 c (by simp)
  simp [List.dropWhile, this]

theorem takeWhile_word {is_delim : Char → Bool} {w : CStr} (hw : ∀ c ∈ w, is_delim c = false)
    (d : Char) (hd : is_delim d = true) (rest : CStr) :
    (w ++ d :: rest).takeWhile (fun c => !is_delim c) = w ∧
    (w ++ d :: rest).dropWhile (fun c => !is_delim c) = d :: rest := by
  induction w with
  | nil => simp [List.takeWhile, List.dropWhile, hd]
  | cons c t ih =>
    have hc := hw c (by simp)
    have := ih (fun x hx => hw x (List.mem_cons_of_mem _ hx))
    simp [List.takeWhile, List.dropWhile, hc, this.1, this.2]

theorem takeWhile_word_end {is_delim : Char → Bool} {w : CStr}
    (hw : ∀ c ∈ w, is_delim c = false) :
    w.takeWhile (fun c => !is_delim c) = w ∧ w.dropWhile (fun c => !is_delim c) = [] := by
  induction w with
  | nil => simp
  | cons c t ih =>
    have hc := hw c (by simp)
    have := ih (fun x hx => hw x (List.mem_cons_of_mem _ hx))
    simp [List.takeWhile, List.dropWhile, hc, this.1, this.2]

theorem strtok_r_word_sep {is_delim : Char → Bool} {w : CStr} (hw : IsWord is_delim w)
    (d : Char) (hd : is_delim d = true) (rest : CStr) :
    strtok_r is_delim (w ++ d :: rest) = some (w, rest) := by
  unfold strtok_r
  simp only [dropWhile_word hw]
  have hne : (w ++ d :: rest).isEmpty = false := by cases w <;> simp
  have := takeWhile_word hw.2 d hd rest
  simp [hne, this.1, this.2]

theorem strtok_r_word_end {is_delim : Char → Bool} {w : CStr} (hw : IsWord is_delim w) :
    strtok_r is_delim w = some (w, []) := by
  unfold strtok_r
  have h := dropWhile_word hw []
  simp only [List.append_nil] at h
  simp only [h]
  have hne : w.isEmpty = false := by
    obtain ⟨c, t, rfl⟩ := List.exists_cons_of_ne_nil hw.1; rfl
  have := takeWhile_word_end hw.2
  simp [hne, this.1, this.2]

/-- The words of a text written as words with one space between them are
those words. -/
theorem strtok_all_intercalate :
    ∀ (ws : List CStr), (∀ w ∈ ws, IsWord is_space w) →
      ∀ (fuel : Nat) (acc : List CStr), (List.intercalate [' '] ws).length < fuel →
        strtok_all is_space fuel (List.intercalate [' '] ws) acc = acc ++ ws := by
  intro ws
  induction ws with
  | nil =>
    intro _ fuel acc _
    simp [List.intercalate, strtok_all_nil]
  | cons w ws ih =>
    intro hws fuel acc hf
    have hw := hws w (by simp)
    cases fuel with
    | zero => omega
    | succ f =>
      cases ws with
      | nil =>
        rw [intercalate_single] at hf ⊢
        rw [strtok_all, strtok_r_word_end hw]
        simp [strtok_all_nil]
      | cons w2 ws =>
        rw [intercalate_cons_cons] at hf ⊢
        rw [strtok_all, show w ++ [' '] ++ List.intercalate [' '] (w2 :: ws)
          = w ++ ' ' :: List.intercalate [' '] (w2 :: ws) by simp,
          strtok_r_word_sep hw ' ' (by decide)]
        simp only
        rw [ih (fun x hx => hws x (List.mem_cons_of_mem _ hx)) f _
          (by simp at hf; omega)]
        simp

theorem words_of_intercalate (ws : List CStr) (h : ∀ w ∈ ws, IsWord is_space w) :
    words_of (List.intercalate [' '] ws) = ws := by
  unfold words_of
  rw [strtok_all_intercalate ws h _ [] (by omega)]
  simp

theorem row_strings_length : ∀ l : List CStr, (row_strings l).length = l.length := by
  intro l
  induction l with
  | nil => rfl
  | cons w t ih =>
    cases t with
    | nil => rfl
    | cons v rest =>
      rw [row_strings, List.length_cons, ih]
      rfl

theorem words_fit_iff (l : List CStr) :
    words_fit l = true ↔ ∀ w ∈ l, w.length < MAX_WORD_LENGTH := by
  unfold words_fit
  rw [List.all_eq_true]
  constructor
  · intro h w hw
    exact of_decide_eq_true (h w hw)
  · intro h w hw
    exact decide_eq_true (h w hw)

/-- Strings that fit their rows are read back as they were put. -/
theorem row_strings_fit : ∀ l : List CStr, words_fit l = true → row_strings l = l := by
  intro l
  induction l with
  | nil => intro _; rfl
  | cons w t ih =>
    intro h
    rw [words_fit_iff] at h
    have ht : words_fit t = true := by
      rw [words_fit_iff]
      exact fun x hx => h x (List.mem_cons_of_mem _ hx)
    cases t with
    | nil => rfl
    | cons v rest =>
      rw [row_strings, ih ht, if_pos (h w (List.mem_cons_self _ _))]

/-- The rejection of lines 459-467 looks at the number of words only. -/
theorem reassemble_sentence_none (target data : CStr) (i : Int) :
    reassemble_sentence target i data = none ↔
      (i < 0 ∨ i > ((tokens_of target).length : Int) + 1) := by
  unfold reassemble_sentence
  simp only [row_strings_length]
  split
  · rename_i h; exact ⟨fun _ => h, fun _ => rfl⟩
  · rename_i h; exact ⟨fun h2 => (by cases h2), fun h2 => absurd h2 h⟩

/-- The reassembled sentence when the words and the tokens fit their rows. -/
theorem reassemble_sentence_fit (target data : CStr) (i : Int)
    (hw : words_fit (tokens_of target) = true) (hd : words_fit (tokens_of data) = true)
    (hi : ¬ (i < 0 ∨ i > ((tokens_of target).length : Int) + 1)) :
    reassemble_sentence target i data
      = some (join_words (build_new_words (tokens_of target) (tokens_of data) i)) := by
  unfold reassemble_sentence
  simp only [row_strings_fit _ hw]
  rw [if_neg hi]
  have h0 : 0 ≤ i := by omega
  have hfit : words_fit (build_new_words (tokens_of target) (tokens_of data) i) = true := by
    rw [build_new_words_eq _ _ _ h0, words_fit_iff]
    rw [words_fit_iff] at hw hd
    intro w hmem
    rcases List.mem_append.mp hmem with h1 | h1
    · rcases List.mem_append.mp h1 with h2 | h2
      · exact hw w (List.mem_of_mem_take h2)
      · exact hd w h2
    · exact hw w (List.mem_of_mem_drop h1)
  rw [row_strings_fit _ hfit]

/-- What `update_in_bounds` says, part by part. -/
theorem update_in_bounds_spec {k : Nat} {u : Message} {s : Session}
    (h : update_in_bounds k u s = true) :
    max s.sentence_count (k + 1) ≤ 1000 ∧
    (∀ i, i < s.sentence_count → (s.sentences i).length < MAX_SENTENCE_LENGTH) ∧
    words_fit (tokens_of (target_text s k)) = true ∧
    ∀ j, reassemble_sentence (target_text s k) u.word_index u.data = some j →
      words_fit (tokens_of u.data) = true ∧ j.length < MAX_SENTENCE_LENGTH ∧
      (parse_sentences j).length ≤ 100 ∧
      max s.sentence_count (k + 1) + (parse_sentences j).length - 1 ≤ 1000 := by
  unfold update_in_bounds at h
  simp only [Bool.and_eq_true, decide_eq_true_eq, List.all_eq_true, List.mem_range] at h
  obtain ⟨⟨⟨h1, h2⟩, h3⟩, h4⟩ := h
  refine ⟨h1, h2, h3, ?_⟩
  intro j hj
  rw [hj] at h4
  simp only [Bool.and_eq_true, decide_eq_true_eq] at h4
  exact ⟨h4.1.1.1, h4.1.1.2, h4.1.2, h4.2⟩

theorem edit_step_accepts (k : Nat) (u : Message) (s : Session) :
    (edit_step k u s).1 = (reassemble_sentence (target_text s k) u.word_index u.data).isSome := by
  unfold edit_step target_text
  by_cases h : k ≥ s.sentence_count
  · simp only [h, decide_True, if_true, set_row]
    cases reassemble_sentence [] u.word_index u.data with
    | none => rfl
    | some t => simp only [Option.isSome]; split <;> rfl
  · simp only [h, decide_False, if_false, Bool.false_eq_true]
    cases reassemble_sentence (s.sentences k) u.word_index u.data with
    | none => rfl
    | some t => simp only [Option.isSome]; split <;> rfl

theorem edit_loop_cons (k : Nat) (u : Message) (rest : List Message) (s : Session)
    (sent : List Message) (hu : u.data ≠ ETIRW) :
    edit_loop k (u :: rest) s sent
      = edit_loop k rest (edit_step k u s).2
          (sent ++ [if (edit_step k u s).1 then update_ack else word_index_error]) := by
  rw [edit_loop]; simp [hu]

/-- C3 (amended): for an update that keeps every copy of the iteration
inside its array row (`update_in_bounds`: the words of the sentence and the
tokens of the content shorter than `MAX_WORD_LENGTH`, the reassembled
sentence shorter than `MAX_SENTENCE_LENGTH`, at most 100 sentences in it and
at most 1000 in the list), with `w` the first at most 1000 space-separated
words of the target sentence, `n` their number and `t` the first at most 1000
tokens of the content: an update with `0 ≤ i ≤ n + 1` is applied and
reassembles the sentence as the single-space join of
`w_0..w_(min(i,n)-1) ++ t ++ w_i..w_(n-1)`, and an update with `i < 0` or
`i > n + 1` is rejected, the record sent for it being the `ERR_INVALID_INDEX`
error record. -/
theorem edit_step_reassembles (k : Nat) (u : Message) (s : Session) (hu : u.data ≠ ETIRW)
    (hfit : update_in_bounds k u s = true) :
    (0 ≤ u.word_index ∧
      u.word_index ≤ (((words_of (target_text s k)).take 1000).length : Int) + 1 →
        (edit_step k u s).1 = true ∧
        reassemble_sentence (target_text s k) u.word_index u.data
          = some (List.intercalate [' ']
              (((words_of (target_text s k)).take 1000).take
                  (min u.word_index.toNat ((words_of (target_text s k)).take 1000).length)
                ++ (words_of u.data).take 1000
                ++ ((words_of (target_text s k)).take 1000).drop u.word_index.toNat))) ∧
    (u.word_index < 0 ∨
      u.word_index > (((words_of (target_text s k)).take 1000).length : Int) + 1 →
        (edit_step k u s).1 = false ∧
        word_index_error.error_code = ERR_INVALID_INDEX ∧
        ∀ rest sent, edit_loop k (u :: rest) s sent
          = edit_loop k rest (edit_step k u s).2 (sent ++ [word_index_error])) := by
  obtain ⟨_, _, hw, hsome⟩ := update_in_bounds_spec hfit
  constructor
  · intro ⟨h0, h1⟩
    rw [← tokens_of_eq] at h1
    have hi : ¬ (u.word_index < 0 ∨
        u.word_index > ((tokens_of (target_text s k)).length : Int) + 1) := by
      intro h; omega
    have hd : words_fit (tokens_of u.data) = true := by
      cases hr : reassemble_sentence (target_text s k) u.word_index u.data with
      | none => exact absurd ((reassemble_sentence_none _ _ _).mp hr) hi
      | some j => exact (hsome j hr).1
    have hre := reassemble_sentence_fit (target_text s k) u.data u.word_index hw hd hi
    refine ⟨by rw [edit_step_accepts, hre]; rfl, ?_⟩
    rw [hre, join_words_eq, build_new_words_eq _ _ _ h0, tokens_of_eq, tokens_of_eq]
  · intro h
    rw [← tokens_of_eq] at h
    have hre := (reassemble_sentence_none (target_text s k) u.data u.word_index).mpr h
    have hacc : (edit_step k u s).1 = false := by rw [edit_step_accepts, hre]; rfl
    refine ⟨hacc, rfl, ?_⟩
    intro rest sent
    rw [edit_loop_cons k u rest s sent hu, hacc]
    simp

/-- A sentence of 1001 words `a`. -/
theorem words_of_long_sentence :
    words_of (List.intercalate [' '] (List.replicate 1001 ['a'])) = List.replicate 1001 ['a'] := by
  apply words_of_intercalate
  intro w hw
  have := List.eq_of_mem_replicate hw
  subst this
  exact ⟨by simp, by intro c hc; simp at hc; subst hc; decide⟩

/-- The statement `edit_step_reassembles` on the file `Hello world`: the update
with word index 2 and content `there` is applied and gives `Hello world there`. -/
theorem edit_step_reassembles_witness :
    (edit_step 0 { word_index := 2, data := "there".toList } hello_session).1 = true ∧
    reassemble_sentence "Hello world".toList 2 "there".toList
      = some "Hello world there".toList :=
  (edit_step_reassembles 0 { word_index := 2, data := "there".toList } hello_session
    (by decide) (by decide)).1 ⟨by decide, by decide⟩

theorem tokens_of_long_sentence : tokens_of long_sentence = List.replicate 1000 ['a'] := by
  rw [tokens_of_eq, long_sentence, words_of_long_sentence, List.take_replicate]
  rfl

theorem replicate_words_fit (n : Nat) (w : CStr) (hw : w.length < MAX_WORD_LENGTH) :
    words_fit (List.replicate n w) = true := by
  rw [words_fit_iff]
  intro x hx
  rw [List.eq_of_mem_replicate hx]
  exact hw

theorem tokens_of_long_word_content : tokens_of long_word_content = [long_word, ['b']] := by
  have hw : ∀ w ∈ [long_word, ['b']], IsWord is_space w := by
    intro w hw
    rcases List.mem_cons.mp hw with h | h
    · subst h
      refine ⟨List.ne_nil_of_length_pos (by rw [long_word, List.length_replicate]; decide), ?_⟩
      intro c hc
      rw [List.eq_of_mem_replicate hc]; decide
    · rw [List.mem_singleton] at h
      subst h
      exact ⟨by simp, by intro c hc; simp at hc; subst hc; decide⟩
  rw [tokens_of_eq, long_word_content, words_of_intercalate _ hw]
  rfl

theorem reassemble_long_word :
    reassemble_sentence ['x'] 1 long_word_content
      = some (List.intercalate [' '] [['x'], List.replicate 256 'a' ++ ['b'], ['b']]) := by
  have hx : tokens_of ['x'] = [['x']] := by decide
  unfold reassemble_sentence
  simp only [hx, tokens_of_long_word_content]
  rw [show row_strings [['x']] = [['x']] from rfl, if_neg (by decide), join_words_eq,
    build_new_words_eq _ _ _ (by decide)]
  have hb : List.take (min (1 : Int).toNat [['x']].length) [['x']] ++ [long_word, ['b']]
      ++ List.drop (1 : Int).toNat [['x']] = [['x'], long_word, ['b']] := rfl
  rw [hb]
  have hl : ¬ long_word.length < MAX_WORD_LENGTH := by
    rw [long_word, List.length_replicate]; decide
  have hr : row_strings [['x'], long_word, ['b']]
      = [['x'], List.take MAX_WORD_LENGTH long_word ++ ['b'], ['b']] := by
    rw [row_strings, if_pos (by decide), row_strings, if_neg hl]
    rfl
  rw [hr, long_word, List.take_replicate]
  rfl

/-- C3 as stated fails on a sentence of more than 1000 words and on a word
that does not fit its row.  The sentence `a a ... a` has the 1001 words `a`;
with `i = 1002 = n + 1` the claim has the update applied, and the code rejects
it; with `i = 0` and content `x` the claim has `x` followed by the 1001 words,
and the code writes `x` followed by 1000 of them.  On the sentence `x`, with
`i = 1` and a content of two tokens, a word of 300 letters `a` and `b`, the
claim has `x`, the word of 300 letters and `b`; in the rows of `new_words`
the word runs on into the row of `b`, and the code writes `x`, then 256
letters `a` followed by `b`, then `b`. -/
theorem reassemble_sentence_word_ceiling :
    words_of long_sentence = List.replicate 1001 ['a'] ∧
    (0 : Int) ≤ 1002 ∧ (1002 : Int) ≤ ((List.replicate 1001 ['a']).length : Int) + 1 ∧
    reassemble_sentence long_sentence 1002 ['x'] = none ∧
    reassemble_sentence long_sentence 0 ['x']
      = some (List.intercalate [' '] (['x'] :: List.replicate 1000 ['a'])) ∧
    reassemble_sentence long_sentence 0 ['x']
      ≠ some (List.intercalate [' '] (['x'] :: List.replicate 1001 ['a'])) ∧
    words_of ['x'] = [['x']] ∧
    words_of long_word_content = [List.replicate 300 'a', ['b']] ∧
    reassemble_sentence ['x'] 1 long_word_content
      = some (List.intercalate [' '] [['x'], List.replicate 256 'a' ++ ['b'], ['b']]) ∧
    reassemble_sentence ['x'] 1 long_word_content
      ≠ some (List.intercalate [' '] [['x'], List.replicate 300 'a', ['b']]) := by
  have hx : tokens_of ['x'] = [['x']] := by decide
  have hfa : words_fit (tokens_of long_sentence) = true := by
    rw [tokens_of_long_sentence]
    exact replicate_words_fit _ _ (by decide)
  have hfx : words_fit (tokens_of ['x']) = true := by decide
  have h0 : reassemble_sentence long_sentence 0 ['x']
      = some (List.intercalate [' '] (['x'] :: List.replicate 1000 ['a'])) := by
    rw [reassemble_sentence_fit long_sentence ['x'] 0 hfa hfx
      (by rw [tokens_of_long_sentence, List.length_replicate]; decide)]
    simp only [tokens_of_long_sentence, hx]
    rw [join_words_eq, build_new_words_eq _ _ _ (le_refl _)]
    simp only [Int.toNat_zero, Nat.zero_min, List.take_zero, List.drop_zero, List.nil_append,
      List.singleton_append]
  have hword : ∀ n, ∀ w ∈ (['x'] :: List.replicate n ['a']), IsWord is_space w := by
    intro n w hw
    rcases List.mem_cons.mp hw with h | h
    · subst h; exact ⟨by simp, by intro c hc; simp at hc; subst hc; decide⟩
    · have := List.eq_of_mem_replicate h
      subst this
      exact ⟨by simp, by intro c hc; simp at hc; subst hc; decide⟩
  have hlw : ∀ (n : Nat) (tl : CStr), 0 < n → ∀ w ∈ [['x'], List.replicate n 'a' ++ tl, ['b']],
      (∀ c ∈ tl, c = 'b') → IsWord is_space w := by
    intro n tl hn w hw htl
    rcases List.mem_cons.mp hw with h | h
    · subst h; exact ⟨by simp, by intro c hc; simp at hc; subst hc; decide⟩
    · rcases List.mem_cons.mp h with h | h
      · subst h
        refine ⟨List.ne_nil_of_length_pos
          (by rw [List.length_append, List.length_replicate]; omega), ?_⟩
        intro c hc
        rcases List.mem_append.mp hc with h1 | h1
        · rw [List.eq_of_mem_replicate h1]; decide
        · rw [htl c h1]; decide
      · rw [List.mem_singleton] at h
        subst h
        exact ⟨by simp, by intro c hc; simp at hc; subst hc; decide⟩
  refine ⟨words_of_long_sentence, by decide, by rw [List.length_replicate]; decide, ?_, h0, ?_,
    by decide, ?_, reassemble_long_word, ?_⟩
  · exact (reassemble_sentence_none long_sentence ['x'] 1002).mpr
      (by rw [tokens_of_long_sentence, List.length_replicate]; decide)
  · rw [h0]
    intro h
    have h1 := congrArg words_of (Option.some.inj h)
    rw [words_of_intercalate _ (hword 1000), words_of_intercalate _ (hword 1001)] at h1
    have h2 := congrArg List.length h1
    rw [List.length_cons, List.length_cons, List.length_replicate, List.length_replicate] at h2
    omega
  · have hw : ∀ w ∈ [long_word, ['b']], IsWord is_space w := by
      intro w hw
      have := hlw 300 [] (by decide) w (List.mem_cons_of_mem _ (by
        rw [List.append_nil]; exact hw)) (by intro c hc; cases hc)
      exact this
    rw [long_word_content, words_of_intercalate _ hw]
    rfl
  · rw [reassemble_long_word]
    intro h
    have h1 := congrArg words_of (Option.some.inj h)
    rw [words_of_intercalate _ (fun w hw => hlw 256 ['b'] (by decide) w hw
          (by intro c hc; simpa using hc)),
      words_of_intercalate _ (fun w hw => hlw 300 [] (by decide) w
          (by rw [List.append_nil]; exact hw) (by intro c hc; cases hc))] at h1
    have h2 := congrArg (fun l => (l.getD 1 []).length) h1
    simp only [List.getD_cons_succ, List.getD_cons_zero, List.length_append,
      List.length_replicate, List.length_singleton] at h2
    omega

theorem shift_rows_apply (k t : Nat) (ht : 1 ≤ t) :
    ∀ (n : Nat) (rows : Rows) (j : Nat),
      shift_rows k t rows n j
        = if k + t ≤ j ∧ j + 1 < n + t then rows (j + 1 - t) else rows j := by
  intro n
  induction n with
  | zero =>
    intro rows j
    rw [shift_rows, if_neg (by omega)]
  | succ i ih =>
    intro rows j
    rw [shift_rows]
    by_cases hik : i > k
    · simp only [hik, if_true]
      rw [ih]
      by_cases h1 : k + t ≤ j ∧ j + 1 < i + t
      · have h2 : k + t ≤ j ∧ j + 1 < i + 1 + t := by omega
        have h3 : ¬ (j + 1 - t = i + t - 1) := by omega
        simp [h1, h2, set_row, h3]
      · simp only [h1, if_false]
        by_cases h4 : j = i + t - 1
        · have h2 : k + t ≤ j ∧ j + 1 < i + 1 + t := by omega
          have h5 : j + 1 - t = i := by omega
          show (if j = i + t - 1 then rows i else rows j) = _
          rw [if_pos h4, if_pos h2, h5]
        · have h2 : ¬ (k + t ≤ j ∧ j + 1 < i + 1 + t) := by omega
          simp [h2, set_row, h4]
    · have h2 : ¬ (k + t ≤ j ∧ j + 1 < i + 1 + t) := by omega
      simp [hik, h2]

theorem insert_rows_apply (k : Nat) (temp : List CStr) :
    ∀ (fuel lo : Nat) (rows : Rows) (j : Nat), temp.length ≤ lo + fuel →
      for_loop (fun i => decide (i < temp.length))
        (fun i rows => set_row rows (k + i) (temp.getD i [])) fuel lo rows j
        = if k + lo ≤ j ∧ j < k + temp.length then temp.getD (j - k) [] else rows j := by
  intro fuel
  induction fuel with
  | zero =>
    intro lo rows j h
    have : ¬ (k + lo ≤ j ∧ j < k + temp.length) := by omega
    simp [for_loop, this]
  | succ f ih =>
    intro lo rows j h
    rw [for_loop]
    by_cases hlo : lo < temp.length
    · simp only [hlo, decide_True, if_true]
      rw [ih (lo + 1) _ j (by omega)]
      by_cases h1 : k + (lo + 1) ≤ j ∧ j < k + temp.length
      · have h2 : k + lo ≤ j ∧ j < k + temp.length := by omega
        simp [h1, h2]
      · simp only [h1, if_false]
        by_cases h3 : j = k + lo
        · have h2 : k + lo ≤ j ∧ j < k + temp.length := by omega
          have h5 : j - k = lo := by omega
          show (if j = k + lo then temp.getD lo [] else rows j) = _
          rw [if_pos h3, if_pos h2, h5]
        · have h2 : ¬ (k + lo ≤ j ∧ j < k + temp.length) := by omega
          show (if j = k + lo then temp.getD lo [] else rows j) = _
          rw [if_neg h3, if_neg h2]
    · have h2 : ¬ (k + lo ≤ j ∧ j < k + temp.length) := by omega
      simp [hlo, h2]

theorem row_list_length (rows : Rows) (n : Nat) : (row_list rows n).length = n := by
  simp [row_list]

theorem row_list_getElem? (rows : Rows) (n i : Nat) :
    (row_list rows n)[i]? = if i < n then some (rows i) else none := by
  unfold row_list
  by_cases h : i < n
  · simp [h, List.getElem?_range h]
  · simp [h]
    omega

/-- The rows after lines 516-528, read as a list: the rows before
`sentence_index`, the split sentences, the rows that followed. -/
theorem split_rows_list (rows : Rows) (k n : Nat) (temp : List CStr)
    (ht : 1 ≤ temp.length) (hk : k < n) :
    row_list
      (for_loop (fun i => decide (i < temp.length))
        (fun i rows => set_row rows (k + i) (temp.getD i []))
        temp.length 1
        (shift_rows k temp.length (set_row rows k (temp.getD 0 [])) n))
      (n + temp.length - 1)
    = (row_list rows n).take k ++ temp ++ (row_list rows n).drop (k + 1) := by
  apply List.ext_getElem?
  intro i
  rw [row_list_getElem?, insert_rows_apply k temp _ _ _ _ (by omega),
    shift_rows_apply k _ ht]
  by_cases h1 : i < k
  · -- before the target
    have e1 : ((row_list rows n).take k ++ temp ++ (row_list rows n).drop (k + 1))[i]?
        = some (rows i) := by
      rw [List.append_assoc, List.getElem?_append_left (by simp [row_list_length]; omega),
        List.getElem?_take_of_lt h1, row_list_getElem?]
      simp [show i < n by omega]
    rw [e1]
    have c1 : ¬ (k + 1 ≤ i ∧ i < k + temp.length) := by omega
    have c2 : ¬ (k + temp.length ≤ i ∧ i + 1 < n + temp.length) := by omega
    have c3 : i < n + temp.length - 1 := by omega
    simp [c1, c2, c3, set_row, show ¬ i = k by omega]
  · by_cases h2 : i < k + temp.length
    · -- a split sentence
      have hlen : ((row_list rows n).take k).length = k := by
        simp [row_list_length]; omega
      have e1 : ((row_list rows n).take k ++ temp ++ (row_list rows n).drop (k + 1))[i]?
          = temp[i - k]? := by
        rw [List.append_assoc, List.getElem?_append_right (by omega), hlen,
          List.getElem?_append_left (by omega)]
      rw [e1]
      have c3 : i < n + temp.length - 1 := by omega
      have hget : temp[i - k]? = some (temp.getD (i - k) []) := by
        rw [List.getD_eq_getElem?_getD, List.getElem?_eq_getElem (by omega)]; rfl
      by_cases h3 : i = k
      · have c1 : ¬ (k + 1 ≤ i ∧ i < k + temp.length) := by omega
        have c2 : ¬ (k + temp.length ≤ i ∧ i + 1 < n + temp.length) := by omega
        rw [if_pos c3, if_neg c1, if_neg c2]
        show some (if i = k then temp.getD 0 [] else rows i) = _
        rw [if_pos h3, hget, h3, Nat.sub_self]
      · have c1 : k + 1 ≤ i ∧ i < k + temp.length := by omega
        simp only [c3, if_true, c1, and_self, hget]
    · -- a sentence that followed the target
      have hlen : ((row_list rows n).take k).length = k := by
        simp [row_list_length]; omega
      have e1 : ((row_list rows n).take k ++ temp ++ (row_list rows n).drop (k + 1))[i]?
          = (row_list rows n)[i + 1 - temp.length]? := by
        rw [List.append_assoc, List.getElem?_append_right (by omega), hlen,
          List.getElem?_append_right (by omega), List.getElem?_drop]
        congr 1; omega
      rw [e1, row_list_getElem?]
      have c1 : ¬ (k + 1 ≤ i ∧ i < k + temp.length) := by omega
      by_cases h4 : i < n + temp.length - 1
      · have c2 : k + temp.length ≤ i ∧ i + 1 < n + temp.length := by omega
        have c4 : i + 1 - temp.length < n := by omega
        have c5 : ¬ (i + 1 - temp.length = k) := by omega
        simp [h4, c1, c2, c4, set_row, c5]
      · have c4 : ¬ (i + 1 - temp.length < n) := by omega
        simp [h4, c4]

theorem row_list_target (rows rows1 : Rows) (c k : Nat) (j : CStr) (hk : k ≤ c)
    (h1 : ∀ i, i < c → i ≠ k → rows1 i = rows i) (h2 : rows1 k = j) :
    row_list rows1 (max c (k + 1))
      = (row_list rows c).take k ++ [j] ++ (row_list rows c).drop (k + 1) := by
  apply List.ext_getElem?
  intro i
  have hlen : ((row_list rows c).take k).length = k := by
    simp [row_list_length]; omega
  rw [row_list_getElem?]
  by_cases c1 : i < k
  · rw [List.append_assoc, List.getElem?_append_left (by omega),
      List.getElem?_take_of_lt c1, row_list_getElem?, if_pos (by omega), if_pos (by omega),
      h1 i (by omega) (by omega)]
  · by_cases c2 : i = k
    · rw [List.append_assoc, List.getElem?_append_right (by omega), hlen,
        List.getElem?_append_left (by simp; omega), if_pos (by omega), c2, h2]
      simp
    · rw [List.append_assoc, List.getElem?_append_right (by omega), hlen,
        List.getElem?_append_right (by simp; omega), List.getElem?_drop, row_list_getElem?]
      have e : k + 1 + (i - k - [j].length) = i := by simp; omega
      rw [e]
      by_cases c3 : i < c
      · rw [if_pos c3, if_pos (by omega), h1 i c3 c2]
      · rw [if_neg c3, if_neg (by omega)]

/-- What an applied update leaves in the sentence list: the sentences before
`sentence_index`, then the sentences of the reassembled text when there are
at least two of them and the reassembled text itself otherwise, then the
sentences that followed. -/
theorem edit_step_rows (k : Nat) (u : Message) (s : Session) (j : CStr)
    (hk : k ≤ s.sentence_count)
    (hacc : reassemble_sentence (target_text s k) u.word_index u.data = some j) :
    row_list (edit_step k u s).2.sentences (edit_step k u s).2.sentence_count
      = (row_list s.sentences s.sentence_count).take k
          ++ (if (parse_sentences j).length > 1 then parse_sentences j else [j])
          ++ (row_list s.sentences s.sentence_count).drop (k + 1) := by
  -- the rows once the reassembled sentence is in row `k`
  have key : ∀ (rows0 : Rows) (count0 : Nat), count0 = max s.sentence_count (k + 1) →
      (∀ i, i < s.sentence_count → i ≠ k → rows0 i = s.sentences i) →
      row_list
        (if (parse_sentences j).length > 1 then
          for_loop (fun i => decide (i < (parse_sentences j).length))
            (fun i rows => set_row rows (k + i) ((parse_sentences j).getD i []))
            (parse_sentences j).length 1
            (shift_rows k (parse_sentences j).length
              (set_row (set_row rows0 k j) k ((parse_sentences j).getD 0 [])) count0)
         else set_row (set_row rows0 k j) k (set_row rows0 k j k))
        (if (parse_sentences j).length > 1 then count0 + (parse_sentences j).length - 1
         else count0)
      = (row_list s.sentences s.sentence_count).take k
          ++ (if (parse_sentences j).length > 1 then parse_sentences j else [j])
          ++ (row_list s.sentences s.sentence_count).drop (k + 1) := by
    intro rows0 count0 hc0 hrows
    have hbase := row_list_target s.sentences (set_row rows0 k j) s.sentence_count k j hk
      (by intro i hi hik; simp [set_row, hik, hrows i hi hik]) (by simp [set_row])
    rw [← hc0] at hbase
    have hlenk : ((row_list s.sentences s.sentence_count).take k).length = k := by
      simp [row_list_length]; omega
    by_cases ht : (parse_sentences j).length > 1
    · simp only [ht, if_true]
      rw [split_rows_list (set_row rows0 k j) k count0 (parse_sentences j) (by omega)
        (by omega), hbase]
      congr 1
      · congr 1
        rw [List.append_assoc, List.take_left' hlenk]
      · rw [List.append_assoc, List.drop_append_eq_append_drop, hlenk]
        simp [List.drop_eq_nil_iff.mpr (show ((row_list s.sentences s.sentence_count).take k).length
          ≤ k + 1 by omega)]
    · simp only [ht, if_false]
      have : set_row (set_row rows0 k j) k (set_row rows0 k j k) = set_row rows0 k j := by
        funext i
        by_cases hi : i = k <;> simp [set_row, hi]
      rw [this, hbase]
  unfold edit_step
  by_cases h : k ≥ s.sentence_count
  · have hkc : s.sentence_count = k := by omega
    have htt : target_text s k = [] := by simp [target_text, h]
    rw [htt] at hacc
    have hrow : set_row s.sentences s.sentence_count [] s.sentence_count = [] := by
      simp [set_row]
    simp only [h, decide_True, if_true, hrow, hacc]
    have := key (set_row s.sentences s.sentence_count []) (s.sentence_count + 1)
      (by omega) (by intro i hi hik; simp [set_row]; omega)
    rw [hkc] at this ⊢
    split
    · rename_i ht
      simp only [ht, if_true] at this
      exact this
    · rename_i ht
      simp only [ht, if_false] at this
      exact this
  · have htt : target_text s k = s.sentences k := by simp [target_text, h]
    rw [htt] at hacc
    simp only [h, decide_False, Bool.false_eq_true, if_false, hacc]
    have := key s.sentences s.sentence_count (by omega) (by intro i _ _; rfl)
    split
    · rename_i ht
      simp only [ht, if_true] at this
      exact this
    · rename_i ht
      simp only [ht, if_false] at this
      exact this

theorem intercalate_words :
    ∀ (nw : List CStr), nw ≠ [] → (∀ w ∈ nw, IsWord is_space w) →
      List.intercalate [' '] nw ≠ [] ∧ (List.intercalate [' '] nw).getLast? ≠ some ' ' := by
  intro nw
  induction nw with
  | nil => intro h; exact absurd rfl h
  | cons w rest ih =>
    intro _ hw
    have hw1 := hw w (by simp)
    cases rest with
    | nil =>
      rw [intercalate_single]
      refine ⟨hw1.1, ?_⟩
      rw [List.getLast?_eq_getLast _ hw1.1]
      intro h
      have hmem := List.getLast_mem hw1.1
      rw [Option.some.inj h] at hmem
      have := hw1.2 _ hmem
      revert this; decide
    | cons w2 rest =>
      have := ih (by simp) (fun x hx => hw x (List.mem_cons_of_mem _ hx))
      rw [intercalate_cons_cons]
      refine ⟨by simp [hw1.1], ?_⟩
      rw [getLast?_append_ne _ _ this.1]
      exact this.2

theorem reassemble_sentence_some {target data j : CStr} {i : Int}
    (hw : words_fit (tokens_of target) = true) (hd : words_fit (tokens_of data) = true)
    (h : reassemble_sentence target i data = some j) :
    0 ≤ i ∧ j = List.intercalate [' ']
      ((tokens_of target).take (min i.toNat (tokens_of target).length) ++ tokens_of data
        ++ (tokens_of target).drop i.toNat) := by
  have hi : ¬ (i < 0 ∨ i > ((tokens_of target).length : Int) + 1) := by
    intro hc
    rw [(reassemble_sentence_none target data i).mpr hc] at h
    cases h
  have h0 : 0 ≤ i := by omega
  refine ⟨h0, ?_⟩
  rw [reassemble_sentence_fit target data i hw hd hi] at h
  rw [← Option.some.inj h, join_words_eq, build_new_words_eq _ _ _ h0]

/-- C2 (amended): for an applied update whose content has at least one token
and which keeps every copy of the iteration inside its array row
(`update_in_bounds`: the words of the sentence and the tokens of the content
shorter than `MAX_WORD_LENGTH`, the reassembled sentence shorter than
`MAX_SENTENCE_LENGTH`, at most 100 sentences in it and at most 1000 in the
list), the sentence list afterwards is the sentences before `k`, then the
sentences `parse_sentences` finds in the reassembled sentence, then the
sentences after `k` in their order. -/
theorem edit_step_splits (k : Nat) (u : Message) (s : Session) (j : CStr)
    (hk : k ≤ s.sentence_count)
    (hacc : reassemble_sentence (target_text s k) u.word_index u.data = some j)
    (htok : tokens_of u.data ≠ [])
    (hfit : update_in_bounds k u s = true) :
    row_list (edit_step k u s).2.sentences (edit_step k u s).2.sentence_count
      = (row_list s.sentences s.sentence_count).take k
          ++ parse_sentences j
          ++ (row_list s.sentences s.sentence_count).drop (k + 1) := by
  obtain ⟨_, _, hw, hsome⟩ := update_in_bounds_spec hfit
  obtain ⟨hd, hlen, _, _⟩ := hsome j hacc
  rw [edit_step_rows k u s j hk hacc]
  by_cases ht : (parse_sentences j).length > 1
  · simp only [ht, if_true]
  · simp only [ht, if_false]
    obtain ⟨_, hj⟩ := reassemble_sentence_some hw hd hacc
    have hwords : ∀ w ∈ (tokens_of (target_text s k)).take
          (min u.word_index.toNat (tokens_of (target_text s k)).length) ++ tokens_of u.data
          ++ (tokens_of (target_text s k)).drop u.word_index.toNat, IsWord is_space w := by
      intro w hw
      rcases List.mem_append.mp hw with hw | hw
      · rcases List.mem_append.mp hw with hw | hw
        · exact tokens_of_words _ w (List.mem_of_mem_take hw)
        · exact tokens_of_words _ w hw
      · exact tokens_of_words _ w (List.mem_of_mem_drop hw)
    have hprop := intercalate_words _ (by simp [htok]) hwords
    rw [← hj] at hprop
    rw [parse_sentences_single j hprop.1 hlen hprop.2 (by omega)]

/-- Scenario 3 of the specification: on `Hello world`, sentence 0, the update
with word index 2 and content `there. How are you` leaves the two sentences
`Hello world there.` and `How are you`, and the session commits
`Hello world there. How are you`. -/
theorem edit_step_splits_witness :
    row_list (edit_step 0 split_update hello_session).2.sentences
        (edit_step 0 split_update hello_session).2.sentence_count
      = ["Hello world there.".toList, "How are you".toList] ∧
    (handle_write hello_server hello_write [split_update, { data := ETIRW }]).state.storage
        "a.txt".toList
      = some "Hello world there. How are you".toList :=
  ⟨(edit_step_splits 0 split_update hello_session "Hello world there. How are you".toList
      (by decide) (by decide) (by decide) (by decide)).trans (by decide),
    by decide⟩

theorem mem_intercalate (sep : CStr) :
    ∀ (l : List CStr) (c : Char), c ∈ List.intercalate sep l → c ∈ sep ∨ ∃ w ∈ l, c ∈ w := by
  intro l
  induction l with
  | nil => intro c hc; simp [List.intercalate] at hc
  | cons w rest ih =>
    intro c hc
    cases rest with
    | nil =>
      rw [intercalate_single] at hc
      exact Or.inr ⟨w, by simp, hc⟩
    | cons w2 rest =>
      rw [intercalate_cons_cons] at hc
      rcases List.mem_append.mp hc with hc | hc
      · rcases List.mem_append.mp hc with hc | hc
        · exact Or.inr ⟨w, by simp, hc⟩
        · exact Or.inl hc
      · rcases ih c hc with h | ⟨x, hx, hcx⟩
        · exact Or.inl h
        · exact Or.inr ⟨x, List.mem_cons_of_mem _ hx, hcx⟩

theorem long_content_chars : ∀ c ∈ long_content, c = ' ' ∨ c = 'a' := by
  intro c hc
  rcases mem_intercalate _ _ c hc with h | ⟨w, hw, hcw⟩
  · left; simpa using h
  · right
    rw [List.eq_of_mem_replicate hw] at hcw
    exact List.eq_of_mem_replicate hcw

theorem length_intercalate_replicate (w : CStr) :
    ∀ n : Nat, (List.intercalate [' '] (List.replicate (n + 1) w)).length
      = (n + 1) * w.length + n := by
  intro n
  induction n with
  | zero => rw [List.replicate_succ, List.replicate_zero, intercalate_single]; omega
  | succ n ih =>
    rw [List.replicate_succ, List.replicate_succ, intercalate_cons_cons,
      ← List.replicate_succ, List.length_append, List.length_append, ih]
    simp only [List.length_singleton]
    rw [Nat.add_mul (n + 1) 1 w.length]
    omega

theorem long_content_length : long_content.length = 4096 := by
  rw [long_content, length_intercalate_replicate, List.length_replicate]

theorem parse_long_content : parse_sentences long_content = [] := by
  have hnd : NoDelim long_content := by
    intro c hc
    rcases long_content_chars c hc with h | h <;> subst h <;> decide
  rw [parse_sentences_eq_scan, scan_fragment long_content [] [] false hnd (by simp)
    (by intro h; cases h)]
  simp only [List.nil_append, emit, long_content_length]
  split
  · rfl
  · rfl

theorem tokens_of_long_content :
    tokens_of long_content = List.replicate 17 (List.replicate 240 'a') := by
  have hw : ∀ w ∈ List.replicate 17 (List.replicate 240 'a'), IsWord is_space w := by
    intro w hw
    rw [List.eq_of_mem_replicate hw]
    refine ⟨List.ne_nil_of_length_pos (by rw [List.length_replicate]; decide), ?_⟩
    intro c hc
    rw [List.eq_of_mem_replicate hc]; decide
  rw [tokens_of_eq, long_content, words_of_intercalate _ hw, List.take_replicate]
  rfl

/-- C2 as stated fails when the reassembled sentence has
`MAX_SENTENCE_LENGTH` characters.  On an empty file, sentence 0, the update
with word index 0 and a content of 17 words of 240 letters is applied, the
content has tokens, and `parse_sentences` finds no sentence in the
reassembled text, so the claim has an empty sentence list; the code keeps the
reassembled text as the one sentence of the list.  (The 4096 characters fill
row 0 of `sentences`; their NUL is the first byte of row 1, which the session
does not use.) -/
theorem edit_step_long_sentence :
    reassemble_sentence (target_text empty_session 0) 0 long_content = some long_content ∧
    tokens_of long_content ≠ [] ∧
    (row_list empty_session.sentences empty_session.sentence_count).take 0
        ++ parse_sentences long_content
        ++ (row_list empty_session.sentences empty_session.sentence_count).drop (0 + 1) = [] ∧
    row_list (edit_step 0 { word_index := 0, data := long_content } empty_session).2.sentences
        (edit_step 0 { word_index := 0, data := long_content } empty_session).2.sentence_count
      = [long_content] ∧
    row_list (edit_step 0 { word_index := 0, data := long_content } empty_session).2.sentences
        (edit_step 0 { word_index := 0, data := long_content } empty_session).2.sentence_count
      ≠ (row_list empty_session.sentences empty_session.sentence_count).take 0
        ++ parse_sentences long_content
        ++ (row_list empty_session.sentences empty_session.sentence_count).drop (0 + 1) := by
  have hre : reassemble_sentence (target_text empty_session 0) 0 long_content
      = some long_content := by
    have ht : target_text empty_session 0 = [] := by decide
    have h0 : tokens_of ([] : CStr) = [] := by decide
    rw [ht, reassemble_sentence_fit [] long_content 0 (by rw [h0]; rfl)
      (by rw [tokens_of_long_content]
          exact replicate_words_fit _ _ (by rw [List.length_replicate]; decide))
      (by rw [h0]; decide)]
    simp only [h0, tokens_of_long_content]
    rw [join_words_eq, build_new_words_eq _ _ _ (le_refl _)]
    simp only [Int.toNat_zero, List.take_nil, List.drop_nil, List.nil_append, List.append_nil]
    rfl
  have hrows : row_list
        (edit_step 0 { word_index := 0, data := long_content } empty_session).2.sentences
        (edit_step 0 { word_index := 0, data := long_content } empty_session).2.sentence_count
      = [long_content] := by
    rw [edit_step_rows 0 { word_index := 0, data := long_content } empty_session long_content
      (by decide) hre, parse_long_content]
    rfl
  refine ⟨hre, ?_, ?_, hrows, ?_⟩
  · rw [tokens_of_long_content]
    exact List.ne_nil_of_length_pos (by rw [List.length_replicate]; decide)
  · rw [parse_long_content]; rfl
  · rw [hrows, parse_long_content]
    intro h
    have := congrArg List.length h
    simp [row_list, empty_session] at this

/-- C4, the code at the failing input: on the file `Hello world` the update
with word index 5 is rejected with the `ERR_INVALID_INDEX` record, and the
session's sentence 0 is `Hello` afterwards; committing right after it writes
`Hello`, where committing without it writes `Hello world`. -/
theorem rejected_update_cuts_sentence :
    (edit_step 0 { word_index := 5, data := "x".toList } hello_session).1 = false ∧
    row_list (edit_step 0 { word_index := 5, data := "x".toList } hello_session).2.sentences
        (edit_step 0 { word_index := 5, data := "x".toList } hello_session).2.sentence_count
      = ["Hello".toList] ∧
    (handle_write hello_server hello_write
        [{ word_index := 5, data := "x".toList }, { data := ETIRW }]).sent.map
        (fun m => m.error_code)
      = [ERR_SUCCESS, ERR_INVALID_INDEX, ERR_SUCCESS] ∧
    (handle_write hello_server hello_write
        [{ word_index := 5, data := "x".toList }, { data := ETIRW }]).state.storage
        "a.txt".toList = some "Hello".toList ∧
    (handle_write hello_server hello_write [{ data := ETIRW }]).state.storage
        "a.txt".toList = some "Hello world".toList := by
  decide

/-- The bound on the number of `strtok_r` calls in `words_of` and
`tokens_of` is never what ends the loop: with any bound above the length of
the text the loop yields the same words. -/
theorem strtok_all_fuel (is_delim : Char → Bool) :
    ∀ (fuel1 fuel2 : Nat) (s : CStr) (acc : List CStr),
      s.length < fuel1 → s.length < fuel2 →
      strtok_all is_delim fuel1 s acc = strtok_all is_delim fuel2 s acc := by
  intro fuel1
  induction fuel1 with
  | zero => intro fuel2 s acc h; omega
  | succ f1 ih =>
    intro fuel2 s acc h1 h2
    cases fuel2 with
    | zero => omega
    | succ f2 =>
      rw [strtok_all, strtok_all]
      cases hs : strtok_r is_delim s with
      | none => rfl
      | some p =>
        obtain ⟨token, rest⟩ := p
        have := (strtok_r_some hs).2
        exact ih f2 rest _ (by omega) (by omega)

/-- An iteration of the edit loop never lowers `sentence_count`, so the
sentence index, which `handle_write` checks against the count before the
loop, stays within it. -/
theorem edit_step_count (k : Nat) (u : Message) (s : Session) :
    s.sentence_count ≤ (edit_step k u s).2.sentence_count := by
  unfold edit_step
  simp only
  split
  · split <;> simp
  · split
    · split <;> simp
      omega
    · split <;> simp

/-! ## The undo shadow: `save_for_undo`, `handle_write`, `handle_undo` -/

theorem get_sentence_lock_files (st : SSState) (f : CStr) (k : Int) :
    (get_sentence_lock st f k).1.undo = st.undo ∧
    (get_sentence_lock st f k).1.storage = st.storage := by
  unfold get_sentence_lock
  split
  · exact ⟨rfl, rfl⟩
  · split <;> exact ⟨rfl, rfl⟩

/-- Whatever way a write request ends, the shadow tree afterwards is the one
`save_for_undo` left at line 367. -/
theorem handle_write_undo_eq (st : SSState) (msg : Message) (updates : List Message) :
    (handle_write st msg updates).state.undo = (save_for_undo st msg.filename).undo := by
  unfold handle_write
  simp only
  split
  · rfl
  · split
    · rfl
    · split
      · rename_i st1 heq
        have := (get_sentence_lock_files (save_for_undo st msg.filename) msg.filename msg.flags).1
        rw [heq] at this
        exact this
      · rename_i st1 lock heq
        have := (get_sentence_lock_files (save_for_undo st msg.filename) msg.filename msg.flags).1
        rw [heq] at this
        split
        · exact this
        · split <;> exact this

/-- A write request that commits found the file readable. -/
theorem handle_write_committed (st : SSState) (msg : Message) (updates : List Message)
    (h : (handle_write st msg updates).committed = true) :
    ∃ bytes, st.storage msg.filename = some bytes := by
  cases hs : st.storage msg.filename with
  | some bytes => exact ⟨bytes, rfl⟩
  | none =>
    have hread : read_file_content (save_for_undo st msg.filename) msg.filename = none := by
      simp [read_file_content, save_for_undo, hs]
    unfold handle_write at h
    simp only [hread] at h
    cases h

theorem save_for_undo_self (st : SSState) (f bytes : CStr) (h : st.storage f = some bytes) :
    (save_for_undo st f).undo f = some bytes := by
  simp [save_for_undo, h, fs_write]

theorem save_for_undo_other (st : SSState) (f g : CStr) (h : g ≠ f) :
    (save_for_undo st f).undo g = st.undo g := by
  unfold save_for_undo
  split
  · rfl
  · simp [fs_write, h]

theorem handle_client_request_undo (st : SSState) (msg : Message) (updates : List Message)
    (f : CStr) (h : ¬ (msg.type = MSG_WRITE_FILE ∧ msg.filename = f)) :
    (handle_client_request st msg updates).1.undo f = st.undo f := by
  unfold handle_client_request
  split
  · rfl
  · split
    · rename_i hw
      have hne : f ≠ msg.filename := fun e => h ⟨hw, e.symm⟩
      show (handle_write st msg updates).state.undo f = st.undo f
      rw [handle_write_undo_eq, save_for_undo_other _ _ _ hne]
    · split
      · rfl
      · split
        · show (handle_undo st msg).1.undo f = st.undo f
          unfold handle_undo
          split <;> rfl
        · rfl

theorem run_clients_undo (f : CStr) :
    ∀ (between : List (Message × List Message)) (st : SSState),
      (∀ c ∈ between, ¬ (c.1.type = MSG_WRITE_FILE ∧ c.1.filename = f)) →
      (run_clients st between).undo f = st.undo f := by
  intro between
  induction between with
  | nil => intro st _; rfl
  | cons c rest ih =>
    intro st h
    show (run_clients (handle_client_request st c.1 c.2).1 rest).undo f = st.undo f
    rw [ih _ (fun x hx => h x (List.mem_cons_of_mem _ hx)),
      handle_client_request_undo st c.1 c.2 f (h c (by simp))]

/-- C5: when a write session on `f` commits and, after any series of client
connections none of which is a write request on `f`, an undo of `f` is
served, the undo answers `ERR_SUCCESS` and the bytes of `f` afterwards are the
bytes `f` had when the write request arrived. -/
theorem undo_restores_preimage (st : SSState) (msg : Message) (updates : List Message)
    (between : List (Message × List Message)) (undo_msg : Message)
    (hcommit : (handle_write st msg updates).committed = true)
    (hbetween : ∀ c ∈ between, ¬ (c.1.type = MSG_WRITE_FILE ∧ c.1.filename = msg.filename))
    (hfile : undo_msg.filename = msg.filename) :
    (handle_undo (run_clients (handle_write st msg updates).state between) undo_msg).2.error_code
      = ERR_SUCCESS ∧
    (handle_undo (run_clients (handle_write st msg updates).state between) undo_msg).1.storage
        msg.filename
      = st.storage msg.filename := by
  obtain ⟨bytes, hb⟩ := handle_write_committed st msg updates hcommit
  have hshadow : (run_clients (handle_write st msg updates).state between).undo undo_msg.filename
      = some bytes := by
    rw [hfile, run_clients_undo msg.filename between _ hbetween, handle_write_undo_eq,
      save_for_undo_self st msg.filename bytes hb]
  constructor
  · unfold handle_undo
    rw [hshadow]
  · unfold handle_undo
    rw [hshadow, hb, hfile]
    simp [fs_write]

/-- Scenario 5 of the specification: `c.txt` holds `X.`; a write session
inserts `Y` at word 0 and commits `Y X.`; after a read, the undo answers
`ERR_SUCCESS` and a read yields `X.`. -/
theorem undo_restores_preimage_witness :
    (handle_write x_server x_write x_updates).committed = true ∧
    (handle_write x_server x_write x_updates).state.storage "c.txt".toList
      = some "Y X.".toList ∧
    ((handle_undo (run_clients (handle_write x_server x_write x_updates).state [(x_read, [])])
        x_undo).2.error_code = ERR_SUCCESS ∧
     (handle_undo (run_clients (handle_write x_server x_write x_updates).state [(x_read, [])])
        x_undo).1.storage x_write.filename = x_server.storage x_write.filename) ∧
    (handle_read
      (handle_undo (run_clients (handle_write x_server x_write x_updates).state [(x_read, [])])
        x_undo).1 x_read).data = "X.".toList :=
  ⟨by decide, by decide,
    undo_restores_preimage x_server x_write x_updates [(x_read, [])] x_undo
      (by decide) (by decide) (by decide),
    by decide⟩

/-- A write request that does not commit leaves every live file as it was. -/
theorem handle_write_uncommitted (st : SSState) (msg : Message) (updates : List Message)
    (h : (handle_write st msg updates).committed = false) :
    (handle_write st msg updates).state.storage = st.storage := by
  have hsave : (save_for_undo st msg.filename).storage = st.storage := by
    unfold save_for_undo; split <;> rfl
  revert h
  unfold handle_write
  simp only
  split
  · intro _; exact hsave
  · split
    · intro _; exact hsave
    · split
      · rename_i st1 heq
        have := (get_sentence_lock_files (save_for_undo st msg.filename) msg.filename msg.flags).2
        rw [heq] at this
        intro _; exact this.trans hsave
      · rename_i st1 lock heq
        have := (get_sentence_lock_files (save_for_undo st msg.filename) msg.filename msg.flags).2
        rw [heq] at this
        split
        · intro _; exact this.trans hsave
        · split
          · intro _; exact this.trans hsave
          · intro h; cases h

theorem run_writes_append (st : SSState) (reqs : List (Message × List Message))
    (r : Message × List Message) :
    run_writes st (reqs ++ [r]) = (handle_write (run_writes st reqs) r.1 r.2).state := by
  simp [run_writes, List.foldl_append]

/-- C6 (amended): after any series of write requests the last of which is a
request on an existing file `f`, the undo shadow of `f` holds the bytes `f`
had when that last request arrived, whether or not it committed; and a
request that ends without commit leaves the live file as it was, so that the
shadow then holds the current bytes of `f`. -/
theorem write_request_sets_shadow (st : SSState) (reqs : List (Message × List Message))
    (r : Message × List Message) (bytes : CStr)
    (h : (run_writes st reqs).storage r.1.filename = some bytes) :
    (run_writes st (reqs ++ [r])).undo r.1.filename = some bytes ∧
    ((handle_write (run_writes st reqs) r.1 r.2).committed = false →
      (run_writes st (reqs ++ [r])).storage r.1.filename = some bytes) := by
  rw [run_writes_append]
  constructor
  · rw [handle_write_undo_eq, save_for_undo_self _ _ _ h]
  · intro hc
    rw [handle_write_uncommitted _ _ _ hc, h]

/-- The statement `write_request_sets_shadow` on `c.txt`: after the committed
write and the write request with a sentence index out of range, the shadow
and the live file both hold `Y X.`. -/
theorem write_request_sets_shadow_witness :
    (run_writes x_server [(x_write, x_updates)]).storage x_bad_write.filename
      = some "Y X.".toList ∧
    ((run_writes x_server ([(x_write, x_updates)] ++ [(x_bad_write, [])])).undo
        x_bad_write.filename = some "Y X.".toList ∧
     ((handle_write (run_writes x_server [(x_write, x_updates)]) x_bad_write []).committed
        = false →
      (run_writes x_server ([(x_write, x_updates)] ++ [(x_bad_write, [])])).storage
        x_bad_write.filename = some "Y X.".toList)) :=
  ⟨by decide,
    write_request_sets_shadow x_server [(x_write, x_updates)] (x_bad_write, []) "Y X.".toList
      (by decide)⟩

/-- C6 as stated fails.  On `c.txt` with the text `X.` a write session
commits `Y X.`, the shadow holding `X.`; a second write request, with a
sentence index out of range, is answered `ERR_INVALID_INDEX` and ends without
commit, and the shadow holds `Y X.` afterwards: it has changed, and it is no
longer the text `X.` the file had before its most recent committed write. -/
theorem shadow_after_rejected_write :
    (handle_write x_server x_write x_updates).committed = true ∧
    (handle_write x_server x_write x_updates).state.undo "c.txt".toList = some "X.".toList ∧
    (handle_write (handle_write x_server x_write x_updates).state x_bad_write []).committed
      = false ∧
    (handle_write (handle_write x_server x_write x_updates).state x_bad_write []).sent.map
        (fun m => m.error_code) = [ERR_INVALID_INDEX] ∧
    (handle_write (handle_write x_server x_write x_updates).state x_bad_write []).state.undo
        "c.txt".toList = some "Y X.".toList ∧
    (handle_write (handle_write x_server x_write x_updates).state x_bad_write []).state.undo
        "c.txt".toList
      ≠ (handle_write x_server x_write x_updates).state.undo "c.txt".toList := by
  decide

/-! ## Sentence locks and the sentence index check of `handle_write` -/

theorem save_for_undo_locks (st : SSState) (f : CStr) :
    (save_for_undo st f).sentence_locks = st.sentence_locks := by
  unfold save_for_undo; split <;> rfl

theorem save_for_undo_storage (st : SSState) (f : CStr) :
    (save_for_undo st f).storage = st.storage := by
  unfold save_for_undo; split <;> rfl

theorem read_after_save (st : SSState) (f g : CStr) :
    read_file_content (save_for_undo st f) g = read_file_content st g := by
  unfold read_file_content; rw [save_for_undo_storage]

/-- The three ways `get_sentence_lock` ends. -/
theorem get_sentence_lock_cases (st : SSState) (f : CStr) (k : Int) :
    (∃ i, st.sentence_locks.findIdx?
        (fun l => l.filename == f && l.sentence_index == k) = some i ∧
      get_sentence_lock st f k = (st, some i)) ∨
    (st.sentence_locks.findIdx? (fun l => l.filename == f && l.sentence_index == k) = none ∧
      st.sentence_locks.length < MAX_FILES ∧
      get_sentence_lock st f k =
        ({ st with sentence_locks := st.sentence_locks ++
            [{ filename := f, sentence_index := k, lock := false, locked_by := [] }] },
          some st.sentence_locks.length)) ∨
    (st.sentence_locks.findIdx? (fun l => l.filename == f && l.sentence_index == k) = none ∧
      ¬ st.sentence_locks.length < MAX_FILES ∧
      get_sentence_lock st f k = (st, none)) := by
  unfold get_sentence_lock
  cases h : st.sentence_locks.findIdx? (fun l => l.filename == f && l.sentence_index == k) with
  | some i => exact Or.inl ⟨i, rfl, rfl⟩
  | none =>
    by_cases hl : st.sentence_locks.length < MAX_FILES
    · exact Or.inr (Or.inl ⟨rfl, hl, by simp only [hl, if_true]⟩)
    · exact Or.inr (Or.inr ⟨rfl, hl, by simp only [hl, if_false]⟩)

/-- The lock table `get_sentence_lock` works on is not touched by
`save_for_undo`. -/
theorem get_sentence_lock_after_save (st : SSState) (f g : CStr) (k : Int) :
    (get_sentence_lock (save_for_undo st f) g k).2 = (get_sentence_lock st g k).2 ∧
    (get_sentence_lock (save_for_undo st f) g k).1.sentence_locks
      = (get_sentence_lock st g k).1.sentence_locks := by
  unfold get_sentence_lock
  rw [save_for_undo_locks]
  split
  · exact ⟨rfl, save_for_undo_locks st f⟩
  · split
    · exact ⟨rfl, rfl⟩
    · exact ⟨rfl, save_for_undo_locks st f⟩

/-- An entry that `get_sentence_lock` leaves held was in the table before. -/
theorem get_sentence_lock_held (st : SSState) (f : CStr) (k : Int) (i : Nat) (e : SentenceLock)
    (h : (get_sentence_lock st f k).1.sentence_locks.get? i = some e) (he : e.lock = true) :
    st.sentence_locks.get? i = some e := by
  rcases get_sentence_lock_cases st f k with ⟨j, _, hg⟩ | ⟨_, _, hg⟩ | ⟨_, _, hg⟩
  · rw [hg] at h; exact h
  · rw [hg] at h
    simp only [List.get?_eq_getElem?] at h ⊢
    by_cases hi : i < st.sentence_locks.length
    · rw [List.getElem?_append_left hi] at h; exact h
    · rw [List.getElem?_append_right (by omega)] at h
      cases hd : i - st.sentence_locks.length with
      | zero =>
        rw [hd] at h
        simp at h
        rw [← h] at he
        cases he
      | succ n => rw [hd] at h; simp at h
  · rw [hg] at h; exact h

theorem release_acquire_locks (s : SSState) (j : Nat) (u : CStr) :
    (release_lock (acquire_lock s j u) j).sentence_locks = (release_lock s j).sentence_locks := by
  unfold release_lock acquire_lock
  cases h : s.sentence_locks.get? j with
  | none => simp only [h]
  | some l =>
    have hj : j < s.sentence_locks.length := by
      rw [List.get?_eq_getElem?] at h
      exact (List.getElem?_eq_some_iff.mp h).1
    simp only [List.get?_eq_getElem?, List.getElem?_set_self hj, List.set_set]

theorem release_write_locks (s : SSState) (j : Nat) (f c : CStr) :
    (release_lock (write_file_content s f c) j).sentence_locks
      = (release_lock s j).sentence_locks := rfl

/-- The entry `release_lock` works on is free afterwards; the others are
what they were. -/
theorem release_lock_get (s : SSState) (j i : Nat) :
    (release_lock s j).sentence_locks.get? i =
      if i = j then (s.sentence_locks.get? j).map
        (fun l => { l with lock := false, locked_by := [] })
      else s.sentence_locks.get? i := by
  unfold release_lock
  cases h : s.sentence_locks.get? j with
  | none =>
    by_cases hij : i = j
    · subst hij; simp only [h, if_true, Option.map_none']
    · simp only [hij, if_false]
  | some l =>
    have hj : j < s.sentence_locks.length := by
      rw [List.get?_eq_getElem?] at h
      exact (List.getElem?_eq_some_iff.mp h).1
    by_cases hij : i = j
    · subst hij
      simp only [List.get?_eq_getElem?, List.getElem?_set_self hj, if_true, Option.map_some']
    · simp only [List.get?_eq_getElem?, hij, if_false]
      exact List.getElem?_set_ne (Ne.symm hij)

/-- An entry that is held after `release_lock` was held before. -/
theorem release_lock_held (s : SSState) (j i : Nat) (e : SentenceLock)
    (h : (release_lock s j).sentence_locks.get? i = some e) (he : e.lock = true) :
    s.sentence_locks.get? i = some e := by
  rw [release_lock_get] at h
  by_cases hij : i = j
  · simp only [hij, if_true] at h
    cases hl : s.sentence_locks.get? j with
    | none => rw [hl] at h; cases h
    | some l =>
      rw [hl] at h
      simp only [Option.map_some', Option.some.injEq] at h
      rw [← h] at he
      cases he
  · simp only [hij, if_false] at h; exact h

/-- The lock table `handle_write` leaves, by the way the request ends. -/
theorem handle_write_locks (st : SSState) (msg : Message) (updates : List Message) :
    (handle_write st msg updates).state.sentence_locks = st.sentence_locks ∨
    (handle_write st msg updates).state.sentence_locks
      = (get_sentence_lock st msg.filename msg.flags).1.sentence_locks ∨
    ∃ j, (get_sentence_lock st msg.filename msg.flags).2 = some j ∧
      (handle_write st msg updates).state.sentence_locks
        = (release_lock (get_sentence_lock st msg.filename msg.flags).1 j).sentence_locks := by
  have hg := get_sentence_lock_after_save st msg.filename msg.filename msg.flags
  unfold handle_write
  simp only
  split
  · exact Or.inl (save_for_undo_locks _ _)
  · split
    · exact Or.inl (save_for_undo_locks _ _)
    · split
      · rename_i st1 heq
        rw [heq] at hg
        exact Or.inr (Or.inl hg.2)
      · rename_i st1 lock heq
        rw [heq] at hg
        split
        · exact Or.inr (Or.inl hg.2)
        · split
          · refine Or.inr (Or.inr ⟨lock, hg.1.symm, ?_⟩)
            rw [release_acquire_locks]
            show (release_lock st1 lock).sentence_locks = _
            unfold release_lock
            rw [hg.2]
          · refine Or.inr (Or.inr ⟨lock, hg.1.symm, ?_⟩)
            show (release_lock (write_file_content (acquire_lock st1 lock msg.username) _ _)
              lock).sentence_locks = _
            rw [release_write_locks, release_acquire_locks]
            unfold release_lock
            rw [hg.2]

/-- A write request for a file that cannot be read is answered with
`ERR_FILE_NOT_FOUND`. -/
theorem handle_write_unreadable (st : SSState) (msg : Message) (updates : List Message)
    (hread : read_file_content st msg.filename = none) :
    (handle_write st msg updates).sent =
      [{ type := MSG_RESPONSE, error_code := ERR_FILE_NOT_FOUND,
         data := "ERROR: Cannot read file".toList }] := by
  unfold handle_write
  simp only [read_after_save, hread]

/-- A write request whose sentence index fails the check of line 388. -/
theorem handle_write_invalid_index (st : SSState) (msg : Message) (updates : List Message)
    (buffer : CStr) (hread : read_file_content st msg.filename = some buffer)
    (hk : msg.flags < 0 ∨ msg.flags > ((parse_sentences buffer).length : Int)) :
    (handle_write st msg updates).sent =
      [{ type := MSG_RESPONSE, error_code := ERR_INVALID_INDEX,
         data := "ERROR: Sentence index out of range".toList }] ∧
    (handle_write st msg updates).committed = false ∧
    (handle_write st msg updates).state.sentence_locks = st.sentence_locks := by
  unfold handle_write
  simp only [read_after_save, hread, hk, if_true]
  exact ⟨trivial, trivial, save_for_undo_locks _ _⟩

/-- A write request whose sentence index passes the check of line 388: the
records sent, by what `get_sentence_lock` returns and the state of the entry. -/
theorem handle_write_lock_stage (st : SSState) (msg : Message) (updates : List Message)
    (buffer : CStr) (hread : read_file_content st msg.filename = some buffer)
    (hk : ¬ (msg.flags < 0 ∨ msg.flags > ((parse_sentences buffer).length : Int))) :
    (handle_write st msg updates).sent =
      match (get_sentence_lock st msg.filename msg.flags).2 with
      | none =>
        [{ type := MSG_RESPONSE, error_code := ERR_SERVER_ERROR,
           data := "ERROR: Cannot acquire lock".toList }]
      | some j =>
        if ((get_sentence_lock st msg.filename msg.flags).1.sentence_locks.get? j).map
            (fun l => l.lock) = some true then
          [{ type := MSG_RESPONSE, error_code := ERR_SENTENCE_LOCKED,
             data := "ERROR: Sentence locked by ".toList ++
               (((get_sentence_lock st msg.filename msg.flags).1.sentence_locks.get? j).map
                 (fun l => l.locked_by)).getD [] }]
        else
          { type := MSG_RESPONSE, error_code := ERR_SUCCESS,
            data := "Lock acquired. Send word updates.".toList } ::
          match edit_loop msg.flags.toNat updates
              { sentences := rows_of (parse_sentences buffer),
                sentence_count := (parse_sentences buffer).length } [] with
          | (none, sent) => sent
          | (some _, sent) =>
            sent ++ [{ type := MSG_RESPONSE, error_code := ERR_SUCCESS,
                       data := "Write Successful!".toList }] := by
  have hg := get_sentence_lock_after_save st msg.filename msg.filename msg.flags
  unfold handle_write
  simp only [read_after_save, hread, hk, if_false]
  rw [← hg.1, ← hg.2]
  rcases get_sentence_lock (save_for_undo st msg.filename) msg.filename msg.flags with ⟨s1, o⟩
  cases o with
  | none => rfl
  | some j =>
    simp only
    split
    · rfl
    · rcases edit_loop msg.flags.toNat updates
        { sentences := rows_of (parse_sentences buffer),
          sentence_count := (parse_sentences buffer).length } [] with ⟨r, sent⟩
      cases r <;> rfl

/-- The entry `get_sentence_lock` returns is in the table it leaves and is an
entry for the pair asked for: the one the table had, or a new free one. -/
theorem get_sentence_lock_entry (st : SSState) (f : CStr) (k : Int) (j : Nat)
    (hj : (get_sentence_lock st f k).2 = some j) :
    ∃ e, (get_sentence_lock st f k).1.sentence_locks.get? j = some e ∧
      e.filename = f ∧ e.sentence_index = k ∧
      (st.sentence_locks.get? j = some e ∨
        (st.sentence_locks.get? j = none ∧ e.lock = false ∧ e.locked_by = [])) := by
  rcases get_sentence_lock_cases st f k with ⟨i, hi, hg⟩ | ⟨_, _, hg⟩ | ⟨_, _, hg⟩
  · rw [hg] at hj ⊢
    simp only [Option.some.injEq] at hj
    subst hj
    obtain ⟨hlt, hp, _⟩ := List.findIdx?_eq_some_iff_getElem.mp hi
    refine ⟨st.sentence_locks[i], ?_, ?_, ?_, Or.inl ?_⟩
    · simp only [List.get?_eq_getElem?]; exact List.getElem?_eq_getElem hlt
    · simp only [Bool.and_eq_true, beq_iff_eq] at hp; exact hp.1
    · simp only [Bool.and_eq_true, beq_iff_eq] at hp; exact hp.2
    · simp only [List.get?_eq_getElem?]; exact List.getElem?_eq_getElem hlt
  · rw [hg] at hj ⊢
    simp only [Option.some.injEq] at hj
    subst hj
    refine ⟨{ filename := f, sentence_index := k, lock := false, locked_by := [] },
      ?_, rfl, rfl, Or.inr ⟨?_, rfl, rfl⟩⟩
    · simp only [List.get?_eq_getElem?]
      rw [List.getElem?_append_right (le_refl _)]
      simp
    · simp only [List.get?_eq_getElem?]
      exact List.getElem?_eq_none (le_refl _)
  · rw [hg] at hj; cases hj

/-- A write request that finds its entry held: one record is sent and the
lock table is what `get_sentence_lock` left. -/
theorem handle_write_locked (st : SSState) (msg : Message) (updates : List Message)
    (buffer : CStr) (hread : read_file_content st msg.filename = some buffer)
    (hk : ¬ (msg.flags < 0 ∨ msg.flags > ((parse_sentences buffer).length : Int)))
    (j : Nat) (e : SentenceLock)
    (hj : (get_sentence_lock st msg.filename msg.flags).2 = some j)
    (he : (get_sentence_lock st msg.filename msg.flags).1.sentence_locks.get? j = some e)
    (hl : e.lock = true) :
    (handle_write st msg updates).sent =
      [{ type := MSG_RESPONSE, error_code := ERR_SENTENCE_LOCKED,
         data := "ERROR: Sentence locked by ".toList ++ e.locked_by }] ∧
    (handle_write st msg updates).committed = false ∧
    (handle_write st msg updates).state.sentence_locks
      = (get_sentence_lock st msg.filename msg.flags).1.sentence_locks := by
  have hg := get_sentence_lock_after_save st msg.filename msg.filename msg.flags
  rw [← hg.1] at hj
  rw [← hg.2] at he ⊢
  revert hj he
  unfold handle_write
  simp only [read_after_save, hread, hk, if_false]
  generalize get_sentence_lock (save_for_undo st msg.filename) msg.filename msg.flags = g
  rcases g with ⟨s1, o⟩
  intro hj he
  have hj2 : o = some j := hj
  have he2 : s1.sentence_locks.get? j = some e := he
  subst hj2
  simp only [he2, Option.map_some', hl, if_true, Option.getD_some]
  exact ⟨trivial, trivial, trivial⟩

/-- A write request that finds its entry free: the first record sent is the
lock acknowledgement, and at the return the entry has been released. -/
theorem handle_write_acquired (st : SSState) (msg : Message) (updates : List Message)
    (buffer : CStr) (hread : read_file_content st msg.filename = some buffer)
    (hk : ¬ (msg.flags < 0 ∨ msg.flags > ((parse_sentences buffer).length : Int)))
    (j : Nat) (e : SentenceLock)
    (hj : (get_sentence_lock st msg.filename msg.flags).2 = some j)
    (he : (get_sentence_lock st msg.filename msg.flags).1.sentence_locks.get? j = some e)
    (hl : e.lock = false) :
    (handle_write st msg updates).sent.head? =
      some { type := MSG_RESPONSE, error_code := ERR_SUCCESS,
             data := "Lock acquired. Send word updates.".toList } ∧
    (handle_write st msg updates).state.sentence_locks
      = (release_lock (get_sentence_lock st msg.filename msg.flags).1 j).sentence_locks := by
  have hg := get_sentence_lock_after_save st msg.filename msg.filename msg.flags
  rw [← hg.1] at hj
  have hrel : ∀ s : SSState, s.sentence_locks
      = (get_sentence_lock st msg.filename msg.flags).1.sentence_locks →
      (release_lock s j).sentence_locks
        = (release_lock (get_sentence_lock st msg.filename msg.flags).1 j).sentence_locks := by
    intro s hs; unfold release_lock; rw [hs]
  rw [← hg.2] at he
  revert hrel
  rw [← hg.2]
  intro hrel
  revert hj he hrel
  unfold handle_write
  simp only [read_after_save, hread, hk, if_false]
  generalize get_sentence_lock (save_for_undo st msg.filename) msg.filename msg.flags = g
  rcases g with ⟨s1, o⟩
  intro hj he hrel
  have hj2 : o = some j := hj
  have he2 : s1.sentence_locks.get? j = some e := he
  have hrel2 : (release_lock s1 j).sentence_locks
      = (release_lock (get_sentence_lock st msg.filename msg.flags).1 j).sentence_locks :=
    hrel s1 rfl
  subst hj2
  have hn : ¬ (Option.map (fun l => l.lock) (some e) = some true) := by
    simp [hl]
  simp only [he2, hn, if_false]
  rcases edit_loop msg.flags.toNat updates
    { sentences := rows_of (parse_sentences buffer),
      sentence_count := (parse_sentences buffer).length } [] with ⟨r, sent⟩
  cases r with
  | none =>
    refine ⟨rfl, ?_⟩
    show (release_lock (acquire_lock s1 j msg.username) j).sentence_locks = _
    rw [release_acquire_locks]; exact hrel2
  | some s =>
    refine ⟨rfl, ?_⟩
    show (release_lock (write_file_content (acquire_lock s1 j msg.username) _ _)
      j).sentence_locks = _
    rw [release_write_locks, release_acquire_locks]; exact hrel2

theorem find?_findIdx? (p : SentenceLock → Bool) (e : SentenceLock) :
    ∀ (L : List SentenceLock), L.find? p = some e →
      ∃ i, L.findIdx? p = some i ∧ L.get? i = some e := by
  intro L
  induction L with
  | nil => intro h; cases h
  | cons a t ih =>
    intro h
    rw [List.findIdx?_cons]
    by_cases hp : p a = true
    · rw [List.find?_cons_of_pos _ hp] at h
      simp only [Option.some.injEq] at h
      subst h
      exact ⟨0, by simp [hp], rfl⟩
    · rw [List.find?_cons_of_neg _ hp] at h
      obtain ⟨i, hi, he⟩ := ih h
      refine ⟨i + 1, ?_, he⟩
      simp only [hp, if_false, List.findIdx?_succ, hi]
      rfl

theorem findIdx?_set_congr (p : SentenceLock → Bool) (a b : SentenceLock) (hab : p b = p a) :
    ∀ (L : List SentenceLock) (i s : Nat), L.get? i = some a →
      (L.set i b).findIdx? p s = L.findIdx? p s := by
  intro L
  induction L with
  | nil => intro i s h; cases h
  | cons x t ih =>
    intro i s h
    cases i with
    | zero =>
      have hx : x = a := by simpa using h
      subst hx
      simp only [List.set_cons_zero, List.findIdx?_cons, hab]
    | succ n =>
      simp only [List.set_cons_succ, List.findIdx?_cons]
      rw [ih n (s + 1) (by simpa using h)]

/-- The positions `get_sentence_lock` looks up are the same after a
`release_lock`: the names and sentence indexes of the entries do not change. -/
theorem release_lock_findIdx? (s : SSState) (i : Nat) (f : CStr) (k : Int) :
    (release_lock s i).sentence_locks.findIdx?
        (fun l => l.filename == f && l.sentence_index == k)
      = s.sentence_locks.findIdx? (fun l => l.filename == f && l.sentence_index == k) := by
  unfold release_lock
  cases h : s.sentence_locks.get? i with
  | none => rfl
  | some l =>
    exact findIdx?_set_congr (fun l => l.filename == f && l.sentence_index == k) l
      { l with lock := false, locked_by := [] } rfl s.sentence_locks i 0 h

theorem release_lock_length (s : SSState) (i : Nat) :
    (release_lock s i).sentence_locks.length = s.sentence_locks.length := by
  unfold release_lock
  cases h : s.sentence_locks.get? i with
  | none => rfl
  | some l => simp only [List.length_set]

/-- What `get_sentence_lock` returns for `(f, k2)` does not depend on whether
the entry for another sentence index `k` of `f` is held. -/
theorem get_sentence_lock_release (s : SSState) (i : Nat) (f : CStr) (k k2 : Int)
    (hne : k2 ≠ k)
    (hi : s.sentence_locks.findIdx? (fun l => l.filename == f && l.sentence_index == k)
      = some i) :
    (get_sentence_lock (release_lock s i) f k2).2 = (get_sentence_lock s f k2).2 ∧
    ∀ j, (get_sentence_lock s f k2).2 = some j →
      (get_sentence_lock (release_lock s i) f k2).1.sentence_locks.get? j
        = (get_sentence_lock s f k2).1.sentence_locks.get? j := by
  obtain ⟨hlt, hp, _⟩ := List.findIdx?_eq_some_iff_getElem.mp hi
  simp only [Bool.and_eq_true, beq_iff_eq] at hp
  have hidx := release_lock_findIdx? s i f k2
  have hlen := release_lock_length s i
  rcases get_sentence_lock_cases s f k2 with ⟨j, hj, hg⟩ | ⟨hn, hl, hg⟩ | ⟨hn, hl, hg⟩
  · rcases get_sentence_lock_cases (release_lock s i) f k2 with
      ⟨j2, hj2, hg2⟩ | ⟨hn2, _, _⟩ | ⟨hn2, _, _⟩
    · rw [hidx, hj] at hj2
      simp only [Option.some.injEq] at hj2
      subst hj2
      rw [hg, hg2]
      refine ⟨rfl, ?_⟩
      intro j2 hj2
      simp only [Option.some.injEq] at hj2
      subst hj2
      obtain ⟨hlt2, hp2, _⟩ := List.findIdx?_eq_some_iff_getElem.mp hj
      simp only [Bool.and_eq_true, beq_iff_eq] at hp2
      have hji : j ≠ i := by
        intro h
        subst h
        exact hne (hp2.2.symm.trans hp.2)
      rw [release_lock_get]
      simp only [hji, if_false]
    · rw [hidx, hj] at hn2; cases hn2
    · rw [hidx, hj] at hn2; cases hn2
  · rcases get_sentence_lock_cases (release_lock s i) f k2 with
      ⟨j2, hj2, _⟩ | ⟨_, _, hg2⟩ | ⟨_, hl2, _⟩
    · rw [hidx, hn] at hj2; cases hj2
    · rw [hg, hg2]
      simp only [hlen, true_and]
      intro j hj
      simp only [Option.some.injEq] at hj
      subst hj
      simp only [List.get?_eq_getElem?]
      rw [List.getElem?_append_right (le_refl _),
        List.getElem?_append_right (by rw [hlen])]
      simp only [hlen]
    · rw [hlen] at hl2; exact absurd hl hl2
  · rcases get_sentence_lock_cases (release_lock s i) f k2 with
      ⟨j2, hj2, _⟩ | ⟨_, hl2, _⟩ | ⟨_, _, hg2⟩
    · rw [hidx, hn] at hj2; cases hj2
    · rw [hlen] at hl2; exact absurd hl2 hl
    · rw [hg, hg2]
      exact ⟨rfl, fun j hj => by cases hj⟩

theorem release_lock_read (s : SSState) (i : Nat) (f : CStr) :
    read_file_content (release_lock s i) f = read_file_content s f := rfl

theorem head?_error_code {l : List Message} {a b : Message}
    (h : l.head? = some a) (hl : l = [b]) : a.error_code = b.error_code := by
  subst hl
  simp only [List.head?_cons, Option.some.injEq] at h
  rw [h]

/-- C13: whatever the write request and the records that follow it (a
rejection before locking, accepted and rejected updates, the sentinel or a
receive failure when the records run out), when `handle_write` returns every
entry of the lock table that is held was held, unchanged, when the request
arrived, and the entry of the request, if the lock was taken, is released
with an empty holder name. -/
theorem write_session_holds_no_lock (st : SSState) (msg : Message) (updates : List Message) :
    (∀ i e, (handle_write st msg updates).state.sentence_locks.get? i = some e →
      e.lock = true → st.sentence_locks.get? i = some e) ∧
    (∀ j, (get_sentence_lock st msg.filename msg.flags).2 = some j →
      (handle_write st msg updates).sent.head? =
        some { type := MSG_RESPONSE, error_code := ERR_SUCCESS,
               data := "Lock acquired. Send word updates.".toList } →
      (handle_write st msg updates).state.sentence_locks.get? j =
        some { filename := msg.filename, sentence_index := msg.flags, lock := false,
               locked_by := [] }) := by
  constructor
  · intro i e h he
    rcases handle_write_locks st msg updates with hl | hl | ⟨j, _, hl⟩
    · rw [hl] at h; exact h
    · rw [hl] at h; exact get_sentence_lock_held st _ _ i e h he
    · rw [hl] at h
      exact get_sentence_lock_held st _ _ i e (release_lock_held _ j i e h he) he
  · intro j hj hsent
    cases hread : read_file_content st msg.filename with
    | none =>
      have := head?_error_code hsent (handle_write_unreadable st msg updates hread)
      exact absurd this (by decide)
    | some buffer =>
      by_cases hk : msg.flags < 0 ∨ msg.flags > ((parse_sentences buffer).length : Int)
      · have := head?_error_code hsent (handle_write_invalid_index st msg updates buffer hread hk).1
        exact absurd this (by decide)
      · obtain ⟨e, he, hf, hi, _⟩ := get_sentence_lock_entry st msg.filename msg.flags j hj
        cases hl : e.lock with
        | true =>
          have h5 : ERR_SUCCESS = ERR_SENTENCE_LOCKED := head?_error_code hsent
            (handle_write_locked st msg updates buffer hread hk j e hj he hl).1
          exact absurd h5 (by decide)
        | false =>
          rw [(handle_write_acquired st msg updates buffer hread hk j e hj he hl).2,
            release_lock_get]
          simp only [if_true, he, Option.map_some', hf, hi]

/-- The statement `write_session_holds_no_lock` on three sessions for
sentence 0 of `c.txt`: one that ends with the sentinel, one whose records run
out after the lock acknowledgement, and one that is refused because `alice`
holds the lock. -/
theorem write_session_holds_no_lock_witness :
    (get_sentence_lock x_server x_write.filename x_write.flags).2 = some 0 ∧
    (handle_write x_server x_write x_updates).state.sentence_locks.get? 0 =
      some { filename := x_write.filename, sentence_index := x_write.flags, lock := false,
             locked_by := [] } ∧
    (handle_write x_server x_write []).state.sentence_locks =
      [{ filename := "c.txt".toList, sentence_index := 0, lock := false, locked_by := [] }] ∧
    (handle_write x_locked x_bob_write x_updates).state.sentence_locks =
      [{ filename := "c.txt".toList, sentence_index := 0, lock := true,
         locked_by := "alice".toList }] :=
  ⟨by decide,
   (write_session_holds_no_lock x_server x_write x_updates).2 0 (by decide) (by decide),
   by decide, by decide⟩

theorem acquire_lock_get (s : SSState) (j i : Nat) (u : CStr) :
    (acquire_lock s j u).sentence_locks.get? i =
      if i = j then (s.sentence_locks.get? j).map
        (fun l => { l with lock := true, locked_by := u })
      else s.sentence_locks.get? i := by
  unfold acquire_lock
  cases h : s.sentence_locks.get? j with
  | none =>
    by_cases hij : i = j
    · subst hij; simp only [h, if_true, Option.map_none']
    · simp only [hij, if_false]
  | some l =>
    have hj : j < s.sentence_locks.length := by
      rw [List.get?_eq_getElem?] at h
      exact (List.getElem?_eq_some_iff.mp h).1
    by_cases hij : i = j
    · subst hij
      simp only [List.get?_eq_getElem?, List.getElem?_set_self hj, if_true, Option.map_some']
    · simp only [List.get?_eq_getElem?, hij, if_false]
      exact List.getElem?_set_ne (Ne.symm hij)

theorem acquire_lock_findIdx? (s : SSState) (i : Nat) (u f : CStr) (k : Int) :
    (acquire_lock s i u).sentence_locks.findIdx?
        (fun l => l.filename == f && l.sentence_index == k)
      = s.sentence_locks.findIdx? (fun l => l.filename == f && l.sentence_index == k) := by
  unfold acquire_lock
  cases h : s.sentence_locks.get? i with
  | none => rfl
  | some l =>
    exact findIdx?_set_congr (fun l => l.filename == f && l.sentence_index == k) l
      { l with lock := true, locked_by := u } rfl s.sentence_locks i 0 h

/-- The position `get_sentence_lock` returns is the first entry for the pair
in the table it leaves. -/
theorem get_sentence_lock_findIdx? (st : SSState) (f : CStr) (k : Int) (j : Nat)
    (hj : (get_sentence_lock st f k).2 = some j) :
    (get_sentence_lock st f k).1.sentence_locks.findIdx?
      (fun l => l.filename == f && l.sentence_index == k) = some j := by
  rcases get_sentence_lock_cases st f k with ⟨i, hi, hg⟩ | ⟨hn, _, hg⟩ | ⟨_, _, hg⟩
  · rw [hg] at hj ⊢
    simp only [Option.some.injEq] at hj
    subst hj
    exact hi
  · rw [hg] at hj ⊢
    simp only [Option.some.injEq] at hj
    subst hj
    simp only [List.findIdx?_append, hn, Option.none_or]
    simp [List.findIdx?_cons]
  · rw [hg] at hj; cases hj

/-- A write request for a pair whose entry is held, on a file that passes
the checks made before the lock. -/
theorem held_entry_refuses (st : SSState) (msg : Message) (updates : List Message)
    (buffer : CStr) (i : Nat) (e : SentenceLock)
    (hread : read_file_content st msg.filename = some buffer)
    (hk : 0 ≤ msg.flags ∧ msg.flags ≤ ((parse_sentences buffer).length : Int))
    (hi : st.sentence_locks.findIdx?
      (fun l => l.filename == msg.filename && l.sentence_index == msg.flags) = some i)
    (hei : st.sentence_locks.get? i = some e) (hheld : e.lock = true) :
    (handle_write st msg updates).sent =
      [{ type := MSG_RESPONSE, error_code := ERR_SENTENCE_LOCKED,
         data := "ERROR: Sentence locked by ".toList ++ e.locked_by }] ∧
    (handle_write st msg updates).committed = false ∧
    (handle_write st msg updates).state.sentence_locks = st.sentence_locks ∧
    (handle_write st msg updates).state.storage = st.storage := by
  have hg : get_sentence_lock st msg.filename msg.flags = (st, some i) := by
    rcases get_sentence_lock_cases st msg.filename msg.flags with
      ⟨j, hj, hg⟩ | ⟨hn, _, _⟩ | ⟨hn, _, _⟩
    · rw [hi] at hj
      simp only [Option.some.injEq] at hj
      subst hj
      exact hg
    · rw [hi] at hn; cases hn
    · rw [hi] at hn; cases hn
  have hk2 : ¬ (msg.flags < 0 ∨ msg.flags > ((parse_sentences buffer).length : Int)) := by
    omega
  have h := handle_write_locked st msg updates buffer hread hk2 i e
    (by rw [hg]) (by rw [hg]; exact hei) hheld
  rw [hg] at h
  exact ⟨h.1, h.2.1, h.2.2, handle_write_uncommitted st msg updates h.2.1⟩

/-- The records sent to a write request do not depend on whether the entry
for another sentence index of the same file is held. -/
theorem other_sentence_independent (st : SSState) (msg : Message) (updates : List Message)
    (k : Int) (i : Nat) (hflags : msg.flags ≠ k)
    (hi : st.sentence_locks.findIdx?
      (fun l => l.filename == msg.filename && l.sentence_index == k) = some i) :
    (handle_write st msg updates).sent
      = (handle_write (release_lock st i) msg updates).sent := by
  cases hr : read_file_content st msg.filename with
  | none =>
    rw [handle_write_unreadable st msg updates hr,
      handle_write_unreadable (release_lock st i) msg updates hr]
  | some buf =>
    by_cases hk2 : msg.flags < 0 ∨ msg.flags > ((parse_sentences buf).length : Int)
    · rw [(handle_write_invalid_index st msg updates buf hr hk2).1,
        (handle_write_invalid_index (release_lock st i) msg updates buf hr hk2).1]
    · obtain ⟨h1, h2⟩ := get_sentence_lock_release st i msg.filename k msg.flags hflags hi
      rw [handle_write_lock_stage st msg updates buf hr hk2,
        handle_write_lock_stage (release_lock st i) msg updates buf hr hk2, h1]
      cases hj : (get_sentence_lock st msg.filename msg.flags).2 with
      | none => rfl
      | some j => simp only [h2 j hj]

/-- A write request that got the lock acknowledgement found its file
readable, its sentence index within the count and its entry free. -/
theorem handle_write_acknowledged (st : SSState) (msg : Message) (updates : List Message)
    (hacq : (handle_write st msg updates).sent.head? =
      some { type := MSG_RESPONSE, error_code := ERR_SUCCESS,
             data := "Lock acquired. Send word updates.".toList }) :
    ∃ buffer j e, read_file_content st msg.filename = some buffer ∧
      (0 ≤ msg.flags ∧ msg.flags ≤ ((parse_sentences buffer).length : Int)) ∧
      (get_sentence_lock st msg.filename msg.flags).2 = some j ∧
      (get_sentence_lock st msg.filename msg.flags).1.sentence_locks.get? j = some e ∧
      e.lock = false ∧ e.filename = msg.filename ∧ e.sentence_index = msg.flags := by
  cases hread : read_file_content st msg.filename with
  | none =>
    have := head?_error_code hacq (handle_write_unreadable st msg updates hread)
    exact absurd this (by decide)
  | some buffer =>
    by_cases hk : msg.flags < 0 ∨ msg.flags > ((parse_sentences buffer).length : Int)
    · have := head?_error_code hacq (handle_write_invalid_index st msg updates buffer hread hk).1
      exact absurd this (by decide)
    · cases hj : (get_sentence_lock st msg.filename msg.flags).2 with
      | none =>
        have hs := handle_write_lock_stage st msg updates buffer hread hk
        rw [hj] at hs
        have := head?_error_code hacq hs
        exact absurd this (by decide)
      | some j =>
        obtain ⟨e, he, hf, hx, _⟩ := get_sentence_lock_entry st msg.filename msg.flags j hj
        cases hl : e.lock with
        | true =>
          have h5 : ERR_SUCCESS = ERR_SENTENCE_LOCKED := head?_error_code hacq
            (handle_write_locked st msg updates buffer hread hk j e hj he hl).1
          exact absurd h5 (by decide)
        | false => exact ⟨buffer, j, e, rfl, by omega, rfl, he, hl, hf, hx⟩

/-- C14 (amended): let the entry of the lock table for `(f, k)` be held, with
holder name `u`.  A write request for `(f, k)` by any user, with `f` readable
and `k` an index the current text of `f` admits (`0 ≤ k ≤` the number of its
sentences), is answered with the one record `ERR_SENTENCE_LOCKED` naming `u`,
whatever records follow it, and nothing is committed; when `k` is not such an
index the one record is `ERR_INVALID_INDEX`, and when `f` cannot be read it is
`ERR_FILE_NOT_FOUND`.  In every case the lock table, so the entry held by
`u`, is left as it was.  And the records sent to a request for another
sentence index of `f` are the same as if that entry were free. -/
theorem held_sentence_refuses_writers (st : SSState) (f : CStr) (k : Int) (u : CStr) (i : Nat)
    (hi : st.sentence_locks.findIdx?
      (fun l => l.filename == f && l.sentence_index == k) = some i)
    (hheld : st.sentence_locks.get? i =
      some { filename := f, sentence_index := k, lock := true, locked_by := u }) :
    (∀ (msg : Message) (updates : List Message) (buffer : CStr),
      msg.filename = f → msg.flags = k → read_file_content st f = some buffer →
      (0 ≤ k ∧ k ≤ ((parse_sentences buffer).length : Int) →
        (handle_write st msg updates).sent =
          [{ type := MSG_RESPONSE, error_code := ERR_SENTENCE_LOCKED,
             data := "ERROR: Sentence locked by ".toList ++ u }] ∧
        (handle_write st msg updates).committed = false ∧
        (handle_write st msg updates).state.storage = st.storage) ∧
      (k < 0 ∨ k > ((parse_sentences buffer).length : Int) →
        (handle_write st msg updates).sent =
          [{ type := MSG_RESPONSE, error_code := ERR_INVALID_INDEX,
             data := "ERROR: Sentence index out of range".toList }] ∧
        (handle_write st msg updates).committed = false)) ∧
    (∀ (msg : Message) (updates : List Message),
      msg.filename = f → msg.flags = k → read_file_content st f = none →
      (handle_write st msg updates).sent =
        [{ type := MSG_RESPONSE, error_code := ERR_FILE_NOT_FOUND,
           data := "ERROR: Cannot read file".toList }]) ∧
    (∀ (msg : Message) (updates : List Message),
      msg.filename = f → msg.flags = k →
      (handle_write st msg updates).state.sentence_locks = st.sentence_locks ∧
      (handle_write st msg updates).state.sentence_locks.get? i =
        some { filename := f, sentence_index := k, lock := true, locked_by := u }) ∧
    (∀ (msg : Message) (updates : List Message),
      msg.filename = f → msg.flags ≠ k →
      (handle_write st msg updates).sent
        = (handle_write (release_lock st i) msg updates).sent) := by
  have hlocks : ∀ (msg : Message) (updates : List Message),
      msg.filename = f → msg.flags = k →
      (handle_write st msg updates).state.sentence_locks = st.sentence_locks := by
    intro msg updates hmf hmk
    cases hread : read_file_content st msg.filename with
    | none =>
      unfold handle_write
      simp only [read_after_save, hread]
      exact save_for_undo_locks _ _
    | some buffer =>
      by_cases hk : msg.flags < 0 ∨ msg.flags > ((parse_sentences buffer).length : Int)
      · exact (handle_write_invalid_index st msg updates buffer hread hk).2.2
      · exact (held_entry_refuses st msg updates buffer i _ hread (by omega)
          (by rw [hmf, hmk]; exact hi) hheld rfl).2.2.1
  refine ⟨?_, ?_, ?_, ?_⟩
  · intro msg updates buffer hmf hmk hread
    refine ⟨?_, ?_⟩
    · intro hk
      have h := held_entry_refuses st msg updates buffer i _ (by rw [hmf]; exact hread)
        (by rw [hmk]; exact hk) (by rw [hmf, hmk]; exact hi) hheld rfl
      exact ⟨h.1, h.2.1, h.2.2.2⟩
    · intro hk
      have h := handle_write_invalid_index st msg updates buffer (by rw [hmf]; exact hread)
        (by rw [hmk]; exact hk)
      exact ⟨h.1, h.2.1⟩
  · intro msg updates hmf _ hread
    exact handle_write_unreadable st msg updates (by rw [hmf]; exact hread)
  · intro msg updates hmf hmk
    have h := hlocks msg updates hmf hmk
    exact ⟨h, by rw [h]; exact hheld⟩
  · intro msg updates hmf hmk
    exact other_sentence_independent st msg updates k i hmk (by rw [hmf]; exact hi)

/-- The statement `held_sentence_refuses_writers` on the server where the
session of `alice` holds sentence 0 of `c.txt`: the request of `bob` for
sentence 0 is refused and the lock stays with `alice`; his request for
sentence 1 gets the lock acknowledgement. -/
theorem held_sentence_refuses_writers_witness :
    x_locked.sentence_locks =
      [{ filename := "c.txt".toList, sentence_index := 0, lock := true,
         locked_by := "alice".toList }] ∧
    (handle_write x_locked x_bob_write x_updates).sent =
      [{ type := MSG_RESPONSE, error_code := ERR_SENTENCE_LOCKED,
         data := "ERROR: Sentence locked by alice".toList }] ∧
    (handle_write x_locked x_bob_write x_updates).state.sentence_locks
      = x_locked.sentence_locks ∧
    (handle_write x_locked x_bob_append []).sent =
      [{ type := MSG_RESPONSE, error_code := ERR_SUCCESS,
         data := "Lock acquired. Send word updates.".toList }] ∧
    (handle_write x_locked x_bob_append []).sent
      = (handle_write (release_lock x_locked 0) x_bob_append []).sent :=
  have h := held_sentence_refuses_writers x_locked "c.txt".toList 0 "alice".toList 0
    (by decide) (by decide)
  ⟨by decide,
   ((h.1 x_bob_write x_updates "X.".toList (by decide) (by decide) (by decide)).1
      (by decide)).1,
   (h.2.2.1 x_bob_write x_updates (by decide) (by decide)).1,
   by decide,
   h.2.2.2 x_bob_append [] (by decide) (by decide)⟩

/-- C14 as stated fails when the text of the file has lost sentences since
the lock was taken.  On `c.txt` with the text `A b. C.` the request of
`alice` for sentence 2, the append position, gets the lock acknowledgement,
and her session holds the entry for `(c.txt, 2)`.  The session of `bob` on
sentence 0 then commits the text `A C.`, which has one sentence.  A write
request of `carol` for `(c.txt, 2)` is now answered `ERR_INVALID_INDEX`, the
check of line 388 coming before the lock, where the claim has
`ERR_SENTENCE_LOCKED`; the entry is still held by `alice`. -/
theorem held_lock_after_cut :
    (handle_write ab_server ab_alice_write []).sent.head? =
      some { type := MSG_RESPONSE, error_code := ERR_SUCCESS,
             data := "Lock acquired. Send word updates.".toList } ∧
    ab_locked.sentence_locks =
      [{ filename := "c.txt".toList, sentence_index := 2, lock := true,
         locked_by := "alice".toList }] ∧
    (handle_write ab_locked ab_bob_write ab_bob_updates).committed = true ∧
    ab_cut.storage "c.txt".toList = some "A C.".toList ∧
    ab_cut.sentence_locks.get? 0 =
      some { filename := "c.txt".toList, sentence_index := 2, lock := true,
             locked_by := "alice".toList } ∧
    ab_carol_write.filename = "c.txt".toList ∧ ab_carol_write.flags = 2 ∧
    (handle_write ab_cut ab_carol_write []).sent =
      [{ type := MSG_RESPONSE, error_code := ERR_INVALID_INDEX,
         data := "ERROR: Sentence index out of range".toList }] ∧
    (handle_write ab_cut ab_carol_write []).sent ≠
      [{ type := MSG_RESPONSE, error_code := ERR_SENTENCE_LOCKED,
         data := "ERROR: Sentence locked by alice".toList }] ∧
    (handle_write ab_cut ab_carol_write []).state.sentence_locks.get? 0 =
      some { filename := "c.txt".toList, sentence_index := 2, lock := true,
             locked_by := "alice".toList } := by
  decide

theorem is_stream_delim_eq : is_stream_delim = is_whitespace := by
  funext c
  unfold is_stream_delim is_whitespace
  cases (c == ' ') <;> cases (c == '\n') <;> cases (c == '\t') <;> rfl

/-- The pieces `splitOnP` cuts: the run up to the first separator, then the
pieces of what follows that separator. -/
theorem splitOnP_head (p : Char → Bool) :
    ∀ xs : CStr, xs.splitOnP p =
      xs.takeWhile (fun c => !p c) ::
        (if xs.dropWhile (fun c => !p c) = [] then []
         else ((xs.dropWhile (fun c => !p c)).drop 1).splitOnP p) := by
  intro xs
  induction xs with
  | nil => simp
  | cons c t ih =>
    rw [List.splitOnP_cons]
    by_cases hc : p c = true
    · simp [hc, List.takeWhile, List.dropWhile]
    · have hc2 : p c = false := by simpa using hc
      rw [if_neg hc, ih]
      simp [hc2, List.takeWhile, List.dropWhile, List.modifyHead]

theorem strtok_r_skip (p : Char → Bool) (c : Char) (t : CStr) (hc : p c = true) :
    strtok_r p (c :: t) = strtok_r p t := by
  unfold strtok_r
  simp [List.dropWhile, hc]

theorem strtok_r_token (p : Char → Bool) (c : Char) (t : CStr) (hc : p c = false) :
    strtok_r p (c :: t) =
      some (c :: t.takeWhile (fun x => !p x), (t.dropWhile (fun x => !p x)).drop 1) := by
  unfold strtok_r
  simp [List.dropWhile, List.takeWhile, hc]

/-- The tokens `strtok_r` hands out one after the other are the non-empty
pieces between the delimiters. -/
theorem strtok_all_eq_split (p : Char → Bool) :
    ∀ (n : Nat) (s : CStr), s.length ≤ n → ∀ fuel, s.length < fuel →
      strtok_all p fuel s [] = (s.splitOnP p).filter (fun t => !t.isEmpty) := by
  intro n
  induction n with
  | zero =>
    intro s hs fuel hf
    have : s = [] := List.eq_nil_of_length_eq_zero (by omega)
    subst this
    rw [strtok_all_nil]; simp
  | succ n ih =>
    intro s hs fuel hf
    cases s with
    | nil => rw [strtok_all_nil]; simp
    | cons c t =>
      cases fuel with
      | zero => simp at hf
      | succ f =>
        simp only [List.length_cons] at hs hf
        by_cases hc : p c = true
        · rw [strtok_all, strtok_r_skip p c t hc, List.splitOnP_cons, if_pos hc]
          have h1 := ih t (by omega) (f + 1) (by omega)
          rw [strtok_all] at h1
          rw [h1]
          simp
        · have hc2 : p c = false := by simpa using hc
          rw [strtok_all, strtok_r_token p c t hc2]
          simp only
          rw [strtok_all_acc, List.nil_append]
          have hlen : ((t.dropWhile (fun x => !p x)).drop 1).length ≤ t.length := by
            rw [List.length_drop]
            have := (List.dropWhile_sublist (fun x => !p x) : List.Sublist _ t).length_le
            omega
          rw [ih _ (by omega) f (by omega)]
          rw [splitOnP_head p (c :: t)]
          simp only [List.takeWhile, List.dropWhile, hc2, Bool.not_false]
          rw [List.filter_cons_of_pos (by simp)]
          by_cases hd : t.dropWhile (fun x => !p x) = []
          · simp [hd]
          · simp [hd]

theorem splitOnP_length_le (p : Char → Bool) :
    ∀ (s : CStr), ∀ t ∈ s.splitOnP p, t.length ≤ s.length := by
  intro s
  induction s with
  | nil => intro t ht; simp at ht; simp [ht]
  | cons c r ih =>
    intro t ht
    rw [List.splitOnP_cons] at ht
    by_cases hc : p c = true
    · rw [if_pos hc] at ht
      rcases List.mem_cons.mp ht with h | h
      · simp [h]
      · have := ih t h
        simp only [List.length_cons]; omega
    · rw [if_neg hc] at ht
      cases hsp : r.splitOnP p with
      | nil => exact absurd hsp (List.splitOnP_ne_nil p r)
      | cons h tl =>
        rw [hsp] at ht ih
        simp only [List.modifyHead] at ht
        rcases List.mem_cons.mp ht with h1 | h1
        · have := ih h (List.mem_cons_self _ _)
          rw [h1]; simp only [List.length_cons]; omega
        · have := ih t (List.mem_cons_of_mem _ h1)
          simp only [List.length_cons]; omega

theorem whitespace_tokens_length (s : CStr) : ∀ t ∈ whitespace_tokens s, t.length ≤ s.length := by
  intro t ht
  unfold whitespace_tokens at ht
  exact splitOnP_length_le _ s t (List.mem_of_mem_filter ht)

theorem splitOnP_all (p : Char → Bool) :
    ∀ (s : CStr), (∀ c ∈ s, p c = true) → ∀ t ∈ s.splitOnP p, t = [] := by
  intro s
  induction s with
  | nil => intro _ t ht; simpa using ht
  | cons c r ih =>
    intro h t ht
    rw [List.splitOnP_cons, if_pos (h c (List.mem_cons_self _ _))] at ht
    rcases List.mem_cons.mp ht with h1 | h1
    · exact h1
    · exact ih (fun x hx => h x (List.mem_cons_of_mem _ hx)) t h1

theorem whitespace_tokens_blank (s : CStr) (h : ∀ c ∈ s, is_whitespace c = true) :
    whitespace_tokens s = [] := by
  unfold whitespace_tokens
  rw [List.filter_eq_nil_iff]
  intro t ht
  rw [splitOnP_all _ s h t ht]
  simp

theorem splitOnP_no_sep (p : Char → Bool) :
    ∀ (s : CStr), ∀ t ∈ s.splitOnP p, ∀ c ∈ t, p c = false := by
  intro s
  induction s with
  | nil => intro t ht c hc; simp at ht; subst ht; cases hc
  | cons x r ih =>
    intro t ht c hc
    rw [List.splitOnP_cons] at ht
    by_cases hx : p x = true
    · rw [if_pos hx] at ht
      rcases List.mem_cons.mp ht with h | h
      · subst h; cases hc
      · exact ih t h c hc
    · rw [if_neg hx] at ht
      cases hsp : r.splitOnP p with
      | nil => exact absurd hsp (List.splitOnP_ne_nil p r)
      | cons h tl =>
        rw [hsp] at ht ih
        simp only [List.modifyHead] at ht
        rcases List.mem_cons.mp ht with h1 | h1
        · subst h1
          rcases List.mem_cons.mp hc with h2 | h2
          · rw [h2]; simpa using hx
          · exact ih h (List.mem_cons_self _ _) c h2
        · exact ih t (List.mem_cons_of_mem _ h1) c hc

theorem read_file_content_length {st : SSState} {f buffer : CStr}
    (h : read_file_content st f = some buffer) : buffer.length ≤ MAX_BUFFER_SIZE - 1 := by
  unfold read_file_content at h
  cases hs : st.storage f with
  | none => rw [hs] at h; cases h
  | some bytes =>
    rw [hs] at h
    simp only [Option.map_some', Option.some.injEq] at h
    rw [← h, List.length_take]
    exact Nat.min_le_left _ _

/-- The records `handle_stream` sends for a readable file: one for each token
of the text read, in their order, and the record `STOP`. -/
theorem handle_stream_eq (st : SSState) (msg : Message) (buffer : CStr)
    (hread : read_file_content st msg.filename = some buffer) :
    handle_stream st msg
      = (whitespace_tokens buffer).map token_record ++ [token_record "STOP".toList] := by
  unfold handle_stream
  rw [hread]
  simp only
  rw [strtok_all_eq_split is_stream_delim buffer.length buffer (le_refl _) _ (by omega),
    is_stream_delim_eq]
  congr 1
  apply List.map_congr_left
  intro t ht
  have h1 := whitespace_tokens_length buffer t ht
  have h2 := read_file_content_length hread
  unfold token_record
  rw [List.take_of_length_le (by omega)]

theorem read_file_content_of_file {st : SSState} {f content : CStr}
    (h : st.storage f = some content) :
    read_file_content st f = some (content.take (MAX_BUFFER_SIZE - 1)) := by
  unfold read_file_content
  rw [h]
  rfl

theorem take_buffer_short {content : CStr} (h : content.length < MAX_BUFFER_SIZE) :
    content.take (MAX_BUFFER_SIZE - 1) = content :=
  List.take_of_length_le (Nat.le_sub_one_of_lt h)

theorem whitespace_tokens_spec (s : CStr) :
    ∀ t ∈ whitespace_tokens s, t ≠ [] ∧ ∀ c ∈ t, is_whitespace c = false := by
  intro t ht
  unfold whitespace_tokens at ht
  rw [List.mem_filter] at ht
  refine ⟨by intro h; rw [h] at ht; simp at ht, ?_⟩
  exact splitOnP_no_sep _ s t ht.1

/-- C25 (amended): for every readable file of at most 65535 bytes,
`handle_stream` sends one success record for each token of the content, in
their order, the tokens being the maximal runs of characters other than
space, tab and newline, and then one record with the data `STOP`; a content
that is empty or all whitespace yields the `STOP` record only.  Of a longer
file the first 65535 bytes are read, and the records are those of the tokens
of these bytes. -/
theorem handle_stream_sends_tokens (st : SSState) (msg : Message) (content : CStr)
    (hfile : st.storage msg.filename = some content) :
    (content.length < MAX_BUFFER_SIZE →
      handle_stream st msg
        = (whitespace_tokens content).map
            (fun t => { type := MSG_RESPONSE, error_code := ERR_SUCCESS, data := t })
          ++ [{ type := MSG_RESPONSE, error_code := ERR_SUCCESS, data := "STOP".toList }]) ∧
    (∀ t ∈ whitespace_tokens content, t ≠ [] ∧ ∀ c ∈ t, is_whitespace c = false) ∧
    ((∀ c ∈ content, is_whitespace c = true) →
      handle_stream st msg
        = [{ type := MSG_RESPONSE, error_code := ERR_SUCCESS, data := "STOP".toList }]) ∧
    handle_stream st msg
      = (whitespace_tokens (content.take (MAX_BUFFER_SIZE - 1))).map
          (fun t => { type := MSG_RESPONSE, error_code := ERR_SUCCESS, data := t })
        ++ [{ type := MSG_RESPONSE, error_code := ERR_SUCCESS, data := "STOP".toList }] := by
  have hread := read_file_content_of_file hfile
  refine ⟨?_, whitespace_tokens_spec content, ?_, handle_stream_eq st msg _ hread⟩
  · intro hlen
    have h := handle_stream_eq st msg _ hread
    rw [take_buffer_short hlen] at h
    exact h
  · intro h
    rw [handle_stream_eq st msg _ hread,
      whitespace_tokens_blank _ (fun c hc => h c (List.mem_of_mem_take hc))]
    rfl

/-- The statement `handle_stream_sends_tokens` on `stream.txt`, which holds
`one two three`: the records are `one`, `two`, `three`, `STOP`; and on a file
of whitespace: the record `STOP` only. -/
theorem handle_stream_sends_tokens_witness :
    whitespace_tokens "one two three".toList = ["one".toList, "two".toList, "three".toList] ∧
    (handle_stream stream_server alice_stream).map (fun r => r.data)
      = ["one".toList, "two".toList, "three".toList, "STOP".toList] ∧
    handle_stream stream_server alice_stream
      = (whitespace_tokens "one two three".toList).map
          (fun t => { type := MSG_RESPONSE, error_code := ERR_SUCCESS, data := t })
        ++ [{ type := MSG_RESPONSE, error_code := ERR_SUCCESS, data := "STOP".toList }] ∧
    handle_stream stream_server blank_stream
      = [{ type := MSG_RESPONSE, error_code := ERR_SUCCESS, data := "STOP".toList }] :=
  ⟨by decide, by decide,
   (handle_stream_sends_tokens stream_server alice_stream "one two three".toList
     (by decide)).1 (by decide),
   (handle_stream_sends_tokens stream_server blank_stream [' ', '\t', '\n', ' ']
     (by decide)).2.2.1 (by decide)⟩

/-- The tokens of a text that begins with a word and a whitespace character. -/
theorem whitespace_tokens_word (w rest : CStr) (hw : w ≠ [])
    (hnw : ∀ c ∈ w, is_whitespace c = false) (c : Char) (hc : is_whitespace c = true) :
    whitespace_tokens (w ++ c :: rest) = w :: whitespace_tokens rest := by
  unfold whitespace_tokens
  have h := takeWhile_word hnw c hc rest
  rw [splitOnP_head, h.1, h.2, if_neg (List.cons_ne_nil _ _), List.drop_one, List.tail_cons]
  rw [List.filter_cons_of_pos]
  obtain ⟨x, t, rfl⟩ := List.exists_cons_of_ne_nil hw
  rfl

theorem big_file_length : big_file.length = 65539 := by
  unfold big_file
  rw [List.length_append, List.length_replicate]
  rfl

theorem letters_word (n : Nat) (hn : 0 < n) :
    List.replicate n 'a' ≠ [] ∧ ∀ c ∈ List.replicate n 'a', is_whitespace c = false := by
  refine ⟨?_, ?_⟩
  · intro h
    have := congrArg List.length h
    rw [List.length_replicate] at this
    rw [this] at hn
    cases hn
  · intro c hc
    rw [List.eq_of_mem_replicate hc]
    decide

theorem big_file_tokens :
    whitespace_tokens big_file = [List.replicate 65530 'a', "STOPX".toList, "yz".toList] := by
  unfold big_file
  rw [show " STOPX yz".toList = ' ' :: "STOPX yz".toList from rfl,
    whitespace_tokens_word _ _ (letters_word 65530 (by decide)).1
      (letters_word 65530 (by decide)).2 ' ' (by decide)]
  have h : whitespace_tokens "STOPX yz".toList = ["STOPX".toList, "yz".toList] := by decide
  rw [h]

theorem big_file_read :
    read_file_content big_server big_stream.filename
      = some (List.replicate 65530 'a' ++ " STOP".toList) := by
  have hs : big_server.storage big_stream.filename = some big_file := by
    show (if "big.txt".toList = "big.txt".toList then some big_file else none) = _
    exact if_pos rfl
  rw [read_file_content_of_file hs]
  unfold big_file
  rw [show MAX_BUFFER_SIZE - 1 = 65535 from rfl, List.take_append_eq_append_take,
    List.take_of_length_le (by rw [List.length_replicate]; decide), List.length_replicate]
  rfl

theorem big_file_records :
    handle_stream big_server big_stream
      = [token_record (List.replicate 65530 'a'), token_record "STOP".toList,
         token_record "STOP".toList] := by
  rw [handle_stream_eq big_server big_stream _ big_file_read]
  rw [show " STOP".toList = ' ' :: "STOP".toList from rfl,
    whitespace_tokens_word _ _ (letters_word 65530 (by decide)).1
      (letters_word 65530 (by decide)).2 ' ' (by decide)]
  have h : whitespace_tokens "STOP".toList = ["STOP".toList] := by decide
  rw [h]
  rfl

/-- C25 as stated fails on a file of more than 65535 bytes.  The file
`big.txt` holds 65530 letters `a`, a space, `STOPX`, a space and `yz`, 65539
bytes in all; its tokens are the run of letters, `STOPX` and `yz`.
`read_file_content` hands over the first 65535 bytes, which end in `STOP`,
and `handle_stream` sends the run of letters, `STOP` and the final `STOP`:
the token `STOPX` is sent cut and the token `yz` is not sent. -/
theorem stream_cuts_long_file :
    big_server.storage big_stream.filename = some big_file ∧
    big_file.length = 65539 ∧
    whitespace_tokens big_file = [List.replicate 65530 'a', "STOPX".toList, "yz".toList] ∧
    (handle_stream big_server big_stream).map (fun r => r.data)
      = [List.replicate 65530 'a', "STOP".toList, "STOP".toList] ∧
    handle_stream big_server big_stream
      ≠ (whitespace_tokens big_file).map
          (fun t => { type := MSG_RESPONSE, error_code := ERR_SUCCESS, data := t })
        ++ [{ type := MSG_RESPONSE, error_code := ERR_SUCCESS, data := "STOP".toList }] := by
  refine ⟨?_, big_file_length, big_file_tokens, ?_, ?_⟩
  · show (if "big.txt".toList = "big.txt".toList then some big_file else none) = _
    exact if_pos rfl
  · rw [big_file_records]
    rfl
  · rw [big_file_records, big_file_tokens]
    intro h
    have := congrArg List.length h
    cases this

theorem stream_loop_tokens :
    ∀ (ts : List CStr) (printed : List CStr),
      stream_loop (ts.map token_record ++ [token_record "STOP".toList]) printed
        = (printed ++ ts.takeWhile (fun t => t != "STOP".toList), true) := by
  intro ts
  induction ts with
  | nil => intro printed; simp [stream_loop, token_record]
  | cons t r ih =>
    intro printed
    rw [List.map_cons, List.cons_append, stream_loop]
    by_cases ht : t = "STOP".toList
    · simp [token_record, ht, List.takeWhile]
    · have h1 : (token_record t).data = t := rfl
      have h2 : (t != "STOP".toList) = true := by simpa using ht
      rw [h1, if_neg ht, ih, List.takeWhile_cons]
      simp only [h2, if_true, List.append_assoc, List.singleton_append]

/-- C30 (amended): for a readable file of at most 65535 bytes, the data of
the records before the final one are the tokens of the content, in their
order, so the records with the data `STOP` before the final one are exactly
those of the tokens equal to `STOP`; and the receive loop of the client,
which ends at the first record with the data `STOP`, prints the tokens that
precede the first token `STOP`.  For a longer file the same holds of the
tokens of its first 65535 bytes. -/
theorem stop_token_ends_stream (st : SSState) (msg : Message) (content : CStr)
    (hfile : st.storage msg.filename = some content) :
    (handle_stream st msg).getLast? = some (token_record "STOP".toList) ∧
    (content.length < MAX_BUFFER_SIZE →
      (handle_stream st msg).dropLast.map (fun r => r.data) = whitespace_tokens content ∧
      ((handle_stream st msg).dropLast.filter (fun r => r.data == "STOP".toList)).length
        = ((whitespace_tokens content).filter (fun t => t == "STOP".toList)).length ∧
      stream_loop (handle_stream st msg) []
        = ((whitespace_tokens content).takeWhile (fun t => t != "STOP".toList), true)) ∧
    ((handle_stream st msg).dropLast.map (fun r => r.data)
        = whitespace_tokens (content.take (MAX_BUFFER_SIZE - 1)) ∧
      stream_loop (handle_stream st msg) []
        = ((whitespace_tokens (content.take (MAX_BUFFER_SIZE - 1))).takeWhile
            (fun t => t != "STOP".toList), true)) := by
  have hread := read_file_content_of_file hfile
  have key : ∀ buffer : CStr, read_file_content st msg.filename = some buffer →
      (handle_stream st msg).dropLast.map (fun r => r.data) = whitespace_tokens buffer ∧
      ((handle_stream st msg).dropLast.filter (fun r => r.data == "STOP".toList)).length
        = ((whitespace_tokens buffer).filter (fun t => t == "STOP".toList)).length ∧
      stream_loop (handle_stream st msg) []
        = ((whitespace_tokens buffer).takeWhile (fun t => t != "STOP".toList), true) := by
    intro buffer hb
    have hd : (handle_stream st msg).dropLast = (whitespace_tokens buffer).map token_record := by
      rw [handle_stream_eq st msg buffer hb, List.dropLast_concat]
    have hm : ((whitespace_tokens buffer).map token_record).map (fun r => r.data)
        = whitespace_tokens buffer := by
      rw [List.map_map]
      exact List.map_id _
    refine ⟨?_, ?_, ?_⟩
    · rw [hd, hm]
    · rw [hd, List.filter_map, List.length_map]
      rfl
    · rw [handle_stream_eq st msg buffer hb, stream_loop_tokens]
      simp
  refine ⟨?_, ?_, ?_⟩
  · rw [handle_stream_eq st msg _ hread]; simp
  · intro hlen
    rw [take_buffer_short hlen] at hread
    exact key content hread
  · exact ⟨(key _ hread).1, (key _ hread).2.2⟩

/-- The statement `stop_token_ends_stream` on `stop.txt`, which holds
`a STOP b`: the records are `a`, `STOP`, `b`, `STOP`, and the client prints
`a` only. -/
theorem stop_token_ends_stream_witness :
    (handle_stream stream_server stop_stream).map (fun r => r.data)
      = ["a".toList, "STOP".toList, "b".toList, "STOP".toList] ∧
    whitespace_tokens "a STOP b".toList = ["a".toList, "STOP".toList, "b".toList] ∧
    stream_loop (handle_stream stream_server stop_stream) [] = (["a".toList], true) ∧
    stream_loop (handle_stream stream_server stop_stream) []
      = ((whitespace_tokens "a STOP b".toList).takeWhile (fun t => t != "STOP".toList), true) :=
  ⟨by decide, by decide, by decide,
   ((stop_token_ends_stream stream_server stop_stream "a STOP b".toList (by decide)).2.1
     (by decide)).2.2⟩

/-- C30 as stated fails on a file of more than 65535 bytes.  No token of
`big.txt` is `STOP`, yet `handle_stream` sends a record with the data `STOP`
before the final one: the token `STOPX`, cut where the 65535 bytes read end.
The loop of the client ends at that record and prints the run of letters
only, where the tokens that precede the first token `STOP` of the file are
all its tokens. -/
theorem stop_record_without_stop_token :
    big_server.storage big_stream.filename = some big_file ∧
    (whitespace_tokens big_file).filter (fun t => t == "STOP".toList) = [] ∧
    (handle_stream big_server big_stream).dropLast.filter (fun r => r.data == "STOP".toList)
      = [token_record "STOP".toList] ∧
    (whitespace_tokens big_file).takeWhile (fun t => t != "STOP".toList)
      = [List.replicate 65530 'a', "STOPX".toList, "yz".toList] ∧
    stream_loop (handle_stream big_server big_stream) [] = ([List.replicate 65530 'a'], true) ∧
    stream_loop (handle_stream big_server big_stream) []
      ≠ ((whitespace_tokens big_file).takeWhile (fun t => t != "STOP".toList), true) := by
  have hne : (List.replicate 65530 'a' == "STOP".toList) = false := by
    rw [beq_eq_false_iff_ne]
    intro h
    have := congrArg List.length h
    rw [List.length_replicate] at this
    cases this
  have hloop : stream_loop (handle_stream big_server big_stream) []
      = ([List.replicate 65530 'a'], true) := by
    rw [big_file_records]
    have h := stream_loop_tokens [List.replicate 65530 'a', "STOP".toList] []
    rw [show [token_record (List.replicate 65530 'a'), token_record "STOP".toList,
        token_record "STOP".toList]
      = [List.replicate 65530 'a', "STOP".toList].map token_record
          ++ [token_record "STOP".toList] from rfl, h]
    rw [List.takeWhile_cons, List.nil_append]
    have h1 : (List.replicate 65530 'a' != "STOP".toList) = true := by
      rw [bne, hne]; rfl
    rw [h1, if_pos rfl]
    rfl
  have htake : (whitespace_tokens big_file).takeWhile (fun t => t != "STOP".toList)
      = [List.replicate 65530 'a', "STOPX".toList, "yz".toList] := by
    rw [big_file_tokens, List.takeWhile_cons]
    have h1 : (List.replicate 65530 'a' != "STOP".toList) = true := by
      rw [bne, hne]; rfl
    rw [h1, if_pos rfl]
    rfl
  refine ⟨?_, ?_, ?_, htake, hloop, ?_⟩
  · show (if "big.txt".toList = "big.txt".toList then some big_file else none) = _
    exact if_pos rfl
  · rw [big_file_tokens, List.filter_cons_of_neg (by rw [hne]; decide)]
    rfl
  · rw [big_file_records]
    show List.filter _ [token_record (List.replicate 65530 'a'), token_record "STOP".toList] = _
    rw [List.filter_cons_of_neg (by show ¬ (List.replicate 65530 'a' == "STOP".toList) = true
                                    rw [hne]; decide)]
    rfl
  · rw [hloop, htake]
    intro h
    have := congrArg (fun x => x.1.length) h
    cases this

/-- C28: a read, stream or undo request served by the storage server, and the
same request with any other user name: the records sent and the state of the
server afterwards (live files, shadow files, lock table) are the same; no
handler of the three looks at the user name. -/
theorem storage_server_ignores_username (st : SSState) (msg : Message) (u : CStr)
    (updates : List Message)
    (h : msg.type = MSG_READ_FILE ∨ msg.type = MSG_STREAM_FILE ∨ msg.type = MSG_UNDO_FILE) :
    handle_client_request st { msg with username := u } updates
      = handle_client_request st msg updates ∧
    handle_read st { msg with username := u } = handle_read st msg ∧
    handle_stream st { msg with username := u } = handle_stream st msg ∧
    handle_undo st { msg with username := u } = handle_undo st msg := by
  refine ⟨?_, rfl, rfl, rfl⟩
  unfold handle_client_request
  rcases h with h | h | h
  · simp only [h, if_true]
    rfl
  · have h1 : ¬ (MSG_STREAM_FILE = MSG_READ_FILE) := by decide
    have h2 : ¬ (MSG_STREAM_FILE = MSG_WRITE_FILE) := by decide
    simp only [h, h1, h2, if_false, if_true]
    rfl
  · have h1 : ¬ (MSG_UNDO_FILE = MSG_READ_FILE) := by decide
    have h2 : ¬ (MSG_UNDO_FILE = MSG_WRITE_FILE) := by decide
    have h3 : ¬ (MSG_UNDO_FILE = MSG_STREAM_FILE) := by decide
    simp only [h, h1, h2, h3, if_false, if_true]
    rfl

/-- The statement `storage_server_ignores_username` on the stream requests of
`alice` and of `bob` for `stream.txt`, and on the undo requests for it. -/
theorem storage_server_ignores_username_witness :
    handle_client_request stream_server { alice_stream with username := "bob".toList } []
      = handle_client_request stream_server alice_stream [] ∧
    { alice_stream with username := "bob".toList } = bob_stream ∧
    (handle_client_request stream_server bob_stream []).2.map (fun r => r.data)
      = ["one".toList, "two".toList, "three".toList, "STOP".toList] ∧
    handle_undo stream_server
        { type := MSG_UNDO_FILE, filename := "stream.txt".toList, username := "bob".toList }
      = handle_undo stream_server
        { type := MSG_UNDO_FILE, filename := "stream.txt".toList, username := "alice".toList } :=
  ⟨(storage_server_ignores_username stream_server alice_stream "bob".toList []
     (Or.inr (Or.inl rfl))).1,
   by decide, by decide,
   (storage_server_ignores_username stream_server
     { type := MSG_UNDO_FILE, filename := "stream.txt".toList, username := "alice".toList }
     "bob".toList [] (Or.inr (Or.inr rfl))).2.2.2⟩

/-! ## A write session on a file with a sentence of `MAX_SENTENCE_LENGTH` characters -/

theorem row_list_rows_of (l : List CStr) : row_list (rows_of l) l.length = l := by
  apply List.ext_getElem?
  intro i
  rw [row_list_getElem?]
  by_cases h : i < l.length
  · simp only [h, if_true, rows_of]
    rw [List.getElem?_eq_getElem h]
    simp [List.getD, List.getElem?_eq_getElem h]
  · simp only [h, if_false]
    rw [List.getElem?_eq_none (by omega)]

/-- A write session that ends at once with the sentinel commits the text
`reconstruct_file` builds from the sentences `parse_sentences` found. -/
theorem handle_write_no_update (st : SSState) (msg : Message) (buffer : CStr)
    (hread : read_file_content st msg.filename = some buffer)
    (hc : (handle_write st msg [{ data := ETIRW }]).committed = true) :
    (handle_write st msg [{ data := ETIRW }]).state.storage msg.filename
      = some (reconstruct_file (parse_sentences buffer)) := by
  revert hc
  unfold handle_write
  simp only [read_after_save, hread, edit_loop, if_true]
  repeat' split
  all_goals
    first
      | (intro h; simp at h; done)
      | (intro _; rw [row_list_rows_of]; simp [release_lock, write_file_content, fs_write])

/-- A write session that ends at once with the sentinel commits when the
file is readable, the sentence index within the count and the lock free. -/
theorem handle_write_no_update_commits (st : SSState) (msg : Message) (buffer : CStr)
    (hread : read_file_content st msg.filename = some buffer)
    (hk : 0 ≤ msg.flags ∧ msg.flags ≤ ((parse_sentences buffer).length : Int))
    (hfree : ∀ l ∈ st.sentence_locks, l.lock = false)
    (hroom : st.sentence_locks.length < MAX_FILES) :
    (handle_write st msg [{ data := ETIRW }]).committed = true := by
  have hk2 : ¬ (msg.flags < 0 ∨ msg.flags > ((parse_sentences buffer).length : Int)) := by
    omega
  have hj : ∃ j, (get_sentence_lock st msg.filename msg.flags).2 = some j := by
    rcases get_sentence_lock_cases st msg.filename msg.flags with
      ⟨i, _, hg⟩ | ⟨_, _, hg⟩ | ⟨_, hl, _⟩
    · exact ⟨i, by rw [hg]⟩
    · exact ⟨_, by rw [hg]⟩
    · exact absurd hroom hl
  obtain ⟨j, hj⟩ := hj
  obtain ⟨e, he, _, _, hor⟩ := get_sentence_lock_entry st msg.filename msg.flags j hj
  have hl : e.lock = false := by
    rcases hor with h | ⟨_, h, _⟩
    · rw [List.get?_eq_getElem?] at h
      obtain ⟨hlt, heq⟩ := List.getElem?_eq_some_iff.mp h
      exact hfree e (heq ▸ List.getElem_mem hlt)
    · exact h
  have hg := get_sentence_lock_after_save st msg.filename msg.filename msg.flags
  rw [← hg.1] at hj
  rw [← hg.2] at he
  revert hj he
  unfold handle_write
  simp only [read_after_save, hread, hk2, if_false, edit_loop, if_true]
  generalize get_sentence_lock (save_for_undo st msg.filename) msg.filename msg.flags = g
  rcases g with ⟨s1, o⟩
  intro hj he
  have hj2 : o = some j := hj
  have he2 : s1.sentence_locks.get? j = some e := he
  subst hj2
  have hn : ¬ (Option.map (fun l => l.lock) (some e) = some true) := by simp [hl]
  simp only [he2, hn, if_false]

theorem long_then_hi_length : long_then_hi.length = 4099 := by
  unfold long_then_hi
  rw [List.length_append, List.length_replicate]
  rfl

theorem long_server_read :
    read_file_content long_server long_write.filename = some long_then_hi := by
  have h : long_server.storage long_write.filename = some long_then_hi := by
    show (if "l.txt".toList = "l.txt".toList then some long_then_hi else none) = _
    exact if_pos rfl
  unfold read_file_content
  rw [h, Option.map_some', List.take_of_length_le (by rw [long_then_hi_length]; decide)]

/-- C27 (amended): `parse_sentences` returns the sentences of the content
that are shorter than `MAX_SENTENCE_LENGTH`, in their order, as long as these
fit in its 1000 rows: a sentence of `MAX_SENTENCE_LENGTH` characters or more, ended
by a delimiter or left at the end, is in no row.  The text `reconstruct_file`
builds from the rows is the join of the sentences kept, and a write session on
the file that commits without an update writes that text. -/
theorem parse_sentences_omits_long (c : CStr) (h : (kept_sentences c).length ≤ 1000) :
    parse_sentences c = kept_sentences c ∧
    (∀ s ∈ sentences_of c, MAX_SENTENCE_LENGTH ≤ s.length → s ∉ parse_sentences c) ∧
    (∀ s ∈ sentences_of c, s.length < MAX_SENTENCE_LENGTH → s ∈ parse_sentences c) ∧
    List.Sublist (parse_sentences c) (sentences_of c) ∧
    reconstruct_file (parse_sentences c) = join_sentences (kept_sentences c) ∧
    (∀ (st : SSState) (msg : Message), read_file_content st msg.filename = some c →
      (handle_write st msg [{ data := ETIRW }]).committed = true →
      (handle_write st msg [{ data := ETIRW }]).state.storage msg.filename
        = some (join_sentences (kept_sentences c))) := by
  have hp : parse_sentences c = kept_sentences c := by
    rw [parse_sentences_eq_scan]
    have := scan_filter_pieces c [] [] false (by simpa [kept_sentences, sentences_of] using h)
    simpa [kept_sentences, sentences_of] using this
  refine ⟨hp, ?_, ?_, ?_, ?_, ?_⟩
  · intro s _ hlen hmem
    rw [hp, kept_sentences, List.mem_filter] at hmem
    have := hmem.2
    simp only [decide_eq_true_eq] at this
    omega
  · intro s hs hlen
    rw [hp, kept_sentences, List.mem_filter]
    exact ⟨hs, by simpa using hlen⟩
  · rw [hp]
    exact List.filter_sublist _
  · rw [hp, reconstruct_file_join]
  · intro st msg hread hc
    rw [handle_write_no_update st msg c hread hc, hp, reconstruct_file_join]

/-- The statement `parse_sentences_omits_long` on a text that holds a
sentence of 4096 characters and then `Hi.`: the one row is `Hi.`, and the
write session that commits without an update leaves `Hi.` in the file. -/
theorem parse_sentences_omits_long_witness :
    long_then_hi.length = 4099 ∧
    sentences_of long_then_hi = [List.replicate 4095 'a' ++ ['.'], "Hi.".toList] ∧
    parse_sentences long_then_hi = ["Hi.".toList] ∧
    (handle_write long_server long_write [{ data := ETIRW }]).committed = true ∧
    (handle_write long_server long_write [{ data := ETIRW }]).state.storage long_write.filename
      = some (join_sentences (kept_sentences long_then_hi)) ∧
    join_sentences (kept_sentences long_then_hi) = "Hi.".toList :=
  have hk : (kept_sentences long_then_hi).length ≤ 1000 := by
    rw [kept_long_then_hi]; decide
  have hp : parse_sentences long_then_hi = ["Hi.".toList] :=
    (parse_sentences_omits_long long_then_hi hk).1.trans kept_long_then_hi
  have hc : (handle_write long_server long_write [{ data := ETIRW }]).committed = true :=
    handle_write_no_update_commits long_server long_write long_then_hi long_server_read
      (by rw [hp]; decide) (by intro l hl; cases hl) (by decide)
  ⟨long_then_hi_length, sentences_of_long_then_hi, hp, hc,
   (parse_sentences_omits_long long_then_hi hk).2.2.2.2.2 long_server long_write
      long_server_read hc,
   by rw [kept_long_then_hi]; rfl⟩

theorem long_then_hi_lead : NoLeadSp long_then_hi := by
  unfold NoLeadSp long_then_hi
  rw [show (4095 : Nat) = 4094 + 1 from rfl, List.replicate_succ]
  intro h
  cases h

theorem pieces_long_then_hi (skip : Bool) :
    pieces [] skip long_then_hi = [List.replicate 4095 'a' ++ ['.'], "Hi.".toList] := by
  have hnd : NoDelim (List.replicate 4095 'a') := by
    intro c hc
    rw [List.eq_of_mem_replicate hc]; decide
  have hlead : NoLeadSp (List.replicate 4095 'a' ++ ['.']) := by
    unfold NoLeadSp
    rw [show (4095 : Nat) = 4094 + 1 from rfl, List.replicate_succ]
    intro h
    cases h
  unfold long_then_hi
  rw [show ".Hi.".toList = '.' :: "Hi.".toList from rfl,
    pieces_sentence _ [] skip '.' _ hnd (by decide) (fun _ => hlead)]
  simp only [List.nil_append]
  congr 1

theorem sentences_of_full_then_long :
    sentences_of full_then_long
      = List.replicate 1000 "a.".toList ++ [List.replicate 4095 'a' ++ ['.'], "Hi.".toList] := by
  unfold sentences_of full_then_long
  have h := pieces_repeat [' '] (by intro c hc; simpa using hc) 999 false long_then_hi
  rw [show "a. ".toList = "a.".toList ++ [' '] from rfl, h, pieces_long_then_hi]

theorem parse_full_then_long :
    parse_sentences full_then_long = List.replicate 1000 "a.".toList := by
  rw [parse_sentences_eq_scan]
  unfold full_then_long
  have h := scan_repeat [' '] (by intro c hc; simpa using hc) 999 [] false long_then_hi
    (by decide)
  rw [List.nil_append] at h
  rw [show "a. ".toList = "a.".toList ++ [' '] from rfl, h,
    scan_ceiling _ [] true _ (by rw [List.length_replicate]; decide) (Or.inl rfl)]
  simp only [if_true, List.nil_append, drop_spaces_of_noLeadSp long_then_hi_lead]
  have hne : long_then_hi ≠ [] := by
    intro h0
    have := congrArg List.length h0
    rw [long_then_hi_length] at this
    cases this
  rw [if_neg hne]
  unfold emit
  rw [if_neg (by rw [long_then_hi_length]; decide)]

/-- C27 as stated fails past the ceiling of 1000 rows.  The content is the
sentence `a.` and a space a thousand times, then a sentence of 4096
characters, then `Hi.`.  Its sentences shorter than `MAX_SENTENCE_LENGTH` are
the thousand `a.` and `Hi.`, 1001 in all; `parse_sentences` returns the
thousand `a.` only: the loop ends when the rows are filled, and the rest of
the content, which lines 89-96 would store as one more row, has 4099
characters and is dropped with `Hi.` in it. -/
theorem short_sentence_lost_past_ceiling :
    sentences_of full_then_long
      = List.replicate 1000 "a.".toList ++ [List.replicate 4095 'a' ++ ['.'], "Hi.".toList] ∧
    kept_sentences full_then_long = List.replicate 1000 "a.".toList ++ ["Hi.".toList] ∧
    (kept_sentences full_then_long).length = 1001 ∧
    "Hi.".toList ∈ sentences_of full_then_long ∧
    "Hi.".toList.length < MAX_SENTENCE_LENGTH ∧
    parse_sentences full_then_long = List.replicate 1000 "a.".toList ∧
    "Hi.".toList ∉ parse_sentences full_then_long ∧
    parse_sentences full_then_long ≠ kept_sentences full_then_long := by
  have hk : kept_sentences full_then_long
      = List.replicate 1000 "a.".toList ++ ["Hi.".toList] := by
    unfold kept_sentences
    rw [sentences_of_full_then_long, List.filter_append]
    have h1 : ¬ (List.replicate 4095 'a' ++ ['.']).length < MAX_SENTENCE_LENGTH := by
      rw [List.length_append, List.length_replicate]; decide
    rw [List.filter_cons_of_neg (by rw [decide_eq_true_eq]; exact h1)]
    have hf : (List.replicate 1000 "a.".toList).filter
        (fun s => decide (s.length < MAX_SENTENCE_LENGTH)) = List.replicate 1000 "a.".toList := by
      rw [List.filter_eq_self]
      intro s hs
      rw [List.eq_of_mem_replicate hs]
      decide
    have hh : ["Hi.".toList].filter (fun s => decide (s.length < MAX_SENTENCE_LENGTH))
        = ["Hi.".toList] := by decide
    rw [hf, hh]
  refine ⟨sentences_of_full_then_long, hk, ?_, ?_, by decide, parse_full_then_long, ?_, ?_⟩
  · rw [hk, List.length_append, List.length_replicate]
    rfl
  · rw [sentences_of_full_then_long]
    exact List.mem_append_right _ (List.mem_cons_of_mem _ (List.mem_cons_self _ _))
  · rw [parse_full_then_long]
    intro h
    have := List.eq_of_mem_replicate h
    exact absurd this (by decide)
  · rw [parse_full_then_long, hk]
    intro h
    have := congrArg List.length h
    rw [List.length_append, List.length_replicate] at this
    cases this

/-! ## The name server: access lists, locator, delete -/

/-- The lookup `find_file` changes the cache only. -/
theorem find_file_frame {st st1 : NMState} {f : CStr} {r : Option Ptr}
    (h : find_file st f = some (st1, r)) :
    st1.heap = st.heap ∧ st1.file_list = st.file_list ∧ st1.file_hash = st.file_hash ∧
    st1.storage_servers = st.storage_servers ∧ st1.next_ptr = st.next_ptr := by
  unfold find_file at h
  split at h
  · simp only [Option.some.injEq, Prod.mk.injEq] at h
    rw [← h.1]; exact ⟨rfl, rfl, rfl, rfl, rfl⟩
  · split at h
    · simp only [Option.some.injEq, Prod.mk.injEq] at h
      rw [← h.1]; exact ⟨rfl, rfl, rfl, rfl, rfl⟩
    · split at h
      · simp only [Option.some.injEq, Prod.mk.injEq] at h
        rw [← h.1]; exact ⟨rfl, rfl, rfl, rfl, rfl⟩
      · split at h
        · cases h
        · split at h
          · simp only [Option.some.injEq, Prod.mk.injEq] at h
            rw [← h.1]; exact ⟨rfl, rfl, rfl, rfl, rfl⟩
          · cases h

/-- C7, the code at the failing input: `alice` owns `b.txt` with
`READ|WRITE`; her add-access request for herself with mode R is answered
`ERR_SUCCESS` and leaves her entry with `ACCESS_READ` alone, so that her own
write locator request is then answered `ERR_UNAUTHORIZED`. -/
theorem owner_grant_lowers_owner :
    access_of nm_created "b.txt".toList "alice".toList
      = some (ACCESS_READ ||| ACCESS_WRITE) ∧
    error_of (handle_access_control nm_created alice_grants_alice_read) = some ERR_SUCCESS ∧
    access_list_of (state_of (handle_access_control nm_created alice_grants_alice_read))
        "b.txt".toList
      = some [{ username := "alice".toList, access_rights := ACCESS_READ }] ∧
    ACCESS_READ &&& ACCESS_WRITE = 0 ∧
    error_of (handle_direct_ss_operation nm_created alice_write) = some ERR_SUCCESS ∧
    error_of (handle_direct_ss_operation
        (state_of (handle_access_control nm_created alice_grants_alice_read)) alice_write)
      = some ERR_UNAUTHORIZED := by
  decide

/-- The answers of the locator by what `find_file` hands back:
`ERR_FILE_NOT_FOUND` when it hands back `NULL`, `ERR_UNAUTHORIZED` when the
rights of the user on the live record it hands back lack the required right (`ACCESS_WRITE` for a write request,
`ACCESS_READ` for a read, stream or undo request), and otherwise
`ERR_SUCCESS` with the ip and the client-facing port of the registry entry at
the record's `ss_index`. -/
theorem locator_answers (st : NMState) (msg : Message) (required : Nat)
    (hreq : (msg.type = MSG_WRITE_FILE ∧ required = ACCESS_WRITE) ∨
      ((msg.type = MSG_READ_FILE ∨ msg.type = MSG_STREAM_FILE ∨ msg.type = MSG_UNDO_FILE) ∧
        required = ACCESS_READ)) :
    (∀ st1, find_file st msg.filename = some (st1, none) →
      handle_direct_ss_operation st msg
        = some (st1, response ERR_FILE_NOT_FOUND "ERROR: File not found")) ∧
    (∀ st1 file node, find_file st msg.filename = some (st1, some file) →
      st1.heap file = some node →
      (get_user_access node msg.username &&& required = 0 →
        handle_direct_ss_operation st msg
          = some (st1, response ERR_UNAUTHORIZED "ERROR: Unauthorized access")) ∧
      (get_user_access node msg.username &&& required ≠ 0 →
        ∀ ss, registry_entry st1 node.metadata.ss_index = some ss →
          ∃ r, handle_direct_ss_operation st msg = some (st1, r) ∧
            r.error_code = ERR_SUCCESS ∧ r.ss_ip = ss.ip ∧ r.ss_port = ss.client_port)) := by
  have hrequired : (if msg.type = MSG_WRITE_FILE then ACCESS_WRITE else ACCESS_READ)
      = required := by
    rcases hreq with ⟨h1, h2⟩ | ⟨h1, h2⟩
    · simp [h1, h2]
    · have : msg.type ≠ MSG_WRITE_FILE := by
        rcases h1 with h | h | h <;> rw [h] <;> decide
      simp [this, h2]
  refine ⟨?_, ?_⟩
  · intro st1 hfind
    unfold handle_direct_ss_operation
    rw [hfind]
  · intro st1 file node hfind hlive
    refine ⟨?_, ?_⟩
    · intro hlack
      unfold handle_direct_ss_operation
      simp only [hfind, hlive, hrequired, hlack, if_true]
    · intro hhas ss hss
      unfold handle_direct_ss_operation
      simp only [hfind, hlive, hrequired, hhas, if_false, hss]
      exact ⟨_, rfl, rfl, rfl, rfl⟩

/-- Scenario 2 of the specification: before `b.txt` exists the read of `bob`
is answered `ERR_FILE_NOT_FOUND`; once `alice` has created it the read is
answered `ERR_UNAUTHORIZED`; after her grant of read access it is answered
`ERR_SUCCESS` with the address of the storage server, and the write of `bob`
is answered `ERR_UNAUTHORIZED`. -/
theorem locator_answers_witness :
    handle_direct_ss_operation nm_one_server bob_read
      = some (nm_one_server, response ERR_FILE_NOT_FOUND "ERROR: File not found") ∧
    handle_direct_ss_operation nm_created bob_read
      = some (cache_put nm_created "b.txt".toList 1,
          response ERR_UNAUTHORIZED "ERROR: Unauthorized access") ∧
    error_of (handle_access_control nm_created alice_grants_bob_read) = some ERR_SUCCESS ∧
    (handle_direct_ss_operation
        (state_of (handle_access_control nm_created alice_grants_bob_read)) bob_read).map
        (fun r => (r.2.error_code, r.2.ss_ip, r.2.ss_port))
      = some (ERR_SUCCESS, "127.0.0.1".toList, 9000) ∧
    error_of (handle_direct_ss_operation
        (state_of (handle_access_control nm_created alice_grants_bob_read)) bob_write)
      = some ERR_UNAUTHORIZED :=
  ⟨(locator_answers nm_one_server bob_read ACCESS_READ (Or.inr ⟨Or.inl rfl, rfl⟩)).1
      nm_one_server rfl,
    ((locator_answers nm_created bob_read ACCESS_READ (Or.inr ⟨Or.inl rfl, rfl⟩)).2
      (cache_put nm_created "b.txt".toList 1) 1 alice_node rfl rfl).1 (by decide),
    by decide, by decide, by decide⟩

theorem unlink_file_cache (f : CStr) :
    ∀ (fuel : Nat) (st : NMState) (prev current : Option Ptr) (st2 : NMState),
      unlink_file f fuel st prev current = some st2 → st2.cache_map = st.cache_map := by
  intro fuel
  induction fuel with
  | zero => intro st prev current st2 h; simp [unlink_file] at h
  | succ n ih =>
    intro st prev current st2 h
    cases current with
    | none =>
      simp only [unlink_file, Option.some.injEq] at h
      rw [← h]
    | some c =>
      rw [unlink_file] at h
      split at h
      · cases h
      · split at h
        · simp only [Option.some.injEq] at h
          rw [← h]
          cases prev <;> rfl
        · exact ih _ _ _ _ h

/-- After `find_file` has handed back a pointer for a name, the cache holds
that pointer under the name. -/
theorem find_file_caches {st st1 : NMState} {f : CStr} {file : Ptr}
    (h : find_file st f = some (st1, some file)) : cache_get st1 f = some file := by
  unfold find_file at h
  split at h
  · rename_i cached hc
    simp only [Option.some.injEq, Prod.mk.injEq] at h
    rw [← h.1, ← h.2, hc]
  · split at h
    · simp at h
    · split at h
      · rename_i entry _ hk
        simp only [Option.some.injEq, Prod.mk.injEq] at h
        rw [← h.1, ← h.2]
        simp [cache_get, cache_put]
      · split at h
        · cases h
        · split at h
          · simp at h
          · cases h

/-- C9: for a file `find_file` finds and a requesting user who is not its
owner, whatever the user's rights on the file, the delete request and the
add-access and rem-access requests are answered `ERR_UNAUTHORIZED`, and the
file records with their access lists and the file list are what they
were. -/
theorem non_owner_is_refused (st st1 : NMState) (msg : Message) (ss : SSReply) (file : Ptr)
    (node : FileNode)
    (hfind : find_file st msg.filename = some (st1, some file))
    (hlive : st1.heap file = some node)
    (hown : node.metadata.owner ≠ msg.username) :
    handle_delete st msg ss
      = some (st1, response ERR_UNAUTHORIZED "ERROR: Only owner can delete file") ∧
    handle_access_control st msg
      = some (st1, response ERR_UNAUTHORIZED "ERROR: Only owner can modify access") ∧
    st1.heap = st.heap ∧ st1.file_list = st.file_list := by
  have hframe := find_file_frame hfind
  refine ⟨?_, ?_, hframe.1, hframe.2.1⟩
  · unfold handle_delete
    simp only [hfind, hlive, hown, ne_eq, not_false_eq_true, if_true]
  · unfold handle_access_control
    simp only [hfind, hlive, hown, ne_eq, not_false_eq_true, if_true]

/-- With `READ|WRITE` on `b.txt`, `bob` is still refused the delete, the
add-access and the rem-access request. -/
theorem non_owner_is_refused_witness :
    access_of nm_shared "b.txt".toList "bob".toList = some (ACCESS_READ ||| ACCESS_WRITE) ∧
    (handle_delete nm_shared bob_delete ss_ok
      = some (nm_shared, response ERR_UNAUTHORIZED "ERROR: Only owner can delete file") ∧
     handle_access_control nm_shared bob_delete
      = some (nm_shared, response ERR_UNAUTHORIZED "ERROR: Only owner can modify access") ∧
     nm_shared.heap = nm_shared.heap ∧ nm_shared.file_list = nm_shared.file_list) ∧
    error_of (handle_access_control nm_shared bob_grants_bob) = some ERR_UNAUTHORIZED ∧
    error_of (handle_access_control nm_shared bob_revokes_alice) = some ERR_UNAUTHORIZED :=
  ⟨by decide,
    non_owner_is_refused nm_shared nm_shared bob_delete ss_ok 1 shared_node
      rfl rfl (by decide),
    by decide, by decide⟩

/-- After a delete request that was answered `ERR_SUCCESS`, `find_file`
hands back a pointer for the deleted name: the cache entry that the lookup at
the start of `handle_delete` left is still there. -/
theorem find_file_after_delete (st st2 : NMState) (msg r : Message) (ss : SSReply)
    (h : handle_delete st msg ss = some (st2, r)) (hr : r.error_code = ERR_SUCCESS) :
    ∃ file, find_file st2 msg.filename = some (st2, some file) := by
  unfold handle_delete at h
  split at h
  · cases h
  · simp only [Option.some.injEq, Prod.mk.injEq] at h
    rw [← h.2] at hr; exact absurd hr (by decide)
  · rename_i st1 file hfind
    have hcache := find_file_caches hfind
    split at h
    · cases h
    · split at h
      · simp only [Option.some.injEq, Prod.mk.injEq] at h
        rw [← h.2] at hr; exact absurd hr (by decide)
      · split at h
        · simp only [Option.some.injEq, Prod.mk.injEq] at h
          rw [← h.2] at hr; exact absurd hr (by decide)
        · simp only [Option.some.injEq, Prod.mk.injEq] at h
          rw [← h.2] at hr; exact absurd hr (by decide)
        · split at h
          · split at h
            · cases h
            · rename_i st3 hunlink
              simp only [Option.some.injEq, Prod.mk.injEq] at h
              have hc3 := unlink_file_cache _ _ _ _ _ _ hunlink
              have hget : cache_get st2 msg.filename = some file := by
                rw [← h.1]
                unfold cache_get at hcache ⊢
                simp only [hc3]
                exact hcache
              refine ⟨file, ?_⟩
              unfold find_file
              rw [hget]
          · rename_i hne
            simp only [Option.some.injEq, Prod.mk.injEq] at h
            rw [← h.2] at hr
            exact absurd hr hne

/-- C10, the code at the failing input: `alice` creates `b.txt` and deletes
it, the delete being answered `ERR_SUCCESS`; the file list is empty and the
node at address 1 is freed, and `find_file` hands back the address 1 for
`b.txt`, so that a new create of `b.txt` is answered `ERR_FILE_EXISTS`. -/
theorem find_file_returns_deleted :
    error_of (handle_delete nm_created alice_delete ss_ok) = some ERR_SUCCESS ∧
    (state_of (handle_delete nm_created alice_delete ss_ok)).file_list = none ∧
    (state_of (handle_delete nm_created alice_delete ss_ok)).heap 1 = none ∧
    (find_file (state_of (handle_delete nm_created alice_delete ss_ok)) "b.txt".toList).map
        (fun x => x.2) = some (some 1) ∧
    error_of (handle_create (state_of (handle_delete nm_created alice_delete ss_ok))
        alice_create ss_ok 200) = some ERR_FILE_EXISTS := by
  decide

/-- C8, the code at the failing input: `alice` creates `b.txt` and deletes
it, both requests being answered with success.  The store then holds no
record (`save_metadata` writes none, the node at address 1 is freed), so
`b.txt` has no record; yet `find_file` hands back the freed address 1 from
the lookup cache, the test `!file` of line 684 fails, and the read request of
`bob` is not answered `ERR_FILE_NOT_FOUND`: `handle_direct_ss_operation` goes
on to read the freed node (line 690), an execution without meaning.  Before
the create the same request is answered `ERR_FILE_NOT_FOUND`. -/
theorem locator_after_delete :
    error_of (handle_create nm_one_server alice_create ss_ok 100) = some ERR_SUCCESS ∧
    error_of (handle_delete nm_created alice_delete ss_ok) = some ERR_SUCCESS ∧
    save_metadata nm_deleted = some [] ∧
    nm_deleted.file_list = none ∧
    nm_deleted.heap 1 = none ∧
    (find_file nm_deleted bob_read.filename).map (fun x => x.2) = some (some 1) ∧
    (handle_direct_ss_operation nm_deleted bob_read).isNone = true ∧
    error_of (handle_direct_ss_operation nm_deleted bob_read) ≠ some ERR_FILE_NOT_FOUND ∧
    error_of (handle_direct_ss_operation nm_one_server bob_read) = some ERR_FILE_NOT_FOUND := by
  decide

/-! ## The name server: file list, registry positions, access lists -/

theorem RecordsFrom.refl (fresh : FileMetadata → List UserAccess → Prop) (a : NMState) :
    RecordsFrom fresh a a :=
  fun _ x h => Or.inr ⟨x, h, rfl, rfl⟩

theorem RecordsFrom.trans {fresh : FileMetadata → List UserAccess → Prop} {a b c : NMState}
    (h1 : RecordsFrom fresh a b) (h2 : RecordsFrom fresh b c) : RecordsFrom fresh a c := by
  intro q x hx
  rcases h2 q x hx with hf | ⟨y, hy, hm, ha⟩
  · exact Or.inl hf
  · rcases h1 q y hy with hf | ⟨z, hz, hm2, ha2⟩
    · left; rw [hm, ha]; exact hf
    · exact Or.inr ⟨z, hz, hm.trans hm2, ha.trans ha2⟩

theorem RecordsFrom.of_heap_eq {fresh : FileMetadata → List UserAccess → Prop} {a b : NMState}
    (h : b.heap = a.heap) : RecordsFrom fresh a b := by
  intro q x hx
  rw [h] at hx
  exact Or.inr ⟨x, hx, rfl, rfl⟩

theorem set_next_records (fresh : FileMetadata → List UserAccess → Prop) (st : NMState)
    (p : Ptr) (n : Option Ptr) : RecordsFrom fresh st (set_next st p n) := by
  intro q x hx
  unfold set_next at hx
  simp only at hx
  by_cases hq : q = p
  · subst hq
    simp only [if_true] at hx
    cases hy : st.heap q with
    | none => rw [hy] at hx; cases hx
    | some y =>
      rw [hy] at hx
      simp only [Option.map_some', Option.some.injEq] at hx
      exact Or.inr ⟨y, rfl, by rw [← hx], by rw [← hx]⟩
  · simp only [hq, if_false] at hx
    exact Or.inr ⟨x, hx, rfl, rfl⟩

/-- The records after `add_file`: the new one, with the owner as its only
user, and the old ones. -/
theorem add_file_records {st st1 : NMState} {md : FileMetadata}
    (h : add_file st md = some st1) :
    st1.storage_servers = st.storage_servers ∧
    RecordsFrom (fun m l => m = md ∧
      l = [{ username := md.owner, access_rights := ACCESS_READ ||| ACCESS_WRITE }]) st st1 := by
  unfold add_file at h
  simp only [Option.map_eq_some'] at h
  obtain ⟨s, hl, hs⟩ := h
  have key : s.storage_servers = st.storage_servers ∧
      RecordsFrom (fun m l => m = md ∧
        l = [{ username := md.owner, access_rights := ACCESS_READ ||| ACCESS_WRITE }]) st s := by
    have hbase : ∀ (q : Ptr) (x : FileNode),
        (if q = st.next_ptr then
          some { metadata := md,
                 access_list := [{ username := md.owner,
                                   access_rights := ACCESS_READ ||| ACCESS_WRITE }],
                 next := none }
         else st.heap q) = some x →
        (x.metadata = md ∧
          x.access_list = [{ username := md.owner,
                             access_rights := ACCESS_READ ||| ACCESS_WRITE }]) ∨
        ∃ y, st.heap q = some y ∧ x.metadata = y.metadata ∧ x.access_list = y.access_list := by
      intro q x hx
      by_cases hq : q = st.next_ptr
      · simp only [hq, if_true, Option.some.injEq] at hx
        left; rw [← hx]; exact ⟨rfl, rfl⟩
      · simp only [hq, if_false] at hx
        exact Or.inr ⟨x, hx, rfl, rfl⟩
    split at hl
    · simp only [Option.some.injEq] at hl
      rw [← hl]
      exact ⟨rfl, hbase⟩
    · split at hl
      · cases hl
      · simp only [Option.some.injEq] at hl
        rw [← hl]
        refine ⟨rfl, ?_⟩
        exact RecordsFrom.trans
          (show RecordsFrom _ st
            { st with
              heap := fun q =>
                if q = st.next_ptr then
                  some { metadata := md,
                         access_list := [{ username := md.owner,
                                           access_rights := ACCESS_READ ||| ACCESS_WRITE }],
                         next := none }
                else st.heap q,
              next_ptr := st.next_ptr + 1 } from hbase)
          (set_next_records _ _ _ _)
  rw [← hs]
  exact ⟨key.1, RecordsFrom.trans key.2 (set_next_records _ _ _ _)⟩

theorem unlink_file_records (fresh : FileMetadata → List UserAccess → Prop) (f : CStr) :
    ∀ (fuel : Nat) (st : NMState) (prev cur : Option Ptr) (st1 : NMState),
      unlink_file f fuel st prev cur = some st1 →
      st1.storage_servers = st.storage_servers ∧ RecordsFrom fresh st st1 := by
  intro fuel
  induction fuel with
  | zero => intro st prev cur st1 h; cases h
  | succ n ih =>
    intro st prev cur st1 h
    cases cur with
    | none =>
      simp only [unlink_file, Option.some.injEq] at h
      rw [← h]; exact ⟨rfl, RecordsFrom.refl _ _⟩
    | some c =>
      simp only [unlink_file] at h
      split at h
      · cases h
      · rename_i node hnode
        split at h
        · simp only [Option.some.injEq] at h
          rw [← h]
          cases prev with
          | none =>
            refine ⟨rfl, ?_⟩
            intro q x hx
            simp only at hx
            by_cases hq : q = c
            · simp only [hq, if_true] at hx; cases hx
            · simp only [hq, if_false] at hx
              exact Or.inr ⟨x, hx, rfl, rfl⟩
          | some p =>
            refine ⟨rfl, ?_⟩
            intro q x hx
            simp only at hx
            by_cases hq : q = c
            · simp only [hq, if_true] at hx; cases hx
            · simp only [hq, if_false] at hx
              exact set_next_records fresh st p node.next q x hx
        · exact ih st (some c) node.next st1 h

theorem handle_create_records {st st1 : NMState} {msg r : Message} {ss : SSReply} {now : Int}
    (h : handle_create st msg ss now = some (st1, r)) :
    st1.storage_servers = st.storage_servers ∧
    RecordsFrom (fun m l => (0 ≤ m.ss_index ∧ m.ss_index < (st.storage_servers.length : Int)) ∧
      l = [{ username := m.owner, access_rights := ACCESS_READ ||| ACCESS_WRITE }]) st st1 := by
  unfold handle_create at h
  split at h
  · cases h
  · rename_i s2 p hf
    simp only [Option.some.injEq, Prod.mk.injEq] at h
    obtain ⟨hh, _, _, hs, _⟩ := find_file_frame hf
    rw [← h.1]
    exact ⟨hs, RecordsFrom.of_heap_eq hh⟩
  · rename_i s2 hf
    obtain ⟨hh, _, _, hs, _⟩ := find_file_frame hf
    split at h
    · simp only [Option.some.injEq, Prod.mk.injEq] at h
      rw [← h.1]
      exact ⟨hs, RecordsFrom.of_heap_eq hh⟩
    · rename_i k hk
      have hlt : k < st.storage_servers.length := by
        rw [← hs]
        exact (List.findIdx?_eq_some_iff_getElem.mp hk).1
      split at h
      · simp only [Option.some.injEq, Prod.mk.injEq] at h
        rw [← h.1]
        exact ⟨hs, RecordsFrom.of_heap_eq hh⟩
      · simp only [Option.some.injEq, Prod.mk.injEq] at h
        rw [← h.1]
        exact ⟨hs, RecordsFrom.of_heap_eq hh⟩
      · split at h
        · have hx : ∃ s3 ck, add_file s2
              { filename := msg.filename, owner := msg.username, created := now,
                last_modified := now, last_accessed := now, word_count := 0, char_count := 0,
                ss_index := k } = some s3 ∧ save_metadata s3 = some ck ∧ s3 = st1 ∧
              response ERR_SUCCESS "File Created Successfully!" = r := by
            split at h
            · cases h
            · rename_i s3 ha
              split at h
              · cases h
              · rename_i ck hsave
                simp only [Option.some.injEq, Prod.mk.injEq] at h
                exact ⟨s3, ck, ha, hsave, h.1, h.2⟩
          obtain ⟨s3, ck, ha, hsave, hs3, _⟩ := hx
          obtain ⟨h1, h2⟩ := add_file_records ha
          rw [← hs3]
          refine ⟨h1.trans hs, ?_⟩
          intro q x hx
          rcases h2 q x hx with ⟨hm, hl⟩ | ⟨y, hy, hm, hl⟩
          · left
            rw [hm, hl]
            exact ⟨⟨by simp, by simpa using hlt⟩, rfl⟩
          · rw [hh] at hy
            exact Or.inr ⟨y, hy, hm, hl⟩
        · simp only [Option.some.injEq, Prod.mk.injEq] at h
          rw [← h.1]
          exact ⟨hs, RecordsFrom.of_heap_eq hh⟩

theorem handle_delete_records (fresh : FileMetadata → List UserAccess → Prop)
    {st st1 : NMState} {msg r : Message} {ss : SSReply}
    (h : handle_delete st msg ss = some (st1, r)) :
    st1.storage_servers = st.storage_servers ∧ RecordsFrom fresh st st1 := by
  unfold handle_delete at h
  split at h
  · cases h
  · rename_i s2 hf
    simp only [Option.some.injEq, Prod.mk.injEq] at h
    obtain ⟨hh, _, _, hs, _⟩ := find_file_frame hf
    rw [← h.1]
    exact ⟨hs, RecordsFrom.of_heap_eq hh⟩
  · rename_i s2 file hf
    obtain ⟨hh, _, _, hs, _⟩ := find_file_frame hf
    have keep : s2.storage_servers = st.storage_servers ∧ RecordsFrom fresh st s2 :=
      ⟨hs, RecordsFrom.of_heap_eq hh⟩
    split at h
    · cases h
    · split at h
      · simp only [Option.some.injEq, Prod.mk.injEq] at h
        rw [← h.1]; exact keep
      · split at h
        · simp only [Option.some.injEq, Prod.mk.injEq] at h
          rw [← h.1]; exact keep
        · simp only [Option.some.injEq, Prod.mk.injEq] at h
          rw [← h.1]; exact keep
        · split at h
          · split at h
            · cases h
            · rename_i s3 hu
              simp only [Option.some.injEq, Prod.mk.injEq] at h
              obtain ⟨h1, h2⟩ := unlink_file_records fresh _ _ _ _ _ _ hu
              rw [← h.1]
              exact ⟨h1.trans hs, RecordsFrom.trans keep.2 h2⟩
          · simp only [Option.some.injEq, Prod.mk.injEq] at h
            rw [← h.1]; exact keep

theorem handle_direct_ss_operation_records (fresh : FileMetadata → List UserAccess → Prop)
    {st st1 : NMState} {msg r : Message}
    (h : handle_direct_ss_operation st msg = some (st1, r)) :
    st1.storage_servers = st.storage_servers ∧ RecordsFrom fresh st st1 := by
  unfold handle_direct_ss_operation at h
  split at h
  · cases h
  · rename_i s2 hf
    simp only [Option.some.injEq, Prod.mk.injEq] at h
    obtain ⟨hh, _, _, hs, _⟩ := find_file_frame hf
    rw [← h.1]
    exact ⟨hs, RecordsFrom.of_heap_eq hh⟩
  · rename_i s2 file hf
    obtain ⟨hh, _, _, hs, _⟩ := find_file_frame hf
    have keep : s2.storage_servers = st.storage_servers ∧ RecordsFrom fresh st s2 :=
      ⟨hs, RecordsFrom.of_heap_eq hh⟩
    split at h
    · cases h
    · revert h
      simp only
      repeat' split
      all_goals
        intro h
        first
          | (cases h; exact keep)
          | cases h

theorem RecordsFrom.weaken {f g : FileMetadata → List UserAccess → Prop} {a b : NMState}
    (hfg : ∀ m l, f m l → g m l) (h : RecordsFrom f a b) : RecordsFrom g a b := by
  intro q x hx
  rcases h q x hx with hf | hy
  · exact Or.inl (hfg _ _ hf)
  · exact Or.inr hy

theorem register_files_records (now : Int) (k : Int) :
    ∀ (tokens : List CStr) (st st1 : NMState),
      register_files now k tokens st = some st1 →
      st1.storage_servers = st.storage_servers ∧
      RecordsFrom (fun m l => m.ss_index = k ∧
        l = [{ username := m.owner, access_rights := ACCESS_READ ||| ACCESS_WRITE }]) st st1 := by
  intro tokens
  induction tokens with
  | nil =>
    intro st st1 h
    simp only [register_files, Option.some.injEq] at h
    rw [← h]; exact ⟨rfl, RecordsFrom.refl _ _⟩
  | cons token rest ih =>
    intro st st1 h
    simp only [register_files] at h
    split at h
    · cases h
    · rename_i s2 p hf
      obtain ⟨hh, _, _, hs, _⟩ := find_file_frame hf
      obtain ⟨h1, h2⟩ := ih s2 st1 h
      exact ⟨h1.trans hs, RecordsFrom.trans (RecordsFrom.of_heap_eq hh) h2⟩
    · rename_i s2 hf
      obtain ⟨hh, _, _, hs, _⟩ := find_file_frame hf
      split at h
      · cases h
      · rename_i s3 ha
        obtain ⟨a1, a2⟩ := add_file_records ha
        obtain ⟨h1, h2⟩ := ih s3 st1 h
        refine ⟨h1.trans (a1.trans hs), ?_⟩
        refine RecordsFrom.trans (RecordsFrom.trans (RecordsFrom.of_heap_eq hh) ?_) h2
        exact RecordsFrom.weaken (fun m l hml => by rw [hml.1, hml.2]; exact ⟨rfl, rfl⟩) a2

theorem register_ss_records {st st1 : NMState} {msg : Message} {now : Int}
    {r : Option Message} (h : register_ss st msg now = some (st1, r)) :
    st.storage_servers.length ≤ st1.storage_servers.length ∧
    RecordsFrom (fun m l =>
      (0 ≤ m.ss_index ∧ m.ss_index < (st1.storage_servers.length : Int)) ∧
      l = [{ username := m.owner, access_rights := ACCESS_READ ||| ACCESS_WRITE }]) st st1 := by
  unfold register_ss at h
  simp only at h
  split at h
  · split at h
    · cases h
    · rename_i s2 hr
      simp only [Option.some.injEq, Prod.mk.injEq] at h
      obtain ⟨h1, h2⟩ := register_files_records _ _ _ _ _ hr
      rw [← h.1]
      simp only [List.length_append, List.length_singleton, h1]
      refine ⟨by omega, ?_⟩
      intro q x hx
      rcases h2 q x hx with ⟨hm, hl⟩ | hy
      · left
        refine ⟨⟨by rw [hm]; simp, ?_⟩, hl⟩
        rw [hm]; push_cast; omega
      · exact Or.inr hy
  · simp only [Option.some.injEq, Prod.mk.injEq] at h
    rw [← h.1]
    exact ⟨le_refl _, RecordsFrom.refl _ _⟩

theorem save_loop_records (st : NMState) :
    ∀ (fuel : Nat) (p : Option Ptr) (file : Checkpoint), save_loop st fuel p = some file →
      ∀ r ∈ file, ∃ q y, st.heap q = some y ∧ r = (y.metadata, y.access_list) := by
  intro fuel
  induction fuel with
  | zero =>
    intro p file h
    cases p with
    | none =>
      simp only [save_loop, Option.some.injEq] at h
      rw [← h]; intro r hr; cases hr
    | some c => simp [save_loop] at h
  | succ n ih =>
    intro p file h
    cases p with
    | none =>
      simp only [save_loop, Option.some.injEq] at h
      rw [← h]; intro r hr; cases hr
    | some c =>
      simp only [save_loop] at h
      split at h
      · cases h
      · rename_i node hnode
        simp only [Option.map_eq_some'] at h
        obtain ⟨l, hl, hfile⟩ := h
        rw [← hfile]
        intro r hr
        rcases List.mem_cons.mp hr with hr | hr
        · exact ⟨c, node, hnode, hr⟩
        · exact ih node.next l hl r hr

theorem load_record_heap (st : NMState) (record : FileMetadata × List UserAccess)
    (q : Ptr) (x : FileNode) (h : (load_record st record).heap q = some x) :
    (x.metadata = record.1 ∧ x.access_list = record.2) ∨ st.heap q = some x := by
  unfold load_record at h
  simp only at h
  by_cases hq : q = st.next_ptr
  · simp only [hq, if_true, Option.some.injEq] at h
    left; rw [← h]; exact ⟨rfl, rfl⟩
  · simp only [hq, if_false] at h
    exact Or.inr h

theorem load_records :
    ∀ (records : Checkpoint) (st : NMState) (q : Ptr) (x : FileNode),
      (records.foldl load_record st).heap q = some x →
      (∃ r ∈ records, x.metadata = r.1 ∧ x.access_list = r.2) ∨ st.heap q = some x := by
  intro records
  induction records with
  | nil => intro st q x h; exact Or.inr h
  | cons r rs ih =>
    intro st q x h
    rw [List.foldl_cons] at h
    rcases ih _ q x h with ⟨r2, hr2, hx⟩ | h2
    · exact Or.inl ⟨r2, List.mem_cons_of_mem _ hr2, hx⟩
    · rcases load_record_heap st r q x h2 with hx | h3
      · exact Or.inl ⟨r, List.mem_cons_self _ _, hx⟩
      · exact Or.inr h3

theorem load_records_length :
    ∀ (records : Checkpoint) (st : NMState),
      (records.foldl load_record st).storage_servers = st.storage_servers := by
  intro records
  induction records with
  | nil => intro st; rfl
  | cons r rs ih => intro st; rw [List.foldl_cons, ih]; rfl

/-- The user names of an access list do not change when rights are set. -/
theorem set_rights_usernames (l : List UserAccess) (i rights : Nat) :
    (set_rights l i rights).map (fun e => e.username) = l.map (fun e => e.username) := by
  unfold set_rights
  cases h : l.get? i with
  | none => rfl
  | some e =>
    simp only
    apply List.ext_getElem?
    intro j
    simp only [List.getElem?_map, List.getElem?_set]
    by_cases hij : i = j
    · subst hij
      have hi : i < l.length := by
        rw [List.get?_eq_getElem?] at h
        exact (List.getElem?_eq_some_iff.mp h).1
      rw [List.get?_eq_getElem?] at h
      simp only [if_true, hi, h, Option.map_some']
    · simp only [hij, if_false]

theorem findIdx?_none_usernames (l : List UserAccess) (u : CStr)
    (h : l.findIdx? (fun e => e.username == u) = none) :
    u ∉ l.map (fun e => e.username) := by
  rw [List.findIdx?_eq_none_iff] at h
  intro hu
  obtain ⟨e, he, heu⟩ := List.mem_map.mp hu
  have := h e he
  simp only [beq_eq_false_iff_ne, ne_eq] at this
  exact this heu

theorem add_access_list_cons (a : UserAccess) (t : List UserAccess) (u : CStr) (m : Nat) :
    add_access_list (a :: t) u m =
      if a.username == u then { a with access_rights := m } :: t
      else a :: add_access_list t u m := by
  unfold add_access_list
  rw [List.findIdx?_cons]
  by_cases ha : (a.username == u) = true
  · simp only [ha, if_true]
    rfl
  · have hb : (a.username == u) = false := by simpa using ha
    simp only [hb, Bool.false_eq_true, if_false, List.findIdx?_succ]
    cases h : t.findIdx? (fun e => e.username == u) with
    | none => rfl
    | some i =>
      show set_rights (a :: t) (i + 1) m = a :: set_rights t i m
      unfold set_rights
      simp only [List.get?_cons_succ]
      cases t.get? i with
      | none => rfl
      | some e => rfl

theorem add_access_list_nil (u : CStr) (m : Nat) :
    add_access_list [] u m = [{ username := u, access_rights := m }] := rfl

/-- The add-access branch on an access list without repeated user names:
one entry for the target user, with the new rights; the entries of the other
users as they were; and again no repeated user name. -/
theorem add_access_list_spec (u : CStr) (m : Nat) :
    ∀ (l : List UserAccess), (l.map (fun e => e.username)).Nodup →
      (add_access_list l u m).filter (fun e => e.username == u)
        = [{ username := u, access_rights := m }] ∧
      (add_access_list l u m).filter (fun e => !(e.username == u))
        = l.filter (fun e => !(e.username == u)) ∧
      ((add_access_list l u m).map (fun e => e.username)).Nodup ∧
      (∀ v, v ∈ (add_access_list l u m).map (fun e => e.username) ↔
        v = u ∨ v ∈ l.map (fun e => e.username)) := by
  intro l
  induction l with
  | nil =>
    intro _
    rw [add_access_list_nil]
    simp
  | cons a t ih =>
    intro hnd
    rw [List.map_cons, List.nodup_cons] at hnd
    obtain ⟨i1, i2, i3, i4⟩ := ih hnd.2
    rw [add_access_list_cons]
    by_cases ha : (a.username == u) = true
    · have hau : a.username = u := by simpa using ha
      simp only [ha, if_true]
      have hnone : ∀ e ∈ t, (e.username == u) = false := by
        intro e he
        simp only [beq_eq_false_iff_ne, ne_eq]
        intro heu
        exact hnd.1 (List.mem_map.mpr ⟨e, he, heu.trans hau.symm⟩)
      have hf1 : t.filter (fun e => e.username == u) = [] := by
        rw [List.filter_eq_nil_iff]
        intro e he
        simp [hnone e he]
      refine ⟨?_, ?_, ?_, ?_⟩
      · rw [List.filter_cons_of_pos (by simpa using hau), hf1, hau]
      · rw [List.filter_cons_of_neg (by simpa using hau),
          List.filter_cons_of_neg (by simpa using hau)]
      · rw [List.map_cons, List.nodup_cons]
        exact hnd
      · intro v
        simp only [List.map_cons, List.mem_cons, hau]
        tauto
    · have hau : a.username ≠ u := by simpa using ha
      have hb : (a.username == u) = false := by simpa using hau
      simp only [hb, Bool.false_eq_true, if_false]
      refine ⟨?_, ?_, ?_, ?_⟩
      · rw [List.filter_cons_of_neg (by simpa using hau), i1]
      · rw [List.filter_cons_of_pos (by simpa using hau),
          List.filter_cons_of_pos (by simpa using hau), i2]
      · rw [List.map_cons, List.nodup_cons]
        refine ⟨?_, i3⟩
        intro hmem
        rcases (i4 _).mp hmem with h | h
        · exact hau h
        · exact hnd.1 h
      · intro v
        simp only [List.map_cons, List.mem_cons, i4 v]
        tauto

theorem set_access_list_heap (st : NMState) (p : Ptr) (l : List UserAccess) (q : Ptr)
    (x : FileNode) (h : (set_access_list st p l).heap q = some x) :
    (q = p ∧ ∃ y, st.heap p = some y ∧ x = { y with access_list := l }) ∨
    (q ≠ p ∧ st.heap q = some x) := by
  unfold set_access_list at h
  simp only at h
  by_cases hq : q = p
  · simp only [hq, if_true] at h
    cases hy : st.heap p with
    | none => rw [hy] at h; cases h
    | some y =>
      rw [hy] at h
      simp only [Option.map_some', Option.some.injEq] at h
      exact Or.inl ⟨hq, y, rfl, h.symm⟩
  · simp only [hq, if_false] at h
    exact Or.inr ⟨hq, h⟩

/-- The add-access branch of `handle_access_control`, for a request of the
owner of a record that `find_file` finds. -/
theorem handle_add_access {st st1 : NMState} {msg : Message} {file : Ptr} {node : FileNode}
    (htype : msg.type = MSG_ADD_ACCESS)
    (hfind : find_file st msg.filename = some (st1, some file))
    (hnode : st1.heap file = some node) (howner : node.metadata.owner = msg.username) :
    handle_access_control st msg =
      some (set_access_list st1 file
              (add_access_list node.access_list msg.target_user
                (if msg.flags = 1 then ACCESS_READ else ACCESS_READ ||| ACCESS_WRITE)),
            response ERR_SUCCESS "Access granted successfully!") := by
  unfold handle_access_control
  simp only [hfind, hnode, howner, htype, ne_eq, not_true_eq_false, if_false, if_true]
  rfl

/-- Every record after `handle_access_control` is a record from before with
the same metadata, and its access list has no repeated user name when the
list before had none. -/
theorem handle_access_control_records {st st1 : NMState} {msg r : Message}
    (h : handle_access_control st msg = some (st1, r)) :
    st1.storage_servers = st.storage_servers ∧
    ∀ q x, st1.heap q = some x → ∃ y, st.heap q = some y ∧ x.metadata = y.metadata ∧
      ((y.access_list.map (fun e => e.username)).Nodup →
        (x.access_list.map (fun e => e.username)).Nodup) := by
  unfold handle_access_control at h
  split at h
  · cases h
  · rename_i s2 hf
    obtain ⟨hh, _, _, hs, _⟩ := find_file_frame hf
    simp only [Option.some.injEq, Prod.mk.injEq] at h
    rw [← h.1]
    exact ⟨hs, fun q x hx => ⟨x, by rw [← hh]; exact hx, rfl, fun hn => hn⟩⟩
  · rename_i s2 file hf
    obtain ⟨hh, _, _, hs, _⟩ := find_file_frame hf
    have keep : s2.storage_servers = st.storage_servers ∧
        ∀ q x, s2.heap q = some x → ∃ y, st.heap q = some y ∧ x.metadata = y.metadata ∧
          ((y.access_list.map (fun e => e.username)).Nodup →
            (x.access_list.map (fun e => e.username)).Nodup) :=
      ⟨hs, fun q x hx => ⟨x, by rw [← hh]; exact hx, rfl, fun hn => hn⟩⟩
    have changed : ∀ (l : List UserAccess) (node : FileNode), s2.heap file = some node →
        ((node.access_list.map (fun e => e.username)).Nodup →
          (l.map (fun e => e.username)).Nodup) →
        (set_access_list s2 file l).storage_servers = st.storage_servers ∧
        ∀ q x, (set_access_list s2 file l).heap q = some x →
          ∃ y, st.heap q = some y ∧ x.metadata = y.metadata ∧
            ((y.access_list.map (fun e => e.username)).Nodup →
              (x.access_list.map (fun e => e.username)).Nodup) := by
      intro l node hnode hl
      refine ⟨hs, ?_⟩
      intro q x hx
      rcases set_access_list_heap s2 file l q x hx with ⟨hq, y, hy, hxy⟩ | ⟨_, hx2⟩
      · rw [hnode] at hy
        simp only [Option.some.injEq] at hy
        subst hy
        refine ⟨node, by rw [hq, ← hh]; exact hnode, by rw [hxy], ?_⟩
        rw [hxy]; exact hl
      · exact keep.2 q x hx2
    split at h
    · cases h
    · rename_i node hnode
      split at h
      · simp only [Option.some.injEq, Prod.mk.injEq] at h
        rw [← h.1]; exact keep
      · split at h
        · simp only [Option.some.injEq, Prod.mk.injEq] at h
          rw [← h.1]
          refine changed _ node hnode ?_
          intro hn
          exact (add_access_list_spec msg.target_user _ node.access_list hn).2.2.1
        · split at h
          · split at h
            · rename_i i hi
              split at h
              · simp only [Option.some.injEq, Prod.mk.injEq] at h
                rw [← h.1]
                refine changed _ node hnode ?_
                intro hn
                exact hn.sublist (List.Sublist.map _ (List.eraseIdx_sublist _ _))
              · simp only [Option.some.injEq, Prod.mk.injEq] at h
                rw [← h.1]; exact keep
            · simp only [Option.some.injEq, Prod.mk.injEq] at h
              rw [← h.1]; exact keep
          · simp only [Option.some.injEq, Prod.mk.injEq] at h
            rw [← h.1]; exact keep

theorem RecordsFrom.distinct {fresh : FileMetadata → List UserAccess → Prop} {a b : NMState}
    (h : RecordsFrom fresh a b) (ha : DistinctUsers a)
    (hfresh : ∀ m l, fresh m l → (l.map (fun e => e.username)).Nodup) : DistinctUsers b := by
  intro q x hx
  rcases h q x hx with hf | ⟨y, hy, _, hl⟩
  · exact hfresh _ _ hf
  · rw [hl]; exact ha q y hy

theorem RecordsFrom.valid {fresh : FileMetadata → List UserAccess → Prop} {a b : NMState}
    (h : RecordsFrom fresh a b) (ha : ValidIndexes a)
    (hlen : a.storage_servers.length ≤ b.storage_servers.length)
    (hfresh : ∀ m l, fresh m l →
      0 ≤ m.ss_index ∧ m.ss_index < (b.storage_servers.length : Int)) : ValidIndexes b := by
  intro q x hx
  rcases h q x hx with hf | ⟨y, hy, hm, _⟩
  · exact hfresh _ _ hf
  · rw [hm]
    have := ha q y hy
    exact ⟨this.1, by omega⟩

/-- In every state a run reaches, with or without new starts of the program,
no access list holds two entries with the same user name. -/
theorem reachable_distinct_users (restarts : Bool) (st : NMState)
    (h : Reachable restarts st) : DistinctUsers st := by
  induction h with
  | init => intro q x hx; cases hx
  | register st st1 msg now r _ hstep ih =>
    exact (register_ss_records hstep).2.distinct ih (fun m l hml => by rw [hml.2]; simp)
  | create st st1 msg r ss now _ hstep ih =>
    exact (handle_create_records hstep).2.distinct ih (fun m l hml => by rw [hml.2]; simp)
  | delete st st1 msg r ss _ hstep ih =>
    exact (handle_delete_records (fun _ _ => False) hstep).2.distinct ih
      (fun m l hml => hml.elim)
  | access st st1 msg r _ hstep ih =>
    intro q x hx
    obtain ⟨y, hy, _, hn⟩ := (handle_access_control_records hstep).2 q x hx
    exact hn (ih q y hy)
  | locate st st1 msg r _ hstep ih =>
    exact (handle_direct_ss_operation_records (fun _ _ => False) hstep).2.distinct ih
      (fun m l hml => hml.elim)
  | restart st file _ _ hsave ih =>
    intro q x hx
    rcases load_records file nm_init q x hx with ⟨r, hr, hm, hl⟩ | h0
    · obtain ⟨p, y, hy, hry⟩ := save_loop_records st _ _ file hsave r hr
      rw [hl, hry]
      exact ih p y hy
    · cases h0

/-- C12, as amended: in every state that a run reaches from the start with no
metadata file, through registrations of storage servers, creates, deletes
and the other client requests, but without a new start of the program, the
`ss_index` of every record is a position of the registry:
`0 <= ss_index < num_storage_servers`. -/
theorem reachable_valid_indexes (st : NMState) (h : Reachable false st) : ValidIndexes st := by
  induction h with
  | init => intro q x hx; cases hx
  | register st st1 msg now r _ hstep ih =>
    exact (register_ss_records hstep).2.valid ih (register_ss_records hstep).1
      (fun m l hml => hml.1)
  | create st st1 msg r ss now _ hstep ih =>
    have hs := (handle_create_records hstep).1
    exact (handle_create_records hstep).2.valid ih (by rw [hs])
      (fun m l hml => by rw [hs]; exact hml.1)
  | delete st st1 msg r ss _ hstep ih =>
    have hs := (handle_delete_records (fun _ _ => False) hstep).1
    exact (handle_delete_records (fun _ _ => False) hstep).2.valid ih (by rw [hs])
      (fun m l hml => hml.elim)
  | access st st1 msg r _ hstep ih =>
    intro q x hx
    obtain ⟨y, hy, hm, _⟩ := (handle_access_control_records hstep).2 q x hx
    rw [hm, (handle_access_control_records hstep).1]
    exact ih q y hy
  | locate st st1 msg r _ hstep ih =>
    have hs := (handle_direct_ss_operation_records (fun _ _ => False) hstep).1
    exact (handle_direct_ss_operation_records (fun _ _ => False) hstep).2.valid ih (by rw [hs])
      (fun m l hml => hml.elim)
  | restart st file hr _ _ _ => cases hr

theorem reachable_nm_one_server (restarts : Bool) : Reachable restarts nm_one_server :=
  Reachable.register nm_init nm_one_server register_first 0 _ Reachable.init rfl

theorem reachable_nm_created (restarts : Bool) : Reachable restarts nm_created :=
  Reachable.create nm_one_server nm_created alice_create _ ss_ok 100
    (reachable_nm_one_server restarts) rfl

/-- The statement `reachable_valid_indexes` on the name server after one
storage server has registered and `alice` has created `b.txt`. -/
theorem reachable_valid_indexes_witness :
    Reachable false nm_created ∧ ValidIndexes nm_created ∧
    nm_created.heap 1 = some alice_node ∧ nm_created.storage_servers.length = 1 :=
  ⟨reachable_nm_created false, reachable_valid_indexes nm_created (reachable_nm_created false),
   by decide, by decide⟩

/-- C12, the claim at a new start of the program: `save_metadata` writes the
records and not the registry, so after `load_metadata` the record of `b.txt`
has `ss_index = 0` while `num_storage_servers` is 0, and the locator answer
for the file names the zeroed registry entry. -/
theorem restart_loses_registry :
    save_metadata nm_created = some [(alice_node.metadata, alice_node.access_list)] ∧
    Reachable true nm_restarted ∧
    nm_restarted.storage_servers = [] ∧
    nm_restarted.heap 1 = some alice_node ∧
    alice_node.metadata.ss_index = 0 ∧
    ¬ ValidIndexes nm_restarted ∧
    (handle_direct_ss_operation nm_restarted alice_write).map (fun x => x.2)
      = some { type := MSG_RESPONSE, error_code := ERR_SUCCESS, ss_ip := [], ss_port := 0,
               data := "Connect to SS at :0".toList } :=
  ⟨by decide,
   Reachable.restart nm_created [(alice_node.metadata, alice_node.access_list)] rfl
     (reachable_nm_created true) (by decide),
   by decide, by decide, by decide,
   fun h => absurd (h 1 alice_node (by decide)).2 (by decide),
   by decide⟩

theorem save_loop_cycle (st : NMState) (a b : Ptr) (na nb : FileNode)
    (ha : st.heap a = some na) (hna : na.next = some b)
    (hb : st.heap b = some nb) (hnb : nb.next = some a) :
    ∀ fuel, save_loop st fuel (some a) = none ∧ save_loop st fuel (some b) = none := by
  intro fuel
  induction fuel with
  | zero => exact ⟨rfl, rfl⟩
  | succ n ih =>
    constructor
    · simp only [save_loop, ha, hna, ih.2, Option.map_none']
    · simp only [save_loop, hb, hnb, ih.1, Option.map_none']

/-- C11, the code at the failing input: `alice` creates `h` and then `bua`,
two names with the same value of `hash_function`.  The create of `h` is
answered with success.  In the create of `bua` the name is not found, a
storage server is active and `add_file` returns; the file list then starts
at the record of `bua`, whose `next` is the record of `h`, whose `next` is the
record of `bua` again, so the walk of `save_metadata`, which the create runs
next, does not end, whatever the number of steps it is given, and the create
of `bua` is never answered. -/
theorem colliding_names_make_cycle :
    "h".toList ≠ "bua".toList ∧
    hash_function "h".toList = hash_function "bua".toList ∧
    error_of (handle_create nm_one_server create_h ss_ok 100) = some ERR_SUCCESS ∧
    (find_file nm_h create_bua.filename).map (fun x => x.2) = some none ∧
    nm_h.storage_servers.findIdx? (fun s => s.is_active != 0) = some 0 ∧
    add_bua.isSome = true ∧
    nm_collision.file_list = some 2 ∧
    (nm_collision.heap 2).map (fun n => (n.metadata.filename, n.next))
      = some ("bua".toList, some 1) ∧
    (nm_collision.heap 1).map (fun n => (n.metadata.filename, n.next))
      = some ("h".toList, some 2) ∧
    (∀ fuel, save_loop nm_collision fuel nm_collision.file_list = none) ∧
    save_metadata nm_collision = none ∧
    (handle_create nm_h create_bua ss_ok 101).isNone = true := by
  refine ⟨by decide, by decide, by decide, by decide, by decide, by decide, by decide,
    by decide, by decide, ?_, by decide, by decide⟩
  have h2 : ∃ n, nm_collision.heap 2 = some n ∧ n.next = some 1 := by
    cases h : nm_collision.heap 2 with
    | none => exact absurd h (by decide)
    | some n =>
      refine ⟨n, rfl, ?_⟩
      have : (nm_collision.heap 2).map (fun n => n.next) = some (some 1) := by decide
      rw [h] at this
      simpa using this
  have h1 : ∃ n, nm_collision.heap 1 = some n ∧ n.next = some 2 := by
    cases h : nm_collision.heap 1 with
    | none => exact absurd h (by decide)
    | some n =>
      refine ⟨n, rfl, ?_⟩
      have : (nm_collision.heap 1).map (fun n => n.next) = some (some 2) := by decide
      rw [h] at this
      simpa using this
  obtain ⟨n2, hn2, hx2⟩ := h2
  obtain ⟨n1, hn1, hx1⟩ := h1
  intro fuel
  have hfl : nm_collision.file_list = some 2 := by decide
  rw [hfl]
  exact (save_loop_cycle nm_collision 2 1 n2 n1 hn2 hx2 hn1 hx1 fuel).1

theorem find_file_cache_hit {st : NMState} {f : CStr} {file : Ptr}
    (h : cache_get st f = some file) : find_file st f = some (st, some file) := by
  unfold find_file
  rw [h]

theorem set_access_list_cache (st : NMState) (p : Ptr) (l : List UserAccess) (f : CStr) :
    cache_get (set_access_list st p l) f = cache_get st f := rfl

theorem set_access_list_self {st : NMState} {p : Ptr} {node : FileNode}
    (h : st.heap p = some node) (l : List UserAccess) :
    (set_access_list st p l).heap p = some { node with access_list := l } := by
  unfold set_access_list
  simp only [if_true, h, Option.map_some']

theorem find?_head?_filter (p : UserAccess → Bool) :
    ∀ l : List UserAccess, l.find? p = (l.filter p).head? := by
  intro l
  induction l with
  | nil => rfl
  | cons a t ih =>
    by_cases ha : p a = true
    · rw [List.find?_cons_of_pos _ ha, List.filter_cons_of_pos ha]; rfl
    · rw [List.find?_cons_of_neg _ ha, List.filter_cons_of_neg ha]; exact ih

theorem get_user_access_of_filter (node : FileNode) (u : CStr) (m : Nat)
    (h : node.access_list.filter (fun e => e.username == u)
      = [{ username := u, access_rights := m }]) :
    get_user_access node u = m := by
  unfold get_user_access
  have : node.access_list.find? (fun e => e.username == u)
      = some { username := u, access_rights := m } := by
    rw [find?_head?_filter, h]
    rfl
  rw [this]

/-- C20: in every state a run reaches, no access list holds two entries with
the same user name; an add-access request of the owner for the user `u` with
mode `m` (`flags = 1` for R, else RW) leaves, in the access list of the file,
exactly one entry for `u`, with the rights `m` whatever `u` had before, the
entries of the other users as they were, and the other records untouched;
and RW followed by R leaves `u` with `ACCESS_READ`. -/
theorem add_access_last_grant_wins (restarts : Bool) (st : NMState)
    (hreach : Reachable restarts st) :
    DistinctUsers st ∧
    (∀ (msg : Message) (st1 : NMState) (file : Ptr) (node : FileNode),
      msg.type = MSG_ADD_ACCESS → find_file st msg.filename = some (st1, some file) →
      st1.heap file = some node → node.metadata.owner = msg.username →
      ∃ st2 node2,
        handle_access_control st msg
          = some (st2, response ERR_SUCCESS "Access granted successfully!") ∧
        DistinctUsers st2 ∧
        st2.heap file = some node2 ∧
        node2.metadata = node.metadata ∧
        node2.access_list.filter (fun e => e.username == msg.target_user)
          = [{ username := msg.target_user,
               access_rights :=
                 if msg.flags = 1 then ACCESS_READ else ACCESS_READ ||| ACCESS_WRITE }] ∧
        node2.access_list.filter (fun e => !(e.username == msg.target_user))
          = node.access_list.filter (fun e => !(e.username == msg.target_user)) ∧
        get_user_access node2 msg.target_user
          = (if msg.flags = 1 then ACCESS_READ else ACCESS_READ ||| ACCESS_WRITE) ∧
        (∀ q, q ≠ file → st2.heap q = st1.heap q) ∧
        find_file st2 msg.filename = some (st2, some file)) ∧
    (∀ (m_rw m_r : Message) (st1 : NMState) (file : Ptr) (node : FileNode),
      m_rw.type = MSG_ADD_ACCESS → m_r.type = MSG_ADD_ACCESS →
      m_r.filename = m_rw.filename → m_r.username = m_rw.username →
      m_r.target_user = m_rw.target_user →
      m_rw.flags = 2 → m_r.flags = 1 →
      find_file st m_rw.filename = some (st1, some file) →
      st1.heap file = some node → node.metadata.owner = m_rw.username →
      ∃ st2 st3 node3,
        handle_access_control st m_rw
          = some (st2, response ERR_SUCCESS "Access granted successfully!") ∧
        handle_access_control st2 m_r
          = some (st3, response ERR_SUCCESS "Access granted successfully!") ∧
        st3.heap file = some node3 ∧
        node3.access_list.filter (fun e => e.username == m_rw.target_user)
          = [{ username := m_rw.target_user, access_rights := ACCESS_READ }] ∧
        get_user_access node3 m_rw.target_user = ACCESS_READ) := by
  have hd := reachable_distinct_users restarts st hreach
  have one : ∀ (s : NMState), Reachable restarts s →
      ∀ (msg : Message) (st1 : NMState) (file : Ptr) (node : FileNode),
      msg.type = MSG_ADD_ACCESS → find_file s msg.filename = some (st1, some file) →
      st1.heap file = some node → node.metadata.owner = msg.username →
      ∃ st2 node2,
        handle_access_control s msg
          = some (st2, response ERR_SUCCESS "Access granted successfully!") ∧
        DistinctUsers st2 ∧
        st2.heap file = some node2 ∧
        node2.metadata = node.metadata ∧
        node2.access_list.filter (fun e => e.username == msg.target_user)
          = [{ username := msg.target_user,
               access_rights :=
                 if msg.flags = 1 then ACCESS_READ else ACCESS_READ ||| ACCESS_WRITE }] ∧
        node2.access_list.filter (fun e => !(e.username == msg.target_user))
          = node.access_list.filter (fun e => !(e.username == msg.target_user)) ∧
        get_user_access node2 msg.target_user
          = (if msg.flags = 1 then ACCESS_READ else ACCESS_READ ||| ACCESS_WRITE) ∧
        (∀ q, q ≠ file → st2.heap q = st1.heap q) ∧
        find_file st2 msg.filename = some (st2, some file) := by
    intro s hs msg st1 file node htype hfind hnode howner
    have hstep := handle_add_access htype hfind hnode howner
    have hnd : (node.access_list.map (fun e => e.username)).Nodup := by
      have := reachable_distinct_users restarts s hs file node
      rw [← (find_file_frame hfind).1] at this
      exact this hnode
    obtain ⟨s1, s2, _, _⟩ := add_access_list_spec msg.target_user
      (if msg.flags = 1 then ACCESS_READ else ACCESS_READ ||| ACCESS_WRITE) node.access_list hnd
    refine ⟨_, _, hstep, ?_, set_access_list_self hnode _, rfl, s1, s2, ?_, ?_, ?_⟩
    · exact reachable_distinct_users restarts _ (Reachable.access s _ msg _ hs hstep)
    · exact get_user_access_of_filter _ _ _ s1
    · intro q hq
      unfold set_access_list
      simp only [hq, if_false]
    · apply find_file_cache_hit
      rw [set_access_list_cache]
      exact find_file_caches hfind
  refine ⟨hd, one st hreach, ?_⟩
  intro rw r st1 file node hrw hr hf hu ht hflag2 hflag1 hfind hnode howner
  obtain ⟨st2, node2, hstep, _, hheap2, hmeta2, _, _, _, _, hfind2⟩ :=
    one st hreach rw st1 file node hrw hfind hnode howner
  have hreach2 : Reachable restarts st2 := Reachable.access st st2 rw _ hreach hstep
  obtain ⟨st3, node3, hstep3, _, hheap3, _, hfilter3, _, haccess3, _, _⟩ :=
    one st2 hreach2 r st2 file node2 hr (by rw [hf]; exact hfind2) hheap2
      (by rw [hmeta2, hu]; exact howner)
  rw [ht] at hfilter3 haccess3
  simp only [hflag1, if_true] at hfilter3 haccess3
  exact ⟨st2, st3, node3, hstep, hstep3, hheap3, hfilter3, haccess3⟩

/-- The statement `add_access_last_grant_wins` on `b.txt`, created by `alice`:
she grants `bob` RW and then R; the access list is then `alice` with
`READ|WRITE` and `bob` with `READ`. -/
theorem add_access_last_grant_wins_witness :
    access_list_of nm_created "b.txt".toList
      = some [{ username := "alice".toList, access_rights := 3 }] ∧
    access_list_of (state_of (handle_access_control nm_created grant_rw)) "b.txt".toList
      = some [{ username := "alice".toList, access_rights := 3 },
              { username := "bob".toList, access_rights := 3 }] ∧
    access_list_of
        (state_of (handle_access_control (state_of (handle_access_control nm_created grant_rw))
          grant_r)) "b.txt".toList
      = some [{ username := "alice".toList, access_rights := 3 },
              { username := "bob".toList, access_rights := 1 }] ∧
    DistinctUsers nm_created ∧
    (∃ st2 st3 node3,
      handle_access_control nm_created grant_rw
        = some (st2, response ERR_SUCCESS "Access granted successfully!") ∧
      handle_access_control st2 grant_r
        = some (st3, response ERR_SUCCESS "Access granted successfully!") ∧
      st3.heap 1 = some node3 ∧
      node3.access_list.filter (fun e => e.username == grant_rw.target_user)
        = [{ username := grant_rw.target_user, access_rights := ACCESS_READ }] ∧
      get_user_access node3 grant_rw.target_user = ACCESS_READ) :=
  ⟨by decide, by decide, by decide,
   (add_access_last_grant_wins false nm_created (reachable_nm_created false)).1,
   (add_access_last_grant_wins false nm_created (reachable_nm_created false)).2.2
     grant_rw grant_r (cache_put nm_created "b.txt".toList 1) 1 alice_node
     (by decide) (by decide) (by decide) (by decide) (by decide) (by decide) (by decide)
     rfl (by decide) (by decide)⟩

/-! ## The name server: grant and removal of access -/

theorem add_access_list_find (u : CStr) (m : Nat) :
    ∀ l : List UserAccess,
      (add_access_list l u m).find? (fun e => e.username == u)
        = some { username := u, access_rights := m } := by
  intro l
  induction l with
  | nil => rw [add_access_list_nil]; simp
  | cons a t ih =>
    rw [add_access_list_cons]
    by_cases ha : (a.username == u) = true
    · have hau : a.username = u := by simpa using ha
      simp only [ha, if_true]
      rw [List.find?_cons_of_pos _ (by simpa using hau), hau]
    · have hb : (a.username == u) = false := by simpa using ha
      simp only [hb, Bool.false_eq_true, if_false]
      rw [List.find?_cons_of_neg _ (by simpa using ha), ih]

theorem rem_access_list_cons (a : UserAccess) (t : List UserAccess) (u : CStr) :
    rem_access_list (a :: t) u =
      if a.username == u then t else a :: rem_access_list t u := by
  unfold rem_access_list
  rw [List.findIdx?_cons]
  by_cases ha : (a.username == u) = true
  · simp only [ha, if_true]
    rfl
  · have hb : (a.username == u) = false := by simpa using ha
    simp only [hb, Bool.false_eq_true, if_false, List.findIdx?_succ]
    cases h : t.findIdx? (fun e => e.username == u) with
    | none => rfl
    | some i => rfl

/-- A grant for `u` and then a removal for `u`, on an access list without
repeated user names: what is left is the list without the entry of `u`. -/
theorem rem_add_access_list (u : CStr) (m : Nat) :
    ∀ l : List UserAccess, (l.map (fun e => e.username)).Nodup →
      rem_access_list (add_access_list l u m) u = l.filter (fun e => !(e.username == u)) := by
  intro l
  induction l with
  | nil => intro _; rw [add_access_list_nil, rem_access_list_cons]; simp
  | cons a t ih =>
    intro hnd
    rw [List.map_cons, List.nodup_cons] at hnd
    rw [add_access_list_cons]
    by_cases ha : (a.username == u) = true
    · have hau : a.username = u := by simpa using ha
      simp only [ha, if_true]
      rw [rem_access_list_cons]
      simp only [ha, if_true]
      rw [List.filter_cons_of_neg (by simpa using hau)]
      symm
      rw [List.filter_eq_self]
      intro e he
      simp only [Bool.not_eq_true', beq_eq_false_iff_ne, ne_eq]
      intro heu
      exact hnd.1 (List.mem_map.mpr ⟨e, he, heu.trans hau.symm⟩)
    · have hb : (a.username == u) = false := by simpa using ha
      have hau : a.username ≠ u := by simpa using ha
      simp only [hb, Bool.false_eq_true, if_false]
      rw [rem_access_list_cons]
      simp only [hb, Bool.false_eq_true, if_false]
      rw [ih hnd.2, List.filter_cons_of_pos (by simpa using hau)]

/-- The removal branch of `handle_access_control`, for a request of the
owner for a user who has an entry and is not the owner. -/
theorem handle_rem_access {st st1 : NMState} {msg : Message} {file : Ptr} {node : FileNode}
    {i : Nat} (htype : msg.type = MSG_REM_ACCESS)
    (hfind : find_file st msg.filename = some (st1, some file))
    (hnode : st1.heap file = some node) (howner : node.metadata.owner = msg.username)
    (hfound : node.access_list.findIdx? (fun e => e.username == msg.target_user) = some i)
    (hne : msg.target_user ≠ node.metadata.owner) :
    handle_access_control st msg =
      some (set_access_list st1 file (rem_access_list node.access_list msg.target_user),
            response ERR_SUCCESS "Access removed successfully!") := by
  have h1 : ¬ (MSG_REM_ACCESS = MSG_ADD_ACCESS) := by decide
  unfold handle_access_control rem_access_list
  simp only [hfind, hnode, howner, htype, h1, ne_eq, not_true_eq_false, if_false, if_true,
    hfound]
  rw [← howner]
  simp only [hne, not_false_eq_true, if_true]

/-- A removal whose target is the owner of the record, or has no entry. -/
theorem handle_rem_access_refused {st st1 : NMState} {msg : Message} {file : Ptr}
    {node : FileNode} (htype : msg.type = MSG_REM_ACCESS)
    (hfind : find_file st msg.filename = some (st1, some file))
    (hnode : st1.heap file = some node) (howner : node.metadata.owner = msg.username)
    (hbad : msg.target_user = node.metadata.owner ∨
      node.access_list.findIdx? (fun e => e.username == msg.target_user) = none) :
    handle_access_control st msg =
      some (st1, response ERR_INVALID_COMMAND
        "ERROR: Cannot remove owner access or user not found") := by
  have h1 : ¬ (MSG_REM_ACCESS = MSG_ADD_ACCESS) := by decide
  unfold handle_access_control
  simp only [hfind, hnode, howner, htype, h1, ne_eq, not_true_eq_false, if_false, if_true]
  cases hf : node.access_list.findIdx? (fun e => e.username == msg.target_user) with
  | none => rfl
  | some i =>
    rcases hbad with h | h
    · simp only [h, howner, not_true_eq_false, if_false]
    · rw [hf] at h; cases h

theorem handle_access_control_unauthorized {st st1 : NMState} {msg : Message} {file : Ptr}
    {node : FileNode}
    (hfind : find_file st msg.filename = some (st1, some file))
    (hnode : st1.heap file = some node) (howner : node.metadata.owner ≠ msg.username) :
    handle_access_control st msg =
      some (st1, response ERR_UNAUTHORIZED "ERROR: Only owner can modify access") := by
  unfold handle_access_control
  simp only [hfind, hnode, howner, ne_eq, not_false_eq_true, if_true]

/-- C29: an add-access request of the owner leaves the target user with
`ACCESS_READ` when `flags` is 1 and with `ACCESS_READ | ACCESS_WRITE` for
every other value of `flags`; and the record the client sends has `flags = 1`
when the flag text is `-R` and `flags = 2` for every other text. -/
theorem add_access_flags :
    (∀ (st st1 : NMState) (msg : Message) (file : Ptr) (node : FileNode),
      msg.type = MSG_ADD_ACCESS → find_file st msg.filename = some (st1, some file) →
      st1.heap file = some node → node.metadata.owner = msg.username →
      ∃ st2 node2,
        handle_access_control st msg
          = some (st2, response ERR_SUCCESS "Access granted successfully!") ∧
        st2.heap file = some node2 ∧
        (msg.flags = 1 → get_user_access node2 msg.target_user = ACCESS_READ) ∧
        (msg.flags ≠ 1 →
          get_user_access node2 msg.target_user = ACCESS_READ ||| ACCESS_WRITE)) ∧
    (∀ username flag filename target_user : CStr,
      cmd_add_access username flag filename target_user =
        { type := MSG_ADD_ACCESS, username := username, filename := filename,
          target_user := target_user, flags := if flag = "-R".toList then 1 else 2 } ∧
      (flag = "-R".toList → (cmd_add_access username flag filename target_user).flags = 1) ∧
      (flag ≠ "-R".toList → (cmd_add_access username flag filename target_user).flags = 2)) := by
  constructor
  · intro st st1 msg file node htype hfind hnode howner
    have hstep := handle_add_access htype hfind hnode howner
    refine ⟨_, _, hstep, set_access_list_self hnode _, ?_, ?_⟩
    · intro hf
      unfold get_user_access
      simp only [add_access_list_find, hf, if_true]
    · intro hf
      unfold get_user_access
      simp only [add_access_list_find, hf, if_false]
  · intro username flag filename target_user
    refine ⟨rfl, ?_, ?_⟩
    · intro h
      show (if flag = "-R".toList then (1 : Int) else 2) = 1
      rw [if_pos h]
    · intro h
      show (if flag = "-R".toList then (1 : Int) else 2) = 2
      rw [if_neg h]

/-- The statement `add_access_flags` on `b.txt`: the add-access records with
`flags` 0 and 2 give `bob` `READ|WRITE`, the one with `flags` 1 gives `READ`;
the client sends `flags = 2` for the flag texts `-W`, `-r` and `-RW`. -/
theorem add_access_flags_witness :
    access_of (state_of (handle_access_control nm_created
      { alice_grants_bob_read with flags := 0 })) "b.txt".toList "bob".toList = some 3 ∧
    access_of (state_of (handle_access_control nm_created alice_grants_bob_write))
      "b.txt".toList "bob".toList = some 3 ∧
    access_of (state_of (handle_access_control nm_created alice_grants_bob_read))
      "b.txt".toList "bob".toList = some 1 ∧
    (cmd_add_access "alice".toList "-R".toList "b.txt".toList "bob".toList).flags = 1 ∧
    (cmd_add_access "alice".toList "-W".toList "b.txt".toList "bob".toList).flags = 2 ∧
    (cmd_add_access "alice".toList "-r".toList "b.txt".toList "bob".toList).flags = 2 ∧
    (cmd_add_access "alice".toList "-RW".toList "b.txt".toList "bob".toList).flags = 2 ∧
    (∃ st2 node2,
      handle_access_control nm_created alice_grants_bob_read
        = some (st2, response ERR_SUCCESS "Access granted successfully!") ∧
      st2.heap 1 = some node2 ∧
      (alice_grants_bob_read.flags = 1 →
        get_user_access node2 alice_grants_bob_read.target_user = ACCESS_READ) ∧
      (alice_grants_bob_read.flags ≠ 1 →
        get_user_access node2 alice_grants_bob_read.target_user
          = ACCESS_READ ||| ACCESS_WRITE)) :=
  ⟨by decide, by decide, by decide, by decide,
   (add_access_flags.2 "alice".toList "-W".toList "b.txt".toList "bob".toList).2.2
     (by decide),
   by decide, by decide,
   add_access_flags.1 nm_created (cache_put nm_created "b.txt".toList 1) alice_grants_bob_read
     1 alice_node (by decide) rfl (by decide) (by decide)⟩

/-- C21: in every state a run reaches, for a user `u` other than the owner,
an add-access for `u` followed by a rem-access for `u`, both by the owner,
are both answered with success and leave the access list of the file as it
was before the grant with the entry of `u` taken out: no entry for `u`, the
entries of the other users unchanged and in their order; and the list is what
it was when `u` had no entry.  The other records are not touched. -/
theorem grant_then_revoke (restarts : Bool) (st : NMState) (hreach : Reachable restarts st) :
    ∀ (m_add m_rem : Message) (st1 : NMState) (file : Ptr) (node : FileNode),
      m_add.type = MSG_ADD_ACCESS → m_rem.type = MSG_REM_ACCESS →
      m_rem.filename = m_add.filename → m_rem.username = m_add.username →
      m_rem.target_user = m_add.target_user →
      find_file st m_add.filename = some (st1, some file) →
      st1.heap file = some node → node.metadata.owner = m_add.username →
      m_add.target_user ≠ node.metadata.owner →
      ∃ st2 st3 node3,
        handle_access_control st m_add
          = some (st2, response ERR_SUCCESS "Access granted successfully!") ∧
        handle_access_control st2 m_rem
          = some (st3, response ERR_SUCCESS "Access removed successfully!") ∧
        st3.heap file = some node3 ∧
        node3.metadata = node.metadata ∧
        node3.access_list
          = node.access_list.filter (fun e => !(e.username == m_add.target_user)) ∧
        (∀ e ∈ node3.access_list, e.username ≠ m_add.target_user) ∧
        ((∀ e ∈ node.access_list, e.username ≠ m_add.target_user) →
          node3.access_list = node.access_list) ∧
        (∀ q, q ≠ file → st3.heap q = st1.heap q) := by
  intro m_add m_rem st1 file node hadd hrem hf hu ht hfind hnode howner hne
  have hstep := handle_add_access hadd hfind hnode howner
  have hnd : (node.access_list.map (fun e => e.username)).Nodup := by
    have := reachable_distinct_users restarts st hreach file node
    rw [← (find_file_frame hfind).1] at this
    exact this hnode
  have hfind2 : find_file
      (set_access_list st1 file
        (add_access_list node.access_list m_add.target_user
          (if m_add.flags = 1 then ACCESS_READ else ACCESS_READ ||| ACCESS_WRITE)))
      m_rem.filename
      = some (set_access_list st1 file
          (add_access_list node.access_list m_add.target_user
            (if m_add.flags = 1 then ACCESS_READ else ACCESS_READ ||| ACCESS_WRITE)),
          some file) := by
    apply find_file_cache_hit
    rw [set_access_list_cache, hf]
    exact find_file_caches hfind
  have hnode2 := set_access_list_self hnode
    (add_access_list node.access_list m_add.target_user
      (if m_add.flags = 1 then ACCESS_READ else ACCESS_READ ||| ACCESS_WRITE))
  have hfound : ∃ i, (add_access_list node.access_list m_add.target_user
      (if m_add.flags = 1 then ACCESS_READ else ACCESS_READ ||| ACCESS_WRITE)).findIdx?
        (fun e => e.username == m_rem.target_user) = some i := by
    rw [ht]
    cases hx : (add_access_list node.access_list m_add.target_user
      (if m_add.flags = 1 then ACCESS_READ else ACCESS_READ ||| ACCESS_WRITE)).findIdx?
        (fun e => e.username == m_add.target_user) with
    | some i => exact ⟨i, rfl⟩
    | none =>
      exfalso
      have := findIdx?_none_usernames _ _ hx
      exact this (((add_access_list_spec m_add.target_user _ node.access_list hnd).2.2.2
        m_add.target_user).mpr (Or.inl rfl))
  obtain ⟨i, hfound⟩ := hfound
  have hstep2 := handle_rem_access hrem hfind2 hnode2 (by rw [hu]; exact howner) hfound
    (by rw [ht]; exact hne)
  have hlist := rem_add_access_list m_add.target_user
    (if m_add.flags = 1 then ACCESS_READ else ACCESS_READ ||| ACCESS_WRITE)
    node.access_list hnd
  refine ⟨_, _, _, hstep, hstep2, set_access_list_self hnode2 _, rfl, ?_, ?_, ?_, ?_⟩
  · show rem_access_list _ m_rem.target_user = _
    rw [ht]; exact hlist
  · intro e he
    have he2 : e ∈ rem_access_list
        (add_access_list node.access_list m_add.target_user
          (if m_add.flags = 1 then ACCESS_READ else ACCESS_READ ||| ACCESS_WRITE))
        m_rem.target_user := he
    rw [ht, hlist, List.mem_filter] at he2
    simpa using he2.2
  · intro hno
    show rem_access_list _ m_rem.target_user = _
    rw [ht, hlist, List.filter_eq_self]
    intro e he
    simpa using hno e he
  · intro q hq
    unfold set_access_list
    simp only [hq, if_false]

/-- The statement `grant_then_revoke` on `b.txt`, created by `alice`: she
grants `bob` read access and takes it back; the access list is again `alice`
with `READ|WRITE`. -/
theorem grant_then_revoke_witness :
    access_list_of
        (state_of (handle_access_control
          (state_of (handle_access_control nm_created alice_grants_bob_read))
          alice_revokes_bob)) "b.txt".toList
      = some [{ username := "alice".toList, access_rights := 3 }] ∧
    (∃ st2 st3 node3,
      handle_access_control nm_created alice_grants_bob_read
        = some (st2, response ERR_SUCCESS "Access granted successfully!") ∧
      handle_access_control st2 alice_revokes_bob
        = some (st3, response ERR_SUCCESS "Access removed successfully!") ∧
      st3.heap 1 = some node3 ∧
      node3.metadata = alice_node.metadata ∧
      node3.access_list
        = alice_node.access_list.filter
            (fun e => !(e.username == alice_grants_bob_read.target_user)) ∧
      (∀ e ∈ node3.access_list, e.username ≠ alice_grants_bob_read.target_user) ∧
      ((∀ e ∈ alice_node.access_list, e.username ≠ alice_grants_bob_read.target_user) →
        node3.access_list = alice_node.access_list) ∧
      (∀ q, q ≠ 1 → st3.heap q = (cache_put nm_created "b.txt".toList 1).heap q)) :=
  ⟨by decide,
   grant_then_revoke false nm_created (reachable_nm_created false)
     alice_grants_bob_read alice_revokes_bob (cache_put nm_created "b.txt".toList 1) 1
     alice_node (by decide) (by decide) (by decide) (by decide) (by decide) rfl (by decide)
     (by decide) (by decide)⟩

theorem filter_eraseIdx (p : UserAccess → Bool) :
    ∀ (l : List UserAccess) (i : Nat) (e : UserAccess), l.get? i = some e → p e = false →
      (l.eraseIdx i).filter p = l.filter p := by
  intro l
  induction l with
  | nil => intro i e h; cases h
  | cons a t ih =>
    intro i e h hp
    cases i with
    | zero =>
      have ha : a = e := by simpa using h
      subst ha
      rw [List.eraseIdx_cons_zero, List.filter_cons_of_neg (by simp [hp])]
    | succ n =>
      rw [List.eraseIdx_cons_succ]
      have := ih n e (by simpa using h) hp
      by_cases hpa : p a = true
      · rw [List.filter_cons_of_pos hpa, List.filter_cons_of_pos hpa, this]
      · rw [List.filter_cons_of_neg hpa, List.filter_cons_of_neg hpa, this]

theorem set_access_list_owner_entry (st : NMState) (file : Ptr) (node : FileNode)
    (l : List UserAccess) (hnode : st.heap file = some node)
    (hl : l.filter (fun e => e.username == node.metadata.owner)
      = node.access_list.filter (fun e => e.username == node.metadata.owner)) :
    ∀ p, ((set_access_list st file l).heap p).map owner_entry
      = (st.heap p).map owner_entry := by
  intro p
  unfold set_access_list
  simp only
  by_cases hp : p = file
  · subst hp
    simp only [if_true, hnode, Option.map_some', owner_entry, hl]
  · simp only [hp, if_false]

/-- A rem-access request leaves, in every record, the metadata and the
entries of the owner as they were. -/
theorem rem_access_owner_entry {st st1 : NMState} {msg r : Message}
    (htype : msg.type = MSG_REM_ACCESS)
    (h : handle_access_control st msg = some (st1, r)) :
    ∀ p, (st1.heap p).map owner_entry = (st.heap p).map owner_entry := by
  have h1 : ¬ (MSG_REM_ACCESS = MSG_ADD_ACCESS) := by decide
  unfold handle_access_control at h
  split at h
  · cases h
  · rename_i s2 hf
    simp only [Option.some.injEq, Prod.mk.injEq] at h
    rw [← h.1, (find_file_frame hf).1]
    intro p; rfl
  · rename_i s2 file hf
    have hh := (find_file_frame hf).1
    split at h
    · cases h
    · rename_i node hnode
      simp only [htype, h1, if_false, if_true] at h
      split at h
      · simp only [Option.some.injEq, Prod.mk.injEq] at h
        rw [← h.1, hh]
        intro p; rfl
      · split at h
        · rename_i i hi
          split at h
          · rename_i hne
            simp only [Option.some.injEq, Prod.mk.injEq] at h
            rw [← h.1, ← hh]
            obtain ⟨hlt, hp, _⟩ := List.findIdx?_eq_some_iff_getElem.mp hi
            apply set_access_list_owner_entry s2 file node _ hnode
            apply filter_eraseIdx _ _ i node.access_list[i]
            · rw [List.get?_eq_getElem?]; exact List.getElem?_eq_getElem hlt
            · simp only [beq_iff_eq] at hp
              simp only [beq_eq_false_iff_ne, ne_eq, hp]
              exact hne
          · simp only [Option.some.injEq, Prod.mk.injEq] at h
            rw [← h.1, hh]
            intro p; rfl
        · simp only [Option.some.injEq, Prod.mk.injEq] at h
          rw [← h.1, hh]
          intro p; rfl

theorem run_rem_access_owner_entry :
    ∀ (msgs : List Message) (st st1 : NMState),
      (∀ m ∈ msgs, m.type = MSG_REM_ACCESS) → run_access_control st msgs = some st1 →
      ∀ p, (st1.heap p).map owner_entry = (st.heap p).map owner_entry := by
  intro msgs
  induction msgs with
  | nil =>
    intro st st1 _ h p
    simp only [run_access_control, Option.some.injEq] at h
    rw [h]
  | cons m rest ih =>
    intro st st1 hall h p
    simp only [run_access_control] at h
    split at h
    · cases h
    · rename_i s2 r hstep
      rw [ih s2 st1 (fun x hx => hall x (List.mem_cons_of_mem _ hx)) h p]
      exact rem_access_owner_entry (hall m (List.mem_cons_self _ _)) hstep p

/-- C22 (amended): a rem-access request whose target is the owner of the
file is refused and changes no record: with `ERR_INVALID_COMMAND` when the
owner asks, and with `ERR_UNAUTHORIZED`, as every access-control request of
another user, when someone else asks.  So after any series of rem-access
requests every record has the entries of its owner it had, with the rights
they had. -/
theorem owner_entry_is_kept :
    (∀ (st st1 : NMState) (msg : Message) (file : Ptr) (node : FileNode),
      msg.type = MSG_REM_ACCESS → find_file st msg.filename = some (st1, some file) →
      st1.heap file = some node → msg.target_user = node.metadata.owner →
      st1.heap = st.heap ∧
      (node.metadata.owner = msg.username →
        handle_access_control st msg =
          some (st1, response ERR_INVALID_COMMAND
            "ERROR: Cannot remove owner access or user not found")) ∧
      (node.metadata.owner ≠ msg.username →
        handle_access_control st msg =
          some (st1, response ERR_UNAUTHORIZED "ERROR: Only owner can modify access"))) ∧
    (∀ (msgs : List Message) (st st1 : NMState),
      (∀ m ∈ msgs, m.type = MSG_REM_ACCESS) → run_access_control st msgs = some st1 →
      ∀ (p : Ptr) (node : FileNode), st.heap p = some node →
        ∃ node1, st1.heap p = some node1 ∧ node1.metadata = node.metadata ∧
          node1.access_list.filter (fun e => e.username == node.metadata.owner)
            = node.access_list.filter (fun e => e.username == node.metadata.owner) ∧
          get_user_access node1 node.metadata.owner
            = get_user_access node node.metadata.owner) := by
  constructor
  · intro st st1 msg file node htype hfind hnode htarget
    exact ⟨(find_file_frame hfind).1,
      fun howner => handle_rem_access_refused htype hfind hnode howner (Or.inl htarget),
      fun howner => handle_access_control_unauthorized hfind hnode howner⟩
  · intro msgs st st1 hall hrun p node hnode
    have h := run_rem_access_owner_entry msgs st st1 hall hrun p
    rw [hnode] at h
    cases hn1 : st1.heap p with
    | none => rw [hn1] at h; cases h
    | some node1 =>
      rw [hn1] at h
      simp only [Option.map_some', Option.some.injEq, owner_entry, Prod.mk.injEq] at h
      have h2 := h.2
      rw [h.1] at h2
      refine ⟨node1, rfl, h.1, h2, ?_⟩
      unfold get_user_access
      rw [find?_head?_filter, find?_head?_filter, h2]

/-- The statement `owner_entry_is_kept` on `b.txt`, which `alice` owns and
shares with `bob`: her request to remove herself is answered with
`ERR_INVALID_COMMAND`, and after the requests to remove `alice`, `bob` and
`alice` again her entry is there with `READ|WRITE`. -/
theorem owner_entry_is_kept_witness :
    error_of (handle_access_control nm_shared alice_revokes_alice) = some ERR_INVALID_COMMAND ∧
    access_list_of (state_of (handle_access_control nm_shared alice_revokes_alice))
      "b.txt".toList = some shared_node.access_list ∧
    (run_access_control nm_shared
      [alice_revokes_alice, alice_revokes_bob, bob_revokes_alice, alice_revokes_alice]).bind
        (fun st => access_list_of st "b.txt".toList)
      = some [{ username := "alice".toList, access_rights := 3 }] ∧
    handle_access_control nm_shared alice_revokes_alice =
      some (nm_shared, response ERR_INVALID_COMMAND
        "ERROR: Cannot remove owner access or user not found") :=
  ⟨by decide, by decide, by decide,
   (owner_entry_is_kept.1 nm_shared nm_shared alice_revokes_alice 1 shared_node
     (by decide) rfl (by decide) (by decide)).2.1 (by decide)⟩

/-- C22 as stated fails for a request of another user.  On `b.txt`, owned by
`alice` and shared with `bob` for reading and writing, the rem-access request
of `bob` with the target `alice` is refused with `ERR_UNAUTHORIZED`, where the
claim has `ERR_INVALID_COMMAND`; the access list is left as it was. -/
theorem revoke_owner_by_other_user :
    bob_revokes_alice.type = MSG_REM_ACCESS ∧
    find_file nm_shared bob_revokes_alice.filename = some (nm_shared, some 1) ∧
    nm_shared.heap 1 = some shared_node ∧
    bob_revokes_alice.target_user = shared_node.metadata.owner ∧
    bob_revokes_alice.username ≠ shared_node.metadata.owner ∧
    get_user_access shared_node bob_revokes_alice.username = ACCESS_READ ||| ACCESS_WRITE ∧
    handle_access_control nm_shared bob_revokes_alice
      = some (nm_shared, response ERR_UNAUTHORIZED "ERROR: Only owner can modify access") ∧
    error_of (handle_access_control nm_shared bob_revokes_alice) ≠ some ERR_INVALID_COMMAND ∧
    access_list_of (state_of (handle_access_control nm_shared bob_revokes_alice))
      "b.txt".toList = some shared_node.access_list := by
  refine ⟨rfl, rfl, by decide, rfl, by decide, by decide, rfl, by decide, by decide⟩

/-! ## The name server: the walk of `save_metadata` -/

theorem isList_mono {st st1 : NMState} {b b1 : Nat}
    (hheap : ∀ q, q < b → st1.heap q = st.heap q) (hb : b ≤ b1) :
    ∀ (l : Checkpoint) (p : Option Ptr), IsList st b p l → IsList st1 b1 p l := by
  intro l
  induction l with
  | nil =>
    intro p h
    cases p with
    | none => trivial
    | some q => exact h.elim
  | cons r l ih =>
    intro p h
    cases p with
    | none => exact h.elim
    | some q =>
      obtain ⟨hq, node, hnode, hrec, hrest⟩ := h
      exact ⟨lt_of_lt_of_le hq hb, node, by rw [hheap q hq]; exact hnode, hrec,
        ih node.next hrest⟩

/-- The walk of `save_metadata` over a file list writes its records. -/
theorem isList_save {st : NMState} {b : Nat} :
    ∀ (l : Checkpoint) (p : Option Ptr), IsList st b p l →
      ∀ fuel, l.length ≤ fuel → save_loop st fuel p = some l := by
  intro l
  induction l with
  | nil =>
    intro p h fuel _
    cases p with
    | none => cases fuel <;> rfl
    | some q => exact h.elim
  | cons r l ih =>
    intro p h fuel hf
    cases p with
    | none => exact h.elim
    | some q =>
      obtain ⟨_, node, hnode, hrec, hrest⟩ := h
      cases fuel with
      | zero => simp at hf
      | succ n =>
        simp only [save_loop, hnode]
        rw [ih node.next hrest n (by simpa using hf)]
        simp only [Option.map_some', Option.some.injEq, List.cons.injEq, and_true]
        exact hrec

theorem save_loop_congr {st st1 : NMState} (h : st1.heap = st.heap) :
    ∀ (fuel : Nat) (p : Option Ptr), save_loop st1 fuel p = save_loop st fuel p := by
  intro fuel
  induction fuel with
  | zero => intro p; cases p <;> rfl
  | succ n ih =>
    intro p
    cases p with
    | none => rfl
    | some q =>
      simp only [save_loop, h]
      cases st.heap q with
      | none => rfl
      | some node => simp only [ih node.next]

theorem save_loop_length (st : NMState) :
    ∀ (fuel : Nat) (p : Option Ptr) (l : Checkpoint), save_loop st fuel p = some l →
      l.length ≤ fuel := by
  intro fuel
  induction fuel with
  | zero =>
    intro p l h
    cases p with
    | none => simp only [save_loop, Option.some.injEq] at h; rw [← h]; exact Nat.le_refl _
    | some q => simp [save_loop] at h
  | succ n ih =>
    intro p l h
    cases p with
    | none => simp only [save_loop, Option.some.injEq] at h; rw [← h]; exact Nat.zero_le _
    | some q =>
      simp only [save_loop] at h
      split at h
      · cases h
      · rename_i node hnode
        simp only [Option.map_eq_some'] at h
        obtain ⟨l1, h1, h2⟩ := h
        rw [← h2, List.length_cons]
        exact Nat.succ_le_succ (ih node.next l1 h1)

/-- A walk of `save_metadata` that ends has gone over a list of records. -/
theorem save_loop_isList {st : NMState} (hb : HeapBelow st) :
    ∀ (fuel : Nat) (p : Option Ptr) (l : Checkpoint), save_loop st fuel p = some l →
      IsList st st.next_ptr p l := by
  intro fuel
  induction fuel with
  | zero =>
    intro p l h
    cases p with
    | none => simp only [save_loop, Option.some.injEq] at h; rw [← h]; trivial
    | some q => simp [save_loop] at h
  | succ n ih =>
    intro p l h
    cases p with
    | none => simp only [save_loop, Option.some.injEq] at h; rw [← h]; trivial
    | some q =>
      simp only [save_loop] at h
      split at h
      · cases h
      · rename_i node hnode
        simp only [Option.map_eq_some'] at h
        obtain ⟨l1, h1, h2⟩ := h
        rw [← h2]
        refine ⟨?_, node, hnode, rfl, ih node.next l1 h1⟩
        apply Nat.lt_of_not_le
        intro hle
        rw [hb q hle] at hnode
        cases hnode

/-- A record added to an empty hash bucket is put at the head of the file
list, and the walk of `save_metadata` ends on the new list when it ended on
the old one. -/
theorem add_file_save {st : NMState} {md : FileMetadata} {file : Checkpoint}
    (hb : HeapBelow st) (hsave : save_metadata st = some file)
    (hbucket : st.file_hash (hash_function md.filename) = none) :
    ∃ st2, add_file st md = some st2 ∧
      save_metadata st2
        = some ((md, [{ username := md.owner, access_rights := ACCESS_READ ||| ACCESS_WRITE }])
            :: file) := by
  have hlist := save_loop_isList hb _ _ _ hsave
  have hlen := save_loop_length st _ _ _ hsave
  unfold add_file
  simp only [hbucket, Option.map_some']
  refine ⟨_, rfl, ?_⟩
  unfold save_metadata
  apply isList_save _ _ _ _ (by simp only [List.length_cons]; exact Nat.succ_le_succ hlen)
  · exact st.next_ptr + 1
  · refine ⟨Nat.lt_succ_self _, ?_⟩
    refine ⟨(⟨md, [{ username := md.owner, access_rights := ACCESS_READ ||| ACCESS_WRITE }],
      st.file_list⟩ : FileNode), ?_, rfl, ?_⟩
    · simp [set_next]
    · apply isList_mono _ (Nat.le_succ _) file st.file_list hlist
      intro q hq
      have hne : q ≠ st.next_ptr := Nat.ne_of_lt hq
      simp [set_next, hne]

/-! ## The name server: what a create adds -/

theorem grows_refl (a : NMState) : Grows a a :=
  ⟨le_refl _, fun _ x h => Or.inl ⟨x, h⟩⟩

theorem grows_trans {a b c : NMState} (h1 : Grows a b) (h2 : Grows b c) : Grows a c := by
  refine ⟨le_trans h1.1 h2.1, ?_⟩
  intro q x hx
  rcases h2.2 q x hx with ⟨y, hy⟩ | ⟨hl, hu⟩
  · rcases h1.2 q y hy with hz | ⟨hl, hu⟩
    · exact Or.inl hz
    · exact Or.inr ⟨hl, lt_of_lt_of_le hu h2.1⟩
  · exact Or.inr ⟨le_trans h1.1 hl, hu⟩

theorem Grows.of_same {a b : NMState} (hn : b.next_ptr = a.next_ptr)
    (hh : ∀ q x, b.heap q = some x → ∃ y, a.heap q = some y) : Grows a b :=
  ⟨by rw [hn], fun q x hx => Or.inl (hh q x hx)⟩

theorem Grows.heap_below {a b : NMState} (h : Grows a b) (ha : HeapBelow a) : HeapBelow b := by
  intro p hp
  cases hb : b.heap p with
  | none => rfl
  | some x =>
    exfalso
    rcases h.2 p x hb with ⟨y, hy⟩ | ⟨_, hu⟩
    · rw [ha p (le_trans h.1 hp)] at hy; cases hy
    · exact absurd hu (Nat.not_lt.mpr hp)

theorem find_file_grows {st st1 : NMState} {f : CStr} {r : Option Ptr}
    (h : find_file st f = some (st1, r)) : Grows st st1 := by
  obtain ⟨hh, _, _, _, hn⟩ := find_file_frame h
  exact Grows.of_same hn (fun q x hx => ⟨x, by rw [← hh]; exact hx⟩)

theorem set_next_record (st : NMState) (p : Ptr) (n : Option Ptr) (q : Ptr) :
    ((set_next st p n).heap q).map record_of = (st.heap q).map record_of := by
  unfold set_next
  simp only
  by_cases hq : q = p
  · subst hq
    simp only [if_true]
    cases st.heap q with
    | none => rfl
    | some y => rfl
  · simp only [hq, if_false]

theorem set_next_grows (st : NMState) (p : Ptr) (n : Option Ptr) :
    Grows st (set_next st p n) := by
  refine ⟨Nat.le_refl _, fun q x hx => Or.inl ?_⟩
  have := set_next_record st p n q
  rw [hx] at this
  cases hy : st.heap q with
  | none => rw [hy] at this; cases this
  | some y => exact ⟨y, rfl⟩

/-- The state after `add_file`: one new record, at the address `malloc`
hands out, at the head of the file list; the other addresses keep their
records. -/
theorem add_file_new {st st1 : NMState} {md : FileMetadata}
    (h : add_file st md = some st1) :
    st1.next_ptr = st.next_ptr + 1 ∧
    st1.file_list = some st.next_ptr ∧
    st1.storage_servers = st.storage_servers ∧
    (st1.heap st.next_ptr).map record_of
      = some (md, [{ username := md.owner, access_rights := ACCESS_READ ||| ACCESS_WRITE }]) ∧
    ∀ q, q ≠ st.next_ptr → (st1.heap q).map record_of = (st.heap q).map record_of := by
  unfold add_file at h
  simp only [Option.map_eq_some'] at h
  obtain ⟨s, hl, hs⟩ := h
  have key : s.next_ptr = st.next_ptr + 1 ∧ s.storage_servers = st.storage_servers ∧
      (s.heap st.next_ptr).map record_of
        = some (md, [{ username := md.owner,
                       access_rights := ACCESS_READ ||| ACCESS_WRITE }]) ∧
      ∀ q, q ≠ st.next_ptr → (s.heap q).map record_of = (st.heap q).map record_of := by
    split at hl
    · simp only [Option.some.injEq] at hl
      rw [← hl]
      refine ⟨rfl, rfl, ?_, ?_⟩
      · simp only [if_true, Option.map_some']; rfl
      · intro q hq
        simp only [hq, if_false]
    · split at hl
      · cases hl
      · simp only [Option.some.injEq] at hl
        rw [← hl]
        refine ⟨rfl, rfl, ?_, ?_⟩
        · rw [set_next_record]
          simp only [if_true, Option.map_some']; rfl
        · intro q hq
          rw [set_next_record]
          simp only [hq, if_false]
  rw [← hs]
  refine ⟨key.1, rfl, key.2.1, ?_, ?_⟩
  · show ((set_next s st.next_ptr s.file_list).heap st.next_ptr).map record_of = _
    rw [set_next_record]; exact key.2.2.1
  · intro q hq
    show ((set_next s st.next_ptr s.file_list).heap q).map record_of = _
    rw [set_next_record]; exact key.2.2.2 q hq

theorem add_file_grows {st st1 : NMState} {md : FileMetadata}
    (h : add_file st md = some st1) : Grows st st1 := by
  obtain ⟨hn, _, _, _, hq⟩ := add_file_new h
  refine ⟨by rw [hn]; exact Nat.le_succ _, ?_⟩
  intro q x hx
  by_cases h1 : q = st.next_ptr
  · exact Or.inr ⟨by rw [h1], by rw [h1, hn]; exact Nat.lt_succ_self _⟩
  · left
    have := hq q h1
    rw [hx] at this
    cases hy : st.heap q with
    | none => rw [hy] at this; cases this
    | some y => exact ⟨y, rfl⟩

theorem unlink_file_grows (f : CStr) :
    ∀ (fuel : Nat) (st : NMState) (prev cur : Option Ptr) (st1 : NMState),
      unlink_file f fuel st prev cur = some st1 → Grows st st1 := by
  intro fuel
  induction fuel with
  | zero => intro st prev cur st1 h; cases h
  | succ n ih =>
    intro st prev cur st1 h
    cases cur with
    | none =>
      simp only [unlink_file, Option.some.injEq] at h
      rw [← h]; exact grows_refl _
    | some c =>
      simp only [unlink_file] at h
      split at h
      · cases h
      · rename_i node hnode
        split at h
        · simp only [Option.some.injEq] at h
          rw [← h]
          cases prev with
          | none =>
            refine ⟨Nat.le_refl _, fun q x hx => Or.inl ?_⟩
            simp only at hx
            by_cases hq : q = c
            · simp only [hq, if_true] at hx; cases hx
            · simp only [hq, if_false] at hx
              exact ⟨x, hx⟩
          | some p =>
            refine ⟨Nat.le_refl _, fun q x hx => Or.inl ?_⟩
            simp only at hx
            by_cases hq : q = c
            · simp only [hq, if_true] at hx; cases hx
            · simp only [hq, if_false] at hx
              rcases (set_next_grows st p node.next).2 q x hx with hy | ⟨h1, h2⟩
              · exact hy
              · exact absurd h2 (Nat.not_lt.mpr h1)
        · exact ih st (some c) node.next st1 h

theorem set_access_list_grows (st : NMState) (p : Ptr) (l : List UserAccess) :
    Grows st (set_access_list st p l) := by
  refine ⟨Nat.le_refl _, fun q x hx => Or.inl ?_⟩
  rcases set_access_list_heap st p l q x hx with ⟨hq, y, hy, _⟩ | ⟨_, hx2⟩
  · exact ⟨y, by rw [hq]; exact hy⟩
  · exact ⟨x, hx2⟩

theorem handle_create_grows {st st1 : NMState} {msg r : Message} {ss : SSReply} {now : Int}
    (h : handle_create st msg ss now = some (st1, r)) : Grows st st1 := by
  unfold handle_create at h
  split at h
  · cases h
  · rename_i s2 p hf
    simp only [Option.some.injEq, Prod.mk.injEq] at h
    rw [← h.1]; exact find_file_grows hf
  · rename_i s2 hf
    have keep := find_file_grows hf
    split at h
    · simp only [Option.some.injEq, Prod.mk.injEq] at h
      rw [← h.1]; exact keep
    · split at h
      · simp only [Option.some.injEq, Prod.mk.injEq] at h
        rw [← h.1]; exact keep
      · simp only [Option.some.injEq, Prod.mk.injEq] at h
        rw [← h.1]; exact keep
      · split at h
        · have hx : ∃ md s3, add_file s2 md = some s3 ∧ s3 = st1 := by
            split at h
            · cases h
            · rename_i s3 ha
              split at h
              · cases h
              · simp only [Option.some.injEq, Prod.mk.injEq] at h
                exact ⟨_, s3, ha, h.1⟩
          obtain ⟨md, s3, ha, hs3⟩ := hx
          rw [← hs3]
          exact grows_trans keep (add_file_grows ha)
        · simp only [Option.some.injEq, Prod.mk.injEq] at h
          rw [← h.1]; exact keep

theorem handle_delete_grows {st st1 : NMState} {msg r : Message} {ss : SSReply}
    (h : handle_delete st msg ss = some (st1, r)) : Grows st st1 := by
  unfold handle_delete at h
  split at h
  · cases h
  · rename_i s2 hf
    simp only [Option.some.injEq, Prod.mk.injEq] at h
    rw [← h.1]; exact find_file_grows hf
  · rename_i s2 file hf
    have keep := find_file_grows hf
    split at h
    · cases h
    · split at h
      · simp only [Option.some.injEq, Prod.mk.injEq] at h
        rw [← h.1]; exact keep
      · split at h
        · simp only [Option.some.injEq, Prod.mk.injEq] at h
          rw [← h.1]; exact keep
        · simp only [Option.some.injEq, Prod.mk.injEq] at h
          rw [← h.1]; exact keep
        · split at h
          · split at h
            · cases h
            · rename_i s3 hu
              simp only [Option.some.injEq, Prod.mk.injEq] at h
              have h2 := unlink_file_grows _ _ _ _ _ _ hu
              rw [← h.1]
              exact grows_trans keep ⟨h2.1, h2.2⟩
          · simp only [Option.some.injEq, Prod.mk.injEq] at h
            rw [← h.1]; exact keep

theorem handle_direct_ss_operation_grows {st st1 : NMState} {msg r : Message}
    (h : handle_direct_ss_operation st msg = some (st1, r)) : Grows st st1 := by
  unfold handle_direct_ss_operation at h
  split at h
  · cases h
  · rename_i s2 hf
    simp only [Option.some.injEq, Prod.mk.injEq] at h
    rw [← h.1]; exact find_file_grows hf
  · rename_i s2 file hf
    have keep := find_file_grows hf
    split at h
    · cases h
    · revert h
      simp only
      repeat' split
      all_goals
        intro h
        first
          | (cases h; exact keep)
          | cases h

theorem handle_access_control_grows {st st1 : NMState} {msg r : Message}
    (h : handle_access_control st msg = some (st1, r)) : Grows st st1 := by
  unfold handle_access_control at h
  split at h
  · cases h
  · rename_i s2 hf
    simp only [Option.some.injEq, Prod.mk.injEq] at h
    rw [← h.1]; exact find_file_grows hf
  · rename_i s2 file hf
    have keep := find_file_grows hf
    have changed : ∀ l, Grows st (set_access_list s2 file l) :=
      fun l => grows_trans keep (set_access_list_grows s2 file l)
    split at h
    · cases h
    · revert h
      simp only
      repeat' split
      all_goals
        intro h
        first
          | (cases h; exact keep)
          | (cases h; exact changed _)

theorem register_files_grows (now : Int) (k : Int) :
    ∀ (tokens : List CStr) (st st1 : NMState),
      register_files now k tokens st = some st1 → Grows st st1 := by
  intro tokens
  induction tokens with
  | nil =>
    intro st st1 h
    simp only [register_files, Option.some.injEq] at h
    rw [← h]; exact grows_refl _
  | cons token rest ih =>
    intro st st1 h
    simp only [register_files] at h
    split at h
    · cases h
    · rename_i s2 p hf
      exact grows_trans (find_file_grows hf) (ih s2 st1 h)
    · rename_i s2 hf
      split at h
      · cases h
      · rename_i s3 ha
        exact grows_trans (grows_trans (find_file_grows hf) (add_file_grows ha)) (ih s3 st1 h)

theorem register_ss_grows {st st1 : NMState} {msg : Message} {now : Int}
    {r : Option Message} (h : register_ss st msg now = some (st1, r)) : Grows st st1 := by
  unfold register_ss at h
  simp only at h
  split at h
  · split at h
    · cases h
    · rename_i s2 hr
      simp only [Option.some.injEq, Prod.mk.injEq] at h
      have h2 := register_files_grows _ _ _ _ _ hr
      rw [← h.1]
      exact ⟨h2.1, h2.2⟩
  · simp only [Option.some.injEq, Prod.mk.injEq] at h
    rw [← h.1]
    exact grows_refl _

theorem load_record_heap_below (st : NMState) (record : FileMetadata × List UserAccess)
    (h : HeapBelow st) : HeapBelow (load_record st record) := by
  intro p hp
  have hp2 : st.next_ptr + 1 ≤ p := hp
  show (if p = st.next_ptr then _ else st.heap p) = none
  have hne : p ≠ st.next_ptr := by
    intro he
    rw [he] at hp2
    exact absurd hp2 (Nat.not_succ_le_self _)
  simp only [hne, if_false]
  exact h p (Nat.le_of_succ_le hp2)

theorem load_records_heap_below :
    ∀ (records : Checkpoint) (st : NMState), HeapBelow st →
      HeapBelow (records.foldl load_record st) := by
  intro records
  induction records with
  | nil => intro st h; exact h
  | cons r rs ih =>
    intro st h
    rw [List.foldl_cons]
    exact ih _ (load_record_heap_below st r h)

/-- In every state a run reaches, no record lives at an address that has not
been handed out. -/
theorem reachable_heap_below (restarts : Bool) (st : NMState) (h : Reachable restarts st) :
    HeapBelow st := by
  induction h with
  | init => intro p _; rfl
  | register st st1 msg now r _ hstep ih => exact (register_ss_grows hstep).heap_below ih
  | create st st1 msg r ss now _ hstep ih => exact (handle_create_grows hstep).heap_below ih
  | delete st st1 msg r ss _ hstep ih => exact (handle_delete_grows hstep).heap_below ih
  | access st st1 msg r _ hstep ih => exact (handle_access_control_grows hstep).heap_below ih
  | locate st st1 msg r _ hstep ih =>
    exact (handle_direct_ss_operation_grows hstep).heap_below ih
  | restart st file _ _ _ _ =>
    exact load_records_heap_below file nm_init (fun p _ => rfl)

/-- A create that is answered with success went through `add_file`. -/
theorem handle_create_success {st st2 : NMState} {msg r : Message} {ss : SSReply} {now : Int}
    (h : handle_create st msg ss now = some (st2, r)) (hr : r.error_code = ERR_SUCCESS) :
    ∃ st1 k, find_file st msg.filename = some (st1, none) ∧
      st.storage_servers.findIdx? (fun s => s.is_active != 0) = some k ∧
      r = response ERR_SUCCESS "File Created Successfully!" ∧
      add_file st1
        { filename := msg.filename, owner := msg.username, created := now,
          last_modified := now, last_accessed := now, word_count := 0, char_count := 0,
          ss_index := k } = some st2 ∧
      ∃ file, save_metadata st2 = some file := by
  unfold handle_create at h
  split at h
  · cases h
  · simp only [Option.some.injEq, Prod.mk.injEq] at h
    rw [← h.2] at hr
    exact absurd hr (by decide)
  · rename_i s2 hf
    have hs := (find_file_frame hf).2.2.2.1
    split at h
    · simp only [Option.some.injEq, Prod.mk.injEq] at h
      rw [← h.2] at hr
      exact absurd hr (by decide)
    · rename_i k hk
      split at h
      · simp only [Option.some.injEq, Prod.mk.injEq] at h
        rw [← h.2] at hr
        exact absurd hr (by decide)
      · simp only [Option.some.injEq, Prod.mk.injEq] at h
        rw [← h.2] at hr
        exact absurd hr (by decide)
      · split at h
        · have hx : ∃ s3 ck, add_file s2
              { filename := msg.filename, owner := msg.username, created := now,
                last_modified := now, last_accessed := now, word_count := 0, char_count := 0,
                ss_index := k } = some s3 ∧ save_metadata s3 = some ck ∧ s3 = st2 ∧
              response ERR_SUCCESS "File Created Successfully!" = r := by
            split at h
            · cases h
            · rename_i s3 ha
              split at h
              · cases h
              · rename_i ck hsave
                simp only [Option.some.injEq, Prod.mk.injEq] at h
                exact ⟨s3, ck, ha, hsave, h.1, h.2⟩
          obtain ⟨s3, ck, ha, hsave, hs3, hr3⟩ := hx
          rw [hs] at hk
          exact ⟨s2, k, hf, hk, hr3.symm, by rw [← hs3]; exact ha,
            ck, by rw [← hs3]; exact hsave⟩
        · rename_i hne
          simp only [Option.some.injEq, Prod.mk.injEq] at h
          rw [← h.2] at hr
          exact absurd hr hne

/-- C23: in every state a run reaches, a create of `f` by `u` that is
answered with success found `f` not present and adds exactly one record: the
address `malloc` hands out held no record and now holds the record with
filename `f`, owner `u`, the access list `[(u, READ|WRITE)]`,
`word_count = char_count = 0` and `ss_index` the smallest position of the
registry whose entry is active; every other address keeps its record, and the
new record is the head of the file list.  When no entry of the registry is
active and `f` is not present, the answer is `ERR_NO_STORAGE_SERVER` and no
record is added.  And the create is answered with success when `f` is not
present, an entry of the registry is active, the storage server acknowledges,
no record sits in the hash bucket of `f` and the walk of `save_metadata` over
the file list ends. -/
theorem create_adds_one_record (restarts : Bool) (st : NMState)
    (hreach : Reachable restarts st) (msg : Message) (ss : SSReply) (now : Int) :
    (∀ (st2 : NMState) (r : Message), handle_create st msg ss now = some (st2, r) →
      r.error_code = ERR_SUCCESS →
      ∃ k : Nat,
        (∃ st1, find_file st msg.filename = some (st1, none)) ∧
        (∃ e, st.storage_servers.get? k = some e ∧ e.is_active ≠ 0) ∧
        (∀ j e, j < k → st.storage_servers.get? j = some e → e.is_active = 0) ∧
        r = response ERR_SUCCESS "File Created Successfully!" ∧
        st.heap st.next_ptr = none ∧
        (st2.heap st.next_ptr).map record_of
          = some ({ filename := msg.filename, owner := msg.username, created := now,
                    last_modified := now, last_accessed := now, word_count := 0,
                    char_count := 0, ss_index := k },
                  [{ username := msg.username,
                     access_rights := ACCESS_READ ||| ACCESS_WRITE }]) ∧
        (∀ q, q ≠ st.next_ptr → (st2.heap q).map record_of = (st.heap q).map record_of) ∧
        st2.file_list = some st.next_ptr ∧
        st2.storage_servers = st.storage_servers) ∧
    (∀ st1 : NMState, find_file st msg.filename = some (st1, none) →
      (∀ e ∈ st.storage_servers, e.is_active = 0) →
      handle_create st msg ss now
        = some (st1, response ERR_NO_STORAGE_SERVER "ERROR: No storage server available") ∧
      st1.heap = st.heap ∧ st1.file_list = st.file_list) ∧
    (∀ (st1 : NMState) (ss_response : Message) (file : Checkpoint),
      find_file st msg.filename = some (st1, none) →
      (∃ e ∈ st.storage_servers, e.is_active ≠ 0) →
      ss = SSReply.reply ss_response → ss_response.error_code = ERR_SUCCESS →
      st.file_hash (hash_function msg.filename) = none →
      save_metadata st = some file →
      ∃ st2, handle_create st msg ss now
        = some (st2, response ERR_SUCCESS "File Created Successfully!")) := by
  refine ⟨?_, ?_, ?_⟩
  · intro st2 r h hr
    obtain ⟨st1, k, hf, hk, hresp, ha, _⟩ := handle_create_success h hr
    obtain ⟨hh, _, _, hs, hn⟩ := find_file_frame hf
    obtain ⟨a1, a2, a3, a4, a5⟩ := add_file_new ha
    obtain ⟨hlt, hact, hmin⟩ := List.findIdx?_eq_some_iff_getElem.mp hk
    refine ⟨k, ⟨st1, hf⟩, ⟨st.storage_servers[k], ?_, ?_⟩, ?_, hresp, ?_, ?_, ?_, ?_, ?_⟩
    · rw [List.get?_eq_getElem?]; exact List.getElem?_eq_getElem hlt
    · simpa using hact
    · intro j e hj he
      rw [List.get?_eq_getElem?] at he
      obtain ⟨hjl, hje⟩ := List.getElem?_eq_some_iff.mp he
      have := hmin j hj
      rw [← hje]
      simpa using this
    · exact reachable_heap_below restarts st hreach _ (Nat.le_refl _)
    · rw [← hn]; exact a4
    · intro q hq
      rw [← hh]
      exact a5 q (by rw [hn]; exact hq)
    · rw [a2, hn]
    · rw [a3, hs]
  · intro st1 hf hnone
    obtain ⟨hh, hl, _, hs, _⟩ := find_file_frame hf
    refine ⟨?_, hh, hl⟩
    have hk : st1.storage_servers.findIdx? (fun s => s.is_active != 0) = none := by
      rw [hs, List.findIdx?_eq_none_iff]
      intro e he
      simp [hnone e he]
    unfold handle_create
    simp only [hf, hk]
  · intro st1 ss_response file hf hact hss hok hbucket hsave
    obtain ⟨hh, hl, hfh, hs, hn⟩ := find_file_frame hf
    obtain ⟨e, he, hne⟩ := hact
    have hk : ∃ k, st1.storage_servers.findIdx? (fun s => s.is_active != 0) = some k := by
      rw [hs]
      cases hk : st.storage_servers.findIdx? (fun s => s.is_active != 0) with
      | some k => exact ⟨k, rfl⟩
      | none =>
        rw [List.findIdx?_eq_none_iff] at hk
        have := hk e he
        simp [hne] at this
    obtain ⟨k, hk⟩ := hk
    rw [← hfh] at hbucket
    have hb1 : HeapBelow st1 := by
      intro p hp
      rw [hh]
      exact reachable_heap_below restarts st hreach p (by rw [← hn]; exact hp)
    have hsave1 : save_metadata st1 = some file := by
      unfold save_metadata at hsave ⊢
      rw [hn, hl]
      rw [← hsave]
      exact save_loop_congr hh _ _
    obtain ⟨st2, ha, hs2⟩ := @add_file_save st1
      { filename := msg.filename, owner := msg.username, created := now,
        last_modified := now, last_accessed := now, word_count := 0, char_count := 0,
        ss_index := k } file hb1 hsave1 hbucket
    unfold handle_create
    simp only [hf, hk, hss, hok, if_true, ha, hs2]
    exact ⟨_, rfl⟩

/-- The statement `create_adds_one_record` on the create of `b.txt` by
`alice`, with one storage server registered, and on the same request when no
storage server has registered. -/
theorem create_adds_one_record_witness :
    nm_created.heap 1 = some alice_node ∧
    nm_one_server.heap 1 = none ∧
    nm_created.file_list = some 1 ∧
    error_of (handle_create nm_init alice_create ss_ok 100) = some ERR_NO_STORAGE_SERVER ∧
    (∃ k : Nat,
      (∃ st1, find_file nm_one_server alice_create.filename = some (st1, none)) ∧
      (∃ e, nm_one_server.storage_servers.get? k = some e ∧ e.is_active ≠ 0) ∧
      (∀ j e, j < k → nm_one_server.storage_servers.get? j = some e → e.is_active = 0) ∧
      response ERR_SUCCESS "File Created Successfully!"
        = response ERR_SUCCESS "File Created Successfully!" ∧
      nm_one_server.heap nm_one_server.next_ptr = none ∧
      (nm_created.heap nm_one_server.next_ptr).map record_of
        = some ({ filename := alice_create.filename, owner := alice_create.username,
                  created := 100, last_modified := 100, last_accessed := 100,
                  word_count := 0, char_count := 0, ss_index := k },
                [{ username := alice_create.username,
                   access_rights := ACCESS_READ ||| ACCESS_WRITE }]) ∧
      (∀ q, q ≠ nm_one_server.next_ptr →
        (nm_created.heap q).map record_of = (nm_one_server.heap q).map record_of) ∧
      nm_created.file_list = some nm_one_server.next_ptr ∧
      nm_created.storage_servers = nm_one_server.storage_servers) :=
  ⟨by decide, by decide, by decide, by decide,
   (create_adds_one_record false nm_one_server (reachable_nm_one_server false) alice_create
     ss_ok 100).1 nm_created (response ERR_SUCCESS "File Created Successfully!") rfl
     (by decide)⟩

/-! ## The name server: the file list after `load_metadata` -/

theorem load_record_isList (st : NMState) (record : FileMetadata × List UserAccess)
    (l : Checkpoint) (h : IsList st st.next_ptr st.file_list l) :
    IsList (load_record st record) (load_record st record).next_ptr
      (load_record st record).file_list (record :: l) := by
  have hheap : ∀ q, q < st.next_ptr → (load_record st record).heap q = st.heap q := by
    intro q hq
    show (if q = st.next_ptr then _ else st.heap q) = st.heap q
    rw [if_neg (Nat.ne_of_lt hq)]
  refine ⟨Nat.lt_succ_self _, (⟨record.1, record.2, st.file_list⟩ : FileNode), ?_, rfl, ?_⟩
  · show (if st.next_ptr = st.next_ptr then _ else st.heap st.next_ptr) = _
    rw [if_pos rfl]
  · exact isList_mono hheap (Nat.le_succ _) l st.file_list h

theorem load_records_isList :
    ∀ (records : Checkpoint) (st : NMState) (l : Checkpoint),
      IsList st st.next_ptr st.file_list l →
      IsList (records.foldl load_record st) (records.foldl load_record st).next_ptr
        (records.foldl load_record st).file_list (records.reverse ++ l) ∧
      (records.foldl load_record st).next_ptr = st.next_ptr + records.length := by
  intro records
  induction records with
  | nil => intro st l h; exact ⟨h, rfl⟩
  | cons r rs ih =>
    intro st l h
    rw [List.foldl_cons]
    obtain ⟨h1, h2⟩ := ih (load_record st r) (r :: l) (load_record_isList st r l h)
    refine ⟨?_, ?_⟩
    · rw [List.reverse_cons, List.append_assoc]
      exact h1
    · rw [h2]
      show st.next_ptr + 1 + rs.length = st.next_ptr + (rs.length + 1)
      rw [Nat.add_assoc, Nat.add_comm 1]

/-- The file list `load_metadata` builds from a metadata file holds the
records of the file, the last one first. -/
theorem save_after_load (file : Checkpoint) :
    save_metadata (load_metadata nm_init (some file)) = some file.reverse := by
  have h0 : IsList nm_init nm_init.next_ptr nm_init.file_list [] := trivial
  obtain ⟨h1, h2⟩ := load_records_isList file nm_init [] h0
  rw [List.append_nil] at h1
  unfold save_metadata
  show save_loop (file.foldl load_record nm_init) (file.foldl load_record nm_init).next_ptr
    (file.foldl load_record nm_init).file_list = _
  apply isList_save _ _ h1
  rw [h2, List.length_reverse]
  exact Nat.le_add_left _ _

/-- C24: for every store whose file list `save_metadata` can write (the walk
ends), `load_metadata`, run on the empty store over the file written,
rebuilds a file list that holds exactly the saved records, each as often as
it was saved, with the same metadata and the same access list; the records
come in the opposite order. -/
theorem load_rebuilds_store (st : NMState) (file : Checkpoint)
    (h : save_metadata st = some file) :
    save_metadata (load_metadata nm_init (save_metadata st)) = some file.reverse ∧
    List.Perm file.reverse file ∧
    (∀ r, r ∈ file.reverse ↔ r ∈ file) := by
  refine ⟨by rw [h]; exact save_after_load file, List.reverse_perm file, ?_⟩
  intro r; exact List.mem_reverse

/-- The statement `load_rebuilds_store` on the store that holds `b.txt`,
shared by `alice` with `bob`, and on a store of two files. -/
theorem load_rebuilds_store_witness :
    save_metadata nm_shared = some [(shared_node.metadata, shared_node.access_list)] ∧
    (load_metadata nm_init (save_metadata nm_shared)).heap 1 = some shared_node ∧
    (save_metadata (load_metadata nm_init (save_metadata nm_shared))
        = some [(shared_node.metadata, shared_node.access_list)].reverse ∧
      List.Perm [(shared_node.metadata, shared_node.access_list)].reverse
        [(shared_node.metadata, shared_node.access_list)] ∧
      (∀ r, r ∈ [(shared_node.metadata, shared_node.access_list)].reverse
        ↔ r ∈ [(shared_node.metadata, shared_node.access_list)])) :=
  ⟨by decide, by decide,
   load_rebuilds_store nm_shared [(shared_node.metadata, shared_node.access_list)]
     (by decide)⟩

/-! ## The name server: records the session loop leaves unanswered -/

/-- C26, the code at the failing inputs: when the client table is full the
registration record of a client is answered with no record; when the
registry is full the registration record of a storage server is answered
with no record; a record of an unknown kind is answered with no record.  With
room in the table the registration of a client is answered with one record. -/
theorem unanswered_records :
    ∀ others : NMState → Message → Option (NMState × List Message),
      (handle_client others nm_one_server MAX_CLIENTS register_carol ss_ok 0).map
          (fun x => x.2) = some (MAX_CLIENTS, []) ∧
      nm_full.storage_servers.length = MAX_STORAGE_SERVERS ∧
      (handle_client others nm_full 0 { register_first with type := MSG_REGISTER_SS }
          ss_ok 0).map (fun x => x.2) = some (0, []) ∧
      (register_ss nm_full register_first 0).map (fun x => x.2) = some none ∧
      (handle_client others nm_one_server 0 unknown_kind ss_ok 0).map
          (fun x => x.2) = some (0, []) ∧
      (handle_client others nm_one_server 0 register_carol ss_ok 0).map
          (fun x => x.2) =
        some (1, [{ type := MSG_ACK, error_code := ERR_SUCCESS,
                    data := "Client registered successfully".toList }]) := by
  intro others
  exact ⟨rfl, rfl, rfl, rfl, rfl, rfl⟩

end DFS
